import Mathlib

/-!
# structgen: parser, name validation, path confinement and the apply engine

A shallow embedding of the Go packages `internal/safety`, `internal/parser`,
`internal/plan` and `internal/fsops`, followed by theorems about them.

Conventions of the embedding.

* A Go `string` is a `List Char` (`Str`): the text is taken to be valid UTF-8, so
  that byte offsets returned by `strings.Index` and rune offsets cut a string at
  the same places. Where Go counts bytes (the scanner's token limit) the
  embedding counts UTF-8 bytes through `byteLen`.
* `path/filepath` is the Unix flavour (separator `/`, no volume names).
* A Go `error` result becomes `Except`; the message text is replaced by a
  constructor that carries the same context values.
* The operating system calls of `fsops` are the fields of a record `FileSys`
  over an explicit state type, so that `Apply` is a state-passing function.
-/

namespace Structgen

/-- A Go string, as its sequence of runes. -/
abbrev Str := List Char

/-- Results of fallible functions can be compared, so that concrete runs of the
embedding can be checked by evaluation. -/
instance instDecidableEqExcept {ε α : Type} [DecidableEq ε] [DecidableEq α] :
    DecidableEq (Except ε α)
  | .ok a, .ok b =>
    if h : a = b then isTrue (by rw [h]) else isFalse (fun h2 => h (by cases h2; rfl))
  | .error a, .error b =>
    if h : a = b then isTrue (by rw [h]) else isFalse (fun h2 => h (by cases h2; rfl))
  | .ok _, .error _ => isFalse (fun h => by cases h)
  | .error _, .ok _ => isFalse (fun h => by cases h)

/-! ## The pieces of package `strings` that the program calls -/

/-- Number of bytes of the UTF-8 encoding of one rune. -/
def runeLen (c : Char) : Nat :=
  if c.toNat < 0x80 then 1
  else if c.toNat < 0x800 then 2
  else if c.toNat < 0x10000 then 3
  else 4

/-- Go `len(s)`: the number of bytes of the string. -/
def byteLen : Str → Nat
  | [] => 0
  | c :: cs => runeLen c + byteLen cs

/-- Go `strings.HasPrefix`. -/
def HasPrefix (s p : Str) : Bool := p.isPrefixOf s

/-- Go `strings.HasSuffix`. -/
def HasSuffix (s suffix : Str) : Bool := suffix.isSuffixOf s

/-- Go `strings.TrimSuffix`: `s` without the given trailing string, once. -/
def TrimSuffix (s suffix : Str) : Str :=
  if HasSuffix s suffix then s.take (s.length - suffix.length) else s

/-- Go `strings.ContainsAny`: some rune of `chars` occurs in `s`. -/
def ContainsAny (s chars : Str) : Bool := s.any (fun c => chars.contains c)

/-- Worker of `Index`: the position of the first occurrence of `sub` in `s`,
counted from `i`, or `-1`. -/
def indexFrom (sub : Str) : Str → Int → Int
  | [], i => if sub = [] then i else -1
  | c :: cs, i => if sub.isPrefixOf (c :: cs) then i else indexFrom sub cs (i + 1)

/-- Go `strings.Index`: the position of the first occurrence of `sub` in `s`,
or `-1` when there is none. -/
def Index (s sub : Str) : Int := indexFrom sub s 0

/-- Go `strings.Contains`. -/
def Contains (s sub : Str) : Bool := decide (0 ≤ Index s sub)

/-- Go `unicode.IsSpace`: the runes with the Unicode White_Space property. -/
def isSpace (c : Char) : Bool :=
  let n := c.toNat
  (0x09 ≤ n && n ≤ 0x0d) || n = 0x20 || n = 0x85 || n = 0xa0 || n = 0x1680 ||
  (0x2000 ≤ n && n ≤ 0x200a) || n = 0x2028 || n = 0x2029 || n = 0x202f ||
  n = 0x205f || n = 0x3000

/-- Go `strings.TrimSpace`: leading and trailing white space removed. -/
def TrimSpace (s : Str) : Str := (s.dropWhile isSpace).rdropWhile isSpace

/-- Go `strings.TrimRight`: trailing runes that occur in `cutset` removed. -/
def TrimRight (s cutset : Str) : Str := s.rdropWhile (fun c => cutset.contains c)

/-- Go `unicode.ToLower` as far as the program can observe it: ASCII capitals,
and the two runes outside ASCII whose lower case is an ASCII letter (U+0130 to
`i`, U+212A to `k`). Every other rune outside ASCII has a lower case outside
ASCII and is left as it is; the program only searches the result for ASCII
words. -/
def toLowerRune (c : Char) : Char :=
  if 'A'.toNat ≤ c.toNat ∧ c.toNat ≤ 'Z'.toNat then Char.ofNat (c.toNat + 32)
  else if c.toNat = 0x130 then 'i'
  else if c.toNat = 0x212a then 'k'
  else c

/-- Go `strings.ToLower`. -/
def ToLower (s : Str) : Str := s.map toLowerRune

/-- Go `strings.ReplaceAll(s, old, new)` for a one-rune `old` and a one-rune
`new`, the only way `countDepth` calls it. -/
def ReplaceAll (s : Str) (old new : Char) : Str :=
  s.map (fun c => if c = old then new else c)

/-- Go `strings.Join(elems, "/")`. -/
def joinSlash (elems : List Str) : Str := List.intercalate ['/'] elems

/-! ## The pieces of package `path/filepath` that the program calls (Unix) -/

/-- The elements of a path between its separators: `strings.Split(path, "/")`. -/
def splitSlash : Str → List Str
  | [] => [[]]
  | c :: cs =>
    if c = '/' then [] :: splitSlash cs
    else
      match splitSlash cs with
      | [] => [[c]]
      | e :: es => (c :: e) :: es

/-- One step of the loop of `filepath.Clean`, on the stack of elements written
so far (last written element first). An empty element and `.` are skipped; `..`
removes the last real element, is kept when the path is relative and nothing is
left to remove, and is dropped at the root of an absolute path; every other
element is written. -/
def cleanStep (rooted : Bool) (stack : List Str) (e : Str) : List Str :=
  if e = [] ∨ e = ['.'] then stack
  else if e = ['.', '.'] then
    match stack with
    | [] => if rooted then [] else [['.', '.']]
    | top :: below =>
      if top = ['.', '.'] then (if rooted then stack else ['.', '.'] :: stack)
      else below
  else e :: stack

/-- The text `filepath.Clean` returns for the elements it kept. -/
def renderPath (rooted : Bool) (elems : List Str) : Str :=
  if rooted then '/' :: joinSlash elems
  else if elems = [] then ['.'] else joinSlash elems

/-- Go `filepath.Clean`: the shortest path equivalent to `path` by purely
lexical processing. -/
def Clean (path : Str) : Str :=
  let rooted := HasPrefix path ['/']
  renderPath rooted ((splitSlash path).foldl (cleanStep rooted) []).reverse

/-- Go `filepath.Join`: leading empty elements are ignored, the rest is joined
with separators and cleaned; with nothing but empty elements the result is the
empty string. -/
def Join (elems : List Str) : Str :=
  match elems.dropWhile (fun e => e.isEmpty) with
  | [] => []
  | rest => Clean (joinSlash rest)

/-- The elements `filepath.Rel` walks over: those of `splitSlash`, without the
empty element that stands for the end of the string. -/
def relElems (s : Str) : List Str :=
  let es := splitSlash s
  if es.getLast? = some [] then es.dropLast else es

/-- The loop of `filepath.Rel`: drops the leading elements the base and the
target share. The flag tells whether the loop stopped at two differing elements
(`break`) rather than at the end of one of the paths. -/
def relLoop : List Str → List Str → List Str × List Str × Bool
  | b :: bs, t :: ts => if t = b then relLoop bs ts else (b :: bs, t :: ts, true)
  | bs, ts => (bs, ts, false)

/-- Go `filepath.Rel`: a relative path that leads from `basepath` to `targpath`,
computed lexically on the two cleaned paths; `none` is Go's error result. -/
def Rel (basepath targpath : Str) : Option Str :=
  let base := Clean basepath
  let targ := Clean targpath
  if targ = base then some ['.']
  else
    let base := if base = ['.'] then [] else base
    if HasPrefix base ['/'] ≠ HasPrefix targ ['/'] then none
    else
      match relLoop (relElems base) (relElems targ) with
      | (bs, ts, stopped) =>
        if stopped ∧ bs.head? = some ['.', '.'] then none
        else if bs ≠ [] then
          some (joinSlash (List.replicate bs.length ['.', '.']) ++
            (if ts ≠ [] then '/' :: joinSlash ts else []))
        else some (joinSlash ts)

/-- Go `filepath.Dir`: the path up to its last separator, cleaned. -/
def Dir (path : Str) : Str := Clean (path.rdropWhile (fun c => c ≠ '/'))

/-! ## Package `safety` -/

/-- The reasons for which `ValidateName` rejects a name. -/
inductive NameError
  | empty
  | dotName (name : Str)
  | hasSeparator (name : Str)
  | absolute (name : Str)
  deriving DecidableEq, Repr

/-- Go `filepath.IsAbs` on Unix. -/
def IsAbs (path : Str) : Bool := HasPrefix path ['/']

/-- Source `safety.ValidateName`: the name is one path segment, neither `.` nor
`..`, without separators and not absolute. -/
def ValidateName (name : Str) : Except NameError Unit :=
  if name = [] then .error .empty
  else if name = ['.'] ∨ name = ['.', '.'] then .error (.dotName name)
  else if ContainsAny name ['/', '\\'] then .error (.hasSeparator name)
  else if IsAbs name then .error (.absolute name)
  else .ok ()

/-- The two ways in which `SafeJoin` fails. -/
inductive JoinError
  | rel (root p : Str)
  | escape (p : Str)
  deriving DecidableEq, Repr

/-- Source `safety.SafeJoin`: joins `root` and `parts` and makes sure the result
stays inside `root`. -/
def SafeJoin (root : Str) (parts : List Str) : Except JoinError Str :=
  let p := Join (root :: parts)
  let cleanRoot := Clean root
  let cleanP := Clean p
  match Rel cleanRoot cleanP with
  | none => .error (.rel cleanRoot cleanP)
  | some rel =>
    let relSl := rel
    if relSl = ['.', '.'] ∨ HasPrefix relSl ['.', '.', '/'] then .error (.escape p)
    else .ok cleanP

/-! ## Package `plan` -/

/-- Source `plan.Node`: one element of the tree, a file or a directory at some
depth below the root (depth 0 is directly below it). -/
structure Node where
  Name : Str
  Dir : Bool
  Depth : Nat
  deriving DecidableEq, Repr

/-- Source `plan.Plan`: the root name and the nodes in the order of the text. -/
structure Plan where
  Root : Str
  Nodes : List Node
  deriving DecidableEq, Repr

/-! ## Package `parser` -/

/-- Source `parser.countDepth`: every box-drawing rune and `|` of the text before
the marker is replaced by a space, the spaces are counted, and four spaces make
one level. -/
def countDepth (pre : Str) : Nat :=
  let s := pre
  let repl : List Char := ['│', '└', '├', '─', '|']
  let s := repl.foldl (fun s r => ReplaceAll s r ' ') s
  let spaces := s.foldl (fun n c => if c = ' ' then n + 1 else n) 0
  spaces / 4

/-- The search loop of `parseTreeLine`: the earliest position at which one of
the markers occurs in the line, with that marker; on equal positions the marker
listed first wins. The start value is `(-1, "")`. -/
def findMarker (line : Str) (markers : List Str) (start : Int × Str) : Int × Str :=
  markers.foldl
    (fun (acc : Int × Str) m =>
      let i := Index line m
      if i ≠ -1 ∧ (acc.1 = -1 ∨ i < acc.1) then (i, m) else acc)
    start

/-- The markers with their trailing space. -/
def markersSpaced : List Str :=
  ["├── ".toList, "└── ".toList, "|-- ".toList, "`-- ".toList, "+-- ".toList]

/-- The markers without trailing space, tried when none of `markersSpaced`
occurs. -/
def markersBare : List Str :=
  ["├──".toList, "└──".toList, "|--".toList, "`--".toList, "+--".toList]

/-- Source `parser.parseTreeLine`: depth, node name and success flag of one line
in tree format. -/
def parseTreeLine (line : Str) : Nat × Str × Bool :=
  let found := findMarker line markersSpaced (-1, [])
  let found := if found.1 = -1 then findMarker line markersBare found else found
  if found.1 = -1 then (0, [], false)
  else
    let idx := found.1.toNat
    let used := found.2
    let pre := line.take idx
    let depth := countDepth pre
    let name := TrimSpace (line.drop (idx + used.length))
    (depth, name, true)

/-- Source `parser.isTreeSummary`: the heuristic that recognises the closing line
of `tree` ("N directories, M files"). -/
def isTreeSummary (line : Str) : Bool :=
  let s := TrimSpace (ToLower line)
  (Contains s "directories".toList || Contains s "directory".toList) &&
    (Contains s "files".toList || Contains s "file".toList)

/-- The ways in which `Parse` fails. The line number is 1-based and counts every
line the scanner delivered, blank ones included. -/
inductive ParseError
  | rootName (lineNum : Nat) (cause : NameError)
  | notTreeLine (lineNum : Nat) (raw : Str)
  | nodeName (lineNum : Nat) (cause : NameError)
  | scanTooLong
  | noRoot
  deriving DecidableEq, Repr

/-- The text cut at its line feeds, as `bufio.ScanLines` cuts it: a last line
without line feed counts when it is not empty. -/
def rawLines : Str → List Str
  | [] => []
  | c :: cs =>
    if c = '\n' then [] :: rawLines cs
    else
      match rawLines cs with
      | [] => [[c]]
      | l :: ls => (c :: l) :: ls

/-- The end of `bufio.ScanLines`: one trailing carriage return is dropped. -/
def dropCR (l : Str) : Str := TrimSuffix l ['\r']

/-- The buffer limit `Parse` gives its scanner: `sc.Buffer(..., 1024*1024)`. -/
def maxTokenSize : Nat := 1024 * 1024

/-- A line fits the scanner when, as bytes, it is shorter than the limit. -/
def fitsScanner (l : Str) : Bool := decide (byteLen l < maxTokenSize)

/-- The lines `sc.Scan()` delivers before it returns `false`: every line up to
the first one that does not fit the buffer. -/
def scanTokens (text : Str) : List Str :=
  ((rawLines text).takeWhile fitsScanner).map dropCR

/-- Whether `sc.Err()` is set after the loop, that is `bufio.ErrTooLong`: some
line does not fit the buffer. -/
def scanFailed (text : Str) : Bool := (rawLines text).any (fun l => !fitsScanner l)

/-- The body of the scanning loop of `Parse`, run over the lines that are still
to come. The state is the line counter, the root (empty until it was read) and
the nodes collected so far. -/
def parseLines : Nat → Str → List Node → List Str → Except ParseError (Str × List Node)
  | _, root, nodes, [] => .ok (root, nodes)
  | lineNum, root, nodes, text :: rest =>
    let lineNum := lineNum + 1
    let raw := TrimRight text ['\r', '\n']
    let line := TrimSpace raw
    if line = [] then parseLines lineNum root nodes rest
    else if root = [] then
      let rootName := TrimSuffix line ['/']
      match ValidateName rootName with
      | .error err => .error (.rootName lineNum err)
      | .ok _ => parseLines lineNum rootName nodes rest
    else if isTreeSummary line then parseLines lineNum root nodes rest
    else
      match parseTreeLine raw with
      | (_, _, false) => .error (.notTreeLine lineNum raw)
      | (depth, name, true) =>
        let isDir := HasSuffix name ['/']
        let name := TrimSuffix name ['/']
        match ValidateName name with
        | .error err => .error (.nodeName lineNum err)
        | .ok _ => parseLines lineNum root (nodes ++ [⟨name, isDir, depth⟩]) rest

/-- The second pass of `Parse`: a node that is not yet a directory becomes one
when the next node is deeper. -/
def reclassify : List Node → List Node
  | [] => []
  | [n] => [n]
  | n :: m :: rest =>
    (if !n.Dir ∧ m.Depth > n.Depth then { n with Dir := true } else n) ::
      reclassify (m :: rest)

/-- Source `parser.Parse`: reads tree-like text and returns the plan. -/
def Parse (text : Str) : Except ParseError Plan :=
  match parseLines 0 [] [] (scanTokens text) with
  | .error err => .error err
  | .ok (root, nodes) =>
    if scanFailed text then .error .scanTooLong
    else if root = [] then .error .noRoot
    else .ok { Root := root, Nodes := reclassify nodes }

/-! ## Package `fsops` -/

/-- Go `os.FileMode`, as the number it holds. -/
abbrev FileMode := Nat

/-- Source `fsops.ApplyArgs`: the parameters of applying a plan. -/
structure ApplyArgs where
  Plan : Plan
  DestRoot : Str
  DryRun : Bool
  Force : Bool
  Verbose : Bool
  Quiet : Bool
  DirPerm : FileMode
  FilePerm : FileMode
  ExecGlobs : List Str
  DBMode0600 : Bool

/-- What the `switch` after `os.Lstat` tells apart: a directory, something that
is not a directory, nothing at that path (`os.IsNotExist`), or another error. -/
inductive StatResult
  | isDir
  | notDir
  | notExist
  | failed
  deriving DecidableEq, Repr

/-- The operating system (and `filepath.Match`) as `fsops` uses it, over a state
type `σ`. A call that changes the file system returns whether it succeeded
together with the state it leaves. `Truncate` is `os.OpenFile` with
`O_WRONLY|O_TRUNC` followed by `Close`, `CreateExcl` is `os.OpenFile` with
`O_CREATE|O_WRONLY|O_EXCL` followed by `Close`. `Match pattern name` is the
boolean result of `filepath.Match`. -/
structure FileSys (σ : Type) where
  Lstat : σ → Str → StatResult
  MkdirAll : σ → Str → FileMode → Bool × σ
  Chmod : σ → Str → FileMode → Bool × σ
  Truncate : σ → Str → FileMode → Bool × σ
  CreateExcl : σ → Str → FileMode → Bool × σ
  Match : Str → Str → Bool

/-- The errors `Apply` returns. -/
inductive ApplyError
  | mkdir (path : Str)
  | chmod (path : Str)
  | nesting (name : Str) (depth height : Nat)
  | join (err : JoinError)
  | conflictFile (path : Str)
  | conflictDir (path : Str)
  | stat (path : Str)
  | fileExists (path : Str)
  | truncate (path : Str)
  | create (path : Str)
  deriving DecidableEq, Repr

/-- The state a run threads through: the file system and the lines printed so
far, oldest first. -/
structure Run (σ : Type) where
  fs : σ
  out : List Str

/-- Source `fsops.out`: prints one line unless `Quiet` is set. -/
def out {σ : Type} (a : ApplyArgs) (line : Str) (r : Run σ) : Run σ :=
  if a.Quiet then r else { r with out := r.out ++ [line] }

/-- Source `fsops.chmodIfNeeded`: `os.Chmod(path, mode)`. -/
def chmodIfNeeded {σ : Type} (os : FileSys σ) (path : Str) (mode : FileMode)
    (r : Run σ) : Option ApplyError × Run σ :=
  match os.Chmod r.fs path mode with
  | (true, fs) => (none, { r with fs := fs })
  | (false, fs) => (some (.chmod path), { r with fs := fs })

/-- Source `fsops.ensureDir`. -/
def ensureDir {σ : Type} (os : FileSys σ) (a : ApplyArgs) (path : Str)
    (r : Run σ) : Option ApplyError × Run σ :=
  match os.Lstat r.fs path with
  | .isDir =>
    let r := if a.Verbose then out a ("dir exists: ".toList ++ path) r else r
    if !a.DryRun then chmodIfNeeded os path a.DirPerm r else (none, r)
  | .notDir => (some (.conflictFile path), r)
  | .notExist =>
    if a.DryRun then (none, out a ("mkdir -p ".toList ++ path) r)
    else
      match os.MkdirAll r.fs path a.DirPerm with
      | (false, fs) => (some (.mkdir path), { r with fs := fs })
      | (true, fs) =>
        match chmodIfNeeded os path a.DirPerm { r with fs := fs } with
        | (some err, r) => (some err, r)
        | (none, r) =>
          (none, if a.Verbose then out a ("dir: ".toList ++ path) r else r)
  | .failed => (some (.stat path), r)

/-- Source `fsops.chooseFileMode`: 0600 for database files when asked for, 0755
for files that match an executable glob, the default otherwise. -/
def chooseFileMode {σ : Type} (os : FileSys σ) (a : ApplyArgs) (path : Str) : FileMode :=
  let rel := match Rel a.DestRoot path with
    | some r => r
    | none => path
  let relSl := rel
  if a.DBMode0600 ∧ (HasSuffix (ToLower relSl) ".db".toList ∨
      HasSuffix (ToLower relSl) ".sqlite".toList ∨
      HasSuffix (ToLower relSl) ".sqlite3".toList) then 0o600
  else if a.ExecGlobs.any (fun pat => os.Match pat relSl) then 0o755
  else a.FilePerm

/-- Source `fsops.ensureFile`. -/
def ensureFile {σ : Type} (os : FileSys σ) (a : ApplyArgs) (path : Str)
    (r : Run σ) : Option ApplyError × Run σ :=
  let parent := Dir path
  match ensureDir os a parent r with
  | (some err, r) => (some err, r)
  | (none, r) =>
    let mode := chooseFileMode os a path
    match os.Lstat r.fs path with
    | .isDir => (some (.conflictDir path), r)
    | .notDir =>
      if a.DryRun ∧ !a.Force then
        (none, out a ("exists: ".toList ++ path ++
          " (используйте -force для перезаписи)".toList) r)
      else if a.DryRun ∧ a.Force then (none, out a ("truncate ".toList ++ path) r)
      else if !a.Force then (some (.fileExists path), r)
      else
        match os.Truncate r.fs path mode with
        | (false, fs) => (some (.truncate path), { r with fs := fs })
        | (true, fs) =>
          match chmodIfNeeded os path mode { r with fs := fs } with
          | (some err, r) => (some err, r)
          | (none, r) =>
            (none, if a.Verbose then out a ("file truncated: ".toList ++ path) r else r)
    | .notExist =>
      if a.DryRun then (none, out a ("touch ".toList ++ path) r)
      else
        match os.CreateExcl r.fs path mode with
        | (false, fs) => (some (.create path), { r with fs := fs })
        | (true, fs) =>
          match chmodIfNeeded os path mode { r with fs := fs } with
          | (some err, r) => (some err, r)
          | (none, r) =>
            (none, if a.Verbose then out a ("file: ".toList ++ path) r else r)
    | .failed => (some (.stat path), r)

/-- The loop of `Apply` over the nodes that are still to come, with the stack of
open directories. -/
def applyNodes {σ : Type} (os : FileSys σ) (a : ApplyArgs) :
    List Node → List Str → Run σ → Option ApplyError × Run σ
  | [], _, r => (none, r)
  | n :: rest, stack, r =>
    if n.Depth > stack.length then (some (.nesting n.Name n.Depth stack.length), r)
    else
      let stack := if n.Depth < stack.length then stack.take n.Depth else stack
      match SafeJoin a.DestRoot (stack ++ [n.Name]) with
      | .error err => (some (.join err), r)
      | .ok target =>
        if n.Dir then
          match ensureDir os a target r with
          | (some err, r) => (some err, r)
          | (none, r) => applyNodes os a rest (stack ++ [n.Name]) r
        else
          match ensureFile os a target r with
          | (some err, r) => (some err, r)
          | (none, r) => applyNodes os a rest stack r

/-- The first step of `Apply`: the destination root is created, or announced in
a dry run. -/
def applyRoot {σ : Type} (os : FileSys σ) (a : ApplyArgs) (r : Run σ) :
    Option ApplyError × Run σ :=
  if a.DryRun then (none, out a ("mkdir -p ".toList ++ a.DestRoot) r)
  else
    match os.MkdirAll r.fs a.DestRoot a.DirPerm with
    | (false, fs) => (some (.mkdir a.DestRoot), { r with fs := fs })
    | (true, fs) => chmodIfNeeded os a.DestRoot a.DirPerm { r with fs := fs }

/-- Source `fsops.Apply`: creates the directories and files of the plan. The
result is the error, if any, and the file system and output the run leaves. -/
def Apply {σ : Type} (os : FileSys σ) (a : ApplyArgs) (fs : σ) : Option ApplyError × Run σ :=
  match applyRoot os a { fs := fs, out := [] } with
  | (some err, r) => (some err, r)
  | (none, r) =>
    let r := if a.Verbose then out a ("Корень: ".toList ++ a.DestRoot) r else r
    applyNodes os a a.Plan.Nodes [] r

/-! ## Notions the statements below use -/

/-- A column of an indentation group: a space or one of the connector glyphs
`│`, `├`, `└`, `─`, `|`. -/
def isIndentColumn (c : Char) : Bool := c = ' ' || ['│', '├', '└', '─', '|'].contains c

/-- An indentation group: four columns. -/
def isIndentGroup (g : Str) : Bool := g.length = 4 && g.all isIndentColumn

/-- Some marker of `ms` starts at one of the first `k` positions of `line`. -/
def markerBefore (ms : List Str) (line : Str) (k : Nat) : Bool :=
  (List.range k).any (fun i => ms.any (fun m => m.isPrefixOf (line.drop i)))

/-- The line as `Parse` reads it: the scanner's token without trailing carriage
returns and line feeds (`raw` in the source). -/
def lineOf (tok : Str) : Str := TrimRight tok ['\r', '\n']

/-- A blank line: nothing is left of it once white space is trimmed. -/
def isBlankLine (tok : Str) : Bool := decide (TrimSpace (lineOf tok) = [])

/-- A line after the root that `Parse` passes over: a blank line or one that
reads as the summary of `tree`. -/
def isSkipped (tok : Str) : Bool := isBlankLine tok || isTreeSummary (TrimSpace (lineOf tok))

/-- The root name a line stands for: the trimmed line without one trailing `/`. -/
def rootOfLine (tok : Str) : Str := TrimSuffix (TrimSpace (lineOf tok)) ['/']

/-- The node a line stands for: depth and name text from `parseTreeLine`, the
directory flag from a trailing `/` of the name text, which is then removed. -/
def nodeOfLine (tok : Str) : Node :=
  { Name := TrimSuffix (parseTreeLine (lineOf tok)).2.1 ['/'],
    Dir := HasSuffix (parseTreeLine (lineOf tok)).2.1 ['/'],
    Depth := (parseTreeLine (lineOf tok)).1 }

/-- Whether a result is an error. -/
def failed {ε α : Type} : Except ε α → Bool
  | .error _ => true
  | .ok _ => false

/-- A root line that `Parse` rejects: its name does not pass `ValidateName`. -/
def rejectsRoot (tok : Str) : Bool := failed (ValidateName (rootOfLine tok))

/-- A line after the root that `Parse` rejects: it is not passed over, and it has
no branch marker or its name does not pass `ValidateName`. -/
def rejectsNode (tok : Str) : Bool :=
  !isSkipped tok &&
    (!(parseTreeLine (lineOf tok)).2.2 || failed (ValidateName (nodeOfLine tok).Name))

/-- The lines from the first non-blank one on: the root line and what follows. -/
def fromRoot (toks : List Str) : List Str := toks.dropWhile isBlankLine

/-- The lines of a text that stand for nodes: those after the root line that are
not passed over. -/
def nodeLines (text : Str) : List Str :=
  (fromRoot (scanTokens text)).tail.filter (fun tok => !isSkipped tok)

/-- The error `Parse` returns for a rejected line after the root (the last case
does not arise for a rejected line). -/
def nodeError (lineNum : Nat) (tok : Str) : ParseError :=
  if (parseTreeLine (lineOf tok)).2.2 = false then .notTreeLine lineNum (lineOf tok)
  else
    match ValidateName (nodeOfLine tok).Name with
    | .error err => .nodeName lineNum err
    | .ok _ => .noRoot

/-- The example of the specification: a tree in box-drawing characters. -/
def demoText : Str := "demo/\n├── src/\n│   └── main.go\n└── README.md\n".toList

/-- The plan of the example. -/
def demoPlan : Plan :=
  { Root := "demo".toList,
    Nodes := [⟨"src".toList, true, 0⟩, ⟨"main.go".toList, false, 1⟩,
      ⟨"README.md".toList, false, 0⟩] }

/-- Whether a path starts at the root directory. -/
def isRooted (p : Str) : Bool := HasPrefix p ['/']

/-- The components of a cleaned path, in order: its elements between
separators, where `.` and the root `/` contribute none. -/
def components (p : Str) : List Str :=
  (splitSlash p).filter (fun e => !e.isEmpty && decide (e ≠ ['.']))

/-- The condition of the specification for `SafeJoin`: the target is the base itself or lies
lexically beneath it, the components of the base being a prefix of the
components of the target. -/
def liesBeneath (base targ : Str) : Bool :=
  decide (targ = base) ||
    (isRooted base == isRooted targ && (components base).isPrefixOf (components targ))

/-- The condition `SafeJoin` checks: base and target are both absolute or both
relative, the components of the base are a prefix of the components of the
target, and the first component of the target after that prefix is not `..`. -/
def staysWithin (base targ : Str) : Bool :=
  isRooted base == isRooted targ && (components base).isPrefixOf (components targ) &&
    decide (((components targ).drop (components base).length).head? ≠ some ['.', '.'])

/-- A real path element: not empty, not `.`, not `..`, without separator. -/
def isReal (e : Str) : Prop := e ≠ [] ∧ e ≠ ['.'] ∧ e ≠ ['.', '.'] ∧ '/' ∉ e

/-- The element lists `filepath.Clean` produces: real elements, after a run of
`..` elements that is empty for an absolute path. -/
def Normal (rooted : Bool) (es : List Str) : Prop :=
  ∃ k reals, es = List.replicate k ['.', '.'] ++ reals ∧ (∀ e ∈ reals, isReal e) ∧
    (rooted = true → k = 0)

/-- The test `SafeJoin` applies to the relative path: it is `..` or starts with
`../`. -/
def escapes (rel : Str) : Prop := rel = ['.', '.'] ∨ HasPrefix rel ['.', '.', '/'] = true

/-- The elements `filepath.Clean` keeps of a path. -/
def cleanElems (path : Str) : List Str :=
  ((splitSlash path).foldl (cleanStep (HasPrefix path ['/'])) []).reverse

/-- An error of `Apply` that comes from the file system: any error other than a
nesting error and an error of `SafeJoin`. -/
def ApplyError.isFileSystem : ApplyError → Bool
  | .nesting _ _ _ => false
  | .join _ => false
  | _ => true

/-- An error of `Apply` that is a nesting error. -/
def ApplyError.isNesting : ApplyError → Bool
  | .nesting _ _ _ => true
  | _ => false

/-- The check of the loop of `Apply`, run without the file system: some node is
deeper than the stack is high when its turn comes. The stack is as high as the
depth of the node before, plus one when that node is a directory. -/
def exceedsStack : Nat → List Node → Bool
  | _, [] => false
  | height, n :: rest =>
    decide (n.Depth > height) || exceedsStack (if n.Dir then n.Depth + 1 else n.Depth) rest

/-- Some node is more than one level deeper than the node before it. -/
def hasDepthStep : List Node → Bool
  | n :: m :: rest => decide (m.Depth > n.Depth + 1) || hasDepthStep (m :: rest)
  | _ => false

/-- The first node is deeper than `height`. -/
def firstDeeper (height : Nat) : List Node → Bool
  | [] => false
  | n :: _ => decide (n.Depth > height)

/-- The condition of the specification for a nesting error: the first node is
deeper than 0, or some node is more than one level deeper than the node before
it. -/
def hasDepthJump (nodes : List Node) : Bool := firstDeeper 0 nodes || hasDepthStep nodes

/-- A node followed by a deeper node is a directory. -/
def dirsAgree : List Node → Prop
  | n :: m :: rest => (m.Depth > n.Depth → n.Dir = true) ∧ dirsAgree (m :: rest)
  | _ => True

/-- A file system in which nothing exists and every change is accepted and
forgotten; a dry run of `Apply`, which changes nothing, sees an empty
destination in it. -/
def emptyFileSys : FileSys Unit :=
  { Lstat := fun _ _ => .notExist
    MkdirAll := fun s _ _ => (true, s)
    Chmod := fun s _ _ => (true, s)
    Truncate := fun s _ _ => (true, s)
    CreateExcl := fun s _ _ => (true, s)
    Match := fun _ _ => false }

/-- Arguments of a dry run of a plan into `out/<root>` with the default modes. -/
def dryRunArgs (p : Plan) : ApplyArgs :=
  { Plan := p, DestRoot := "out/".toList ++ p.Root, DryRun := true, Force := false,
    Verbose := false, Quiet := false, DirPerm := 0o755, FilePerm := 0o644,
    ExecGlobs := [], DBMode0600 := false }

/-- A text carries no leading and no trailing white space: its first and its
last rune are not white space. -/
def noOuterSpace (s : Str) : Bool :=
  s.head?.all (fun c => !isSpace c) && s.getLast?.all (fun c => !isSpace c)

/-- A line of the shape `N director(y|ies), M file(s)`: two numbers given by
their digits, the first word in the singular or the plural, and so the second. -/
def summaryLine (dirs files : Str) (manyDirs manyFiles : Bool) : Str :=
  dirs ++ (if manyDirs then " directories, ".toList else " directory, ".toList) ++
    files ++ (if manyFiles then " files".toList else " file".toList)

/-- A number written in digits: at least one rune, all of them digits. -/
def isNumber (ds : Str) : Bool := !ds.isEmpty && ds.all Char.isDigit

/-- One entry of a listing: a name, a depth, and whether the entry is marked as
a directory by a trailing `/`. -/
structure Entry where
  name : Str
  depth : Nat
  dir : Bool

/-- How an entry is drawn: for each of its indentation groups whether it carries
the guide, and the branch marker. -/
structure Drawing where
  guides : List Bool
  marker : Str

/-- One indentation group of four columns: the guide and three spaces, or four
spaces. -/
def indentGroup (guide : Char) (withGuide : Bool) : Str :=
  if withGuide then [guide, ' ', ' ', ' '] else [' ', ' ', ' ', ' ']

/-- The indentation groups of an entry, one for each level of its depth. -/
def indentGroups (guide : Char) (depth : Nat) (guides : List Bool) : List Str :=
  (List.range depth).map (fun i => indentGroup guide (guides.getD i false))

/-- The line of an entry: its indentation groups, the branch marker, the name,
and `/` when the entry is marked as a directory. -/
def entryLine (guide : Char) (e : Entry) (d : Drawing) : Str :=
  (indentGroups guide e.depth d.guides).flatten ++ d.marker ++
    (e.name ++ (if e.dir then ['/'] else []))

/-- The root line: the root name, with `/` when asked for. -/
def rootLine (root : Str) (slash : Bool) : Str := root ++ (if slash then ['/'] else [])

/-- The text of a listing: the root line and one line for each entry, each
ended by a line feed. -/
def renderTree (guide : Char) (root : Str) (slash : Bool) (entries : List (Entry × Drawing)) :
    Str :=
  rootLine root slash ++ '\n' ::
    (entries.map (fun ed => entryLine guide ed.1 ed.2 ++ ['\n'])).flatten

/-- The node an entry stands for, before the second pass. -/
def Entry.toNode (e : Entry) : Node := { Name := e.name, Dir := e.dir, Depth := e.depth }

/-- The guide of the box-drawing style and the guide of the ASCII style. -/
def guideRunes : List Char := ['│', '|']

/-- The line number an error of `Parse` carries, if it carries one. -/
def ParseError.lineNum : ParseError → Option Nat
  | .rootName n _ => some n
  | .notTreeLine n _ => some n
  | .nodeName n _ => some n
  | .scanTooLong => none
  | .noRoot => none

/-- The entries of the example, with the way the example draws them. -/
def demoEntries : List Entry :=
  [⟨"src".toList, 0, true⟩, ⟨"main.go".toList, 1, false⟩, ⟨"README.md".toList, 0, false⟩]

/-- The drawing of the example in box-drawing characters. -/
def demoUnicode : List Drawing :=
  [⟨[], "├── ".toList⟩, ⟨[true], "└── ".toList⟩, ⟨[], "└── ".toList⟩]

/-- A drawing of the example in ASCII. -/
def demoAscii : List Drawing :=
  [⟨[], "|-- ".toList⟩, ⟨[true], "`-- ".toList⟩, ⟨[], "+-- ".toList⟩]

/-! ## Package `main`: the permission flags -/

/-- The errors of Go `strconv.ParseUint`: `ErrSyntax`, `ErrRange`, and a base or
bit size that is not accepted. -/
inductive NumError
  | malformed
  | outOfRange
  | badBase
  | badBitSize
  deriving DecidableEq, Repr

/-- The value `strconv.ParseUint` gives a byte as a digit: `0`..`9`, and the
letters of either case from 10 on. -/
def digitVal (c : Char) : Option Nat :=
  if '0' ≤ c ∧ c ≤ '9' then some (c.toNat - '0'.toNat)
  else if 'a' ≤ c ∧ c ≤ 'z' then some (c.toNat - 'a'.toNat + 10)
  else if 'A' ≤ c ∧ c ≤ 'Z' then some (c.toNat - 'A'.toNat + 10)
  else none

/-- The digit loop of `strconv.ParseUint`: underscores are passed over when the
base was given as 0, a byte that is no digit of the base is a syntax error, and
a value that leaves 64 bits or the bit size is a range error. -/
def parseDigits (base bitSize : Nat) (base0 : Bool) : Str → Nat → Except NumError Nat
  | [], n => .ok n
  | c :: rest, n =>
    if c = '_' ∧ base0 then parseDigits base bitSize base0 rest n
    else
      match digitVal c with
      | none => .error .malformed
      | some d =>
        if d ≥ base then .error .malformed
        else if n ≥ (2 ^ 64 - 1) / base + 1 then .error .outOfRange
        else if n * base + d > 2 ^ bitSize - 1 then .error .outOfRange
        else parseDigits base bitSize base0 rest (n * base + d)

/-- What `strconv.underscoreOK` has seen last: the beginning, a digit, an
underscore, or something else. -/
inductive Saw
  | start
  | digit
  | underscore
  | other
  deriving DecidableEq, Repr

/-- The loop of `strconv.underscoreOK` over the number proper. -/
def underscoreLoop (hex : Bool) : Str → Saw → Bool
  | [], saw => decide (saw ≠ .underscore)
  | c :: rest, saw =>
    if ('0' ≤ c ∧ c ≤ '9') ∨ (hex ∧ (('a' ≤ c ∧ c ≤ 'f') ∨ ('A' ≤ c ∧ c ≤ 'F'))) then
      underscoreLoop hex rest .digit
    else if c = '_' then
      if saw ≠ .digit then false else underscoreLoop hex rest .underscore
    else if saw = .underscore then false
    else underscoreLoop hex rest .other

/-- Go `strconv.underscoreOK`: underscores stand only between digits, or between
a base prefix and a digit. -/
def underscoreOK (s : Str) : Bool :=
  let s := match s with
    | '-' :: rest => rest
    | '+' :: rest => rest
    | _ => s
  match s with
  | '0' :: c :: rest =>
    if c = 'b' ∨ c = 'B' ∨ c = 'o' ∨ c = 'O' ∨ c = 'x' ∨ c = 'X' then
      underscoreLoop (decide (c = 'x' ∨ c = 'X')) rest .digit
    else underscoreLoop false s .start
  | _ => underscoreLoop false s .start

/-- The base `strconv.ParseUint` reads a text in when the base is given as 0,
with the digits that remain: 2, 8 or 16 after `0b`, `0o` or `0x` (of either
case, in a text of three bytes or more), 8 after any other leading `0`, and 10
otherwise. -/
def splitBase (s : Str) : Nat × Str :=
  match s with
  | '0' :: c :: rest =>
    if byteLen s ≥ 3 ∧ (c = 'b' ∨ c = 'B') then (2, rest)
    else if byteLen s ≥ 3 ∧ (c = 'o' ∨ c = 'O') then (8, rest)
    else if byteLen s ≥ 3 ∧ (c = 'x' ∨ c = 'X') then (16, rest)
    else (8, c :: rest)
  | '0' :: rest => (8, rest)
  | _ => (10, s)

/-- Go `strconv.ParseUint(s, base, bitSize)`. -/
def ParseUint (s : Str) (base bitSize : Nat) : Except NumError Nat :=
  if s = [] then .error .malformed
  else if base = 1 ∨ base > 36 then .error .badBase
  else if bitSize > 64 then .error .badBitSize
  else
    let bits := if bitSize = 0 then 64 else bitSize
    let (b, digits) := if base = 0 then splitBase s else (base, s)
    match parseDigits b bits (decide (base = 0)) digits 0 with
    | .error e => .error e
    | .ok n =>
      if (base = 0 ∧ '_' ∈ digits) ∧ underscoreOK s = false then .error .malformed
      else .ok n

/-- Source `main.parsePerm`: a blank text gives the default, any other text is
read by `strconv.ParseUint` with base 0 and 32 bits. -/
def parsePerm (s : Str) (dflt : FileMode) : Except NumError FileMode :=
  let ss := TrimSpace s
  if ss = [] then .ok dflt
  else ParseUint ss 0 32

/-- The lower-cased text of a line contains the word. -/
def hasWord (line word : Str) : Bool := Contains (ToLower line) word

/-- The lower-cased text of a line contains `directory` or `directories`, and
also contains `file`. -/
def mentionsSummary (line : Str) : Bool :=
  (hasWord line "directory".toList || hasWord line "directories".toList) &&
    hasWord line "file".toList

/-- The loop of `filepath.Ext`, from the last byte backwards: it stops at a
separator with the empty string and at a dot with the suffix from that dot on. -/
def extLoop : Str → Str → Str
  | [], _ => []
  | c :: before, after =>
    if c = '/' then []
    else if c = '.' then c :: after
    else extLoop before (c :: after)

/-- Go `filepath.Ext`: the suffix of the path that begins at the last dot of
its last element; empty when that element has no dot. -/
def Ext (path : Str) : Str := extLoop path.reverse []

/-- The extension is, without regard to case, one of `.db`, `.sqlite` and
`.sqlite3`. -/
def isDBExt (ext : Str) : Bool :=
  decide (ToLower ext = ".db".toList) || decide (ToLower ext = ".sqlite".toList) ||
    decide (ToLower ext = ".sqlite3".toList)

/-- The path `chooseFileMode` tests: the path relative to `DestRoot` when
`filepath.Rel` gives one, the path itself otherwise (`filepath.ToSlash` changes
nothing on Unix). -/
def relOf (a : ApplyArgs) (path : Str) : Str := (Rel a.DestRoot path).getD path

/-- Some configured executable glob matches the path. -/
def matchesExec {σ : Type} (os : FileSys σ) (a : ApplyArgs) (rel : Str) : Bool :=
  a.ExecGlobs.any (fun pat => os.Match pat rel)

/-- The stack of the loop of `Apply` after it went over the nodes, begun with
`stack`: a node less deep than the stack is high cuts the stack to its depth,
and a directory is put on top. -/
def stackAfter : List Str → List Node → List Str
  | stack, [] => stack
  | stack, n :: rest =>
    let stack := if n.Depth < stack.length then stack.take n.Depth else stack
    stackAfter (if n.Dir then stack ++ [n.Name] else stack) rest

/-- The bound of the specification for the node that follows the given ones:
the depth of the last of them, plus one when it is a directory; 0 when there is
none. -/
def heightAfter (pre : List Node) : Nat :=
  match pre.getLast? with
  | none => 0
  | some m => m.Depth + (if m.Dir then 1 else 0)

/-- The name of the nearest preceding directory node at a depth: the first
directory of that depth met when going back from the last of the given nodes. -/
def nearestDir (pre : List Node) (d : Nat) : Option Str :=
  (pre.reverse.find? (fun n => n.Dir && n.Depth == d)).map Node.Name

/-- The arguments with another list of nodes in the plan. -/
def withNodes (a : ApplyArgs) (nodes : List Node) : ApplyArgs :=
  { a with Plan := { a.Plan with Nodes := nodes } }

/-- The target paths of the nodes as the loop of `Apply` computes them, each
with the directory flag of its node, begun with `stack`: `SafeJoin` of the root
and the stack with the name of the node. There are none when a node is deeper
than the stack is high or `SafeJoin` fails. -/
def targetsFrom (root : Str) : List Str → List Node → Option (List (Str × Bool))
  | _, [] => some []
  | stack, n :: rest =>
    if n.Depth > stack.length then none
    else
      let stack := if n.Depth < stack.length then stack.take n.Depth else stack
      match SafeJoin root (stack ++ [n.Name]) with
      | .error _ => none
      | .ok target =>
        (targetsFrom root (if n.Dir then stack ++ [n.Name] else stack) rest).map
          (fun ts => (target, n.Dir) :: ts)

/-- The lines a dry run prints for one node on a destination where nothing
exists yet: `mkdir -p` with the target for a directory; for a file `mkdir -p`
with the directory of the target, then `touch` with the target. -/
def dryLines (t : Str × Bool) : List Str :=
  if t.2 then ["mkdir -p ".toList ++ t.1]
  else ["mkdir -p ".toList ++ Dir t.1, "touch ".toList ++ t.1]

/-- The lines a dry run prints on a destination where nothing exists yet: for
the root, then for the nodes in order. -/
def dryTrace (root : Str) (ts : List (Str × Bool)) : List Str :=
  ("mkdir -p ".toList ++ root) :: ts.flatMap dryLines

/-! ## A file system for `fsops` -/

/-- An entry of the file system: a directory with its permission bits, or a
regular file with its permission bits and its content. -/
inductive Inode
  | dir (mode : FileMode)
  | file (mode : FileMode) (content : Str)
  deriving DecidableEq, Repr

/-- The entry is a directory. -/
def Inode.isDir : Inode → Bool
  | .dir _ => true
  | .file _ _ => false

/-- The entry is a regular file. -/
def Inode.isFile : Inode → Bool
  | .dir _ => false
  | .file _ _ => true

/-- The entry with other permission bits. -/
def Inode.chmod (mode : FileMode) : Inode → Inode
  | .dir _ => .dir mode
  | .file _ content => .file mode content

/-- The state of a file system without symbolic links: the entry at each cleaned
path, if there is one. Paths are read as `filepath.Clean` reads them, so `..` is
resolved lexically; relative paths are kept apart from absolute ones. -/
abbrev Disk := Str → Option Inode

/-- The file system in which nothing exists. -/
def emptyDisk : Disk := fun _ => none

/-- The state with the entry at one path replaced. -/
def setEntry (d : Disk) (p : Str) (e : Inode) : Disk := fun q => if q = p then some e else d q

/-- The permission bits `os.Chmod` sets for a mode: its nine low bits. -/
def permBits (mode : FileMode) : FileMode := mode % 512

/-- The permission bits a new entry gets: those of the mode that the umask of
the process does not clear. -/
def createBits (umask mode : FileMode) : FileMode := (mode % 512) &&& (511 - umask % 512)

/-- The directories a path leads through and the path itself, from the top: the
cleaned path cut after none, one, two, ... of its elements. -/
def lineage (p : Str) : List Str :=
  (List.range ((cleanElems p).length + 1)).map
    (fun k => renderPath (isRooted p) ((cleanElems p).take k))

/-- The directory a path names an entry of: the cleaned path without its last
element; none for `.` and `/`. -/
def parentOf (p : Str) : Option Str :=
  if cleanElems p = [] then none
  else some (renderPath (isRooted p) (cleanElems p).dropLast)

/-- The path leads through a regular file, or is one. -/
def underFile (d : Disk) (p : Str) : Bool :=
  (lineage p).any (fun q => (d q).any Inode.isFile)

/-- Go `os.Lstat` as the `switch` of `fsops` reads it: the empty path and a path
with nothing at it do not exist, unless the path leads through a regular file,
which is another error (`ENOTDIR`). -/
def diskLstat (d : Disk) (p : Str) : StatResult :=
  if p = [] then .notExist
  else
    match d (Clean p) with
    | some (.dir _) => .isDir
    | some (.file _ _) => .notDir
    | none => if underFile d p then .failed else .notExist

/-- Go `os.MkdirAll`: fails, creating nothing, for the empty path and when the
path leads through a regular file or is one; otherwise every directory of the
lineage that is missing is created, with the mode as the umask leaves it. -/
def diskMkdirAll (umask : FileMode) (d : Disk) (p : Str) (perm : FileMode) : Bool × Disk :=
  if p = [] ∨ underFile d p = true then (false, d)
  else
    (true, fun q =>
      if q ∈ lineage p ∧ d q = none then some (.dir (createBits umask perm)) else d q)

/-- Go `os.Chmod`: sets the permission bits of an entry that exists. -/
def diskChmod (d : Disk) (p : Str) (mode : FileMode) : Bool × Disk :=
  if p = [] then (false, d)
  else
    match d (Clean p) with
    | none => (false, d)
    | some e => (true, setEntry d (Clean p) (e.chmod (permBits mode)))

/-- Go `os.OpenFile` with `O_WRONLY|O_TRUNC`, then `Close`: empties a regular
file that exists and leaves its mode; fails on a directory and on nothing. -/
def diskTruncate (d : Disk) (p : Str) (_mode : FileMode) : Bool × Disk :=
  if p = [] then (false, d)
  else
    match d (Clean p) with
    | some (.file m _) => (true, setEntry d (Clean p) (.file m []))
    | _ => (false, d)

/-- Go `os.OpenFile` with `O_CREATE|O_WRONLY|O_EXCL`, then `Close`: creates an
empty regular file, with the mode as the umask leaves it, where nothing exists
and the directory of the path does; fails otherwise. -/
def diskCreateExcl (umask : FileMode) (d : Disk) (p : Str) (mode : FileMode) : Bool × Disk :=
  if p = [] then (false, d)
  else
    match d (Clean p), parentOf p with
    | none, some parent =>
      match d parent with
      | some (.dir _) => (true, setEntry d (Clean p) (.file (createBits umask mode) []))
      | _ => (false, d)
    | _, _ => (false, d)

/-- The file system of a process with the given umask, with `filepath.Match`
given as a function. -/
def diskSys (umask : FileMode) (matchGlob : Str → Str → Bool) : FileSys Disk :=
  { Lstat := diskLstat
    MkdirAll := diskMkdirAll umask
    Chmod := diskChmod
    Truncate := diskTruncate
    CreateExcl := diskCreateExcl umask
    Match := matchGlob }

/-- A file system with umask 022 in which no glob matches. -/
def plainSys : FileSys Disk := diskSys 0o022 (fun _ _ => false)

/-- Arguments of a run of a plan into `out/<root>` with the default modes,
neither dry nor forced, without output. -/
def normalArgs (p : Plan) : ApplyArgs :=
  { Plan := p, DestRoot := "out/".toList ++ p.Root, DryRun := false, Force := false,
    Verbose := false, Quiet := false, DirPerm := 0o755, FilePerm := 0o644,
    ExecGlobs := [], DBMode0600 := false }

/-- A relation between states that holds across every call that changes the
file system, and is reflexive and transitive. -/
structure Kept {σ : Type} (os : FileSys σ) (R : σ → σ → Prop) : Prop where
  refl : ∀ s, R s s
  trans : ∀ s t u, R s t → R t u → R s u
  mkdirAll : ∀ s p m, R s (os.MkdirAll s p m).2
  chmod : ∀ s p m, R s (os.Chmod s p m).2
  truncate : ∀ s p m, R s (os.Truncate s p m).2
  createExcl : ∀ s p m, R s (os.CreateExcl s p m).2

/-- Every entry of the first state is still there in the second, with the same
kind: a directory is a directory, a file a file. -/
def keepsKinds (d d2 : Disk) : Prop :=
  ∀ q e, d q = some e → ∃ e2, d2 q = some e2 ∧ e2.isDir = e.isDir

/-- The file system that holds the working directory and nothing else. -/
def cwdDisk : Disk := setEntry emptyDisk ".".toList (.dir 0o755)

/-- A destination that holds an older version of the example: in the working
directory the directories `out` and `out/demo` with mode 0700 and a file
`out/demo/README.md` with mode 0600 and some content. -/
def demoDisk : Disk :=
  setEntry (setEntry (setEntry cwdDisk "out".toList (.dir 0o700))
    "out/demo".toList (.dir 0o700)) "out/demo/README.md".toList (.file 0o600 "old".toList)

/-- A state is a tree: every entry lies in directories, that is, every path of
the lineage of an entry above the entry itself holds a directory. -/
def wellFormed (d : Disk) : Prop :=
  ∀ q e, d q = some e → ∀ p ∈ lineage q, p ≠ Clean q → (d p).any Inode.isDir = true

/-- The state `os.MkdirAll` leaves when it succeeds: every path of the lineage
that held nothing holds a directory with the mode as the umask leaves it. -/
def mkdirState (u : FileMode) (d : Disk) (t : Str) (perm : FileMode) : Disk :=
  fun q => if q ∈ lineage t ∧ d q = none then some (.dir (createBits u perm)) else d q

/-- A plan of two directories, `src` and `pkg` in it. -/
def dirsPlan : Plan :=
  { Root := "demo".toList, Nodes := [⟨"src".toList, true, 0⟩, ⟨"pkg".toList, true, 1⟩] }

/-- A plan whose only node, a directory, is one level too deep. -/
def deepPlan : Plan :=
  { Root := "demo".toList, Nodes := [⟨"a".toList, true, 1⟩] }

/-- No file node shares its target path with another node. -/
def noClash (ts : List (Str × Bool)) : Prop :=
  ts.Pairwise (fun x y => (x.2 = false ∨ y.2 = false) → x.1 ≠ y.1)

/-- The state with the targets in place, in order: a directory with the given
mode at the target of a directory node, an empty regular file with the mode its
path is given at the target of a file node. -/
def placeTargets (dirMode : FileMode) (fileMode : Str → FileMode) :
    List (Str × Bool) → Disk → Disk
  | [], d => d
  | t :: rest, d =>
    placeTargets dirMode fileMode rest
      (setEntry d t.1 (if t.2 then .dir dirMode else .file (fileMode t.1) []))

/-- The target path of a node as the specification describes it: the root
joined with the names of the nearest preceding directory node at each depth
below the depth of the node, and with the name of the node. -/
def specTarget (root : Str) (pre : List Node) (n : Node) : Str :=
  Join (root :: ((List.range n.Depth).filterMap (nearestDir pre) ++ [n.Name]))

/-- The working directory with a directory `out` in it. -/
def outDisk : Disk := setEntry cwdDisk "out".toList (.dir 0o755)

/-- The working directory with a regular file `out` in it. -/
def outFileDisk : Disk := setEntry cwdDisk "out".toList (.file 0o644 [])

/-- A plan with the same file twice. -/
def twicePlan : Plan :=
  { Root := "demo".toList, Nodes := [⟨"a".toList, false, 0⟩, ⟨"a".toList, false, 0⟩] }

/-! # Theorems -/

/-! ## Name validation -/

theorem containsAny_separators (name : Str) :
    ContainsAny name ['/', '\\'] = true ↔ ('/' ∈ name ∨ '\\' ∈ name) := by
  induction name with
  | nil => simp [ContainsAny]
  | cons c cs ih =>
    simp only [ContainsAny, List.any_cons, Bool.or_eq_true, List.mem_cons] at ih ⊢
    rw [ih]
    have hc : (['/', '\\'].contains c = true) ↔ (c = '/' ∨ c = '\\') := by simp
    rw [hc]
    constructor
    · rintro ((h | h) | (h | h))
      · exact Or.inl (Or.inl h.symm)
      · exact Or.inr (Or.inl h.symm)
      · exact Or.inl (Or.inr h)
      · exact Or.inr (Or.inr h)
    · rintro ((h | h) | (h | h))
      · exact Or.inl (Or.inl h.symm)
      · exact Or.inr (Or.inl h)
      · exact Or.inl (Or.inr h.symm)
      · exact Or.inr (Or.inr h)

theorem isAbs_iff (name : Str) : IsAbs name = true ↔ ∃ t, name = '/' :: t := by
  cases name with
  | nil => simp [IsAbs, HasPrefix, List.isPrefixOf]
  | cons c cs =>
    simp only [IsAbs, HasPrefix, List.isPrefixOf_cons₂, List.isPrefixOf_nil_left,
      Bool.and_true, beq_iff_eq, List.cons.injEq, exists_and_left, exists_eq', and_true]
    exact eq_comm

theorem ValidateName_ok_iff (name : Str) :
    ValidateName name = .ok () ↔
      (name ≠ [] ∧ name ≠ ['.'] ∧ name ≠ ['.', '.'] ∧ '/' ∉ name ∧ '\\' ∉ name) := by
  unfold ValidateName
  by_cases h0 : name = []
  · simp [h0]
  by_cases h1 : name = ['.'] ∨ name = ['.', '.']
  · rw [if_neg h0, if_pos h1]
    rcases h1 with h | h <;> simp [h]
  rw [if_neg h0, if_neg h1]
  by_cases h2 : ContainsAny name ['/', '\\'] = true
  · rw [if_pos h2]
    have := (containsAny_separators name).1 h2
    simp only [reduceCtorEq, false_iff, not_and, not_not]
    intro _ _ _ h3
    rcases this with h | h
    · exact absurd h h3
    · exact h
  rw [if_neg h2]
  have h3 : ¬ ('/' ∈ name ∨ '\\' ∈ name) := fun h => h2 ((containsAny_separators name).2 h)
  have h4 : ¬ (IsAbs name = true) := by
    intro h
    obtain ⟨t, ht⟩ := (isAbs_iff name).1 h
    exact h3 (Or.inl (by simp [ht]))
  rw [if_neg h4]
  push_neg at h1 h3
  simp [h0, h1.1, h1.2, h3.1, h3.2]

theorem ValidateName_cases (name : Str) :
    ValidateName name = .ok () ∨ ∃ err, ValidateName name = .error err := by
  cases h : ValidateName name with
  | ok u => exact Or.inl rfl
  | error e => exact Or.inr ⟨e, rfl⟩

/-- C2: `ValidateName` returns an error exactly for the empty name, for `.` and
`..`, for a name that holds `/` or `\`, and for an absolute path; every other
name is accepted, in particular every non-empty name made of letters and
digits. -/
theorem ValidateName_error_iff (name : Str) :
    ((∃ err, ValidateName name = .error err) ↔
      (name = [] ∨ name = ['.'] ∨ name = ['.', '.'] ∨ ('/' ∈ name ∨ '\\' ∈ name) ∨
        IsAbs name = true)) ∧
    (ValidateName name = .ok () ↔
      ¬ (name = [] ∨ name = ['.'] ∨ name = ['.', '.'] ∨ ('/' ∈ name ∨ '\\' ∈ name) ∨
        IsAbs name = true)) ∧
    ((name ≠ [] ∧ ∀ c ∈ name, c.isAlphanum = true) → ValidateName name = .ok ()) := by
  have hok := ValidateName_ok_iff name
  have habs : IsAbs name = true → '/' ∈ name := by
    intro h
    obtain ⟨t, ht⟩ := (isAbs_iff name).1 h
    simp [ht]
  have hiff : ValidateName name = .ok () ↔
      ¬ (name = [] ∨ name = ['.'] ∨ name = ['.', '.'] ∨ ('/' ∈ name ∨ '\\' ∈ name) ∨
        IsAbs name = true) := by
    rw [hok]
    constructor
    · rintro ⟨h0, h1, h2, h3, h4⟩ (h | h | h | (h | h) | h)
      · exact h0 h
      · exact h1 h
      · exact h2 h
      · exact h3 h
      · exact h4 h
      · exact h3 (habs h)
    · intro h
      push_neg at h
      exact ⟨h.1, h.2.1, h.2.2.1, h.2.2.2.1.1, h.2.2.2.1.2⟩
  refine ⟨?_, hiff, ?_⟩
  · constructor
    · rintro ⟨err, herr⟩
      by_contra hcon
      rw [hiff.2 hcon] at herr
      cases herr
    · intro h
      rcases ValidateName_cases name with hv | hv
      · exact absurd h (hiff.1 hv)
      · exact hv
  · rintro ⟨h0, hal⟩
    rw [hok]
    refine ⟨h0, ?_, ?_, ?_, ?_⟩
    · intro h
      have := hal '.' (by simp [h])
      revert this
      decide
    · intro h
      have := hal '.' (by simp [h])
      revert this
      decide
    · intro h
      have := hal '/' h
      revert this
      decide
    · intro h
      have := hal '\\' h
      revert this
      decide

/-- C3, stated as it is written, fails: `a..b` holds the substring `..` and is
accepted. -/
theorem ValidateName_dotdot_substring_accepted :
    Contains "a..b".toList "..".toList = true ∧ ValidateName "a..b".toList = .ok () := by
  decide

theorem contains_dotdot_ne (name : Str) (h : Contains name ['.', '.'] = true) :
    name ≠ [] ∧ name ≠ ['.'] := by
  constructor
  · rintro rfl
    revert h
    decide
  · rintro rfl
    revert h
    decide

/-- C3, amended: a name that holds the substring `..` is rejected exactly when
it is `..` itself or holds a path separator. -/
theorem ValidateName_dotdot_iff (name : Str) (h : Contains name ['.', '.'] = true) :
    (∃ err, ValidateName name = .error err) ↔
      (name = ['.', '.'] ∨ '/' ∈ name ∨ '\\' ∈ name) := by
  obtain ⟨h0, h1⟩ := contains_dotdot_ne name h
  have hok := ValidateName_ok_iff name
  constructor
  · rintro ⟨err, herr⟩
    by_contra hcon
    push_neg at hcon
    rw [hok.2 ⟨h0, h1, hcon.1, hcon.2.1, hcon.2.2⟩] at herr
    cases herr
  · intro hc
    rcases ValidateName_cases name with hv | hv
    · obtain ⟨_, _, h2, h3, h4⟩ := hok.1 hv
      rcases hc with hc | hc | hc
      · exact absurd hc h2
      · exact absurd hc h3
      · exact absurd hc h4
    · exact hv

/-- C3, amended, at the name `..`. -/
theorem ValidateName_dotdot_iff_witness :
    Contains "..".toList ['.', '.'] = true ∧
      ((∃ err, ValidateName "..".toList = .error err) ↔
        ("..".toList = ['.', '.'] ∨ '/' ∈ "..".toList ∨ '\\' ∈ "..".toList)) :=
  ⟨by decide, ValidateName_dotdot_iff "..".toList (by decide)⟩

/-! ## Searching a marker -/

theorem indexFrom_none (sub : Str) (s : Str) (i : Int)
    (h : ∀ j, j ≤ s.length → sub.isPrefixOf (s.drop j) = false) :
    indexFrom sub s i = -1 := by
  induction s generalizing i with
  | nil =>
    have h0 := h 0 (Nat.le_refl _)
    cases sub with
    | nil => simp at h0
    | cons a as => simp [indexFrom]
  | cons c cs ih =>
    have h0 := h 0 (Nat.zero_le _)
    simp only [List.drop_zero] at h0
    simp only [indexFrom, h0, Bool.false_eq_true, if_false]
    apply ih
    intro j hj
    have := h (j + 1) (by simp; omega)
    simpa using this

theorem indexFrom_first (sub : Str) (s : Str) (i : Int) (k : Nat)
    (hk : sub.isPrefixOf (s.drop k) = true)
    (hlt : ∀ j, j < k → sub.isPrefixOf (s.drop j) = false) (hle : k ≤ s.length) :
    indexFrom sub s i = i + k := by
  induction s generalizing i k with
  | nil =>
    have : k = 0 := by simpa using hle
    subst this
    cases sub with
    | nil => simp [indexFrom]
    | cons a as => simp at hk
  | cons c cs ih =>
    cases k with
    | zero =>
      simp only [List.drop_zero] at hk
      simp [indexFrom, hk]
    | succ k =>
      have h0 := hlt 0 (Nat.succ_pos _)
      simp only [List.drop_zero] at h0
      simp only [indexFrom, h0, Bool.false_eq_true, if_false]
      rw [ih (i + 1) k (by simpa using hk) (fun j hj => by
        have := hlt (j + 1) (by omega)
        simpa using this) (by simpa using hle)]
      push_cast
      ring

theorem indexFrom_range (sub : Str) (s : Str) (i : Int) :
    indexFrom sub s i = -1 ∨
      ∃ k : Nat, k ≤ s.length ∧ indexFrom sub s i = i + k ∧
        sub.isPrefixOf (s.drop k) = true := by
  induction s generalizing i with
  | nil =>
    cases sub with
    | nil => exact Or.inr ⟨0, by simp [indexFrom]⟩
    | cons a as => exact Or.inl (by simp [indexFrom])
  | cons c cs ih =>
    by_cases h0 : sub.isPrefixOf (c :: cs) = true
    · exact Or.inr ⟨0, by simp [indexFrom, h0]⟩
    · simp only [indexFrom, h0, if_false]
      rcases ih (i + 1) with h | ⟨k, hk, he, hp⟩
      · exact Or.inl h
      · refine Or.inr ⟨k + 1, by simpa using hk, ?_, by simpa using hp⟩
        rw [he]
        push_cast
        ring


/-- The value of `Index` when the first occurrence is known. -/
theorem Index_first (s sub : Str) (k : Nat)
    (hk : sub.isPrefixOf (s.drop k) = true)
    (hlt : ∀ j, j < k → sub.isPrefixOf (s.drop j) = false) (hle : k ≤ s.length) :
    Index s sub = k := by
  simpa [Index] using indexFrom_first sub s 0 k hk hlt hle

theorem Index_none (s sub : Str)
    (h : ∀ j, j ≤ s.length → sub.isPrefixOf (s.drop j) = false) : Index s sub = -1 :=
  indexFrom_none sub s 0 h

theorem Index_range (s sub : Str) :
    Index s sub = -1 ∨
      ∃ k : Nat, k ≤ s.length ∧ Index s sub = k ∧ sub.isPrefixOf (s.drop k) = true := by
  simpa [Index] using indexFrom_range sub s 0

theorem markerBefore_false {ms : List Str} {line : Str} {k : Nat}
    (h : markerBefore ms line k = false) {m : Str} (hm : m ∈ ms) {j : Nat} (hj : j < k) :
    m.isPrefixOf (line.drop j) = false := by
  simp only [markerBefore, List.any_eq_false, List.mem_range, List.any_eq_true, not_exists,
    not_and, Bool.not_eq_true] at h
  exact h j hj m hm

theorem findMarker_cons (line : Str) (m2 : Str) (rest : List Str) (acc : Int × Str) :
    findMarker line (m2 :: rest) acc =
      findMarker line rest
        (if Index line m2 ≠ -1 ∧ (acc.1 = -1 ∨ Index line m2 < acc.1)
          then (Index line m2, m2) else acc) := by
  simp [findMarker]

/-- The search loop ends on the marker that occurs at the earliest position:
`m` occurs at `k`, no marker of the list occurs before `k`, and no other marker
of the list occurs at `k`. -/
theorem findMarker_earliest (line : Str) (m : Str) (k : Nat)
    (hocc : m.isPrefixOf (line.drop k) = true) (hle : k ≤ line.length)
    (hmnone : ∀ j, j < k → m.isPrefixOf (line.drop j) = false)
    (ms : List Str)
    (hnone : ∀ m2 ∈ ms, ∀ j, j < k → m2.isPrefixOf (line.drop j) = false)
    (huniq : ∀ m2 ∈ ms, m2.isPrefixOf (line.drop k) = true → m2 = m)
    (acc : Int × Str)
    (hacc : acc.1 = -1 ∨ (k : Int) < acc.1 ∨ acc = ((k : Int), m))
    (hin : m ∈ ms ∨ acc = ((k : Int), m)) :
    findMarker line ms acc = ((k : Int), m) := by
  induction ms generalizing acc with
  | nil =>
    rcases hin with h | h
    · simp at h
    · simpa [findMarker] using h
  | cons m2 rest ih =>
    rw [findMarker_cons]
    have hnone2 : ∀ m3 ∈ rest, ∀ j, j < k → m3.isPrefixOf (line.drop j) = false :=
      fun m3 h3 => hnone m3 (List.mem_cons_of_mem _ h3)
    have huniq2 : ∀ m3 ∈ rest, m3.isPrefixOf (line.drop k) = true → m3 = m :=
      fun m3 h3 => huniq m3 (List.mem_cons_of_mem _ h3)
    have hkm : Index line m = k := Index_first line m k hocc hmnone hle
    apply ih hnone2 huniq2
    · -- the invariant on the accumulator
      by_cases hm2 : m2 = m
      · subst hm2
        rw [hkm]
        right; right
        rcases hacc with h | h | h
        · have hk1 : ((k : Int) ≠ -1) := by omega
          simp [h, hk1]
        · have hk1 : ((k : Int) ≠ -1) := by omega
          simp [h, hk1]
        · rw [h]
          simp
      · rcases Index_range line m2 with hi | ⟨k2, hk2, hi, hp⟩
        · rw [hi]
          simpa using hacc
        · have hk2k : k < k2 := by
            by_contra hcon
            have hle2 : k2 ≤ k := Nat.le_of_not_lt hcon
            rcases Nat.lt_or_eq_of_le hle2 with h | h
            · have := hnone m2 (List.mem_cons_self _ _) k2 h
              rw [this] at hp
              cases hp
            · subst h
              exact hm2 (huniq m2 (List.mem_cons_self _ _) hp)
          rw [hi]
          split
          · right; left
            show (k : Int) < (k2 : Int)
            omega
          · exact hacc
    · by_cases hm2 : m2 = m
      · subst hm2
        rw [hkm]
        right
        rcases hacc with h | h | h
        · have hk1 : ((k : Int) ≠ -1) := by omega
          simp [h, hk1]
        · have hk1 : ((k : Int) ≠ -1) := by omega
          simp [h, hk1]
        · rw [h]
          simp
      · rcases hin with h | h
        · rcases List.mem_cons.1 h with h | h
          · exact absurd h.symm hm2
          · exact Or.inl h
        · right
          rcases Index_range line m2 with hi | ⟨k2, hk2, hi, hp⟩
          · rw [hi]
            simpa using h
          · have hk2k : k < k2 := by
              by_contra hcon
              have hle2 : k2 ≤ k := Nat.le_of_not_lt hcon
              rcases Nat.lt_or_eq_of_le hle2 with h' | h'
              · have := hnone m2 (List.mem_cons_self _ _) k2 h'
                rw [this] at hp
                cases hp
              · subst h'
                exact hm2 (huniq m2 (List.mem_cons_self _ _) hp)
            rw [hi, h]
            have h1 : ¬ ((k2 : Int) < (k : Int)) := by omega
            have h2 : ¬ ((k : Int) = -1) := by omega
            simp [h1, h2]

/-- The search loop leaves its start value when no marker of the list occurs. -/
theorem findMarker_none (line : Str) (ms : List Str) (acc : Int × Str)
    (h : ∀ m ∈ ms, ∀ j, j ≤ line.length → m.isPrefixOf (line.drop j) = false) :
    findMarker line ms acc = acc := by
  induction ms generalizing acc with
  | nil => simp [findMarker]
  | cons m rest ih =>
    rw [findMarker_cons, Index_none line m (h m (List.mem_cons_self _ _))]
    simp only [ne_eq, not_true_eq_false, false_and, if_false]
    exact ih acc (fun m2 h2 => h m2 (List.mem_cons_of_mem _ h2))


/-! ## Depth of a line -/

theorem countSpaces_replicate (n a : Nat) :
    (List.replicate n ' ').foldl (fun k c => if c = ' ' then k + 1 else k) a = a + n := by
  induction n generalizing a with
  | zero => simp
  | succ n ih =>
    simp only [List.replicate_succ, List.foldl_cons, if_true]
    rw [ih]
    omega

theorem isIndentColumn_cases {c : Char} (h : isIndentColumn c = true) :
    c = ' ' ∨ c = '│' ∨ c = '├' ∨ c = '└' ∨ c = '─' ∨ c = '|' := by
  simp only [isIndentColumn, Bool.or_eq_true, decide_eq_true_eq, List.contains_eq_any_beq,
    List.any_cons, List.any_nil, Bool.or_false, beq_iff_eq] at h
  tauto

theorem replaceGlyphs_indent (s : Str) (h : ∀ c ∈ s, isIndentColumn c = true) :
    (['│', '└', '├', '─', '|'] : List Char).foldl (fun s r => ReplaceAll s r ' ') s =
      List.replicate s.length ' ' := by
  induction s with
  | nil => simp [ReplaceAll]
  | cons c cs ih =>
    have ih2 := ih (fun x hx => h x (List.mem_cons_of_mem _ hx))
    simp only [List.foldl_cons, List.foldl_nil, ReplaceAll, List.map_cons, List.map_map,
      List.length_cons, List.replicate_succ, List.cons.injEq] at ih2 ⊢
    refine ⟨?_, ih2⟩
    rcases isIndentColumn_cases (h c (List.mem_cons_self _ _)) with h | h | h | h | h | h <;>
      subst h <;> decide

/-- `countDepth` on a text made of indentation columns only: a quarter of its
length. -/
theorem countDepth_indent (s : Str) (h : ∀ c ∈ s, isIndentColumn c = true) :
    countDepth s = s.length / 4 := by
  unfold countDepth
  simp only [replaceGlyphs_indent s h, countSpaces_replicate, Nat.zero_add]

theorem flatten_groups (groups : List Str) (hg : ∀ g ∈ groups, isIndentGroup g = true) :
    groups.flatten.length = 4 * groups.length ∧
      ∀ c ∈ groups.flatten, isIndentColumn c = true := by
  induction groups with
  | nil => simp
  | cons g gs ih =>
    have hg0 := hg g (List.mem_cons_self _ _)
    simp only [isIndentGroup, Bool.and_eq_true, decide_eq_true_eq, List.all_eq_true] at hg0
    obtain ⟨h1, h2⟩ := ih (fun x hx => hg x (List.mem_cons_of_mem _ hx))
    constructor
    · simp only [List.flatten_cons, List.length_append, List.length_cons, h1, hg0.1]
      omega
    · intro c hc
      simp only [List.flatten_cons, List.mem_append] at hc
      rcases hc with hc | hc
      · exact hg0.2 c hc
      · exact h2 c hc

theorem spaced_length : ∀ m ∈ markersSpaced, m.length = 4 := by decide

theorem bare_length : ∀ m ∈ markersBare, m.length = 3 := by decide

theorem spaced_bare : ∀ m ∈ markersSpaced, m.take 3 ∈ markersBare := by decide

theorem isPrefixOf_take (m s : Str) (n : Nat) (h : m.isPrefixOf s = true) :
    (m.take n).isPrefixOf s = true := by
  rw [List.isPrefixOf_iff_prefix] at h ⊢
  exact (List.take_prefix n m).trans h

theorem prefix_same_length {m m2 s : Str} (h1 : m.isPrefixOf s = true)
    (h2 : m2.isPrefixOf s = true) (hl : m2.length = m.length) : m2 = m := by
  rw [List.isPrefixOf_iff_prefix] at h1 h2
  have := List.prefix_of_prefix_length_le h2 h1 (le_of_eq hl)
  exact this.eq_of_length hl

/-- C7, stated as it is written, fails: the group `├── ` is made of recognised
connector glyphs and a space, and a line of that one group, the marker `└── `
and the name `x` gets depth 0, not 1. -/
theorem parseTreeLine_depth_group_is_marker :
    isIndentGroup "├── ".toList = true ∧ "└── ".toList ∈ markersSpaced ∧
      parseTreeLine (["├── ".toList].flatten ++ "└── ".toList ++ "x".toList) =
        (0, "└── x".toList, true) := by
  decide

/-- The result of `parseTreeLine` on indentation groups, a marker and a name,
when the marker is the first one of the line. -/
theorem parseTreeLine_groups (groups : List Str) (m name : Str)
    (hg : ∀ g ∈ groups, isIndentGroup g = true)
    (hm : m ∈ markersSpaced ∨
      (m ∈ markersBare ∧
        markerBefore markersSpaced (groups.flatten ++ m ++ name)
          ((groups.flatten ++ m ++ name).length + 1) = false))
    (hfirst : markerBefore markersBare (groups.flatten ++ m ++ name)
      (4 * groups.length) = false) :
    parseTreeLine (groups.flatten ++ m ++ name) = (groups.length, TrimSpace name, true) := by
  obtain ⟨hlen, hcols⟩ := flatten_groups groups hg
  set line := groups.flatten ++ m ++ name with hline
  set k := 4 * groups.length with hk
  have hdrop : line.drop k = m ++ name := by
    rw [hline, List.append_assoc, ← hlen, List.drop_left]
  have htake : line.take k = groups.flatten := by
    rw [hline, List.append_assoc, ← hlen, List.take_left]
  have hocc : m.isPrefixOf (line.drop k) = true := by
    rw [hdrop, List.isPrefixOf_iff_prefix]
    exact List.prefix_append _ _
  have hle : k ≤ line.length := by
    rw [hline]
    simp only [List.length_append, hlen]
    omega
  have hbare : ∀ m2 ∈ markersBare, ∀ j, j < k → m2.isPrefixOf (line.drop j) = false :=
    fun m2 h2 j hj => markerBefore_false hfirst h2 hj
  have hspaced : ∀ m2 ∈ markersSpaced, ∀ j, j < k → m2.isPrefixOf (line.drop j) = false := by
    intro m2 h2 j hj
    by_contra hcon
    have hp : m2.isPrefixOf (line.drop j) = true := by simpa using hcon
    have := hbare (m2.take 3) (spaced_bare m2 h2) j hj
    rw [isPrefixOf_take m2 _ 3 hp] at this
    cases this
  have hdepth : countDepth (line.take k) = groups.length := by
    rw [htake, countDepth_indent _ hcols, hlen]
    omega
  have hkne : ((k : Int) ≠ -1) := by omega
  rcases hm with hm | ⟨hm, hno⟩
  · have hfound : findMarker line markersSpaced (-1, []) = ((k : Int), m) :=
      findMarker_earliest line m k hocc hle (hspaced m hm) markersSpaced hspaced
        (fun m2 h2 hp =>
          prefix_same_length hocc hp ((spaced_length m2 h2).trans (spaced_length m hm).symm))
        (-1, []) (Or.inl rfl) (Or.inl hm)
    unfold parseTreeLine
    simp only [hfound, hkne, if_false, Int.toNat_ofNat, hdepth]
    rw [show k + m.length = (groups.flatten ++ m).length by
      simp only [List.length_append, hlen, hk], hline, List.drop_left]
  · have hnone : findMarker line markersSpaced (-1, []) = (-1, []) :=
      findMarker_none line markersSpaced (-1, [])
        (fun m2 h2 j hj => markerBefore_false hno h2 (Nat.lt_succ_of_le hj))
    have hfound : findMarker line markersBare (-1, []) = ((k : Int), m) :=
      findMarker_earliest line m k hocc hle (hbare m hm) markersBare hbare
        (fun m2 h2 hp =>
          prefix_same_length hocc hp ((bare_length m2 h2).trans (bare_length m hm).symm))
        (-1, []) (Or.inl rfl) (Or.inl hm)
    unfold parseTreeLine
    simp only [hnone, if_true, hfound, hkne, if_false, Int.toNat_ofNat, hdepth]
    rw [show k + m.length = (groups.flatten ++ m).length by
      simp only [List.length_append, hlen, hk], hline, List.drop_left]

/-- C7, amended: a line of `N` indentation groups, a branch marker and a name
has depth `N`, whichever glyphs fill the groups, provided that no marker starts
inside the groups and that, when the marker is written without its trailing
space, no marker with trailing space occurs in the line. -/
theorem parseTreeLine_depth (groups : List Str) (m name : Str)
    (hg : ∀ g ∈ groups, isIndentGroup g = true)
    (hm : m ∈ markersSpaced ∨
      (m ∈ markersBare ∧
        markerBefore markersSpaced (groups.flatten ++ m ++ name)
          ((groups.flatten ++ m ++ name).length + 1) = false))
    (hfirst : markerBefore markersBare (groups.flatten ++ m ++ name)
      (4 * groups.length) = false) :
    (parseTreeLine (groups.flatten ++ m ++ name)).1 = groups.length ∧
      parseTreeLine (groups.flatten ++ m ++ name) = (groups.length, TrimSpace name, true) := by
  have h := parseTreeLine_groups groups m name hg hm hfirst
  exact ⟨by rw [h], h⟩

/-- C7, amended, at the line `│       └── main.go` (two groups). -/
theorem parseTreeLine_depth_witness :
    (parseTreeLine
      (["│   ".toList, "    ".toList].flatten ++ "└── ".toList ++ "main.go".toList)).1 = 2 :=
  (parseTreeLine_depth ["│   ".toList, "    ".toList] "└── ".toList "main.go".toList
    (by decide) (Or.inl (by decide)) (by decide)).1

/-! ## The scanning loop of `Parse`, line by line -/

theorem parseLines_blank (n : Nat) (root : Str) (nodes : List Node) (t : Str)
    (rest : List Str) (h : isBlankLine t = true) :
    parseLines n root nodes (t :: rest) = parseLines (n + 1) root nodes rest := by
  simp only [isBlankLine, lineOf, decide_eq_true_eq] at h
  simp [parseLines, h]

theorem parseLines_root (n : Nat) (nodes : List Node) (t : Str) (rest : List Str)
    (h : isBlankLine t = false) :
    parseLines n [] nodes (t :: rest) =
      match ValidateName (rootOfLine t) with
      | .error err => .error (.rootName (n + 1) err)
      | .ok _ => parseLines (n + 1) (rootOfLine t) nodes rest := by
  simp only [isBlankLine, lineOf, decide_eq_false_iff_not] at h
  cases hv : ValidateName (rootOfLine t) with
  | ok u =>
    have hv2 := hv
    simp only [rootOfLine, lineOf] at hv2
    simp [parseLines, h, hv2, rootOfLine, lineOf]
  | error e =>
    have hv2 := hv
    simp only [rootOfLine, lineOf] at hv2
    simp [parseLines, h, hv2]

theorem parseLines_skip (n : Nat) (root : Str) (nodes : List Node) (t : Str)
    (rest : List Str) (hroot : root ≠ []) (h : isSkipped t = true) :
    parseLines n root nodes (t :: rest) = parseLines (n + 1) root nodes rest := by
  by_cases hb : isBlankLine t = true
  · exact parseLines_blank n root nodes t rest hb
  · have hb2 : isBlankLine t = false := by simpa using hb
    simp only [isSkipped, hb2, Bool.false_or] at h
    simp only [isBlankLine, lineOf, decide_eq_true_eq] at hb
    simp only [lineOf] at h
    simp [parseLines, h, hb, hroot]

theorem parseLines_node (n : Nat) (root : Str) (nodes : List Node) (t : Str)
    (rest : List Str) (hroot : root ≠ []) (hs : isSkipped t = false)
    (h : rejectsNode t = false) :
    parseLines n root nodes (t :: rest) =
      parseLines (n + 1) root (nodes ++ [nodeOfLine t]) rest := by
  simp only [rejectsNode, hs, Bool.not_false, Bool.true_and, Bool.or_eq_false_iff,
    Bool.not_eq_false'] at h
  obtain ⟨hmark, hname⟩ := h
  simp only [isSkipped, Bool.or_eq_false_iff, isBlankLine, decide_eq_false_iff_not] at hs
  obtain ⟨hb, hsum⟩ := hs
  simp only [lineOf] at hb hsum hmark
  have hv : ValidateName (nodeOfLine t).Name = .ok () := by
    cases hvn : ValidateName (nodeOfLine t).Name with
    | ok u => rfl
    | error e => rw [hvn] at hname; simp [failed] at hname
  simp only [nodeOfLine, lineOf] at hv
  rcases hp : parseTreeLine (TrimRight t ['\r', '\n']) with ⟨d, name, ok⟩
  rw [hp] at hmark hv
  simp only at hmark hv
  subst hmark
  simp [parseLines, hb, hroot, hsum, hp, hv, nodeOfLine, lineOf]

theorem parseLines_reject (n : Nat) (root : Str) (nodes : List Node) (t : Str)
    (rest : List Str) (hroot : root ≠ []) (h : rejectsNode t = true) :
    parseLines n root nodes (t :: rest) = .error (nodeError (n + 1) t) := by
  simp only [rejectsNode, Bool.and_eq_true, Bool.not_eq_true', Bool.or_eq_true] at h
  obtain ⟨hs, h⟩ := h
  simp only [isSkipped, Bool.or_eq_false_iff, isBlankLine, decide_eq_false_iff_not] at hs
  obtain ⟨hb, hsum⟩ := hs
  simp only [lineOf] at hb hsum
  rcases hp : parseTreeLine (TrimRight t ['\r', '\n']) with ⟨d, name, ok⟩
  cases ok with
  | false => simp [parseLines, hb, hroot, hsum, hp, nodeError, lineOf]
  | true =>
    simp only [lineOf, hp, Bool.true_eq_false, false_or] at h
    cases hvn : ValidateName (nodeOfLine t).Name with
    | ok u => rw [hvn] at h; simp [failed] at h
    | error e =>
      have hvn2 := hvn
      simp only [nodeOfLine, lineOf, hp] at hvn2
      simp [parseLines, hb, hroot, hsum, hp, nodeError, lineOf, hvn, hvn2]


theorem parseLines_blanks (n : Nat) (root : Str) (nodes : List Node) (pre rest : List Str)
    (h : ∀ t ∈ pre, isBlankLine t = true) :
    parseLines n root nodes (pre ++ rest) = parseLines (n + pre.length) root nodes rest := by
  induction pre generalizing n with
  | nil => simp
  | cons t ts ih =>
    rw [List.cons_append, parseLines_blank n root nodes t _ (h t (List.mem_cons_self _ _)),
      ih (n + 1) (fun x hx => h x (List.mem_cons_of_mem _ hx))]
    simp only [List.length_cons]
    congr 1
    omega

/-- After the root line, the loop succeeds exactly when it rejects no line; it
then appends one node for every line that is not passed over. -/
theorem parseLines_nodes_ok (n : Nat) (root : Str) (nodes : List Node) (toks : List Str)
    (hroot : root ≠ []) (h : ∀ t ∈ toks, rejectsNode t = false) :
    parseLines n root nodes toks =
      .ok (root, nodes ++ (toks.filter (fun t => !isSkipped t)).map nodeOfLine) := by
  induction toks generalizing n nodes with
  | nil => simp [parseLines]
  | cons t ts ih =>
    have ht := h t (List.mem_cons_self _ _)
    have hts : ∀ x ∈ ts, rejectsNode x = false := fun x hx => h x (List.mem_cons_of_mem _ hx)
    by_cases hs : isSkipped t = true
    · rw [parseLines_skip n root nodes t ts hroot hs, ih (n + 1) nodes hts]
      simp [hs]
    · have hs2 : isSkipped t = false := by simpa using hs
      rw [parseLines_node n root nodes t ts hroot hs2 ht, ih (n + 1) _ hts]
      simp [hs2]

/-- After the root line, the loop stops at the first line it rejects, with that
line's number. -/
theorem parseLines_nodes_error (n : Nat) (root : Str) (nodes : List Node)
    (pre : List Str) (t : Str) (post : List Str) (hroot : root ≠ [])
    (hpre : ∀ x ∈ pre, rejectsNode x = false) (ht : rejectsNode t = true) :
    parseLines n root nodes (pre ++ t :: post) = .error (nodeError (n + pre.length + 1) t) := by
  induction pre generalizing n nodes with
  | nil => simpa using parseLines_reject n root nodes t post hroot ht
  | cons x xs ih =>
    have hx := hpre x (List.mem_cons_self _ _)
    have hxs : ∀ y ∈ xs, rejectsNode y = false := fun y hy => hpre y (List.mem_cons_of_mem _ hy)
    have hlen : n + 1 + xs.length + 1 = n + (x :: xs).length + 1 := by
      simp only [List.length_cons]; omega
    by_cases hs : isSkipped x = true
    · rw [List.cons_append, parseLines_skip n root nodes x _ hroot hs, ih (n + 1) nodes hxs, hlen]
    · have hs2 : isSkipped x = false := by simpa using hs
      rw [List.cons_append, parseLines_node n root nodes x _ hroot hs2 hx, ih (n + 1) _ hxs, hlen]

/-- A list splits at its first element with a property. -/
theorem split_first {α : Type} (p : α → Bool) (l : List α) :
    (∀ x ∈ l, p x = false) ∨
      ∃ pre t post, l = pre ++ t :: post ∧ (∀ x ∈ pre, p x = false) ∧ p t = true := by
  induction l with
  | nil => exact Or.inl (by simp)
  | cons a as ih =>
    by_cases ha : p a = true
    · exact Or.inr ⟨[], a, as, rfl, by simp, ha⟩
    · have ha2 : p a = false := by simpa using ha
      rcases ih with h | ⟨pre, t, post, hl, hpre, ht⟩
      · left
        intro x hx
        rcases List.mem_cons.1 hx with hx | hx
        · rw [hx]; exact ha2
        · exact h x hx
      · right
        refine ⟨a :: pre, t, post, by rw [hl]; rfl, ?_, ht⟩
        intro x hx
        rcases List.mem_cons.1 hx with hx | hx
        · rw [hx]; exact ha2
        · exact hpre x hx

theorem blanks_fromRoot (toks : List Str) :
    toks = toks.takeWhile isBlankLine ++ fromRoot toks ∧
      (∀ t ∈ toks.takeWhile isBlankLine, isBlankLine t = true) ∧
      (∀ r later, fromRoot toks = r :: later → isBlankLine r = false) := by
  refine ⟨(List.takeWhile_append_dropWhile _ _).symm, ?_, ?_⟩
  · intro t ht
    exact List.mem_takeWhile_imp ht
  · intro r later h
    have := List.head_dropWhile_not isBlankLine toks (by
      show List.dropWhile isBlankLine toks ≠ []
      unfold fromRoot at h
      rw [h]; simp)
    unfold fromRoot at h
    simp only [h, List.head_cons] at this
    simpa using this

theorem ValidateName_ok_ne_nil {name : Str} (h : ValidateName name = .ok ()) : name ≠ [] :=
  ((ValidateName_ok_iff name).1 h).1

theorem failed_false_iff {name : Str} :
    failed (ValidateName name) = false ↔ ValidateName name = .ok () := by
  cases h : ValidateName name with
  | ok u => simp [failed]
  | error e => simp [failed]

/-- The first pass of `Parse`, from the first line on: the number of blank
lines before the root line is `k`. -/
theorem parseLines_from_start (toks : List Str) :
    (fromRoot toks = [] ∧ parseLines 0 [] [] toks = .ok ([], [])) ∨
    (∃ r later, fromRoot toks = r :: later ∧
      parseLines 0 [] [] toks =
        match ValidateName (rootOfLine r) with
        | .error err => .error (.rootName ((toks.takeWhile isBlankLine).length + 1) err)
        | .ok _ =>
          parseLines ((toks.takeWhile isBlankLine).length + 1) (rootOfLine r) [] later) := by
  obtain ⟨hsplit, hblank, hroot⟩ := blanks_fromRoot toks
  have h1 := parseLines_blanks 0 [] [] (toks.takeWhile isBlankLine) (fromRoot toks) hblank
  rw [← hsplit] at h1
  cases hf : fromRoot toks with
  | nil =>
    left
    refine ⟨rfl, ?_⟩
    rw [h1, hf]
    simp [parseLines]
  | cons r later =>
    right
    refine ⟨r, later, rfl, ?_⟩
    rw [h1, hf, parseLines_root _ _ r later (hroot r later hf)]
    simp

/-- `Parse` succeeds exactly when the scanner delivered every line, there is a
root line, `ValidateName` accepts the root name, and no later line is rejected;
the plan then holds the root name and one node for every line that is not
passed over, reclassified. -/
theorem Parse_ok_iff (text : Str) (p : Plan) :
    Parse text = .ok p ↔
      scanFailed text = false ∧
      ∃ r later, fromRoot (scanTokens text) = r :: later ∧ rejectsRoot r = false ∧
        (∀ t ∈ later, rejectsNode t = false) ∧
        p = { Root := rootOfLine r,
              Nodes := reclassify ((later.filter (fun t => !isSkipped t)).map nodeOfLine) } := by
  unfold Parse
  rcases parseLines_from_start (scanTokens text) with ⟨hf, hp⟩ | ⟨r, later, hf, hp⟩
  · rw [hp, hf]
    simp only [if_true]
    constructor
    · intro h
      split at h <;> cases h
    · rintro ⟨_, r, later, h, _⟩
      cases h
  · rw [hp, hf]
    cases hv : ValidateName (rootOfLine r) with
    | error e =>
      simp only [reduceCtorEq, false_iff, not_and, not_exists]
      intro _ r2 later2 h2 hr
      simp only [List.cons.injEq] at h2
      rw [← h2.1, rejectsRoot, hv] at hr
      simp [failed] at hr
    | ok u =>
      have hne : rootOfLine r ≠ [] := ValidateName_ok_ne_nil hv
      have hrr : rejectsRoot r = false := by simp [rejectsRoot, hv, failed]
      simp only
      rcases split_first rejectsNode later with hall | ⟨pre, t, post, hl, hpre, ht⟩
      · rw [parseLines_nodes_ok _ _ _ later hne hall]
        simp only [List.nil_append, hne, if_false]
        constructor
        · intro h
          split at h
          · cases h
          · rename_i hsf
            refine ⟨by simpa using hsf, r, later, rfl, hrr, hall, ?_⟩
            cases h
            rfl
        · rintro ⟨hsf, r2, later2, h2, _, _, hp2⟩
          simp only [List.cons.injEq] at h2
          obtain ⟨rfl, rfl⟩ := h2
          rw [hsf, hp2]
          simp
      · rw [hl, parseLines_nodes_error _ _ _ pre t post hne hpre ht]
        simp only [reduceCtorEq, false_iff, not_and, not_exists]
        intro _ r2 later2 h2 _ hall
        simp only [List.cons.injEq] at h2
        have := hall t (by rw [← h2.2]; simp)
        rw [this] at ht
        cases ht

/-! ## The second pass -/

theorem reclassify_length (ns : List Node) : (reclassify ns).length = ns.length := by
  induction ns with
  | nil => rfl
  | cons n rest ih =>
    cases rest with
    | nil => rfl
    | cons m rest2 => simp only [reclassify, List.length_cons] at ih ⊢; omega

theorem reclassify_names (ns : List Node) :
    (reclassify ns).map Node.Name = ns.map Node.Name := by
  induction ns with
  | nil => rfl
  | cons n rest ih =>
    cases rest with
    | nil => rfl
    | cons m rest2 =>
      simp only [reclassify, List.map_cons, List.cons.injEq] at ih ⊢
      refine ⟨?_, ih⟩
      split <;> rfl

theorem reclassify_depths (ns : List Node) :
    (reclassify ns).map Node.Depth = ns.map Node.Depth := by
  induction ns with
  | nil => rfl
  | cons n rest ih =>
    cases rest with
    | nil => rfl
    | cons m rest2 =>
      simp only [reclassify, List.map_cons, List.cons.injEq] at ih ⊢
      refine ⟨?_, ih⟩
      split <;> rfl

/-- The directory flag after the second pass: the flag of the first pass, or
the next node is deeper. -/
theorem reclassify_dir (ns : List Node) (i : Nat) (n2 n : Node)
    (h2 : (reclassify ns)[i]? = some n2) (h : ns[i]? = some n) :
    n2.Name = n.Name ∧ n2.Depth = n.Depth ∧
      (n2.Dir = true ↔ (n.Dir = true ∨ ∃ m, ns[i + 1]? = some m ∧ m.Depth > n.Depth)) := by
  induction ns generalizing i with
  | nil => simp at h
  | cons a rest ih =>
    cases rest with
    | nil =>
      cases i with
      | zero =>
        simp only [reclassify, List.getElem?_cons_zero, Option.some.injEq] at h2 h
        subst h2 h
        simp
      | succ j => simp at h
    | cons b rest2 =>
      cases i with
      | zero =>
        simp only [reclassify, List.getElem?_cons_zero, Option.some.injEq] at h2 h
        subst h
        simp only [zero_add, List.getElem?_cons_succ, List.getElem?_cons_zero,
          Option.some.injEq, exists_eq_left']
        split at h2
        · rename_i hc
          subst h2
          simp only [true_and, true_iff]
          exact Or.inr hc.2
        · rename_i hc
          subst h2
          simp only [true_and]
          constructor
          · exact Or.inl
          · rintro (hd | hd)
            · exact hd
            · by_contra hn
              exact hc ⟨by simpa using hn, hd⟩
      | succ j =>
        simp only [reclassify, List.getElem?_cons_succ] at h2 h
        have := ih j h2 h
        simpa using this

/-! ## The end of a trimmed line -/

theorem getLast?_rdropWhile (p : Char → Bool) (l : Str) :
    (l.rdropWhile p).getLast? = l.reverse.find? (fun c => !p c) := by
  induction l using List.reverseRecOn with
  | nil => simp [List.rdropWhile]
  | append_singleton l a ih =>
    rw [List.rdropWhile_concat]
    by_cases h : p a = true
    · simp [h, ih]
    · simp [h]

theorem find?_reverse_dropWhile (p : Char → Bool) (l : Str) :
    (l.dropWhile p).reverse.find? (fun c => !p c) = l.reverse.find? (fun c => !p c) := by
  induction l with
  | nil => rfl
  | cons a l ih =>
    by_cases h : p a = true
    · rw [List.dropWhile_cons_of_pos h, ih]
      simp only [List.reverse_cons, List.find?_append, List.find?_cons, h, Bool.not_true,
        List.find?_nil, Option.or_none]
    · rw [List.dropWhile_cons_of_neg h]

/-- The last rune of a trimmed text is the last rune of the text that is not
white space. -/
theorem getLast?_TrimSpace (l : Str) :
    (TrimSpace l).getLast? = l.reverse.find? (fun c => !isSpace c) := by
  unfold TrimSpace
  rw [getLast?_rdropWhile, find?_reverse_dropWhile]

theorem getLast?_TrimSpace_drop (l : Str) (j : Nat) (h : TrimSpace (l.drop j) ≠ []) :
    (TrimSpace (l.drop j)).getLast? = (TrimSpace l).getLast? := by
  have hsome : (TrimSpace (l.drop j)).getLast? ≠ none := by
    simpa [List.getLast?_eq_none_iff] using h
  rw [getLast?_TrimSpace] at hsome ⊢
  rw [getLast?_TrimSpace]
  conv_rhs => rw [← List.take_append_drop j l, List.reverse_append, List.find?_append]
  cases hf : (l.drop j).reverse.find? (fun c => !isSpace c) with
  | none => exact absurd hf hsome
  | some c => simp

theorem HasSuffix_slash (s : Str) : HasSuffix s ['/'] = true ↔ s.getLast? = some '/' := by
  unfold HasSuffix
  rw [List.isSuffixOf_iff_suffix]
  constructor
  · rintro ⟨t, rfl⟩
    simp
  · intro h
    obtain ⟨t, ht⟩ : ∃ t, s = t ++ ['/'] := by
      induction s using List.reverseRecOn with
      | nil => simp at h
      | append_singleton l a ih =>
        have h2 : a = '/' := by simpa using h
        exact ⟨l, by rw [h2]⟩
    exact ⟨t, ht.symm⟩

theorem TrimSuffix_eq_nil_of_nil (suffix : Str) : TrimSuffix [] suffix = [] := by
  unfold TrimSuffix
  split <;> simp

theorem parseTreeLine_name (raw : Str) (h : (parseTreeLine raw).2.2 = true) :
    ∃ j, (parseTreeLine raw).2.1 = TrimSpace (raw.drop j) := by
  obtain ⟨f, hf⟩ : ∃ f : Int × Str, parseTreeLine raw =
      if f.1 = -1 then (0, [], false)
      else (countDepth (raw.take f.1.toNat), TrimSpace (raw.drop (f.1.toNat + f.2.length)),
        true) := ⟨_, rfl⟩
  by_cases hc : f.1 = -1
  · rw [hf, if_pos hc] at h
    exact absurd h (by decide)
  · rw [hf, if_neg hc]
    exact ⟨_, rfl⟩

/-- For a line that became a node, the directory flag of the first pass tells
whether the trimmed line ends in `/`. -/
theorem nodeOfLine_dir (tok : Str) (hs : isSkipped tok = false) (h : rejectsNode tok = false) :
    (nodeOfLine tok).Dir = HasSuffix (TrimSpace (lineOf tok)) ['/'] := by
  simp only [rejectsNode, hs, Bool.not_false, Bool.true_and, Bool.or_eq_false_iff,
    Bool.not_eq_false'] at h
  obtain ⟨hmark, hname⟩ := h
  obtain ⟨j, hj⟩ := parseTreeLine_name (lineOf tok) hmark
  have hne : (parseTreeLine (lineOf tok)).2.1 ≠ [] := by
    intro hnil
    have hv := failed_false_iff.1 hname
    have := ValidateName_ok_ne_nil hv
    simp only [nodeOfLine, hnil, TrimSuffix_eq_nil_of_nil] at this
    exact this rfl
  have hlast := getLast?_TrimSpace_drop (lineOf tok) j (by rw [← hj]; exact hne)
  rw [← hj] at hlast
  show HasSuffix (parseTreeLine (lineOf tok)).2.1 ['/'] = HasSuffix (TrimSpace (lineOf tok)) ['/']
  rw [Bool.eq_iff_iff, HasSuffix_slash, HasSuffix_slash, hlast]


/-- What a successful `Parse` did: the first pass returned one node for each
node line, and no node line was passed over or rejected. -/
theorem Parse_ok_nodes (text : Str) (p : Plan) (h : Parse text = .ok p) :
    parseLines 0 [] [] (scanTokens text) = .ok (p.Root, (nodeLines text).map nodeOfLine) ∧
      p.Nodes = reclassify ((nodeLines text).map nodeOfLine) ∧
      ∀ l ∈ nodeLines text, isSkipped l = false ∧ rejectsNode l = false := by
  obtain ⟨_, r, later, hf, hr, hall, hp⟩ := (Parse_ok_iff text p).1 h
  have hnl : nodeLines text = later.filter (fun t => !isSkipped t) := by
    simp [nodeLines, hf]
  have hv : ValidateName (rootOfLine r) = .ok () := failed_false_iff.1 hr
  refine ⟨?_, ?_, ?_⟩
  · rcases parseLines_from_start (scanTokens text) with ⟨hf2, _⟩ | ⟨r2, later2, hf2, hp2⟩
    · rw [hf] at hf2
      cases hf2
    · rw [hf] at hf2
      simp only [List.cons.injEq] at hf2
      obtain ⟨rfl, rfl⟩ := hf2
      rw [hp2, hv]
      simp only
      rw [parseLines_nodes_ok _ _ _ later (ValidateName_ok_ne_nil hv) hall, hnl, hp]
      simp
  · rw [hp, hnl]
  · intro l hl
    rw [hnl, List.mem_filter] at hl
    exact ⟨by simpa using hl.2, hall l hl.1⟩

theorem exists_deeper_congr (xs ys : List Node) (h : xs.map Node.Depth = ys.map Node.Depth)
    (j d : Nat) :
    (∃ m, xs[j]? = some m ∧ m.Depth > d) ↔ (∃ m, ys[j]? = some m ∧ m.Depth > d) := by
  have hj : (xs[j]?).map Node.Depth = (ys[j]?).map Node.Depth := by
    rw [← List.getElem?_map, ← List.getElem?_map, h]
  constructor
  · rintro ⟨m, hm, hd⟩
    rw [hm] at hj
    cases hy : ys[j]? with
    | none => rw [hy] at hj; simp at hj
    | some m2 =>
      rw [hy] at hj
      simp only [Option.map_some', Option.some.injEq] at hj
      exact ⟨m2, rfl, by omega⟩
  · rintro ⟨m, hm, hd⟩
    rw [hm] at hj
    cases hx : xs[j]? with
    | none => rw [hx] at hj; simp at hj
    | some m2 =>
      rw [hx] at hj
      simp only [Option.map_some', Option.some.injEq] at hj
      exact ⟨m2, rfl, by omega⟩

/-- C6: in a plan returned by `Parse`, the nodes are the nodes of the first pass
with the same names and depths (the second pass changes neither); a node whose
line, trimmed, ends in `/` is a directory; a node whose line does not is a
directory exactly when the next node exists and is deeper. -/
theorem Parse_directory_flags (text : Str) (p : Plan) (h : Parse text = .ok p) :
    (∃ raw, parseLines 0 [] [] (scanTokens text) = .ok (p.Root, raw) ∧
      p.Nodes = reclassify raw ∧ p.Nodes.length = raw.length ∧
      p.Nodes.map Node.Name = raw.map Node.Name ∧
      p.Nodes.map Node.Depth = raw.map Node.Depth) ∧
    p.Nodes.length = (nodeLines text).length ∧
    ∀ i n l, p.Nodes[i]? = some n → (nodeLines text)[i]? = some l →
      (HasSuffix (TrimSpace (lineOf l)) ['/'] = true → n.Dir = true) ∧
      (HasSuffix (TrimSpace (lineOf l)) ['/'] = false →
        (n.Dir = true ↔ ∃ m, p.Nodes[i + 1]? = some m ∧ m.Depth > n.Depth)) := by
  obtain ⟨hpl, hnodes, hlines⟩ := Parse_ok_nodes text p h
  refine ⟨⟨_, hpl, hnodes, ?_, ?_, ?_⟩, ?_, ?_⟩
  · rw [hnodes, reclassify_length]
  · rw [hnodes, reclassify_names]
  · rw [hnodes, reclassify_depths]
  · rw [hnodes, reclassify_length, List.length_map]
  · intro i n l hn hl
    have hraw : ((nodeLines text).map nodeOfLine)[i]? = some (nodeOfLine l) := by
      rw [List.getElem?_map, hl]
      rfl
    rw [hnodes] at hn
    obtain ⟨_, hdepth, hdir⟩ := reclassify_dir _ i n (nodeOfLine l) hn hraw
    have hmem : l ∈ nodeLines text := List.getElem?_mem hl
    obtain ⟨hs, hr⟩ := hlines l hmem
    have hflag := nodeOfLine_dir l hs hr
    have hcongr := exists_deeper_congr p.Nodes ((nodeLines text).map nodeOfLine)
      (by rw [hnodes, reclassify_depths]) (i + 1) n.Depth
    rw [hdepth] at hcongr
    constructor
    · intro hslash
      exact hdir.2 (Or.inl (by rw [hflag, hslash]))
    · intro hslash
      rw [hdir, hdepth, hcongr]
      constructor
      · rintro (hd | hd)
        · rw [hflag, hslash] at hd
          cases hd
        · exact hd
      · exact Or.inr

set_option maxRecDepth 100000 in
/-- C6 at the text of the example: `Parse` returns the plan of the example, and
that plan has one node for each node line. -/
theorem Parse_directory_flags_witness :
    Parse demoText = .ok demoPlan ∧ demoPlan.Nodes.length = (nodeLines demoText).length :=
  ⟨by decide, (Parse_directory_flags demoText demoPlan (by decide)).2.1⟩

/-! ## Splitting and joining paths -/

theorem splitSlash_ne_nil (s : Str) : splitSlash s ≠ [] := by
  induction s with
  | nil => simp [splitSlash]
  | cons c cs ih =>
    unfold splitSlash
    split
    · simp
    · split <;> simp

theorem splitSlash_no_slash (e : Str) (h : '/' ∉ e) : splitSlash e = [e] := by
  induction e with
  | nil => rfl
  | cons c cs ih =>
    have hc : c ≠ '/' := fun hc => h (by simp [hc])
    have hcs : '/' ∉ cs := fun hcs => h (List.mem_cons_of_mem _ hcs)
    simp [splitSlash, hc, ih hcs]

theorem splitSlash_cons_slash (s : Str) : splitSlash ('/' :: s) = [] :: splitSlash s := by
  simp [splitSlash]

theorem splitSlash_append_slash (e s : Str) (h : '/' ∉ e) :
    splitSlash (e ++ '/' :: s) = e :: splitSlash s := by
  induction e with
  | nil => simp [splitSlash]
  | cons c cs ih =>
    have hc : c ≠ '/' := fun hc => h (by simp [hc])
    have hcs : '/' ∉ cs := fun hcs => h (List.mem_cons_of_mem _ hcs)
    simp [splitSlash, hc, ih hcs]

theorem splitSlash_append (a b : Str) :
    splitSlash (a ++ '/' :: b) = splitSlash a ++ splitSlash b := by
  induction a with
  | nil => simp [splitSlash]
  | cons c cs ih =>
    by_cases hc : c = '/'
    · subst hc
      simp [splitSlash, ih]
    · simp only [List.cons_append, splitSlash, hc, if_false]
      have ih2 : splitSlash (cs.append ('/' :: b)) = splitSlash cs ++ splitSlash b := ih
      rw [ih2]
      cases hs : splitSlash cs with
      | nil => exact absurd hs (splitSlash_ne_nil cs)
      | cons e es => simp

theorem splitSlash_elems (s : Str) : ∀ e ∈ splitSlash s, '/' ∉ e := by
  induction s with
  | nil => simp [splitSlash]
  | cons c cs ih =>
    by_cases hc : c = '/'
    · subst hc
      simp only [splitSlash, if_true, List.mem_cons]
      rintro e (rfl | he)
      · simp
      · exact ih e he
    · simp only [splitSlash, hc, if_false]
      cases hs : splitSlash cs with
      | nil => exact absurd hs (splitSlash_ne_nil cs)
      | cons e0 es =>
        rw [hs] at ih
        simp only [List.mem_cons]
        rintro e (rfl | he)
        · have := ih e0 (List.mem_cons_self _ _)
          simp only [List.mem_cons, not_or]
          exact ⟨fun h => hc h.symm, this⟩
        · exact ih e (List.mem_cons_of_mem _ he)

theorem joinSlash_nil : joinSlash [] = [] := rfl

theorem joinSlash_singleton (e : Str) : joinSlash [e] = e := by
  simp [joinSlash, List.intercalate]

theorem joinSlash_cons_cons (e e2 : Str) (es : List Str) :
    joinSlash (e :: e2 :: es) = e ++ '/' :: joinSlash (e2 :: es) := by
  simp [joinSlash, List.intercalate]

theorem joinSlash_cons (e : Str) (es : List Str) (h : es ≠ []) :
    joinSlash (e :: es) = e ++ '/' :: joinSlash es := by
  cases es with
  | nil => exact absurd rfl h
  | cons e2 es => exact joinSlash_cons_cons e e2 es

/-- Splitting undoes joining when no element holds a separator. -/
theorem splitSlash_joinSlash (es : List Str) (hne : es ≠ []) (h : ∀ e ∈ es, '/' ∉ e) :
    splitSlash (joinSlash es) = es := by
  induction es with
  | nil => exact absurd rfl hne
  | cons e rest ih =>
    cases rest with
    | nil =>
      rw [joinSlash_singleton]
      exact splitSlash_no_slash e (h e (List.mem_cons_self _ _))
    | cons e2 rest2 =>
      rw [joinSlash_cons_cons, splitSlash_append_slash _ _ (h e (List.mem_cons_self _ _)),
        ih (by simp) (fun x hx => h x (List.mem_cons_of_mem _ hx))]

/-- Splitting a joined list gives the elements of its members. -/
theorem splitSlash_joinSlash_flat (es : List Str) (hne : es ≠ []) :
    splitSlash (joinSlash es) = (es.map splitSlash).flatten := by
  induction es with
  | nil => exact absurd rfl hne
  | cons e rest ih =>
    cases rest with
    | nil => simp [joinSlash_singleton]
    | cons e2 rest2 =>
      rw [joinSlash_cons_cons, splitSlash_append, ih (by simp)]
      simp


/-! ## The normal form of `Clean` -/

theorem dotdot_not_real : ¬ isReal ['.', '.'] := fun h => h.2.2.1 rfl

theorem cleanStep_real (rooted : Bool) (st : List Str) (e : Str) (h : isReal e) :
    cleanStep rooted st e = e :: st := by
  obtain ⟨h0, h1, h2, _⟩ := h
  simp [cleanStep, h0, h1, h2]

theorem cleanStep_skip (rooted : Bool) (st : List Str) (e : Str) (h : e = [] ∨ e = ['.']) :
    cleanStep rooted st e = st := by
  simp [cleanStep, h]

theorem cleanStep_dotdot_nil (rooted : Bool) :
    cleanStep rooted [] ['.', '.'] = if rooted then [] else [['.', '.']] := by
  simp [cleanStep]

theorem cleanStep_dotdot_dots (k : Nat) :
    cleanStep false (List.replicate k ['.', '.']) ['.', '.'] =
      List.replicate (k + 1) ['.', '.'] := by
  cases k with
  | zero => simp [cleanStep]
  | succ k => simp [cleanStep, List.replicate_succ]

theorem cleanStep_dotdot_real (rooted : Bool) (top : Str) (below : List Str)
    (h : isReal top) : cleanStep rooted (top :: below) ['.', '.'] = below := by
  have : top ≠ ['.', '.'] := h.2.2.1
  simp [cleanStep, this]

/-- The stack of `Clean`, last written element first: real elements on top of a
run of `..` elements, which is empty for an absolute path. -/
theorem cleanStep_stack (rooted : Bool) (e : Str) (he : '/' ∉ e) (k : Nat) (reals : List Str)
    (hreals : ∀ x ∈ reals, isReal x) (hk : rooted = true → k = 0) :
    ∃ k2 reals2, cleanStep rooted (reals ++ List.replicate k ['.', '.']) e =
        reals2 ++ List.replicate k2 ['.', '.'] ∧
      (∀ x ∈ reals2, isReal x) ∧ (rooted = true → k2 = 0) := by
  by_cases h0 : e = [] ∨ e = ['.']
  · exact ⟨k, reals, cleanStep_skip _ _ _ h0, hreals, hk⟩
  by_cases h2 : e = ['.', '.']
  · subst h2
    cases reals with
    | cons top below =>
      refine ⟨k, below, ?_, fun x hx => hreals x (List.mem_cons_of_mem _ hx), hk⟩
      rw [List.cons_append, cleanStep_dotdot_real _ _ _ (hreals top (List.mem_cons_self _ _))]
    | nil =>
      cases rooted with
      | true =>
        have hk0 := hk rfl
        subst hk0
        exact ⟨0, [], by simp [cleanStep], by simp, fun _ => rfl⟩
      | false =>
        refine ⟨k + 1, [], ?_, by simp, by simp⟩
        rw [List.nil_append, cleanStep_dotdot_dots]
        simp
  · push_neg at h0
    have hr : isReal e := ⟨h0.1, h0.2, h2, he⟩
    refine ⟨k, e :: reals, ?_, ?_, hk⟩
    · rw [cleanStep_real _ _ _ hr]
      simp
    · intro x hx
      rcases List.mem_cons.1 hx with hx | hx
      · rw [hx]; exact hr
      · exact hreals x hx

theorem foldl_cleanStep_stack (rooted : Bool) (es : List Str) (hes : ∀ e ∈ es, '/' ∉ e)
    (k : Nat) (reals : List Str) (hreals : ∀ x ∈ reals, isReal x)
    (hk : rooted = true → k = 0) :
    ∃ k2 reals2, es.foldl (cleanStep rooted) (reals ++ List.replicate k ['.', '.']) =
        reals2 ++ List.replicate k2 ['.', '.'] ∧
      (∀ x ∈ reals2, isReal x) ∧ (rooted = true → k2 = 0) := by
  induction es generalizing k reals with
  | nil => exact ⟨k, reals, rfl, hreals, hk⟩
  | cons e rest ih =>
    obtain ⟨k1, reals1, h1, hr1, hk1⟩ :=
      cleanStep_stack rooted e (hes e (List.mem_cons_self _ _)) k reals hreals hk
    rw [List.foldl_cons, h1]
    exact ih (fun x hx => hes x (List.mem_cons_of_mem _ hx)) k1 reals1 hr1 hk1

/-- `Clean` returns the text of a normal element list. -/
theorem Clean_normal (path : Str) :
    ∃ es, Normal (isRooted path) es ∧ Clean path = renderPath (isRooted path) es := by
  obtain ⟨k, reals, h, hr, hk⟩ :=
    foldl_cleanStep_stack (isRooted path) (splitSlash path) (splitSlash_elems path) 0 []
      (by simp) (fun _ => rfl)
  simp only [List.replicate_zero, List.append_nil] at h
  refine ⟨(reals ++ List.replicate k ['.', '.']).reverse, ⟨k, reals.reverse, ?_, ?_, hk⟩, ?_⟩
  · simp
  · intro x hx
    exact hr x (List.mem_reverse.1 hx)
  · unfold Clean
    simp only [isRooted] at h ⊢
    rw [h]

theorem foldl_cleanStep_reals (rooted : Bool) (reals st : List Str)
    (h : ∀ e ∈ reals, isReal e) :
    reals.foldl (cleanStep rooted) st = reals.reverse ++ st := by
  induction reals generalizing st with
  | nil => rfl
  | cons e rest ih =>
    rw [List.foldl_cons, cleanStep_real _ _ _ (h e (List.mem_cons_self _ _)),
      ih _ (fun x hx => h x (List.mem_cons_of_mem _ hx))]
    simp

theorem foldl_cleanStep_dots (j k : Nat) :
    (List.replicate k ['.', '.']).foldl (cleanStep false) (List.replicate j ['.', '.']) =
      List.replicate (j + k) ['.', '.'] := by
  induction k generalizing j with
  | zero => rfl
  | succ k ih =>
    rw [List.replicate_succ, List.foldl_cons, cleanStep_dotdot_dots, ih]
    congr 1
    omega

/-- Running the loop of `Clean` over a normal element list writes that list. -/
theorem foldl_cleanStep_normal (rooted : Bool) (es : List Str) (h : Normal rooted es) :
    es.foldl (cleanStep rooted) [] = es.reverse := by
  obtain ⟨k, reals, rfl, hr, hk⟩ := h
  cases rooted with
  | true =>
    have := hk rfl
    subst this
    simp only [List.replicate_zero, List.nil_append]
    rw [foldl_cleanStep_reals _ _ _ hr]
    simp
  | false =>
    rw [List.foldl_append]
    have := foldl_cleanStep_dots 0 k
    simp only [List.replicate_zero, Nat.zero_add] at this
    rw [this, foldl_cleanStep_reals _ _ _ hr]
    simp

theorem Normal_elems {rooted : Bool} {es : List Str} (h : Normal rooted es) :
    ∀ e ∈ es, e ≠ [] ∧ e ≠ ['.'] ∧ '/' ∉ e := by
  obtain ⟨k, reals, rfl, hr, _⟩ := h
  intro e he
  rcases List.mem_append.1 he with he | he
  · have := List.eq_of_mem_replicate he
    subst this
    exact ⟨by simp, by simp, by decide⟩
  · exact ⟨(hr e he).1, (hr e he).2.1, (hr e he).2.2.2⟩

theorem Normal_tail {rooted : Bool} {e : Str} {es : List Str} (h : Normal rooted (e :: es)) :
    Normal rooted es := by
  obtain ⟨k, reals, heq, hr, hk⟩ := h
  cases k with
  | zero =>
    simp only [List.replicate_zero, List.nil_append] at heq
    cases reals with
    | nil => cases heq
    | cons r rs =>
      simp only [List.cons.injEq] at heq
      exact ⟨0, rs, by simp [heq.2], fun x hx => hr x (List.mem_cons_of_mem _ hx), fun _ => rfl⟩
  | succ k =>
    simp only [List.replicate_succ, List.cons_append, List.cons.injEq] at heq
    refine ⟨k, reals, heq.2, hr, fun h => ?_⟩
    have := hk h
    omega


/-! ## The text of a normal element list -/

theorem joinSlash_head {rooted : Bool} {es : List Str} (h : Normal rooted es) (hne : es ≠ []) :
    ∃ c rest, joinSlash es = c :: rest ∧ c ≠ '/' := by
  cases es with
  | nil => exact absurd rfl hne
  | cons e rest =>
    obtain ⟨h0, _, hs⟩ := Normal_elems h e (List.mem_cons_self _ _)
    cases e with
    | nil => exact absurd rfl h0
    | cons c cs =>
      have hc : c ≠ '/' := fun hc => hs (by simp [hc])
      cases rest with
      | nil => exact ⟨c, cs, by rw [joinSlash_singleton], hc⟩
      | cons e2 rest2 => exact ⟨c, _, by rw [joinSlash_cons_cons]; rfl, hc⟩

theorem isRooted_cons (c : Char) (s : Str) : isRooted (c :: s) = decide (c = '/') := by
  simp only [isRooted, HasPrefix, List.isPrefixOf_cons₂, List.isPrefixOf_nil_left,
    Bool.and_true]
  by_cases h : c = '/'
  · simp [h]
  · have h2 : ¬ ('/' = c) := fun h2 => h h2.symm
    simp [h, h2]

theorem isRooted_renderPath {rooted : Bool} {es : List Str} (h : Normal rooted es) :
    isRooted (renderPath rooted es) = rooted := by
  cases rooted with
  | true => simp [renderPath, isRooted_cons]
  | false =>
    by_cases hne : es = []
    · subst hne
      simp [renderPath, isRooted_cons]
    · obtain ⟨c, rest, hj, hc⟩ := joinSlash_head h hne
      simp [renderPath, hne, hj, isRooted_cons, hc]

theorem splitSlash_renderPath {rooted : Bool} {es : List Str} (h : Normal rooted es) :
    splitSlash (renderPath rooted es) =
      (if rooted then [[]] else []) ++
        (if es = [] then (if rooted then [[]] else [['.']]) else es) := by
  have hs : ∀ e ∈ es, '/' ∉ e := fun e he => (Normal_elems h e he).2.2
  cases rooted with
  | true =>
    by_cases hne : es = []
    · subst hne
      simp [renderPath, joinSlash_nil, splitSlash]
    · simp [renderPath, splitSlash_cons_slash, splitSlash_joinSlash es hne hs, hne]
  | false =>
    by_cases hne : es = []
    · subst hne
      simp [renderPath, splitSlash]
    · simp [renderPath, splitSlash_joinSlash es hne hs, hne]

/-- `Clean` leaves the text of a normal element list as it is. -/
theorem Clean_renderPath {rooted : Bool} {es : List Str} (h : Normal rooted es) :
    Clean (renderPath rooted es) = renderPath rooted es := by
  unfold Clean
  have hr : HasPrefix (renderPath rooted es) ['/'] = rooted := isRooted_renderPath h
  rw [hr, splitSlash_renderPath h]
  by_cases hne : es = []
  · subst hne
    cases rooted <;> simp [cleanStep]
  · cases rooted with
    | true =>
      simp only [if_true, if_neg hne, List.singleton_append, List.foldl_cons]
      rw [cleanStep_skip _ _ _ (Or.inl rfl), foldl_cleanStep_normal _ _ h]
      simp
    | false =>
      simp only [Bool.false_eq_true, if_false, if_neg hne, List.nil_append]
      rw [foldl_cleanStep_normal _ _ h]
      simp

theorem Clean_idem (path : Str) : Clean (Clean path) = Clean path := by
  obtain ⟨es, hn, he⟩ := Clean_normal path
  rw [he, Clean_renderPath hn]

/-- The components of the text of a normal element list are its elements. -/
theorem components_renderPath {rooted : Bool} {es : List Str} (h : Normal rooted es) :
    components (renderPath rooted es) = es := by
  unfold components
  rw [splitSlash_renderPath h]
  have hall : es.filter (fun e => !e.isEmpty && decide (e ≠ ['.'])) = es := by
    rw [List.filter_eq_self]
    intro e he
    obtain ⟨h0, h1, _⟩ := Normal_elems h e he
    cases e with
    | nil => exact absurd rfl h0
    | cons c cs => simp [h1]
  by_cases hne : es = []
  · subst hne
    cases rooted <;> simp
  · cases rooted with
    | true =>
      simp only [if_true, if_neg hne, List.singleton_append]
      rw [List.filter_cons_of_neg (by simp), hall]
    | false =>
      simp only [Bool.false_eq_true, if_false, if_neg hne, List.nil_append]
      exact hall

/-- The text of a normal element list determines the list. -/
theorem renderPath_inj {r1 r2 : Bool} {es1 es2 : List Str} (h1 : Normal r1 es1)
    (h2 : Normal r2 es2) (h : renderPath r1 es1 = renderPath r2 es2) : r1 = r2 ∧ es1 = es2 := by
  constructor
  · rw [← isRooted_renderPath h1, ← isRooted_renderPath h2, h]
  · rw [← components_renderPath h1, ← components_renderPath h2, h]

/-- The elements `Rel` walks over, for the text of a normal element list: an
empty element for the root of an absolute path, then the elements. For the
relative path without elements the text is `.`, which `Rel` replaces by the
empty string when it is the base. -/
theorem relElems_renderPath {rooted : Bool} {es : List Str} (h : Normal rooted es)
    (hne : rooted = true ∨ es ≠ []) :
    relElems (renderPath rooted es) = (if rooted then [[]] else []) ++ es := by
  unfold relElems
  rw [splitSlash_renderPath h]
  by_cases hes : es = []
  · subst hes
    rcases hne with hr | hr
    · subst hr
      simp
    · exact absurd rfl hr
  · have hlast : es.getLast? ≠ some [] := by
      intro hl
      have hm : [] ∈ es := List.mem_of_getLast?_eq_some hl
      exact (Normal_elems h [] hm).1 rfl
    have hlast2 : (es.getLast?).isSome = true := by
      cases hg : es.getLast? with
      | none => exact absurd (List.getLast?_eq_none_iff.1 hg) hes
      | some x => rfl
    cases rooted with
    | true =>
      simp only [if_true, if_neg hes, List.singleton_append]
      rw [List.getLast?_cons]
      cases hg : es.getLast? with
      | none => rw [hg] at hlast2; cases hlast2
      | some x =>
        rw [hg] at hlast
        simp only [Option.getD_some]
        rw [if_neg hlast]
    | false =>
      simp only [Bool.false_eq_true, if_false, if_neg hes, List.nil_append]
      rw [if_neg hlast]

theorem relElems_nil : relElems [] = [] := by
  simp [relElems, splitSlash]

theorem relElems_dot : relElems ['.'] = [['.']] := by
  simp [relElems, splitSlash]


/-! ## The relative path between two cleaned paths -/

theorem relLoop_common (pre B T : List Str) : relLoop (pre ++ B) (pre ++ T) = relLoop B T := by
  induction pre with
  | nil => rfl
  | cons e rest ih => simp [relLoop, ih]

/-- What the loop of `Rel` returns: the two lists without their longest common
prefix; it stops at two differing elements or at the end of one list. -/
theorem relLoop_spec (B T : List Str) :
    ∃ c bs ts stopped, relLoop B T = (bs, ts, stopped) ∧ B = c ++ bs ∧ T = c ++ ts ∧
      (stopped = true → ∃ b bs2 t ts2, bs = b :: bs2 ∧ ts = t :: ts2 ∧ t ≠ b) ∧
      (stopped = false → bs = [] ∨ ts = []) := by
  induction B generalizing T with
  | nil => exact ⟨[], [], T, false, by cases T <;> rfl, rfl, rfl, by simp, by simp⟩
  | cons b bs ih =>
    cases T with
    | nil => exact ⟨[], b :: bs, [], false, rfl, rfl, rfl, by simp, by simp⟩
    | cons t ts =>
      by_cases h : t = b
      · subst h
        obtain ⟨c, bs2, ts2, st, h1, h2, h3, h4, h5⟩ := ih ts
        refine ⟨t :: c, bs2, ts2, st, ?_, by rw [h2]; rfl, by rw [h3]; rfl, h4, h5⟩
        simp [relLoop, h1]
      · exact ⟨[], b :: bs, t :: ts, true, by simp [relLoop, h], rfl, rfl,
          fun _ => ⟨b, bs, t, ts, rfl, rfl, h⟩, by simp⟩

theorem escapes_dots (n : Nat) (hn : 0 < n) (ts : List Str) :
    escapes (joinSlash (List.replicate n ['.', '.']) ++
      (if ts ≠ [] then '/' :: joinSlash ts else [])) := by
  cases n with
  | zero => omega
  | succ n =>
    cases n with
    | zero =>
      simp only [Nat.zero_add, List.replicate_one, joinSlash_singleton]
      by_cases h : ts ≠ []
      · right
        simp [h, HasPrefix, List.isPrefixOf_cons₂]
      · left
        simp [h]
    | succ n =>
      right
      rw [List.replicate_succ, List.replicate_succ, joinSlash_cons_cons]
      simp [HasPrefix, List.isPrefixOf_cons₂]

theorem not_escapes_dot : ¬ escapes ['.'] := by
  intro h
  rcases h with h | h
  · cases h
  · revert h
    decide

/-- A joined list of elements passes the test of `SafeJoin` unless its first
element is `..`. -/
theorem escapes_joinSlash (ts : List Str) (h : ∀ e ∈ ts, e ≠ [] ∧ '/' ∉ e) :
    escapes (joinSlash ts) ↔ ts.head? = some ['.', '.'] := by
  cases ts with
  | nil =>
    simp only [joinSlash_nil, List.head?_nil, reduceCtorEq, iff_false]
    intro hc
    rcases hc with hc | hc
    · cases hc
    · revert hc
      decide
  | cons e rest =>
    obtain ⟨h0, hs⟩ := h e (List.mem_cons_self _ _)
    simp only [List.head?_cons, Option.some.injEq]
    cases rest with
    | nil =>
      rw [joinSlash_singleton]
      constructor
      · rintro (hc | hc)
        · exact hc
        · exfalso
          simp only [HasPrefix, List.isPrefixOf_iff_prefix] at hc
          obtain ⟨t, ht⟩ := hc
          exact hs (by rw [← ht]; simp)
      · exact Or.inl
    | cons e2 rest2 =>
      rw [joinSlash_cons_cons]
      constructor
      · rintro (hc | hc)
        · exfalso
          have : '/' ∈ e ++ '/' :: joinSlash (e2 :: rest2) := by simp
          rw [hc] at this
          revert this
          decide
        · match e, h0, hs with
          | [a], _, _ =>
            simp [HasPrefix, List.isPrefixOf_cons₂] at hc
          | [a, b], _, _ =>
            simp only [HasPrefix, List.cons_append, List.nil_append, List.isPrefixOf_cons₂,
              List.isPrefixOf_nil_left, Bool.and_true, Bool.and_eq_true, beq_iff_eq] at hc
            rw [← hc.1, ← hc.2.1]
          | a :: b :: c :: e3, _, hs =>
            exfalso
            simp only [HasPrefix, List.cons_append, List.isPrefixOf_cons₂,
              List.isPrefixOf_nil_left, Bool.and_true, Bool.and_eq_true, beq_iff_eq] at hc
            exact hs (by simp [← hc.2.2])
      · intro he
        right
        subst he
        simp [HasPrefix, List.isPrefixOf_cons₂]


theorem renderPath_eq_dot {rooted : Bool} {es : List Str} (h : Normal rooted es)
    (hd : renderPath rooted es = ['.']) : rooted = false ∧ es = [] := by
  have hn : Normal false [] := ⟨0, [], rfl, by simp, fun _ => rfl⟩
  have : renderPath rooted es = renderPath false [] := by rw [hd]; rfl
  exact renderPath_inj h hn this

/-- The decision of `SafeJoin` on two cleaned paths, in terms of their element
lists: `Rel` returns a path that passes the test exactly when both paths are
absolute or both relative, the elements of the base are a prefix of those of the
target, and the next element of the target is not `..`. -/
theorem Rel_accepts {r1 r2 : Bool} {B T : List Str} (hB : Normal r1 B) (hT : Normal r2 T) :
    (∃ rel, Rel (renderPath r1 B) (renderPath r2 T) = some rel ∧ ¬ escapes rel) ↔
      (r1 = r2 ∧ B <+: T ∧ (T.drop B.length).head? ≠ some ['.', '.']) := by
  unfold Rel
  simp only [Clean_renderPath hB, Clean_renderPath hT]
  by_cases heq : renderPath r2 T = renderPath r1 B
  · obtain ⟨hr, hes⟩ := renderPath_inj hT hB heq
    subst hr hes
    simp only [heq, if_true, Option.some.injEq, exists_eq_left', true_and]
    constructor
    · intro _
      exact ⟨List.prefix_refl _, by simp⟩
    · intro _
      exact not_escapes_dot
  rw [if_neg heq]
  -- the base as `Rel` reads it
  have hbase : HasPrefix (if renderPath r1 B = ['.'] then [] else renderPath r1 B) ['/'] = r1 ∧
      relElems (if renderPath r1 B = ['.'] then [] else renderPath r1 B) =
        (if r1 then [[]] else []) ++ B := by
    by_cases hd : renderPath r1 B = ['.']
    · obtain ⟨hr, hes⟩ := renderPath_eq_dot hB hd
      subst hr hes
      rw [if_pos hd]
      exact ⟨rfl, by simp [relElems_nil]⟩
    · rw [if_neg hd]
      refine ⟨isRooted_renderPath hB, relElems_renderPath hB ?_⟩
      by_contra hcon
      push_neg at hcon
      obtain ⟨hr, hes⟩ := hcon
      have hr2 : r1 = false := by simpa using hr
      subst hr2 hes
      exact hd rfl
  have htarg : HasPrefix (renderPath r2 T) ['/'] = r2 := isRooted_renderPath hT
  rw [hbase.1, htarg, hbase.2]
  by_cases hr : r1 = r2
  swap
  · simp [hr]
  subst hr
  simp only [ne_eq, not_true_eq_false, if_false, true_and]
  -- the target as `Rel` reads it
  obtain ⟨T2, hT2, hTT2⟩ : ∃ T2, relElems (renderPath r1 T) = (if r1 then [[]] else []) ++ T2 ∧
      (T2 = T ∨ (T = [] ∧ r1 = false ∧ T2 = [['.']])) := by
    by_cases hne : r1 = true ∨ T ≠ []
    · exact ⟨T, relElems_renderPath hT hne, Or.inl rfl⟩
    · push_neg at hne
      obtain ⟨hr, hes⟩ := hne
      have hr2 : r1 = false := by simpa using hr
      subst hr2 hes
      exact ⟨[['.']], by simp [renderPath, relElems_dot], Or.inr ⟨rfl, rfl, rfl⟩⟩
  rw [hT2, relLoop_common]
  obtain ⟨c, bs, ts, stopped, hloop, hBc, hTc, hstop, hnostop⟩ := relLoop_spec B T2
  rw [hloop]
  simp only
  by_cases hbs : bs = []
  · -- the base is used up: the rest of the target is the relative path
    subst hbs
    simp only [List.append_nil] at hBc
    subst hBc
    have hstopped : stopped = false := by
      cases stopped with
      | false => rfl
      | true =>
        obtain ⟨b, bs2, _, _, h, _⟩ := hstop rfl
        cases h
    subst hstopped
    have hT2T : T2 = T := by
      rcases hTT2 with h | ⟨hTnil, hr, h2⟩
      · exact h
      · exfalso
        subst hTnil hr
        rw [h2] at hTc
        have hB0 : B = [] := by
          cases B with
          | nil => rfl
          | cons b rest =>
            simp only [List.cons_append, List.cons.injEq] at hTc
            have := (Normal_elems hB b (List.mem_cons_self _ _)).2.1
            exact absurd hTc.1.symm this
        subst hB0
        exact heq rfl
    subst hT2T
    simp only [Bool.false_eq_true, false_and, if_false, ne_eq, not_true_eq_false,
      Option.some.injEq, exists_eq_left']
    have hts : ∀ e ∈ ts, e ≠ [] ∧ '/' ∉ e := by
      intro e he
      have := Normal_elems hT e (by rw [hTc]; exact List.mem_append_right _ he)
      exact ⟨this.1, this.2.2⟩
    rw [escapes_joinSlash ts hts, hTc, List.drop_left]
    constructor
    · intro h
      exact ⟨List.prefix_append _ _, h⟩
    · intro h
      exact h.2
  · -- base elements are left: the relative path climbs
    have hleft : ¬ (∃ rel, (if stopped = true ∧ bs.head? = some ['.', '.'] then none
        else if bs ≠ [] then
          some (joinSlash (List.replicate bs.length ['.', '.']) ++
            if ts ≠ [] then '/' :: joinSlash ts else [])
        else some (joinSlash ts)) = some rel ∧ ¬ escapes rel) := by
      rintro ⟨rel, hrel, hesc⟩
      split at hrel
      · cases hrel
      · simp only [Option.some.injEq] at hrel
        rw [← hrel] at hesc
        exact hesc (escapes_dots bs.length (List.length_pos.2 hbs) ts)
    have hright : ¬ (B <+: T ∧ (T.drop B.length).head? ≠ some ['.', '.']) := by
      rintro ⟨hpre, _⟩
      rcases hTT2 with h | ⟨hTnil, _, _⟩
      · subst h
        rw [hBc, hTc] at hpre
        have hpre2 : bs <+: ts := (List.prefix_append_right_inj c).1 hpre
        cases stopped with
        | true =>
          obtain ⟨b, bs2, t, ts2, h1, h2, hne⟩ := hstop rfl
          rw [h1, h2] at hpre2
          obtain ⟨u, hu⟩ := hpre2
          simp only [List.cons_append, List.cons.injEq] at hu
          exact hne hu.1.symm
        | false =>
          rcases hnostop rfl with h | h
          · exact hbs h
          · rw [h] at hpre2
            exact hbs (List.prefix_nil.1 hpre2)
      · subst hTnil
        have hB0 : B = [] := List.prefix_nil.1 hpre
        rw [hB0] at hBc
        have : bs = [] := by
          cases c with
          | nil => simpa using hBc.symm
          | cons x xs => cases hBc
        exact hbs this
    constructor
    · intro h
      exact absurd h hleft
    · intro h
      exact absurd h hright


/-! ## `SafeJoin` -/

theorem Clean_eq (path : Str) : Clean path = renderPath (isRooted path) (cleanElems path) := rfl

theorem cleanElems_normal (path : Str) : Normal (isRooted path) (cleanElems path) := by
  obtain ⟨k, reals, h, hr, hk⟩ :=
    foldl_cleanStep_stack (isRooted path) (splitSlash path) (splitSlash_elems path) 0 []
      (by simp) (fun _ => rfl)
  simp only [List.replicate_zero, List.append_nil] at h
  refine ⟨k, reals.reverse, ?_, fun x hx => hr x (List.mem_reverse.1 hx), hk⟩
  unfold cleanElems
  simp only [isRooted] at h
  rw [h]
  simp

theorem isRooted_Clean (path : Str) : isRooted (Clean path) = isRooted path := by
  rw [Clean_eq, isRooted_renderPath (cleanElems_normal path)]

theorem components_Clean (path : Str) : components (Clean path) = cleanElems path := by
  rw [Clean_eq, components_renderPath (cleanElems_normal path)]

/-- `SafeJoin` returns the cleaned join, and it does so exactly when `Rel` finds
a relative path that neither is `..` nor starts with `../`. -/
theorem SafeJoin_ok (root : Str) (parts : List Str) (q : Str) :
    SafeJoin root parts = .ok q ↔
      (q = Clean (Join (root :: parts)) ∧
        ∃ rel, Rel (Clean root) (Clean (Join (root :: parts))) = some rel ∧ ¬ escapes rel) := by
  unfold SafeJoin
  simp only
  cases hrel : Rel (Clean root) (Clean (Join (root :: parts))) with
  | none => simp
  | some rel =>
    simp only [Option.some.injEq, exists_eq_left']
    by_cases hesc : rel = ['.', '.'] ∨ HasPrefix rel ['.', '.', '/'] = true
    · rw [if_pos hesc]
      simp only [reduceCtorEq, false_iff, not_and, not_not]
      intro _
      exact hesc
    · rw [if_neg hesc]
      simp only [Except.ok.injEq]
      constructor
      · intro h
        exact ⟨h.symm, hesc⟩
      · intro h
        exact h.1.symm

theorem SafeJoin_cases (root : Str) (parts : List Str) :
    SafeJoin root parts = .ok (Clean (Join (root :: parts))) ∨
      ∃ err, SafeJoin root parts = .error err := by
  cases h : SafeJoin root parts with
  | error e => exact Or.inr ⟨e, rfl⟩
  | ok q =>
    left
    rw [((SafeJoin_ok root parts q).1 h).1]

theorem staysWithin_iff (p1 p2 : Str) :
    staysWithin (Clean p1) (Clean p2) = true ↔
      (isRooted p1 = isRooted p2 ∧ cleanElems p1 <+: cleanElems p2 ∧
        ((cleanElems p2).drop (cleanElems p1).length).head? ≠ some ['.', '.']) := by
  unfold staysWithin
  rw [isRooted_Clean, isRooted_Clean, components_Clean, components_Clean]
  simp only [Bool.and_eq_true, beq_iff_eq, List.isPrefixOf_iff_prefix, decide_eq_true_eq,
    and_assoc]

theorem Rel_accepts_Clean (p1 p2 : Str) :
    (∃ rel, Rel (Clean p1) (Clean p2) = some rel ∧ ¬ escapes rel) ↔
      staysWithin (Clean p1) (Clean p2) = true := by
  rw [staysWithin_iff, Clean_eq p1, Clean_eq p2]
  exact Rel_accepts (cleanElems_normal p1) (cleanElems_normal p2)

/-- C1, stated as it is written, fails: for the root `..` and the segment `..`
the cleaned root `..` is a component-wise prefix of the cleaned join `../..`,
and `SafeJoin` returns an error. -/
theorem SafeJoin_prefix_not_sufficient :
    Clean "..".toList = "..".toList ∧ Clean (Join ["..".toList, "..".toList]) = "../..".toList ∧
      liesBeneath (Clean "..".toList) (Clean (Join ["..".toList, "..".toList])) = true ∧
      SafeJoin "..".toList ["..".toList] = .error (.escape "../..".toList) := by
  decide

/-- C1, amended: `SafeJoin` returns a path exactly when the cleaned root and the
cleaned join are both absolute or both relative, the components of the cleaned
root are a prefix of the components of the cleaned join, and the first component
of the join after that prefix is not `..`; the path it returns is the cleaned
join; in every other case it returns an error. -/
theorem SafeJoin_ok_iff (root : Str) (parts : List Str) :
    (∀ q, SafeJoin root parts = .ok q ↔
      (q = Clean (Join (root :: parts)) ∧
        staysWithin (Clean root) (Clean (Join (root :: parts))) = true)) ∧
    ((∃ err, SafeJoin root parts = .error err) ↔
      staysWithin (Clean root) (Clean (Join (root :: parts))) = false) := by
  have hq : ∀ q, SafeJoin root parts = .ok q ↔
      (q = Clean (Join (root :: parts)) ∧
        staysWithin (Clean root) (Clean (Join (root :: parts))) = true) := by
    intro q
    rw [SafeJoin_ok, Rel_accepts_Clean]
  refine ⟨hq, ?_⟩
  constructor
  · rintro ⟨err, herr⟩
    by_contra hcon
    have hs : staysWithin (Clean root) (Clean (Join (root :: parts))) = true := by
      simpa using hcon
    rw [(hq _).2 ⟨rfl, hs⟩] at herr
    cases herr
  · intro hs
    rcases SafeJoin_cases root parts with h | h
    · have := ((hq _).1 h).2
      rw [hs] at this
      cases this
    · exact h

/-! ## Joining valid segments -/

theorem valid_isReal {name : Str} (h : ValidateName name = .ok ()) : isReal name := by
  obtain ⟨h0, h1, h2, h3, _⟩ := (ValidateName_ok_iff name).1 h
  exact ⟨h0, h1, h2, h3⟩

theorem Normal_append_reals {rooted : Bool} {es : List Str} (h : Normal rooted es)
    (segs : List Str) (hs : ∀ s ∈ segs, isReal s) : Normal rooted (es ++ segs) := by
  obtain ⟨k, reals, rfl, hr, hk⟩ := h
  refine ⟨k, reals ++ segs, by simp, ?_, hk⟩
  intro x hx
  rcases List.mem_append.1 hx with hx | hx
  · exact hr x hx
  · exact hs x hx

theorem isRooted_append (root : Str) (s : Str) (h : root ≠ []) :
    isRooted (root ++ s) = isRooted root := by
  cases root with
  | nil => exact absurd rfl h
  | cons c cs => simp [isRooted_cons]

/-- The elements `Clean` keeps of a path followed by real segments: those of the
path, then the segments. -/
theorem cleanElems_join (root : Str) (segs : List Str) (hroot : root ≠ [])
    (hs : ∀ s ∈ segs, isReal s) :
    isRooted (joinSlash (root :: segs)) = isRooted root ∧
      cleanElems (joinSlash (root :: segs)) = cleanElems root ++ segs := by
  by_cases hne : segs = []
  · subst hne
    simp [joinSlash_singleton]
  · have hr : isRooted (joinSlash (root :: segs)) = isRooted root := by
      rw [joinSlash_cons _ _ hne, isRooted_append _ _ hroot]
    refine ⟨hr, ?_⟩
    have hr2 : HasPrefix (joinSlash (root :: segs)) ['/'] = HasPrefix root ['/'] := hr
    unfold cleanElems
    rw [hr2, joinSlash_cons _ _ hne, splitSlash_append,
      splitSlash_joinSlash segs hne (fun e he => (hs e he).2.2.2), List.foldl_append,
      foldl_cleanStep_reals _ _ _ hs]
    simp

theorem cleanElems_nil : cleanElems [] = [] := by
  simp [cleanElems, splitSlash, cleanStep]

theorem cleanElems_reals (segs : List Str) (hne : segs ≠ []) (hs : ∀ s ∈ segs, isReal s) :
    isRooted (joinSlash segs) = false ∧ cleanElems (joinSlash segs) = segs := by
  have hn : Normal false segs := ⟨0, segs, by simp, hs, by simp⟩
  obtain ⟨c, rest, hj, hc⟩ := joinSlash_head hn hne
  have hr : isRooted (joinSlash segs) = false := by
    rw [hj, isRooted_cons]
    simp [hc]
  refine ⟨hr, ?_⟩
  have hr2 : HasPrefix (joinSlash segs) ['/'] = false := hr
  unfold cleanElems
  rw [hr2, splitSlash_joinSlash segs hne (fun e he => (hs e he).2.2.2),
    foldl_cleanStep_reals _ _ _ hs]
  simp

/-- The cleaned join of a root and real segments: the cleaned root with the
segments appended, one element each. -/
theorem Clean_Join_segments (root : Str) (segs : List Str) (hs : ∀ s ∈ segs, isReal s) :
    isRooted (Clean (Join (root :: segs))) = isRooted (Clean root) ∧
      cleanElems (Clean (Join (root :: segs))) = cleanElems (Clean root) ++ segs ∧
      Clean (Join (root :: segs)) =
        renderPath (isRooted (Clean root)) (components (Clean root) ++ segs) := by
  have hroot_elems : cleanElems (Clean root) = cleanElems root := by
    rw [← components_Clean, Clean_idem, components_Clean]
  have key : isRooted (Join (root :: segs)) = isRooted root ∧
      cleanElems (Join (root :: segs)) = cleanElems root ++ segs := by
    by_cases hroot : root = []
    · subst hroot
      cases segs with
      | nil => simp [Join, cleanElems_nil]
      | cons s rest =>
        have hs0 : s ≠ [] := (hs s (List.mem_cons_self _ _)).1
        have hd : List.dropWhile (fun e : Str => e.isEmpty) ([] :: s :: rest) = s :: rest := by
          cases s with
          | nil => exact absurd rfl hs0
          | cons c cs => simp
        obtain ⟨h1, h2⟩ := cleanElems_reals (s :: rest) (by simp) hs
        simp only [Join, hd]
        rw [isRooted_Clean, ← components_Clean, Clean_idem, components_Clean, h1, h2,
          cleanElems_nil]
        simp [isRooted, HasPrefix]
    · have hd : List.dropWhile (fun e : Str => e.isEmpty) (root :: segs) = root :: segs := by
        cases root with
        | nil => exact absurd rfl hroot
        | cons c cs => simp
      obtain ⟨h1, h2⟩ := cleanElems_join root segs hroot hs
      simp only [Join, hd]
      rw [isRooted_Clean, ← components_Clean, Clean_idem, components_Clean, h1, h2]
      exact ⟨rfl, rfl⟩
  have h1 : isRooted (Clean (Join (root :: segs))) = isRooted (Clean root) := by
    rw [isRooted_Clean, isRooted_Clean, key.1]
  have h2 : cleanElems (Clean (Join (root :: segs))) = cleanElems (Clean root) ++ segs := by
    rw [hroot_elems, ← components_Clean (Clean (Join (root :: segs))), Clean_idem,
      components_Clean, key.2]
  refine ⟨h1, h2, ?_⟩
  rw [Clean_eq (Join (root :: segs)), key.1, key.2, isRooted_Clean, components_Clean]

/-- `SafeJoin` on valid segments succeeds. -/
theorem SafeJoin_valid (root : Str) (segs : List Str)
    (h : ∀ s ∈ segs, ValidateName s = .ok ()) :
    SafeJoin root segs = .ok (Clean (Join (root :: segs))) := by
  have hs : ∀ s ∈ segs, isReal s := fun s hs => valid_isReal (h s hs)
  obtain ⟨h1, h2, _⟩ := Clean_Join_segments root segs hs
  rw [SafeJoin_ok, Rel_accepts_Clean, staysWithin_iff]
  have e1 : cleanElems (Join (root :: segs)) = cleanElems root ++ segs := by
    rw [← components_Clean, ← Clean_idem, components_Clean, h2, ← components_Clean (Clean root),
      Clean_idem, components_Clean]
  have e2 : isRooted (Join (root :: segs)) = isRooted root := by
    rw [← isRooted_Clean, h1, isRooted_Clean]
  refine ⟨rfl, e2.symm, ?_, ?_⟩
  · rw [e1]
    exact List.prefix_append _ _
  · rw [e1, List.drop_left]
    cases segs with
    | nil => simp
    | cons s rest =>
      simp only [List.head?_cons, ne_eq, Option.some.injEq]
      exact (hs s (List.mem_cons_self _ _)).2.2.1

/-! ## The errors of `Apply` -/

theorem chmodIfNeeded_error {σ : Type} (os : FileSys σ) (path : Str) (mode : FileMode)
    (r : Run σ) (e : ApplyError) (h : (chmodIfNeeded os path mode r).1 = some e) :
    e.isFileSystem = true := by
  unfold chmodIfNeeded at h
  split at h
  · cases h
  · simp only [Option.some.injEq] at h
    subst h
    rfl

theorem chmodIfNeeded_error_of_eq {σ : Type} (os : FileSys σ) (path : Str) (mode : FileMode)
    (r r2 : Run σ) (e : ApplyError) (h : chmodIfNeeded os path mode r = (some e, r2)) :
    e.isFileSystem = true :=
  chmodIfNeeded_error os path mode r e (by rw [h])

theorem ensureDir_error {σ : Type} (os : FileSys σ) (a : ApplyArgs) (path : Str)
    (r : Run σ) (e : ApplyError) (h : (ensureDir os a path r).1 = some e) :
    e.isFileSystem = true := by
  unfold ensureDir at h
  simp only at h
  split at h <;> (try split at h) <;> (try split at h) <;> (try split at h) <;>
    first
    | (cases h; done)
    | (simp only [Option.some.injEq] at h; subst h; rfl)
    | exact chmodIfNeeded_error _ _ _ _ _ h
    | (simp only [Option.some.injEq] at h; subst h
       exact chmodIfNeeded_error_of_eq _ _ _ _ _ _ (by assumption))

theorem ensureDir_error_of_eq {σ : Type} (os : FileSys σ) (a : ApplyArgs) (path : Str)
    (r r2 : Run σ) (e : ApplyError) (h : ensureDir os a path r = (some e, r2)) :
    e.isFileSystem = true :=
  ensureDir_error os a path r e (by rw [h])

theorem ensureFile_error {σ : Type} (os : FileSys σ) (a : ApplyArgs) (path : Str)
    (r : Run σ) (e : ApplyError) (h : (ensureFile os a path r).1 = some e) :
    e.isFileSystem = true := by
  unfold ensureFile at h
  simp only at h
  split at h <;> (try split at h) <;> (try split at h) <;> (try split at h) <;>
    (try split at h) <;> (try split at h) <;> (try split at h) <;>
    first
    | (cases h; done)
    | (simp only [Option.some.injEq] at h; subst h; rfl)
    | exact chmodIfNeeded_error _ _ _ _ _ h
    | (simp only [Option.some.injEq] at h; subst h
       exact chmodIfNeeded_error_of_eq _ _ _ _ _ _ (by assumption))
    | (simp only [Option.some.injEq] at h; subst h
       exact ensureDir_error_of_eq _ _ _ _ _ _ (by assumption))

theorem ensureFile_error_of_eq {σ : Type} (os : FileSys σ) (a : ApplyArgs) (path : Str)
    (r r2 : Run σ) (e : ApplyError) (h : ensureFile os a path r = (some e, r2)) :
    e.isFileSystem = true :=
  ensureFile_error os a path r e (by rw [h])

theorem applyRoot_error {σ : Type} (os : FileSys σ) (a : ApplyArgs) (r : Run σ)
    (e : ApplyError) (h : (applyRoot os a r).1 = some e) : e.isFileSystem = true := by
  unfold applyRoot at h
  split at h
  · cases h
  · split at h
    · simp only [Option.some.injEq] at h
      subst h
      rfl
    · exact chmodIfNeeded_error _ _ _ _ e h


/-- The loop of `Apply` on nodes with valid names: it ends without error only if
no node exceeds the stack, and an error it returns comes from the file system or
is the nesting error of a node that exceeds the stack; it is never an error of
`SafeJoin`. -/
theorem applyNodes_kinds {σ : Type} (os : FileSys σ) (a : ApplyArgs) (nodes : List Node)
    (hvalid : ∀ n ∈ nodes, ValidateName n.Name = .ok ()) (stack : List Str)
    (hstack : ∀ s ∈ stack, ValidateName s = .ok ()) (r : Run σ) :
    ((applyNodes os a nodes stack r).1 = none → exceedsStack stack.length nodes = false) ∧
    (∀ e, (applyNodes os a nodes stack r).1 = some e →
      e.isFileSystem = true ∨ (e.isNesting = true ∧ exceedsStack stack.length nodes = true)) := by
  induction nodes generalizing stack r with
  | nil =>
    simp [applyNodes, exceedsStack]
  | cons n rest ih =>
    have hrest : ∀ m ∈ rest, ValidateName m.Name = .ok () :=
      fun m hm => hvalid m (List.mem_cons_of_mem _ hm)
    have hn : ValidateName n.Name = .ok () := hvalid n (List.mem_cons_self _ _)
    by_cases hdeep : n.Depth > stack.length
    · simp [applyNodes, exceedsStack, hdeep, ApplyError.isNesting]
    · -- the stack as the node finds it
      obtain ⟨stack2, hstack2, hlen2, hvalid2⟩ :
          ∃ stack2, (if n.Depth < stack.length then stack.take n.Depth else stack) = stack2 ∧
            stack2.length = n.Depth ∧ ∀ s ∈ stack2, ValidateName s = .ok () := by
        refine ⟨_, rfl, ?_, ?_⟩
        · split
          · rw [List.length_take]
            omega
          · omega
        · intro s hs
          split at hs
          · exact hstack s (List.mem_of_mem_take hs)
          · exact hstack s hs
      have hjoin := SafeJoin_valid a.DestRoot (stack2 ++ [n.Name]) (by
        intro s hs
        rcases List.mem_append.1 hs with hs | hs
        · exact hvalid2 s hs
        · rw [List.mem_singleton.1 hs]
          exact hn)
      have hpush : ∀ s ∈ stack2 ++ [n.Name], ValidateName s = .ok () := by
        intro s hs
        rcases List.mem_append.1 hs with hs | hs
        · exact hvalid2 s hs
        · rw [List.mem_singleton.1 hs]
          exact hn
      have hex : exceedsStack stack.length (n :: rest) =
          exceedsStack (if n.Dir then n.Depth + 1 else n.Depth) rest := by
        simp [exceedsStack, hdeep]
      rw [hex]
      unfold applyNodes
      simp only [hdeep, if_false, hstack2, hjoin]
      cases hd : n.Dir with
      | true =>
        simp only [if_true]
        cases hens : ensureDir os a (Clean (Join (a.DestRoot :: (stack2 ++ [n.Name])))) r with
        | mk err r2 =>
          cases err with
          | some e0 =>
            simp only [reduceCtorEq, false_implies, Option.some.injEq, true_and]
            intro e he
            subst he
            exact Or.inl (ensureDir_error_of_eq _ _ _ _ _ _ hens)
          | none =>
            simp only
            have := ih hrest (stack2 ++ [n.Name]) hpush r2
            simpa [hlen2] using this
      | false =>
        simp only [Bool.false_eq_true, if_false]
        cases hens : ensureFile os a (Clean (Join (a.DestRoot :: (stack2 ++ [n.Name])))) r with
        | mk err r2 =>
          cases err with
          | some e0 =>
            simp only [reduceCtorEq, false_implies, Option.some.injEq, true_and]
            intro e he
            subst he
            exact Or.inl (ensureFile_error_of_eq _ _ _ _ _ _ hens)
          | none =>
            simp only
            have := ih hrest stack2 hvalid2 r2
            simpa [hlen2] using this

/-- `Apply` on a plan with valid node names, like its loop. -/
theorem Apply_kinds {σ : Type} (os : FileSys σ) (a : ApplyArgs) (fs : σ)
    (hvalid : ∀ n ∈ a.Plan.Nodes, ValidateName n.Name = .ok ()) :
    ((Apply os a fs).1 = none → exceedsStack 0 a.Plan.Nodes = false) ∧
    (∀ e, (Apply os a fs).1 = some e →
      e.isFileSystem = true ∨ (e.isNesting = true ∧ exceedsStack 0 a.Plan.Nodes = true)) := by
  unfold Apply
  cases hroot : applyRoot os a { fs := fs, out := [] } with
  | mk err r =>
    cases err with
    | some e0 =>
      simp only [reduceCtorEq, false_implies, Option.some.injEq, true_and]
      intro e he
      subst he
      exact Or.inl (applyRoot_error os a _ _ (by rw [hroot]))
    | none =>
      simp only
      exact applyNodes_kinds os a a.Plan.Nodes hvalid [] (by simp) _

/-- C4: for valid segments `SafeJoin` succeeds and returns the cleaned root with
the segments appended in order, one component each; hence `Apply` never fails
with an error of `SafeJoin` on a plan whose node names are all valid. -/
theorem SafeJoin_valid_segments (root : Str) (segs : List Str)
    (h : ∀ s ∈ segs, ValidateName s = .ok ()) :
    (∃ q, SafeJoin root segs = .ok q ∧
      isRooted q = isRooted (Clean root) ∧
      components q = components (Clean root) ++ segs ∧
      q = renderPath (isRooted (Clean root)) (components (Clean root) ++ segs)) ∧
    (∀ (σ : Type) (os : FileSys σ) (a : ApplyArgs) (fs : σ),
      (∀ n ∈ a.Plan.Nodes, ValidateName n.Name = .ok ()) →
        ∀ err, (Apply os a fs).1 ≠ some (.join err)) := by
  constructor
  · obtain ⟨h1, h2, h3⟩ :=
      Clean_Join_segments root segs (fun s hs => valid_isReal (h s hs))
    have hcc : ∀ x : Str, cleanElems (Clean x) = cleanElems x := fun x => by
      rw [← components_Clean (Clean x), Clean_idem, components_Clean]
    refine ⟨_, SafeJoin_valid root segs h, h1, ?_, h3⟩
    rw [components_Clean, components_Clean, ← hcc (Join (root :: segs)), h2, hcc]
  · intro σ os a fs hvalid err herr
    rcases (Apply_kinds os a fs hvalid).2 _ herr with h | h
    · cases h
    · cases h.1

/-- C4 at the root `/tmp/x` and the segments `src`, `main.go`. -/
theorem SafeJoin_valid_segments_witness :
    SafeJoin "/tmp/x".toList ["src".toList, "main.go".toList] =
      .ok "/tmp/x/src/main.go".toList ∧
    ∃ q, SafeJoin "/tmp/x".toList ["src".toList, "main.go".toList] = .ok q ∧
      isRooted q = isRooted (Clean "/tmp/x".toList) ∧
      components q = components (Clean "/tmp/x".toList) ++ ["src".toList, "main.go".toList] ∧
      q = renderPath (isRooted (Clean "/tmp/x".toList))
        (components (Clean "/tmp/x".toList) ++ ["src".toList, "main.go".toList]) :=
  ⟨by decide,
    (SafeJoin_valid_segments "/tmp/x".toList ["src".toList, "main.go".toList]
      (by decide)).1⟩

/-! ## Nesting errors on parsed plans -/

theorem reclassify_dirsAgree (ns : List Node) : dirsAgree (reclassify ns) := by
  induction ns with
  | nil => trivial
  | cons n rest ih =>
    cases rest with
    | nil => trivial
    | cons m rest2 =>
      have hhead : ∃ m2 rest3, reclassify (m :: rest2) = m2 :: rest3 ∧ m2.Depth = m.Depth := by
        cases rest2 with
        | nil => exact ⟨m, [], rfl, rfl⟩
        | cons k rest4 =>
          refine ⟨_, _, rfl, ?_⟩
          split <;> rfl
      obtain ⟨m2, rest3, hm2, hdepth⟩ := hhead
      have hrec : reclassify (n :: m :: rest2) =
          (if !n.Dir ∧ m.Depth > n.Depth then { n with Dir := true } else n) ::
            reclassify (m :: rest2) := rfl
      rw [hrec, hm2]
      rw [hm2] at ih
      refine ⟨?_, ih⟩
      intro hd
      rw [hdepth] at hd
      split
      · rfl
      · rename_i hc
        have hd2 : m.Depth > n.Depth := by
          split at hd <;> exact hd
        by_contra hdir
        exact hc ⟨by simpa using hdir, hd2⟩

/-- On nodes whose directory flags agree with the depths, the check of `Apply`
fails exactly at a node that is too deep for the stack at the start or more than
one level deeper than the node before it. -/
theorem exceedsStack_eq (ns : List Node) (h : dirsAgree ns) (height : Nat) :
    exceedsStack height ns = (firstDeeper height ns || hasDepthStep ns) := by
  induction ns generalizing height with
  | nil => rfl
  | cons n rest ih =>
    cases rest with
    | nil => simp [exceedsStack, hasDepthStep, firstDeeper]
    | cons m rest2 =>
      have hag : dirsAgree (m :: rest2) := h.2
      have hdir := h.1
      rw [exceedsStack, ih hag, hasDepthStep]
      simp only [firstDeeper]
      congr 1
      congr 1
      cases hd : n.Dir with
      | true => simp
      | false =>
        simp only [Bool.false_eq_true, if_false]
        have hle : ¬ (m.Depth > n.Depth) := by
          intro hgt
          rw [hdir hgt] at hd
          cases hd
        have hle2 : ¬ (m.Depth > n.Depth + 1) := by omega
        simp [hle, hle2]

theorem reclassify_mem_name (ns : List Node) (n : Node) (h : n ∈ reclassify ns) :
    ∃ m ∈ ns, m.Name = n.Name := by
  have h1 : n.Name ∈ (reclassify ns).map Node.Name := List.mem_map_of_mem _ h
  rw [reclassify_names] at h1
  obtain ⟨m, hm, hmn⟩ := List.mem_map.1 h1
  exact ⟨m, hm, hmn⟩

/-- The names of a plan returned by `Parse` pass `ValidateName`. -/
theorem Parse_names_valid (text : Str) (p : Plan) (h : Parse text = .ok p) :
    ∀ n ∈ p.Nodes, ValidateName n.Name = .ok () := by
  obtain ⟨_, hnodes, hlines⟩ := Parse_ok_nodes text p h
  intro n hn
  rw [hnodes] at hn
  obtain ⟨m, hm, hmn⟩ := reclassify_mem_name _ n hn
  obtain ⟨l, hl, hlm⟩ := List.mem_map.1 hm
  obtain ⟨hs, hr⟩ := hlines l hl
  simp only [rejectsNode, hs, Bool.not_false, Bool.true_and, Bool.or_eq_false_iff] at hr
  rw [← hmn, ← hlm]
  exact failed_false_iff.1 hr.2

/-- C10: on a plan returned by `Parse`, `Apply` never reports a nesting error
when the first node has depth 0 and no node is more than one level deeper than
the node before it; and a run that does not end in a file system failure ends in
a nesting error exactly when the first node is deeper than 0 or some node is more
than one level deeper than the node before it. Dry run or not. -/
theorem Apply_nesting_iff (text : Str) (p : Plan) (hparse : Parse text = .ok p)
    {σ : Type} (os : FileSys σ) (a : ApplyArgs) (fs : σ) (ha : a.Plan = p) :
    (hasDepthJump p.Nodes = false →
      ∀ e, (Apply os a fs).1 = some e → e.isNesting = false) ∧
    ((∀ e, (Apply os a fs).1 = some e → e.isFileSystem = false) →
      ((∃ e, (Apply os a fs).1 = some e ∧ e.isNesting = true) ↔
        hasDepthJump p.Nodes = true)) := by
  subst ha
  have hvalid := Parse_names_valid text a.Plan hparse
  obtain ⟨hnone, hsome⟩ := Apply_kinds os a fs hvalid
  have hagree : dirsAgree a.Plan.Nodes := by
    rw [(Parse_ok_nodes text a.Plan hparse).2.1]
    exact reclassify_dirsAgree _
  have hjump : exceedsStack 0 a.Plan.Nodes = hasDepthJump a.Plan.Nodes := by
    rw [exceedsStack_eq _ hagree 0]
    rfl
  rw [hjump] at hnone hsome
  constructor
  · intro hno e he
    rcases hsome e he with h | h
    · cases e <;> first | rfl | cases h
    · rw [hno] at h
      cases h.2
  · intro hfs
    constructor
    · rintro ⟨e, he, hnest⟩
      rcases hsome e he with h | h
      · rw [hfs e he] at h
        cases h
      · exact h.2
    · intro hj
      cases hres : (Apply os a fs).1 with
      | none =>
        rw [hnone hres] at hj
        cases hj
      | some e =>
        refine ⟨e, rfl, ?_⟩
        rcases hsome e hres with h | h
        · rw [hfs e hres] at h
          cases h
        · exact h.1

set_option maxRecDepth 100000 in
/-- C10 at a text whose first node is one level too deep, in a dry run into an
empty destination: the run ends in a nesting error. -/
theorem Apply_nesting_iff_witness :
    Parse "demo\n│   └── main.go\n".toList =
        .ok { Root := "demo".toList, Nodes := [⟨"main.go".toList, false, 1⟩] } ∧
      (Apply emptyFileSys
        (dryRunArgs { Root := "demo".toList, Nodes := [⟨"main.go".toList, false, 1⟩] }) ()).1 =
        some (.nesting "main.go".toList 1 0) ∧
      ((∃ e, (Apply emptyFileSys
          (dryRunArgs { Root := "demo".toList, Nodes := [⟨"main.go".toList, false, 1⟩] })
            ()).1 = some e ∧ e.isNesting = true) ↔
        hasDepthJump [⟨"main.go".toList, false, 1⟩] = true) :=
  ⟨by decide, by decide,
    (Apply_nesting_iff "demo\n│   └── main.go\n".toList
      { Root := "demo".toList, Nodes := [⟨"main.go".toList, false, 1⟩] } (by decide)
      emptyFileSys
      (dryRunArgs { Root := "demo".toList, Nodes := [⟨"main.go".toList, false, 1⟩] }) ()
      rfl).2
      (fun e he => by
        have hres : (Apply emptyFileSys
            (dryRunArgs { Root := "demo".toList, Nodes := [⟨"main.go".toList, false, 1⟩] })
              ()).1 = some (.nesting "main.go".toList 1 0) := by decide
        rw [hres] at he
        cases he
        rfl)⟩

/-! ## Cutting a text into lines -/

theorem rawLines_no_newline (l : Str) (h : '\n' ∉ l) (hne : l ≠ []) : rawLines l = [l] := by
  induction l with
  | nil => exact absurd rfl hne
  | cons c cs ih =>
    have hc : c ≠ '\n' := fun hc => h (by simp [hc])
    have hcs : '\n' ∉ cs := fun hcs => h (List.mem_cons_of_mem _ hcs)
    cases cs with
    | nil => simp [rawLines, hc]
    | cons d ds =>
      have := ih hcs (by simp)
      simp [rawLines, hc] at this ⊢
      rw [this]

theorem rawLines_line (l : Str) (rest : Str) (h : '\n' ∉ l) :
    rawLines (l ++ '\n' :: rest) = l :: rawLines rest := by
  induction l with
  | nil => simp [rawLines]
  | cons c cs ih =>
    have hc : c ≠ '\n' := fun hc => h (by simp [hc])
    have hcs : '\n' ∉ cs := fun hcs => h (List.mem_cons_of_mem _ hcs)
    have ih2 : rawLines (cs.append ('\n' :: rest)) = cs :: rawLines rest := ih hcs
    simp only [List.cons_append, rawLines, hc, if_false]
    rw [ih2]

theorem rawLines_terminated_ne_nil (a : Str) : rawLines (a ++ ['\n']) ≠ [] := by
  induction a with
  | nil => simp [rawLines]
  | cons c cs ih =>
    by_cases hc : c = '\n'
    · simp [rawLines, hc]
    · simp only [List.cons_append, rawLines, hc, if_false]
      split <;> simp

/-- A text that ends a line, followed by more text: the lines of the two. -/
theorem rawLines_append (a b : Str) :
    rawLines (a ++ '\n' :: b) = rawLines (a ++ ['\n']) ++ rawLines b := by
  induction a with
  | nil => simp [rawLines]
  | cons c cs ih =>
    by_cases hc : c = '\n'
    · subst hc
      have ih2 : rawLines (cs.append ('\n' :: b)) = rawLines (cs ++ ['\n']) ++ rawLines b := ih
      simp [rawLines, ih]
    · have ih2 : rawLines (cs.append ('\n' :: b)) = rawLines (cs ++ ['\n']) ++ rawLines b := ih
      have ih3 : rawLines (cs.append ['\n']) = rawLines (cs ++ ['\n']) := rfl
      simp only [List.cons_append, rawLines, hc, if_false]
      rw [ih2, ih3]
      cases hs : rawLines (cs ++ ['\n']) with
      | nil => exact absurd hs (rawLines_terminated_ne_nil cs)
      | cons l ls => simp

theorem byteLen_replicate (n : Nat) (c : Char) : byteLen (List.replicate n c) = n * runeLen c := by
  induction n with
  | zero => simp [byteLen]
  | succ n ih =>
    rw [List.replicate_succ, byteLen, ih]
    ring

/-! ## Texts that trimming leaves alone -/

theorem rdropWhile_last (p : Char → Bool) (l : Str) (x : Char) (h : l.getLast? = some x)
    (hx : p x = false) : l.rdropWhile p = l := by
  induction l using List.reverseRecOn with
  | nil => rfl
  | append_singleton l a ih =>
    rw [List.getLast?_concat] at h
    simp only [Option.some.injEq] at h
    subst h
    exact List.rdropWhile_concat_neg p l a (by simp [hx])

theorem dropWhile_head (p : Char → Bool) (l : Str) (x : Char) (h : l.head? = some x)
    (hx : p x = false) : l.dropWhile p = l := by
  cases l with
  | nil => rfl
  | cons a as =>
    simp only [List.head?_cons, Option.some.injEq] at h
    subst h
    exact List.dropWhile_cons_of_neg (by simp [hx])

theorem noOuterSpace_iff (s : Str) :
    noOuterSpace s = true ↔
      (∀ c, s.head? = some c → isSpace c = false) ∧
        (∀ c, s.getLast? = some c → isSpace c = false) := by
  unfold noOuterSpace
  cases hh : s.head? <;> cases hl : s.getLast? <;> simp [Option.all]

/-- A text without leading and trailing white space is its own trimmed form. -/
theorem TrimSpace_noOuterSpace (s : Str) (h : noOuterSpace s = true) : TrimSpace s = s := by
  obtain ⟨h1, h2⟩ := (noOuterSpace_iff s).1 h
  unfold TrimSpace
  cases hh : s.head? with
  | none =>
    have : s = [] := by simpa using hh
    subst this
    rfl
  | some c =>
    rw [dropWhile_head isSpace s c hh (h1 c hh)]
    cases hl : s.getLast? with
    | none =>
      have : s = [] := List.getLast?_eq_none_iff.1 hl
      subst this
      rfl
    | some d => exact rdropWhile_last isSpace s d hl (h2 d hl)

theorem HasSuffix_single (s : Str) (x : Char) : HasSuffix s [x] = true ↔ s.getLast? = some x := by
  unfold HasSuffix
  rw [List.isSuffixOf_iff_suffix]
  constructor
  · rintro ⟨t, rfl⟩
    simp
  · intro h
    induction s using List.reverseRecOn with
    | nil => simp at h
    | append_singleton l a ih =>
      rw [List.getLast?_concat] at h
      simp only [Option.some.injEq] at h
      subst h
      exact ⟨l, rfl⟩

theorem TrimSuffix_not (s suffix : Str) (h : HasSuffix s suffix = false) :
    TrimSuffix s suffix = s := by
  simp [TrimSuffix, h]

theorem TrimSuffix_append (s suffix : Str) : TrimSuffix (s ++ suffix) suffix = s := by
  have : HasSuffix (s ++ suffix) suffix = true := by
    unfold HasSuffix
    rw [List.isSuffixOf_iff_suffix]
    exact List.suffix_append _ _
  simp [TrimSuffix, this]

/-- A line whose last rune is not white space reaches `Parse` as it is: neither
the scanner nor `TrimRight` removes anything. -/
theorem lineOf_dropCR (l : Str) (x : Char) (h : l.getLast? = some x) (hx : isSpace x = false) :
    dropCR l = l ∧ lineOf l = l := by
  have hr : x ≠ '\r' := by
    rintro rfl
    revert hx
    decide
  have hn : x ≠ '\n' := by
    rintro rfl
    revert hx
    decide
  constructor
  · unfold dropCR
    apply TrimSuffix_not
    cases hs : HasSuffix l ['\r'] with
    | false => rfl
    | true =>
      rw [HasSuffix_single, h] at hs
      simp only [Option.some.injEq] at hs
      exact absurd hs hr
  · unfold lineOf TrimRight
    apply rdropWhile_last _ l x h
    simp [hr, hn]

theorem getLast?_append_ne_nil (a b : Str) (h : b ≠ []) : (a ++ b).getLast? = b.getLast? := by
  rw [List.getLast?_append]
  cases hb : b.getLast? with
  | none => exact absurd (List.getLast?_eq_none_iff.1 hb) h
  | some x => rfl

theorem head?_append_ne_nil (a b : Str) (h : a ≠ []) : (a ++ b).head? = a.head? := by
  cases a with
  | nil => exact absurd rfl h
  | cons c cs => rfl

/-! ## Occurrences of a word -/

theorem indexFrom_nonneg (sub s : Str) (i : Int) (hi : 0 ≤ i) (k : Nat)
    (hk : sub.isPrefixOf (s.drop k) = true) (hle : k ≤ s.length) : 0 ≤ indexFrom sub s i := by
  induction s generalizing i k with
  | nil =>
    have : k = 0 := by simpa using hle
    subst this
    cases sub with
    | nil => simpa [indexFrom] using hi
    | cons a as => simp at hk
  | cons c cs ih =>
    unfold indexFrom
    split
    · exact hi
    · rename_i hnot
      cases k with
      | zero => exact absurd hk hnot
      | succ k => exact ih (i + 1) (by omega) k (by simpa using hk) (by simpa using hle)

/-- A word that stands between two texts is found by `Contains`. -/
theorem Contains_append (a w b : Str) : Contains (a ++ w ++ b) w = true := by
  unfold Contains Index
  rw [decide_eq_true_eq]
  apply indexFrom_nonneg w _ 0 (le_refl _) a.length
  · rw [List.append_assoc, List.drop_left, List.isPrefixOf_iff_prefix]
    exact List.prefix_append _ _
  · simp only [List.length_append]
    omega


/-! ## The summary line of `tree` -/

theorem digit_range (c : Char) (h : c.isDigit = true) : 48 ≤ c.toNat ∧ c.toNat ≤ 57 := by
  simp only [Char.isDigit, Bool.and_eq_true, decide_eq_true_eq, ge_iff_le] at h
  obtain ⟨h1, h2⟩ := h
  have h1' : (48 : UInt32).toNat ≤ c.val.toNat := h1
  have h2' : c.val.toNat ≤ (57 : UInt32).toNat := h2
  exact ⟨h1', h2'⟩

theorem digit_not_space (c : Char) (h : c.isDigit = true) : isSpace c = false := by
  obtain ⟨h1, h2⟩ := digit_range c h
  unfold isSpace
  simp only [Bool.or_eq_false_iff, Bool.and_eq_false_iff, decide_eq_false_iff_not]
  refine ⟨⟨⟨⟨⟨⟨⟨⟨⟨⟨?_, ?_⟩, ?_⟩, ?_⟩, ?_⟩, ?_⟩, ?_⟩, ?_⟩, ?_⟩, ?_⟩, ?_⟩ <;> omega

theorem digit_lower (c : Char) (h : c.isDigit = true) : toLowerRune c = c := by
  obtain ⟨h1, h2⟩ := digit_range c h
  have hA : 'A'.toNat = 65 := rfl
  have hZ : 'Z'.toNat = 90 := rfl
  unfold toLowerRune
  rw [hA, hZ, if_neg (by omega), if_neg (by omega), if_neg (by omega)]

theorem digit_not_newline (c : Char) (h : c.isDigit = true) : c ≠ '\n' := by
  rintro rfl
  revert h
  decide

theorem isNumber_iff (ds : Str) :
    isNumber ds = true ↔ ds ≠ [] ∧ ∀ c ∈ ds, c.isDigit = true := by
  cases ds with
  | nil => simp [isNumber]
  | cons c cs => simp [isNumber]

theorem ToLower_number (ds : Str) (h : ∀ c ∈ ds, c.isDigit = true) : ToLower ds = ds := by
  unfold ToLower
  conv_rhs => rw [← List.map_id ds]
  exact List.map_congr_left (fun c hc => digit_lower c (h c hc))

/-- What `Parse` sees of a line of the summary shape: the line as it is, which
reads as a summary. -/
theorem summaryLine_facts (dirs files : Str) (manyDirs manyFiles : Bool)
    (hd : isNumber dirs = true) (hf : isNumber files = true) :
    '\n' ∉ summaryLine dirs files manyDirs manyFiles ∧
      dropCR (summaryLine dirs files manyDirs manyFiles) =
        summaryLine dirs files manyDirs manyFiles ∧
      isSkipped (summaryLine dirs files manyDirs manyFiles) = true := by
  obtain ⟨hd0, hdd⟩ := (isNumber_iff dirs).1 hd
  obtain ⟨hf0, hfd⟩ := (isNumber_iff files).1 hf
  set s := summaryLine dirs files manyDirs manyFiles with hs
  -- first and last rune
  obtain ⟨c0, hc0, hc0d⟩ : ∃ c0, s.head? = some c0 ∧ c0.isDigit = true := by
    cases dirs with
    | nil => exact absurd rfl hd0
    | cons c cs => exact ⟨c, rfl, hdd c (List.mem_cons_self _ _)⟩
  obtain ⟨x, hx, hxs⟩ : ∃ x, s.getLast? = some x ∧ isSpace x = false := by
    cases manyFiles with
    | true =>
      refine ⟨'s', ?_, by decide⟩
      rw [hs, summaryLine, getLast?_append_ne_nil _ _ (by simp)]
      rfl
    | false =>
      refine ⟨'e', ?_, by decide⟩
      rw [hs, summaryLine, getLast?_append_ne_nil _ _ (by simp)]
      rfl
  have hnl : '\n' ∉ s := by
    intro hmem
    rw [hs, summaryLine] at hmem
    simp only [List.mem_append] at hmem
    rcases hmem with ((hmem | hmem) | hmem) | hmem
    · exact digit_not_newline _ (hdd _ hmem) rfl
    · cases manyDirs <;> revert hmem <;> decide
    · exact digit_not_newline _ (hfd _ hmem) rfl
    · cases manyFiles <;> revert hmem <;> decide
  obtain ⟨hcr, hline⟩ := lineOf_dropCR s x hx hxs
  have hnos : noOuterSpace s = true := by
    rw [noOuterSpace_iff]
    constructor
    · intro c hc
      rw [hc0] at hc
      simp only [Option.some.injEq] at hc
      rw [← hc]
      exact digit_not_space c0 hc0d
    · intro c hc
      rw [hx] at hc
      simp only [Option.some.injEq] at hc
      rw [← hc]
      exact hxs
  have htrim : TrimSpace s = s := TrimSpace_noOuterSpace s hnos
  have hlow : ToLower s = s := by
    rw [hs, summaryLine]
    unfold ToLower
    simp only [List.map_append]
    have e1 : List.map toLowerRune dirs = dirs := ToLower_number dirs hdd
    have e2 : List.map toLowerRune files = files := ToLower_number files hfd
    rw [e1, e2]
    cases manyDirs <;> cases manyFiles <;> rfl
  have hdirword : Contains s "directories".toList = true ∨ Contains s "directory".toList = true := by
    cases manyDirs with
    | true =>
      left
      have : s = (dirs ++ [' ']) ++ "directories".toList ++
          (", ".toList ++ files ++ (if manyFiles then " files".toList else " file".toList)) := by
        rw [hs, summaryLine]
        simp
      rw [this]
      exact Contains_append _ _ _
    | false =>
      right
      have : s = (dirs ++ [' ']) ++ "directory".toList ++
          (", ".toList ++ files ++ (if manyFiles then " files".toList else " file".toList)) := by
        rw [hs, summaryLine]
        simp
      rw [this]
      exact Contains_append _ _ _
  have hfileword : Contains s "file".toList = true := by
    have : s = (dirs ++ (if manyDirs then " directories, ".toList else " directory, ".toList) ++
        files ++ [' ']) ++ "file".toList ++ (if manyFiles then ['s'] else []) := by
      rw [hs, summaryLine]
      cases manyFiles <;> simp
    rw [this]
    exact Contains_append _ _ _
  refine ⟨hnl, hcr, ?_⟩
  unfold isSkipped
  rw [hline, htrim]
  unfold isTreeSummary
  simp only [hlow, htrim, hfileword, Bool.or_true, Bool.and_true, Bool.or_eq_true]
  right
  rcases hdirword with h | h
  · exact Or.inl h
  · exact Or.inr h

/-! ## Inserting a line that `Parse` passes over -/

theorem fromRoot_append (A X : List Str) (h : ∃ t ∈ A, isBlankLine t = false) :
    fromRoot (A ++ X) = fromRoot A ++ X ∧ fromRoot A ≠ [] := by
  induction A with
  | nil =>
    obtain ⟨t, ht, _⟩ := h
    simp at ht
  | cons a as ih =>
    by_cases hb : isBlankLine a = true
    · have h2 : ∃ t ∈ as, isBlankLine t = false := by
        obtain ⟨t, ht, htb⟩ := h
        rcases List.mem_cons.1 ht with ht | ht
        · rw [ht, hb] at htb
          cases htb
        · exact ⟨t, ht, htb⟩
      obtain ⟨h3, h4⟩ := ih h2
      unfold fromRoot at h3 h4 ⊢
      rw [List.cons_append, List.dropWhile_cons_of_pos hb, List.dropWhile_cons_of_pos hb]
      exact ⟨h3, h4⟩
    · unfold fromRoot
      rw [List.cons_append, List.dropWhile_cons_of_neg hb, List.dropWhile_cons_of_neg hb]
      exact ⟨rfl, by simp⟩

theorem isSkipped_not_rejected (t : Str) (h : isSkipped t = true) : rejectsNode t = false := by
  simp [rejectsNode, h]

/-- The plan `Parse` returns is the same for two lists of delivered lines that
differ by a line `Parse` passes over, standing after the root line. -/
theorem Parse_ok_insert (text text2 : Str) (A B : List Str) (t : Str) (p : Plan)
    (hfail : scanFailed text2 = scanFailed text)
    (htok : scanTokens text = A ++ B) (htok2 : scanTokens text2 = A ++ t :: B)
    (hroot : ∃ x ∈ A, isBlankLine x = false) (hskip : isSkipped t = true) :
    Parse text2 = .ok p ↔ Parse text = .ok p := by
  obtain ⟨h1, hne⟩ := fromRoot_append A B hroot
  obtain ⟨h2, _⟩ := fromRoot_append A (t :: B) hroot
  obtain ⟨r, laterA, hA⟩ : ∃ r laterA, fromRoot A = r :: laterA := by
    cases hf : fromRoot A with
    | nil => exact absurd hf hne
    | cons r l => exact ⟨r, l, rfl⟩
  rw [Parse_ok_iff, Parse_ok_iff, hfail, htok, htok2, h1, h2, hA]
  have hfilter : (laterA ++ t :: B).filter (fun t => !isSkipped t) =
      (laterA ++ B).filter (fun t => !isSkipped t) := by
    simp [List.filter_append, List.filter_cons, hskip]
  constructor
  · rintro ⟨hs, r2, later2, heq, hr, hall, hp⟩
    simp only [List.cons_append, List.cons.injEq] at heq
    obtain ⟨rfl, rfl⟩ := heq
    refine ⟨hs, r, laterA ++ B, rfl, hr, ?_, ?_⟩
    · intro x hx
      apply hall x
      rcases List.mem_append.1 hx with hx | hx
      · exact List.mem_append_left _ hx
      · exact List.mem_append_right _ (List.mem_cons_of_mem _ hx)
    · rw [hp, hfilter]
  · rintro ⟨hs, r2, later2, heq, hr, hall, hp⟩
    simp only [List.cons_append, List.cons.injEq] at heq
    obtain ⟨rfl, rfl⟩ := heq
    refine ⟨hs, r, laterA ++ t :: B, rfl, hr, ?_, ?_⟩
    · intro x hx
      rcases List.mem_append.1 hx with hx | hx
      · exact hall x (List.mem_append_left _ hx)
      · rcases List.mem_cons.1 hx with hx | hx
        · rw [hx]
          exact isSkipped_not_rejected t hskip
        · exact hall x (List.mem_append_right _ hx)
    · rw [hp, hfilter]

theorem toOption_eq_of_ok_iff {x y : Except ParseError Plan}
    (h : ∀ p, x = .ok p ↔ y = .ok p) : x.toOption = y.toOption := by
  cases x with
  | ok p =>
    have := (h p).1 rfl
    rw [this]
  | error e =>
    cases y with
    | ok q =>
      have := (h q).2 rfl
      cases this
    | error e2 => rfl

/-- Inserting a line between the lines of a text: when the line fits the
scanner, is passed over by `Parse` and stands after a non-blank line, the plan
is the same. -/
theorem Parse_insert_lines (text text2 : Str) (L1 L2 : List Str) (s : Str)
    (h : rawLines text = L1 ++ L2) (h2 : rawLines text2 = L1 ++ s :: L2)
    (hfit : fitsScanner s = true) (hskip : isSkipped (dropCR s) = true)
    (hroot : ∃ l ∈ L1, isBlankLine (dropCR l) = false) :
    (Parse text2).toOption = (Parse text).toOption := by
  apply toOption_eq_of_ok_iff
  intro p
  have hfail : scanFailed text2 = scanFailed text := by
    unfold scanFailed
    rw [h, h2]
    simp [List.any_append, hfit]
  by_cases hall : ∀ l ∈ L1, fitsScanner l = true
  · apply Parse_ok_insert text text2 (L1.map dropCR) ((L2.takeWhile fitsScanner).map dropCR)
      (dropCR s) p hfail
    · unfold scanTokens
      rw [h, List.takeWhile_append_of_pos hall, List.map_append]
    · unfold scanTokens
      rw [h2, List.takeWhile_append_of_pos hall, List.takeWhile_cons_of_pos hfit,
        List.map_append, List.map_cons]
    · obtain ⟨l, hl, hb⟩ := hroot
      exact ⟨dropCR l, List.mem_map_of_mem _ hl, hb⟩
    · exact hskip
  · -- a line before the position does not fit: the scanner fails in both texts
    have hf : scanFailed text = true := by
      unfold scanFailed
      rw [h]
      push_neg at hall
      obtain ⟨l, hl, hlf⟩ := hall
      simp only [List.any_append, Bool.or_eq_true, List.any_eq_true]
      exact Or.inl ⟨l, hl, by simpa using hlf⟩
    rw [Parse_ok_iff, Parse_ok_iff, hfail, hf]
    simp


theorem rawLines_cons_newline (cs : Str) : rawLines ('\n' :: cs) = [] :: rawLines cs := by
  simp only [rawLines, if_true]

theorem rawLines_cons_other (c : Char) (cs : Str) (hc : c ≠ '\n') :
    rawLines (c :: cs) = (c :: (rawLines cs).headD []) :: (rawLines cs).tail := by
  simp only [rawLines, hc, if_false]
  cases rawLines cs <;> rfl

theorem rawLines_add_newline (pre : Str) (hne : pre ≠ []) (hlast : pre.getLast? ≠ some '\n') :
    rawLines (pre ++ ['\n']) = rawLines pre := by
  induction pre with
  | nil => exact absurd rfl hne
  | cons c rest ih =>
    cases rest with
    | nil =>
      have hc : c ≠ '\n' := by
        intro hc
        apply hlast
        simp [hc]
      simp [rawLines, hc]
    | cons d rest2 =>
      have hlast2 : (d :: rest2).getLast? ≠ some '\n' := by
        intro h
        apply hlast
        rw [List.getLast?_cons_cons]
        exact h
      have ih2 : rawLines (d :: rest2 ++ ['\n']) = rawLines (d :: rest2) :=
        ih (by simp) hlast2
      by_cases hc : c = '\n'
      · subst hc
        rw [List.cons_append, rawLines_cons_newline, rawLines_cons_newline, ih2]
      · rw [List.cons_append, rawLines_cons_other _ _ hc, rawLines_cons_other _ _ hc, ih2]

set_option maxRecDepth 100000 in
/-- C9, stated as it is written, fails: a summary line put before the root line
is taken for the root, and the text of the example, which `Parse` accepts, is
rejected at its second line. -/
theorem Parse_summary_before_root :
    Parse demoText = .ok demoPlan ∧
      isNumber "3".toList = true ∧ isNumber "2".toList = true ∧
      Parse (summaryLine "3".toList "2".toList true true ++ '\n' :: demoText) =
        .error (.notTreeLine 2 "demo/".toList) := by
  decide

/-- C9, amended: a line of the shape `N director(y|ies), M file(s)` that is
inserted at the start of a line after the root line (the first non-blank line),
or added at the end of a text, does not change the plan `Parse` returns. The
line is shorter than the limit of the scanner. -/
theorem Parse_ignores_summary_line (pre post dirs files : Str) (manyDirs manyFiles : Bool)
    (hd : isNumber dirs = true) (hf : isNumber files = true)
    (hfit : fitsScanner (summaryLine dirs files manyDirs manyFiles) = true)
    (hroot : ∃ l ∈ rawLines pre, isBlankLine (dropCR l) = false) :
    ((∃ a, pre = a ++ ['\n']) →
      (Parse (pre ++ summaryLine dirs files manyDirs manyFiles ++ '\n' :: post)).toOption =
        (Parse (pre ++ post)).toOption) ∧
    (pre.getLast? ≠ some '\n' →
      (Parse (pre ++ '\n' :: summaryLine dirs files manyDirs manyFiles)).toOption =
        (Parse pre).toOption) := by
  obtain ⟨hnl, hcr, hskip⟩ := summaryLine_facts dirs files manyDirs manyFiles hd hf
  have hskip2 : isSkipped (dropCR (summaryLine dirs files manyDirs manyFiles)) = true := by
    rw [hcr]
    exact hskip
  have hsne : summaryLine dirs files manyDirs manyFiles ≠ [] := by
    unfold summaryLine
    cases manyFiles <;> simp
  constructor
  · rintro ⟨a, rfl⟩
    apply Parse_insert_lines _ _ (rawLines (a ++ ['\n'])) (rawLines post) _ _ _ hfit hskip2 hroot
    · rw [List.append_assoc, List.singleton_append, rawLines_append]
    · rw [List.append_assoc, List.append_assoc, List.singleton_append, rawLines_append,
        rawLines_line _ _ hnl]
  · intro hlast
    have hpre : pre ≠ [] := by
      rintro rfl
      obtain ⟨l, hl, _⟩ := hroot
      simp [rawLines] at hl
    apply Parse_insert_lines _ _ (rawLines pre) [] _ _ _ hfit hskip2 hroot
    · simp
    · rw [rawLines_append, rawLines_add_newline pre hpre hlast,
        rawLines_no_newline _ hnl hsne]

set_option maxRecDepth 100000 in
/-- C9, amended, at the text of the example with `2 directories, 3 files`
inserted after the root line. -/
theorem Parse_ignores_summary_line_witness :
    (Parse ("demo/\n".toList ++ summaryLine "2".toList "3".toList true true ++
        '\n' :: "├── src/\n│   └── main.go\n└── README.md\n".toList)).toOption =
      (Parse ("demo/\n".toList ++ "├── src/\n│   └── main.go\n└── README.md\n".toList)).toOption :=
  (Parse_ignores_summary_line "demo/\n".toList
    "├── src/\n│   └── main.go\n└── README.md\n".toList "2".toList "3".toList true true
    (by decide) (by decide) (by decide) (by decide)).1 ⟨"demo/".toList, by decide⟩

/-! ## Lines without a branch marker -/

theorem findMarker_fst (line : Str) (ms : List Str) (acc : Int × Str) :
    (findMarker line ms acc).1 = -1 ↔ (acc.1 = -1 ∧ ∀ m ∈ ms, Index line m = -1) := by
  induction ms generalizing acc with
  | nil => simp [findMarker]
  | cons m rest ih =>
    rw [findMarker_cons, ih]
    by_cases hi : Index line m = -1
    · simp [hi]
    · by_cases hc : acc.1 = -1 ∨ Index line m < acc.1
      · rw [if_pos ⟨hi, hc⟩]
        simp [hi]
      · rw [if_neg (fun h => hc h.2)]
        push_neg at hc
        simp [hi, hc.1]

theorem Index_eq_neg_one_iff (s sub : Str) : Index s sub = -1 ↔ Contains s sub = false := by
  unfold Contains
  rw [decide_eq_false_iff_not]
  rcases Index_range s sub with h | ⟨k, _, h, _⟩
  · rw [h]
    simp
  · rw [h]
    constructor
    · intro h2
      omega
    · intro h2
      omega

theorem Contains_of_occurs (s sub : Str) (k : Nat) (hk : sub.isPrefixOf (s.drop k) = true)
    (hle : k ≤ s.length) : Contains s sub = true := by
  unfold Contains Index
  rw [decide_eq_true_eq]
  exact indexFrom_nonneg sub s 0 (le_refl _) k hk hle

theorem Contains_spaced_bare (line : Str) (m : Str)
    (h : Contains line m = true) : Contains line (m.take 3) = true := by
  have hne : Index line m ≠ -1 := by
    rw [Ne, Index_eq_neg_one_iff, h]
    simp
  rcases Index_range line m with h2 | ⟨k, hk, _, hp⟩
  · exact absurd h2 hne
  · exact Contains_of_occurs line _ k (isPrefixOf_take m _ 3 hp) hk

/-- `parseTreeLine` fails exactly on a line in which no branch marker occurs. -/
theorem parseTreeLine_fails_iff (raw : Str) :
    (parseTreeLine raw).2.2 = false ↔ ∀ m ∈ markersBare, Contains raw m = false := by
  obtain ⟨f, hf, hf1⟩ : ∃ f : Int × Str,
      (parseTreeLine raw =
        if f.1 = -1 then (0, [], false)
        else (countDepth (raw.take f.1.toNat),
          TrimSpace (raw.drop (f.1.toNat + f.2.length)), true)) ∧
      f = (if (findMarker raw markersSpaced (-1, [])).1 = -1
        then findMarker raw markersBare (findMarker raw markersSpaced (-1, []))
        else findMarker raw markersSpaced (-1, [])) := ⟨_, rfl, rfl⟩
  have hfail : (parseTreeLine raw).2.2 = false ↔ f.1 = -1 := by
    rw [hf]
    by_cases hc : f.1 = -1
    · simp [hc]
    · simp [hc]
  rw [hfail, hf1]
  have hbare : (∀ m ∈ markersBare, Index raw m = -1) ↔
      ∀ m ∈ markersBare, Contains raw m = false := by
    constructor
    · intro h m hm
      exact (Index_eq_neg_one_iff raw m).1 (h m hm)
    · intro h m hm
      exact (Index_eq_neg_one_iff raw m).2 (h m hm)
  rw [← hbare]
  by_cases hs : (findMarker raw markersSpaced (-1, [])).1 = -1
  · rw [if_pos hs, findMarker_fst]
    simp [hs]
  · rw [if_neg hs]
    constructor
    · intro h
      exact absurd h hs
    · intro h
      exfalso
      apply hs
      rw [findMarker_fst]
      refine ⟨rfl, ?_⟩
      intro m hm
      by_contra hne
      have hc : Contains raw m = true := by
        cases hcm : Contains raw m with
        | true => rfl
        | false => exact absurd ((Index_eq_neg_one_iff raw m).2 hcm) hne
      have := Contains_spaced_bare raw m hc
      have h2 := (Index_eq_neg_one_iff raw _).1 (h (m.take 3) (spaced_bare m hm))
      rw [this] at h2
      cases h2


/-! ## The errors of `Parse` -/

theorem Parse_of_parseLines_error (text : Str) (err : ParseError)
    (h : parseLines 0 [] [] (scanTokens text) = .error err) : Parse text = .error err := by
  unfold Parse
  rw [h]

theorem Parse_cases (text : Str) : (∃ p, Parse text = .ok p) ∨ ∃ err, Parse text = .error err := by
  cases h : Parse text with
  | ok p => exact Or.inl ⟨p, rfl⟩
  | error e => exact Or.inr ⟨e, rfl⟩

theorem rejectsRoot_cases (r : Str) :
    (rejectsRoot r = false ∧ ValidateName (rootOfLine r) = .ok ()) ∨
      (rejectsRoot r = true ∧ ∃ cause, ValidateName (rootOfLine r) = .error cause) := by
  unfold rejectsRoot
  cases h : ValidateName (rootOfLine r) with
  | ok u => exact Or.inl ⟨rfl, rfl⟩
  | error e => exact Or.inr ⟨rfl, e, rfl⟩

theorem nodeError_lineNum (n : Nat) (t : Str) (h : rejectsNode t = true) :
    (nodeError n t).lineNum = some n := by
  simp only [rejectsNode, Bool.and_eq_true, Bool.or_eq_true, Bool.not_eq_true'] at h
  unfold nodeError
  split
  · rfl
  · rename_i hm
    rcases h.2 with h2 | h2
    · exact absurd h2 hm
    · cases hv : ValidateName (nodeOfLine t).Name with
      | ok u => rw [hv] at h2; cases h2
      | error e => rfl

/-- What a rejected line is, in the words of the specification: it is not blank, does not
read as a summary, and has no branch marker or a name that `ValidateName`
rejects. -/
theorem rejectsNode_iff (t : Str) :
    rejectsNode t = true ↔
      (isBlankLine t = false ∧ isTreeSummary (TrimSpace (lineOf t)) = false ∧
        ((∀ m ∈ markersBare, Contains (lineOf t) m = false) ∨
          ∃ cause, ValidateName (nodeOfLine t).Name = .error cause)) := by
  unfold rejectsNode isSkipped
  rw [← parseTreeLine_fails_iff]
  simp only [Bool.and_eq_true, Bool.not_eq_true', Bool.or_eq_false_iff, Bool.or_eq_true]
  constructor
  · rintro ⟨⟨h1, h2⟩, h3⟩
    refine ⟨h1, h2, ?_⟩
    rcases h3 with h3 | h3
    · exact Or.inl h3
    · right
      cases hv : ValidateName (nodeOfLine t).Name with
      | ok u => rw [hv] at h3; cases h3
      | error e => exact ⟨e, rfl⟩
  · rintro ⟨h1, h2, h3⟩
    refine ⟨⟨h1, h2⟩, ?_⟩
    rcases h3 with h3 | ⟨e, he⟩
    · exact Or.inl h3
    · right
      rw [he]
      rfl

/-- C8, amended: `Parse` returns an error exactly when (d) the scanner fails on
a line of 1048576 bytes or more, or, among the lines it delivered, (a) there is
no non-blank line, or (b) `ValidateName` rejects the name of the first non-blank
line, or (c) some later line is rejected. For (b) and (c) the error carries the
1-based number of the first such line, counting blank lines, whatever follows
that line. A rejected later line is one that is not blank, does not read as a
summary, and has no branch marker or a name that `ValidateName` rejects. -/
theorem Parse_error_iff (text : Str) :
    ((∃ err, Parse text = .error err) ↔
      (scanFailed text = true ∨ fromRoot (scanTokens text) = [] ∨
        ∃ r later, fromRoot (scanTokens text) = r :: later ∧
          (rejectsRoot r = true ∨ ∃ t ∈ later, rejectsNode t = true))) ∧
    (∀ blanks r later, scanTokens text = blanks ++ r :: later →
      (∀ x ∈ blanks, isBlankLine x = true) → isBlankLine r = false → rejectsRoot r = true →
        ∃ cause, ValidateName (rootOfLine r) = .error cause ∧
          Parse text = .error (.rootName (blanks.length + 1) cause)) ∧
    (∀ blanks r mid t post, scanTokens text = blanks ++ r :: (mid ++ t :: post) →
      (∀ x ∈ blanks, isBlankLine x = true) → isBlankLine r = false → rejectsRoot r = false →
      (∀ x ∈ mid, rejectsNode x = false) → rejectsNode t = true →
        Parse text = .error (nodeError (blanks.length + 1 + mid.length + 1) t) ∧
          (nodeError (blanks.length + 1 + mid.length + 1) t).lineNum =
            some (blanks.length + 1 + mid.length + 1)) ∧
    (∀ t, rejectsNode t = true ↔
      (isBlankLine t = false ∧ isTreeSummary (TrimSpace (lineOf t)) = false ∧
        ((∀ m ∈ markersBare, Contains (lineOf t) m = false) ∨
          ∃ cause, ValidateName (nodeOfLine t).Name = .error cause))) := by
  refine ⟨?_, ?_, ?_, rejectsNode_iff⟩
  · constructor
    · rintro ⟨err, herr⟩
      by_contra hcon
      push_neg at hcon
      obtain ⟨h1, h2, h3⟩ := hcon
      cases hf : fromRoot (scanTokens text) with
      | nil => exact h2 hf
      | cons r later =>
        obtain ⟨hr, hl⟩ := h3 r later hf
        have hok : Parse text = .ok (Plan.mk (rootOfLine r)
            (reclassify ((later.filter (fun t => !isSkipped t)).map nodeOfLine))) := by
          rw [Parse_ok_iff]
          refine ⟨by simpa using h1, r, later, hf, by simpa using hr, ?_, rfl⟩
          intro t ht
          simpa using hl t ht
        rw [hok] at herr
        cases herr
    · intro h
      rcases Parse_cases text with ⟨p, hp⟩ | herr
      · exfalso
        obtain ⟨hs, r, later, hf, hr, hall, _⟩ := (Parse_ok_iff text p).1 hp
        rcases h with h | h | ⟨r2, later2, hf2, h⟩
        · rw [hs] at h
          cases h
        · rw [hf] at h
          cases h
        · rw [hf] at hf2
          simp only [List.cons.injEq] at hf2
          obtain ⟨rfl, rfl⟩ := hf2
          rcases h with h | ⟨t, ht, htr⟩
          · rw [hr] at h
            cases h
          · rw [hall t ht] at htr
            cases htr
      · exact herr
  · intro blanks r later htok hblank hr hrej
    rcases rejectsRoot_cases r with ⟨h, _⟩ | ⟨_, cause, hcause⟩
    · rw [h] at hrej
      cases hrej
    · refine ⟨cause, hcause, Parse_of_parseLines_error text _ ?_⟩
      rw [htok, parseLines_blanks 0 [] [] blanks _ hblank, parseLines_root _ _ r later hr, hcause]
      simp
  · intro blanks r mid t post htok hblank hr hroot hmid ht
    refine ⟨Parse_of_parseLines_error text _ ?_, nodeError_lineNum _ t ht⟩
    rcases rejectsRoot_cases r with ⟨_, hv⟩ | ⟨h, _⟩
    · rw [htok, parseLines_blanks 0 [] [] blanks _ hblank, parseLines_root _ _ r _ hr, hv]
      simp only
      rw [parseLines_nodes_error _ _ _ mid t post (ValidateName_ok_ne_nil hv) hmid ht]
      simp
    · rw [h] at hroot
      cases hroot


/-! ## A line the scanner cannot hold -/

theorem getLast?_replicate_succ (n : Nat) (c : Char) :
    (List.replicate (n + 1) c).getLast? = some c := by
  rw [List.replicate_succ', List.getLast?_concat]

theorem not_mem_replicate (n : Nat) (c x : Char) (h : x ≠ c) : x ∉ List.replicate n c := by
  intro hm
  exact h (List.eq_of_mem_replicate hm)

/-- A line of spaces: the scanner and `TrimRight` leave it as it is, and it is
blank. -/
theorem spaces_line (n : Nat) :
    dropCR (List.replicate n ' ') = List.replicate n ' ' ∧
      isBlankLine (List.replicate n ' ') = true := by
  have hline : lineOf (List.replicate n ' ') = List.replicate n ' ' := by
    cases n with
    | zero => rfl
    | succ n =>
      unfold lineOf TrimRight
      exact rdropWhile_last _ _ ' ' (getLast?_replicate_succ n ' ') (by decide)
  constructor
  · unfold dropCR
    apply TrimSuffix_not
    cases hs : HasSuffix (List.replicate n ' ') ['\r'] with
    | false => rfl
    | true =>
      rw [HasSuffix_single] at hs
      cases n with
      | zero => simp at hs
      | succ n =>
        rw [getLast?_replicate_succ] at hs
        revert hs
        decide
  · unfold isBlankLine
    rw [hline, decide_eq_true_eq]
    unfold TrimSpace
    have : List.dropWhile isSpace (List.replicate n ' ') = [] := by
      rw [List.dropWhile_eq_nil_iff]
      intro x hx
      rw [List.eq_of_mem_replicate hx]
      decide
    rw [this]
    rfl

theorem fitsScanner_replicate (n : Nat) (c : Char) (h : maxTokenSize ≤ n) :
    fitsScanner (List.replicate n c) = false := by
  unfold fitsScanner
  rw [decide_eq_false_iff_not, byteLen_replicate]
  have : 1 ≤ runeLen c := by
    unfold runeLen
    split
    · exact le_refl _
    · split
      · omega
      · split <;> omega
  have h2 : n * 1 ≤ n * runeLen c := Nat.mul_le_mul_left n this
  omega

/-- `Parse` on a root line `r` followed by a line of spaces that the scanner
cannot hold: the scanner's error, although no line is rejected. -/
theorem Parse_long_blank_line (n : Nat) (h : maxTokenSize ≤ n) :
    Parse ("r\n".toList ++ List.replicate n ' ') = .error .scanTooLong ∧
      fromRoot ((rawLines ("r\n".toList ++ List.replicate n ' ')).map dropCR) =
        ["r".toList, List.replicate n ' '] ∧
      rejectsNode (List.replicate n ' ') = false := by
  have hn : 0 < n := lt_of_lt_of_le (by decide) h
  have hne : List.replicate n ' ' ≠ [] := by
    intro h0
    have := congrArg List.length h0
    simp at this
    omega
  have hraw : rawLines ("r\n".toList ++ List.replicate n ' ') =
      ["r".toList, List.replicate n ' '] := by
    have e : "r\n".toList ++ List.replicate n ' ' = ['r'] ++ '\n' :: List.replicate n ' ' := rfl
    rw [e, rawLines_line _ _ (by decide),
      rawLines_no_newline _ (not_mem_replicate n ' ' '\n' (by decide)) hne]
    rfl
  obtain ⟨hcr, hblank⟩ := spaces_line n
  have hfit := fitsScanner_replicate n ' ' h
  have hfitr : fitsScanner "r".toList = true := by decide
  refine ⟨?_, ?_, ?_⟩
  · have htok : scanTokens ("r\n".toList ++ List.replicate n ' ') = ["r".toList] := by
      unfold scanTokens
      rw [hraw, List.takeWhile_cons_of_pos hfitr, List.takeWhile_cons_of_neg (by simp [hfit])]
      rfl
    have hfail : scanFailed ("r\n".toList ++ List.replicate n ' ') = true := by
      unfold scanFailed
      rw [hraw]
      simp [hfit]
    have hpl : parseLines 0 [] [] ["r".toList] = .ok ("r".toList, []) := by decide
    unfold Parse
    rw [htok, hpl]
    simp only [hfail, if_true]
  · rw [hraw]
    have hr : ¬ (isBlankLine (dropCR "r".toList) = true) := by decide
    have hd : dropCR "r".toList = "r".toList := by decide
    simp only [List.map_cons, List.map_nil, hcr]
    unfold fromRoot
    rw [List.dropWhile_cons_of_neg hr, hd]
  · exact isSkipped_not_rejected _ (by simp [isSkipped, hblank])

/-- C8, stated as it is written, fails: the text made of the root line `r` and a
line of 1048576 spaces has a non-blank line, a root name that `ValidateName`
accepts and no later line that is rejected (the only later line is blank), and
`Parse` returns an error, that of the scanner. -/
theorem Parse_error_long_line :
    Parse ("r\n".toList ++ List.replicate 1048576 ' ') = .error .scanTooLong ∧
      fromRoot ((rawLines ("r\n".toList ++ List.replicate 1048576 ' ')).map dropCR) =
        ["r".toList, List.replicate 1048576 ' '] ∧
      rejectsRoot "r".toList = false ∧
      rejectsNode (List.replicate 1048576 ' ') = false :=
  have h := Parse_long_blank_line 1048576 (by decide)
  ⟨h.1, h.2.1, by decide, h.2.2⟩

/-! ## The lines of a rendered listing -/

theorem bare_not_at_space (m : Str) (hm : m ∈ markersBare) (t : Str) :
    m.isPrefixOf (' ' :: t) = false := by
  simp only [markersBare, List.mem_cons, List.mem_singleton, List.not_mem_nil, or_false] at hm
  rcases hm with rfl | rfl | rfl | rfl | rfl <;> simp [List.isPrefixOf_cons₂]

theorem bare_not_before_space (m : Str) (hm : m ∈ markersBare) (x : Char) (t : Str) :
    m.isPrefixOf (x :: ' ' :: t) = false := by
  simp only [markersBare, List.mem_cons, List.mem_singleton, List.not_mem_nil, or_false] at hm
  rcases hm with rfl | rfl | rfl | rfl | rfl <;> simp [List.isPrefixOf_cons₂]

theorem indentGroup_shape (guide : Char) (b : Bool) :
    ∃ x, indentGroup guide b = [x, ' ', ' ', ' '] := by
  cases b
  · exact ⟨' ', rfl⟩
  · exact ⟨guide, rfl⟩

/-- No branch marker starts inside indentation groups made of a guide and
spaces. -/
theorem no_marker_in_groups (gs : List Str) (h : ∀ g ∈ gs, ∃ x, g = [x, ' ', ' ', ' '])
    (rest : Str) (j : Nat) (hj : j < 4 * gs.length) (m : Str) (hm : m ∈ markersBare) :
    m.isPrefixOf ((gs.flatten ++ rest).drop j) = false := by
  induction gs generalizing j with
  | nil => simp at hj
  | cons g gs2 ih =>
    obtain ⟨x, rfl⟩ := h g (List.mem_cons_self _ _)
    have h2 : ∀ g ∈ gs2, ∃ x, g = [x, ' ', ' ', ' '] :=
      fun g hg => h g (List.mem_cons_of_mem _ hg)
    have e : ([x, ' ', ' ', ' '] :: gs2).flatten ++ rest =
        x :: ' ' :: ' ' :: ' ' :: (gs2.flatten ++ rest) := by simp
    rw [e]
    match j, hj with
    | 0, _ => exact bare_not_before_space m hm x _
    | 1, _ => exact bare_not_at_space m hm _
    | 2, _ => exact bare_not_at_space m hm _
    | 3, _ => exact bare_not_at_space m hm _
    | j + 4, hj =>
      simp only [List.drop_succ_cons]
      apply ih h2
      simp only [List.length_cons] at hj
      omega

theorem markerBefore_groups (gs : List Str) (h : ∀ g ∈ gs, ∃ x, g = [x, ' ', ' ', ' '])
    (rest : Str) : markerBefore markersBare (gs.flatten ++ rest) (4 * gs.length) = false := by
  unfold markerBefore
  rw [List.any_eq_false]
  intro j hj
  rw [List.mem_range] at hj
  rw [Bool.not_eq_true, List.any_eq_false]
  intro m hm
  rw [Bool.not_eq_true]
  exact no_marker_in_groups gs h rest j hj m hm

theorem indentGroups_facts (guide : Char) (hguide : guide ∈ guideRunes) (depth : Nat)
    (guides : List Bool) :
    (indentGroups guide depth guides).length = depth ∧
      (∀ g ∈ indentGroups guide depth guides, ∃ x, g = [x, ' ', ' ', ' ']) ∧
      (∀ g ∈ indentGroups guide depth guides, isIndentGroup g = true) ∧
      '\n' ∉ (indentGroups guide depth guides).flatten := by
  have hg : guide = '│' ∨ guide = '|' := by
    simpa [guideRunes] using hguide
  refine ⟨by simp [indentGroups], ?_, ?_, ?_⟩
  · intro g hg2
    simp only [indentGroups, List.mem_map] at hg2
    obtain ⟨i, _, rfl⟩ := hg2
    exact indentGroup_shape guide _
  · intro g hg2
    simp only [indentGroups, List.mem_map] at hg2
    obtain ⟨i, _, rfl⟩ := hg2
    rcases hg with rfl | rfl <;> cases (guides.getD i false) <;> decide
  · intro hmem
    rw [List.mem_flatten] at hmem
    obtain ⟨g, hg2, hn⟩ := hmem
    simp only [indentGroups, List.mem_map] at hg2
    obtain ⟨i, _, rfl⟩ := hg2
    rcases hg with rfl | rfl <;> cases hb : (guides.getD i false) <;> rw [hb] at hn <;>
      revert hn <;> decide


theorem spaced_no_newline : ∀ m ∈ markersSpaced, '\n' ∉ m := by decide

theorem spaced_ne_nil : ∀ m ∈ markersSpaced, m ≠ [] := by decide

theorem TrimSpace_ne_nil_of_last (l : Str) (x : Char) (h : l.getLast? = some x)
    (hx : isSpace x = false) : TrimSpace l ≠ [] := by
  intro hnil
  have h1 := getLast?_TrimSpace l
  rw [hnil] at h1
  obtain ⟨l2, rfl⟩ : ∃ l2, l = l2 ++ [x] := by
    induction l using List.reverseRecOn with
    | nil => simp at h
    | append_singleton l2 a _ =>
      rw [List.getLast?_concat] at h
      simp only [Option.some.injEq] at h
      exact ⟨l2, by rw [h]⟩
  simp [hx] at h1

/-- A name that `ValidateName` accepts and that has no outer white space, with
or without a trailing `/`: what `Parse` makes of it. -/
theorem name_text_facts (name : Str) (dir : Bool) (hv : ValidateName name = .ok ())
    (hsp : noOuterSpace name = true) :
    TrimSpace (name ++ (if dir then ['/'] else [])) = name ++ (if dir then ['/'] else []) ∧
      HasSuffix (name ++ (if dir then ['/'] else [])) ['/'] = dir ∧
      TrimSuffix (name ++ (if dir then ['/'] else [])) ['/'] = name ∧
      ∃ x, (name ++ (if dir then ['/'] else [])).getLast? = some x ∧ isSpace x = false := by
  obtain ⟨hne, _, _, hslash, _⟩ := (ValidateName_ok_iff name).1 hv
  obtain ⟨hfirst, hlast⟩ := (noOuterSpace_iff name).1 hsp
  obtain ⟨y, hy⟩ : ∃ y, name.getLast? = some y := by
    cases hl : name.getLast? with
    | none => exact absurd (List.getLast?_eq_none_iff.1 hl) hne
    | some y => exact ⟨y, rfl⟩
  have hyslash : y ≠ '/' := by
    rintro rfl
    exact hslash (List.mem_of_getLast?_eq_some hy)
  cases dir with
  | true =>
    have hx : (name ++ ['/']).getLast? = some '/' := List.getLast?_concat _
    have hnos : noOuterSpace (name ++ ['/']) = true := by
      rw [noOuterSpace_iff]
      constructor
      · intro c hc
        rw [head?_append_ne_nil _ _ hne] at hc
        exact hfirst c hc
      · intro c hc
        rw [hx] at hc
        simp only [Option.some.injEq] at hc
        rw [← hc]
        decide
    refine ⟨TrimSpace_noOuterSpace _ hnos, ?_, TrimSuffix_append name ['/'],
      '/', hx, by decide⟩
    simp only [if_true]
    rw [HasSuffix_single, hx]
  | false =>
    simp only [Bool.false_eq_true, if_false, List.append_nil]
    have hns : HasSuffix name ['/'] = false := by
      cases hs : HasSuffix name ['/'] with
      | false => rfl
      | true =>
        rw [HasSuffix_single, hy] at hs
        simp only [Option.some.injEq] at hs
        exact absurd hs hyslash
    exact ⟨TrimSpace_noOuterSpace _ hsp, hns, TrimSuffix_not _ _ hns, y, hy, hlast y hy⟩

/-- What `Parse` makes of the line of an entry: the line reaches it as it is,
is neither passed over nor rejected, and stands for the node of the entry. -/
theorem entryLine_facts (guide : Char) (hguide : guide ∈ guideRunes) (e : Entry) (d : Drawing)
    (hv : ValidateName e.name = .ok ()) (hsp : noOuterSpace e.name = true)
    (hnl : '\n' ∉ e.name) (hm : d.marker ∈ markersSpaced)
    (hsum : isTreeSummary (TrimSpace (entryLine guide e d)) = false) :
    '\n' ∉ entryLine guide e d ∧ dropCR (entryLine guide e d) = entryLine guide e d ∧
      isSkipped (entryLine guide e d) = false ∧ rejectsNode (entryLine guide e d) = false ∧
      nodeOfLine (entryLine guide e d) = e.toNode := by
  obtain ⟨hlen, hshape, hgroups, hgnl⟩ := indentGroups_facts guide hguide e.depth d.guides
  obtain ⟨htrim, hsuf, htsuf, x, hx, hxs⟩ := name_text_facts e.name e.dir hv hsp
  have hntne : e.name ++ (if e.dir then ['/'] else []) ≠ [] := by
    intro h
    rw [h] at hx
    simp at hx
  have hlast : (entryLine guide e d).getLast? = some x := by
    unfold entryLine
    rw [getLast?_append_ne_nil _ _ hntne, hx]
  obtain ⟨hcr, hline⟩ := lineOf_dropCR _ x hlast hxs
  have hparse : parseTreeLine (entryLine guide e d) =
      (e.depth, e.name ++ (if e.dir then ['/'] else []), true) := by
    have := parseTreeLine_groups (indentGroups guide e.depth d.guides) d.marker
      (e.name ++ (if e.dir then ['/'] else [])) hgroups (Or.inl hm)
      (by rw [List.append_assoc]; exact markerBefore_groups _ hshape _)
    rw [hlen, htrim] at this
    exact this
  have hnode : nodeOfLine (entryLine guide e d) = e.toNode := by
    unfold nodeOfLine
    rw [hline, hparse]
    simp only [htsuf, hsuf]
    rfl
  have hblank : isBlankLine (entryLine guide e d) = false := by
    unfold isBlankLine
    rw [hline, decide_eq_false_iff_not]
    exact TrimSpace_ne_nil_of_last _ x hlast hxs
  have hskip : isSkipped (entryLine guide e d) = false := by
    unfold isSkipped
    rw [hblank, hline, hsum]
    rfl
  refine ⟨?_, hcr, hskip, ?_, hnode⟩
  · intro hmem
    unfold entryLine at hmem
    simp only [List.mem_append] at hmem
    rcases hmem with (hmem | hmem) | hmem | hmem
    · exact hgnl hmem
    · exact spaced_no_newline _ hm hmem
    · exact hnl hmem
    · cases hd : e.dir <;> rw [hd] at hmem <;> revert hmem <;> decide
  · unfold rejectsNode
    rw [hskip, hline, hparse, hnode]
    have : ValidateName e.toNode.Name = .ok () := hv
    simp [this, failed]

/-- What `Parse` makes of the root line. -/
theorem rootLine_facts (root : Str) (slash : Bool) (hv : ValidateName root = .ok ())
    (hsp : noOuterSpace root = true) (hnl : '\n' ∉ root) :
    '\n' ∉ rootLine root slash ∧ dropCR (rootLine root slash) = rootLine root slash ∧
      isBlankLine (rootLine root slash) = false ∧ rejectsRoot (rootLine root slash) = false ∧
      rootOfLine (rootLine root slash) = root := by
  obtain ⟨htrim, _, htsuf, x, hx, hxs⟩ := name_text_facts root slash hv hsp
  have hlast : (rootLine root slash).getLast? = some x := hx
  obtain ⟨hcr, hline⟩ := lineOf_dropCR _ x hlast hxs
  have hroot : rootOfLine (rootLine root slash) = root := by
    unfold rootOfLine
    rw [hline]
    unfold rootLine
    rw [htrim, htsuf]
  refine ⟨?_, hcr, ?_, ?_, hroot⟩
  · intro hmem
    unfold rootLine at hmem
    simp only [List.mem_append] at hmem
    rcases hmem with hmem | hmem
    · exact hnl hmem
    · cases slash <;> revert hmem <;> decide
  · unfold isBlankLine
    rw [hline, decide_eq_false_iff_not]
    exact TrimSpace_ne_nil_of_last _ x hlast hxs
  · unfold rejectsRoot
    rw [hroot, hv]
    rfl


theorem rawLines_lines (ls : List Str) (h : ∀ l ∈ ls, '\n' ∉ l) :
    rawLines ((ls.map (fun l => l ++ ['\n'])).flatten) = ls := by
  induction ls with
  | nil => rfl
  | cons l rest ih =>
    have e : ((l :: rest).map (fun l => l ++ ['\n'])).flatten =
        l ++ '\n' :: (rest.map (fun l => l ++ ['\n'])).flatten := by simp
    rw [e, rawLines_line _ _ (h l (List.mem_cons_self _ _)),
      ih (fun x hx => h x (List.mem_cons_of_mem _ hx))]

theorem map_id_of_forall {α : Type} (f : α → α) (l : List α) (h : ∀ x ∈ l, f x = x) :
    l.map f = l := by
  conv_rhs => rw [← List.map_id l]
  exact List.map_congr_left h

/-- The plan of a rendered listing: the root, and one node per entry. -/
theorem Parse_renderTree_plan (guide : Char) (root : Str) (slash : Bool)
    (entries : List (Entry × Drawing)) (hguide : guide ∈ guideRunes)
    (hroot : ValidateName root = .ok () ∧ noOuterSpace root = true ∧ '\n' ∉ root)
    (hrootfit : fitsScanner (rootLine root slash) = true)
    (hentries : ∀ ed ∈ entries,
      ValidateName ed.1.name = .ok () ∧ noOuterSpace ed.1.name = true ∧ '\n' ∉ ed.1.name ∧
        ed.2.marker ∈ markersSpaced ∧
        isTreeSummary (TrimSpace (entryLine guide ed.1 ed.2)) = false ∧
        fitsScanner (entryLine guide ed.1 ed.2) = true) :
    Parse (renderTree guide root slash entries) =
        .ok { Root := root, Nodes := reclassify (entries.map (fun ed => ed.1.toNode)) } ∧
      (reclassify (entries.map (fun ed => ed.1.toNode))).map Node.Name =
        entries.map (fun ed => ed.1.name) ∧
      (reclassify (entries.map (fun ed => ed.1.toNode))).map Node.Depth =
        entries.map (fun ed => ed.1.depth) := by
  obtain ⟨hv, hsp, hnl⟩ := hroot
  obtain ⟨hrnl, hrcr, hrblank, hrrej, hrroot⟩ := rootLine_facts root slash hv hsp hnl
  have hfacts : ∀ ed ∈ entries,
      '\n' ∉ entryLine guide ed.1 ed.2 ∧
        dropCR (entryLine guide ed.1 ed.2) = entryLine guide ed.1 ed.2 ∧
        isSkipped (entryLine guide ed.1 ed.2) = false ∧
        rejectsNode (entryLine guide ed.1 ed.2) = false ∧
        nodeOfLine (entryLine guide ed.1 ed.2) = ed.1.toNode := by
    intro ed hed
    obtain ⟨h1, h2, h3, h4, h5, _⟩ := hentries ed hed
    exact entryLine_facts guide hguide ed.1 ed.2 h1 h2 h3 h4 h5
  set lines := entries.map (fun ed => entryLine guide ed.1 ed.2) with hlines
  have hmem : ∀ l ∈ lines, ∃ ed ∈ entries, l = entryLine guide ed.1 ed.2 := by
    intro l hl
    rw [hlines, List.mem_map] at hl
    obtain ⟨ed, hed, rfl⟩ := hl
    exact ⟨ed, hed, rfl⟩
  have hraw : rawLines (renderTree guide root slash entries) = rootLine root slash :: lines := by
    have e : renderTree guide root slash entries =
        rootLine root slash ++ '\n' :: (lines.map (fun l => l ++ ['\n'])).flatten := by
      unfold renderTree
      rw [hlines, List.map_map]
      rfl
    rw [e, rawLines_line _ _ hrnl, rawLines_lines]
    intro l hl
    obtain ⟨ed, hed, rfl⟩ := hmem l hl
    exact (hfacts ed hed).1
  have hfit : ∀ l ∈ rootLine root slash :: lines, fitsScanner l = true := by
    intro l hl
    rcases List.mem_cons.1 hl with rfl | hl
    · exact hrootfit
    · obtain ⟨ed, hed, rfl⟩ := hmem l hl
      exact (hentries ed hed).2.2.2.2.2
  have hdrop : (rootLine root slash :: lines).map dropCR = rootLine root slash :: lines := by
    apply map_id_of_forall
    intro l hl
    rcases List.mem_cons.1 hl with rfl | hl
    · exact hrcr
    · obtain ⟨ed, hed, rfl⟩ := hmem l hl
      exact (hfacts ed hed).2.1
  have htok : scanTokens (renderTree guide root slash entries) = rootLine root slash :: lines := by
    unfold scanTokens
    rw [hraw, List.takeWhile_eq_self_iff.2 hfit, hdrop]
  have hfail : scanFailed (renderTree guide root slash entries) = false := by
    unfold scanFailed
    rw [hraw, List.any_eq_false]
    intro l hl
    simp [hfit l hl]
  have hfrom : fromRoot (rootLine root slash :: lines) = rootLine root slash :: lines := by
    unfold fromRoot
    exact List.dropWhile_cons_of_neg (by simp [hrblank])
  refine ⟨?_, reclassify_names _ |>.trans (by simp [List.map_map, Entry.toNode, Function.comp_def]),
    reclassify_depths _ |>.trans (by simp [List.map_map, Entry.toNode, Function.comp_def])⟩
  rw [Parse_ok_iff]
  refine ⟨hfail, rootLine root slash, lines, by rw [htok, hfrom], hrrej, ?_, ?_⟩
  · intro l hl
    obtain ⟨ed, hed, rfl⟩ := hmem l hl
    exact (hfacts ed hed).2.2.2.1
  · have hfilter : lines.filter (fun t => !isSkipped t) = lines := by
      rw [List.filter_eq_self]
      intro l hl
      obtain ⟨ed, hed, rfl⟩ := hmem l hl
      simp [(hfacts ed hed).2.2.1]
    have hnodes : lines.map nodeOfLine = entries.map (fun ed => ed.1.toNode) := by
      rw [hlines, List.map_map]
      apply List.map_congr_left
      intro ed hed
      exact (hfacts ed hed).2.2.2.2
    rw [hrroot, hfilter, hnodes]


theorem zip_toNode (entries : List Entry) (ds : List Drawing) (h : ds.length = entries.length) :
    (entries.zip ds).map (fun ed => ed.1.toNode) = entries.map Entry.toNode := by
  have : (entries.zip ds).map (fun ed => ed.1.toNode) =
      ((entries.zip ds).map Prod.fst).map Entry.toNode := by
    rw [List.map_map]
    rfl
  rw [this, List.map_fst_zip _ _ (le_of_eq h.symm)]

/-- C5, amended: for a root name and entries whose names `ValidateName` accepts,
that carry no outer white space and no line feed, and whose lines do not read as
a summary, the rendered listing, every line of which is shorter than the limit
of the scanner, is parsed without error into the plan with that root and with
one node per entry, names and depths as listed and in that order. Two renderings
of the same entries, each with its own guide (`│` or `|`), markers and guide
columns, give the same plan. -/
theorem Parse_renderTree (root : Str) (slash : Bool) (entries : List Entry)
    (g1 g2 : Char) (ds1 ds2 : List Drawing)
    (hg1 : g1 ∈ guideRunes) (hg2 : g2 ∈ guideRunes)
    (hl1 : ds1.length = entries.length) (hl2 : ds2.length = entries.length)
    (hroot : ValidateName root = .ok () ∧ noOuterSpace root = true ∧ '\n' ∉ root)
    (hrootfit : fitsScanner (rootLine root slash) = true)
    (hnames : ∀ e ∈ entries,
      ValidateName e.name = .ok () ∧ noOuterSpace e.name = true ∧ '\n' ∉ e.name)
    (hlines1 : ∀ ed ∈ entries.zip ds1,
      ed.2.marker ∈ markersSpaced ∧
        isTreeSummary (TrimSpace (entryLine g1 ed.1 ed.2)) = false ∧
        fitsScanner (entryLine g1 ed.1 ed.2) = true)
    (hlines2 : ∀ ed ∈ entries.zip ds2,
      ed.2.marker ∈ markersSpaced ∧
        isTreeSummary (TrimSpace (entryLine g2 ed.1 ed.2)) = false ∧
        fitsScanner (entryLine g2 ed.1 ed.2) = true) :
    Parse (renderTree g1 root slash (entries.zip ds1)) =
        .ok { Root := root, Nodes := reclassify (entries.map Entry.toNode) } ∧
      Parse (renderTree g2 root slash (entries.zip ds2)) =
        Parse (renderTree g1 root slash (entries.zip ds1)) ∧
      (reclassify (entries.map Entry.toNode)).map Node.Name = entries.map Entry.name ∧
      (reclassify (entries.map Entry.toNode)).map Node.Depth = entries.map Entry.depth := by
  have key : ∀ (g : Char) (ds : List Drawing), g ∈ guideRunes → ds.length = entries.length →
      (∀ ed ∈ entries.zip ds,
        ed.2.marker ∈ markersSpaced ∧
          isTreeSummary (TrimSpace (entryLine g ed.1 ed.2)) = false ∧
          fitsScanner (entryLine g ed.1 ed.2) = true) →
      Parse (renderTree g root slash (entries.zip ds)) =
        .ok { Root := root, Nodes := reclassify (entries.map Entry.toNode) } := by
    intro g ds hg hl hlines
    have := (Parse_renderTree_plan g root slash (entries.zip ds) hg hroot hrootfit (by
      intro ed hed
      obtain ⟨h1, h2, h3⟩ := hnames ed.1 (List.of_mem_zip hed).1
      obtain ⟨h4, h5, h6⟩ := hlines ed hed
      exact ⟨h1, h2, h3, h4, h5, h6⟩)).1
    rw [this, zip_toNode entries ds hl]
  have h1 := key g1 ds1 hg1 hl1 hlines1
  have h2 := key g2 ds2 hg2 hl2 hlines2
  refine ⟨h1, by rw [h1, h2], ?_, ?_⟩
  · rw [reclassify_names, List.map_map]
    rfl
  · rw [reclassify_depths, List.map_map]
    rfl

set_option maxRecDepth 100000 in
/-- C5, amended, at the example: the listing in box-drawing characters and the
listing in ASCII both give the plan of the example. -/
theorem Parse_renderTree_witness :
    renderTree '│' "demo".toList true (demoEntries.zip demoUnicode) = demoText ∧
      reclassify (demoEntries.map Entry.toNode) = demoPlan.Nodes ∧
      Parse (renderTree '│' "demo".toList true (demoEntries.zip demoUnicode)) =
        .ok { Root := "demo".toList, Nodes := reclassify (demoEntries.map Entry.toNode) } ∧
      Parse (renderTree '|' "demo".toList true (demoEntries.zip demoAscii)) =
        Parse (renderTree '│' "demo".toList true (demoEntries.zip demoUnicode)) :=
  have h := Parse_renderTree "demo".toList true demoEntries '│' '|' demoUnicode demoAscii
    (by decide) (by decide) (by decide) (by decide) (by decide) (by decide) (by decide)
    (by decide) (by decide)
  ⟨by decide, by decide, h.1, h.2.1⟩

/-- `Parse` on a listing whose root name the scanner cannot hold. -/
theorem Parse_long_root (n : Nat) (h : maxTokenSize ≤ n) :
    ValidateName (List.replicate n 'a') = .ok () ∧
      noOuterSpace (List.replicate n 'a') = true ∧ '\n' ∉ List.replicate n 'a' ∧
      Parse (renderTree '│' (List.replicate n 'a') false []) = .error .scanTooLong := by
  obtain ⟨k, rfl⟩ : ∃ k, n = k + 1 := by
    have hn : 0 < n := lt_of_lt_of_le (by decide) h
    exact ⟨n - 1, by omega⟩
  have hnl : '\n' ∉ List.replicate (k + 1) 'a' := not_mem_replicate _ 'a' '\n' (by decide)
  refine ⟨?_, ?_, hnl, ?_⟩
  · rw [ValidateName_ok_iff]
    refine ⟨by simp [List.replicate_succ], ?_, ?_, not_mem_replicate _ 'a' '/' (by decide),
      not_mem_replicate _ 'a' '\\' (by decide)⟩
    · intro h1
      have : '.' ∈ List.replicate (k + 1) 'a' := by rw [h1]; simp
      exact not_mem_replicate _ 'a' '.' (by decide) this
    · intro h1
      have : '.' ∈ List.replicate (k + 1) 'a' := by rw [h1]; simp
      exact not_mem_replicate _ 'a' '.' (by decide) this
  · rw [noOuterSpace_iff]
    constructor
    · intro c hc
      rw [List.replicate_succ] at hc
      simp only [List.head?_cons, Option.some.injEq] at hc
      rw [← hc]
      decide
    · intro c hc
      rw [getLast?_replicate_succ] at hc
      simp only [Option.some.injEq] at hc
      rw [← hc]
      decide
  · have hrender : renderTree '│' (List.replicate (k + 1) 'a') false [] =
        List.replicate (k + 1) 'a' ++ '\n' :: [] := by
      simp [renderTree, rootLine]
    have hraw : rawLines (renderTree '│' (List.replicate (k + 1) 'a') false []) =
        [List.replicate (k + 1) 'a'] := by
      rw [hrender, rawLines_line _ _ hnl]
      rfl
    have hfit := fitsScanner_replicate (k + 1) 'a' h
    have htok : scanTokens (renderTree '│' (List.replicate (k + 1) 'a') false []) = [] := by
      unfold scanTokens
      rw [hraw, List.takeWhile_cons_of_neg (by simp [hfit])]
      rfl
    have hfail : scanFailed (renderTree '│' (List.replicate (k + 1) 'a') false []) = true := by
      unfold scanFailed
      rw [hraw]
      simp [hfit]
    unfold Parse
    rw [htok]
    simp only [parseLines, hfail, if_true]

/-- C5, stated as it is written, fails: a root name of 1048576 letters `a` is
accepted by `ValidateName` and has neither white space nor a line feed, and the
listing that consists of its root line is rejected with the scanner's error. -/
theorem Parse_renderTree_long_name :
    ValidateName (List.replicate 1048576 'a') = .ok () ∧
      noOuterSpace (List.replicate 1048576 'a') = true ∧
      '\n' ∉ List.replicate 1048576 'a' ∧
      Parse (renderTree '│' (List.replicate 1048576 'a') false []) = .error .scanTooLong :=
  Parse_long_root 1048576 (by decide)

/-! ## Dry runs -/

theorem out_fs {σ : Type} (a : ApplyArgs) (line : Str) (r : Run σ) : (out a line r).fs = r.fs := by
  unfold out
  split <;> rfl

theorem ensureDir_dry {σ : Type} (os : FileSys σ) (a : ApplyArgs) (hdry : a.DryRun = true)
    (path : Str) (r : Run σ) : (ensureDir os a path r).2.fs = r.fs := by
  unfold ensureDir
  simp only [hdry, Bool.not_true, Bool.false_eq_true, if_false, if_true]
  split
  · split <;> simp [out_fs]
  · rfl
  · simp [out_fs]
  · rfl

theorem ensureFile_dry {σ : Type} (os : FileSys σ) (a : ApplyArgs) (hdry : a.DryRun = true)
    (path : Str) (r : Run σ) : (ensureFile os a path r).2.fs = r.fs := by
  unfold ensureFile
  simp only
  have hd := ensureDir_dry os a hdry (Dir path) r
  cases hens : ensureDir os a (Dir path) r with
  | mk err r2 =>
    rw [hens] at hd
    simp only at hd
    cases err with
    | some e => exact hd
    | none =>
      simp only [hdry, true_and, if_true]
      split
      · exact hd
      · split
        · rw [out_fs]
          exact hd
        · split
          · rw [out_fs]
            exact hd
          · rename_i h1 h2
            cases hf : a.Force <;> simp [hf] at h1 h2
      · rw [out_fs]
        exact hd
      · exact hd

theorem applyNodes_dry {σ : Type} (os : FileSys σ) (a : ApplyArgs) (hdry : a.DryRun = true)
    (nodes : List Node) (stack : List Str) (r : Run σ) :
    (applyNodes os a nodes stack r).2.fs = r.fs := by
  induction nodes generalizing stack r with
  | nil => rfl
  | cons n rest ih =>
    unfold applyNodes
    split
    · rfl
    · simp only
      split
      · rfl
      · rename_i target _
        split
        · have hd := ensureDir_dry os a hdry target r
          cases hens : ensureDir os a target r with
          | mk err r2 =>
            rw [hens] at hd
            cases err with
            | some e => exact hd
            | none =>
              simp only
              rw [ih]
              exact hd
        · have hd := ensureFile_dry os a hdry target r
          cases hens : ensureFile os a target r with
          | mk err r2 =>
            rw [hens] at hd
            cases err with
            | some e => exact hd
            | none =>
              simp only
              rw [ih]
              exact hd

theorem Apply_dry {σ : Type} (os : FileSys σ) (a : ApplyArgs) (hdry : a.DryRun = true)
    (fs : σ) : (Apply os a fs).2.fs = fs := by
  unfold Apply applyRoot
  simp only [hdry, if_true]
  rw [applyNodes_dry os a hdry]
  split <;> simp [out_fs]

/-! ## The permission flags -/

theorem parsePerm_blank (s : Str) (dflt : FileMode) (h : TrimSpace s = []) :
    parsePerm s dflt = .ok dflt := by
  simp [parsePerm, h]

theorem parsePerm_nonblank (s : Str) (dflt : FileMode) (h : TrimSpace s ≠ []) :
    parsePerm s dflt = ParseUint (TrimSpace s) 0 32 := by
  simp [parsePerm, h]

set_option maxRecDepth 100000 in
/-- C18: `parsePerm` reads `0755` and `0o755` as octal 755, but `755` as the
decimal number 755, which is octal 1363, so the three spellings do not give the
same permission bits; a blank text gives the default. -/
theorem parsePerm_reads_decimal (dflt : FileMode) :
    parsePerm "0755".toList dflt = .ok 0o755 ∧
    parsePerm "0o755".toList dflt = .ok 0o755 ∧
    parsePerm "755".toList dflt = .ok 0o1363 ∧
    parsePerm "755".toList dflt ≠ parsePerm "0755".toList dflt ∧
    (∀ s, TrimSpace s = [] → parsePerm s dflt = .ok dflt) ∧
    parsePerm "  ".toList dflt = .ok dflt := by
  have h1 : parsePerm "0755".toList dflt = .ok 0o755 := by
    rw [parsePerm_nonblank _ _ (by decide)]
    decide
  have h2 : parsePerm "0o755".toList dflt = .ok 0o755 := by
    rw [parsePerm_nonblank _ _ (by decide)]
    decide
  have h3 : parsePerm "755".toList dflt = .ok 0o1363 := by
    rw [parsePerm_nonblank _ _ (by decide)]
    decide
  refine ⟨h1, h2, h3, ?_, fun s h => parsePerm_blank s dflt h,
    parsePerm_blank _ _ (by decide)⟩
  rw [h1, h3]
  decide

/-! ## Lines that mention the words of a summary -/

theorem Contains_iff_inside (s w : Str) : Contains s w = true ↔ w <:+: s := by
  constructor
  · intro h
    have hne : Index s w ≠ -1 := by
      rw [Ne, Index_eq_neg_one_iff, h]
      simp
    rcases Index_range s w with h2 | ⟨k, _, _, hp⟩
    · exact absurd h2 hne
    · rw [List.isPrefixOf_iff_prefix] at hp
      exact hp.isInfix.trans (List.drop_suffix k s).isInfix
  · rintro ⟨a, b, rfl⟩
    exact Contains_append a w b

theorem infix_dropWhile (p : Char → Bool) (w s : Str) (hw : w ≠ [])
    (hp : ∀ c ∈ w, p c = false) (h : w <:+: s) : w <:+: s.dropWhile p := by
  induction s with
  | nil => simpa using h
  | cons c cs ih =>
    by_cases hc : p c = true
    · rw [List.dropWhile_cons_of_pos hc]
      rcases List.infix_cons_iff.1 h with h2 | h2
      · exfalso
        cases w with
        | nil => exact hw rfl
        | cons x xs =>
          have hx : x = c := by
            obtain ⟨t, ht⟩ := h2
            simp only [List.cons_append, List.cons.injEq] at ht
            exact ht.1
          have := hp x (List.mem_cons_self _ _)
          rw [hx, hc] at this
          cases this
      · exact ih h2
    · rw [List.dropWhile_cons_of_neg hc]
      exact h

theorem infix_rdropWhile (p : Char → Bool) (w s : Str) (hw : w ≠ [])
    (hp : ∀ c ∈ w, p c = false) (h : w <:+: s) : w <:+: s.rdropWhile p := by
  unfold List.rdropWhile
  rw [← List.reverse_infix, List.reverse_reverse]
  apply infix_dropWhile p
  · simpa using hw
  · intro c hc
    exact hp c (List.mem_reverse.1 hc)
  · rw [List.reverse_infix]
    exact h

theorem infix_TrimSpace (w s : Str) (hw : w ≠ []) (hp : ∀ c ∈ w, isSpace c = false)
    (h : w <:+: s) : w <:+: TrimSpace s :=
  infix_rdropWhile _ _ _ hw hp (infix_dropWhile _ _ _ hw hp h)

theorem TrimSpace_inside (s : Str) : TrimSpace s <:+: s :=
  (List.rdropWhile_prefix _ _).isInfix.trans (List.dropWhile_suffix _).isInfix

theorem lineOf_inside (t : Str) : lineOf t <:+: t :=
  (List.rdropWhile_prefix _ _).isInfix

theorem infix_ToLower (a b : Str) (h : a <:+: b) : ToLower a <:+: ToLower b := by
  obtain ⟨x, y, rfl⟩ := h
  exact ⟨ToLower x, ToLower y, by simp [ToLower]⟩

theorem infix_of_ToLower (w s : Str) (h : w <:+: ToLower s) :
    ∃ v, v <:+: s ∧ ToLower v = w := by
  obtain ⟨x, y, hxy⟩ := h
  unfold ToLower at hxy
  obtain ⟨l1, l2, h1, h2, h3⟩ := List.map_eq_append_iff.1 hxy.symm
  obtain ⟨l3, l4, h4, h5, h6⟩ := List.map_eq_append_iff.1 h2
  subst h1 h4
  exact ⟨l4, ⟨l3, l2, rfl⟩, h6⟩

/-- White space is its own lower case. -/
theorem toLowerRune_space (c : Char) (h : isSpace c = true) : toLowerRune c = c := by
  unfold isSpace at h
  simp only [Bool.or_eq_true, Bool.and_eq_true, decide_eq_true_eq] at h
  unfold toLowerRune
  have e1 : 'A'.toNat = 65 := rfl
  have e2 : 'Z'.toNat = 90 := rfl
  rw [e1, e2]
  rw [if_neg (by omega), if_neg (by omega), if_neg (by omega)]

/-- A word of lower-case ASCII letters survives the trimming that `Parse` and
`isTreeSummary` do around `ToLower`. -/
theorem Contains_trimmed (t w : Str) (hw : w ≠ []) (hp : ∀ c ∈ w, isSpace c = false) :
    Contains (TrimSpace (ToLower (TrimSpace (lineOf t)))) w = Contains (ToLower t) w := by
  rw [Bool.eq_iff_iff, Contains_iff_inside, Contains_iff_inside]
  constructor
  · intro h
    exact (h.trans (TrimSpace_inside _)).trans
      (infix_ToLower _ _ ((TrimSpace_inside _).trans (lineOf_inside t)))
  · intro h
    obtain ⟨v, hv, hvw⟩ := infix_of_ToLower w t h
    have hvne : v ≠ [] := by
      intro h0
      rw [h0] at hvw
      exact hw hvw.symm
    have hvsp : ∀ c ∈ v, isSpace c = false := by
      intro c hc
      by_contra hsp
      have hsp2 : isSpace c = true := by simpa using hsp
      have hmem : toLowerRune c ∈ w := by
        rw [← hvw]
        exact List.mem_map_of_mem _ hc
      rw [toLowerRune_space c hsp2] at hmem
      rw [hp c hmem] at hsp2
      cases hsp2
    have hcut : ∀ c ∈ v, (['\r', '\n'] : Str).contains c = false := by
      intro c hc
      have := hvsp c hc
      by_cases hr : c = '\r'
      · subst hr
        simp [isSpace] at this
      · by_cases hn : c = '\n'
        · subst hn
          simp [isSpace] at this
        · simp [hr, hn]
    have h1 : v <:+: TrimSpace (lineOf t) :=
      infix_TrimSpace _ _ hvne hvsp (infix_rdropWhile _ _ _ hvne hcut hv)
    apply infix_TrimSpace _ _ hw hp
    rw [← hvw]
    exact infix_ToLower _ _ h1

theorem Contains_files (s : Str) (h : Contains s "files".toList = true) :
    Contains s "file".toList = true := by
  rw [Contains_iff_inside] at h ⊢
  exact (show "file".toList <:+: "files".toList from ⟨[], ['s'], rfl⟩).trans h

/-- The test of `Parse` for a summary line, on the line as the scanner delivers
it. -/
theorem isTreeSummary_eq (t : Str) :
    isTreeSummary (TrimSpace (lineOf t)) = mentionsSummary t := by
  unfold isTreeSummary mentionsSummary hasWord
  simp only
  rw [Contains_trimmed t _ (by decide) (by decide), Contains_trimmed t _ (by decide) (by decide),
    Contains_trimmed t _ (by decide) (by decide), Contains_trimmed t _ (by decide) (by decide)]
  have hf : (Contains (ToLower t) "files".toList || Contains (ToLower t) "file".toList) =
      Contains (ToLower t) "file".toList := by
    cases h1 : Contains (ToLower t) "files".toList with
    | true => rw [Contains_files _ h1]; rfl
    | false => rfl
  rw [hf, Bool.or_comm (Contains (ToLower t) "directories".toList)]

theorem isSkipped_eq (t : Str) (hblank : isBlankLine t = false) :
    isSkipped t = mentionsSummary t := by
  rw [isSkipped, hblank, Bool.false_or, isTreeSummary_eq]

/-- C20: after the root line, the loop of `Parse` passes over a non-blank line,
adding no node and raising no error, if and only if the lower-cased line
contains `directory` or `directories` and also contains `file`; no digits are
asked for. Such a line is passed over whatever follows it. -/
theorem Parse_skips_summary_words (n : Nat) (root : Str) (nodes : List Node) (t : Str)
    (hroot : root ≠ []) (hblank : isBlankLine t = false) :
    (parseLines n root nodes [t] = .ok (root, nodes) ↔ mentionsSummary t = true) ∧
    (mentionsSummary t = true →
      ∀ rest, parseLines n root nodes (t :: rest) = parseLines (n + 1) root nodes rest) ∧
    (mentionsSummary t = false →
      parseLines n root nodes [t] = .error (nodeError (n + 1) t) ∨
      parseLines n root nodes [t] = .ok (root, nodes ++ [nodeOfLine t])) := by
  have hsk := isSkipped_eq t hblank
  refine ⟨⟨?_, ?_⟩, ?_, ?_⟩
  · intro h
    by_contra hm
    have hm2 : isSkipped t = false := by
      rw [hsk]
      simpa using hm
    by_cases hr : rejectsNode t = true
    · rw [parseLines_reject n root nodes t [] hroot hr] at h
      cases h
    · have hr2 : rejectsNode t = false := by simpa using hr
      rw [parseLines_node n root nodes t [] hroot hm2 hr2] at h
      simp only [parseLines, Except.ok.injEq, Prod.mk.injEq, true_and] at h
      have := congrArg List.length h
      simp at this
  · intro hm
    rw [parseLines_skip n root nodes t [] hroot (by rw [hsk, hm])]
    rfl
  · intro hm rest
    exact parseLines_skip n root nodes t rest hroot (by rw [hsk, hm])
  · intro hm
    have hm2 : isSkipped t = false := by rw [hsk, hm]
    by_cases hr : rejectsNode t = true
    · exact Or.inl (parseLines_reject n root nodes t [] hroot hr)
    · have hr2 : rejectsNode t = false := by simpa using hr
      right
      rw [parseLines_node n root nodes t [] hroot hm2 hr2]
      rfl

set_option maxRecDepth 100000 in
/-- C20 at the line `├── file_directory.txt`, which carries a branch marker and
a valid name: it is passed over, and the plan of a text that holds it lacks the
node. -/
theorem Parse_skips_summary_words_witness :
    mentionsSummary "├── file_directory.txt".toList = true ∧
    (parseTreeLine "├── file_directory.txt".toList).2.2 = true ∧
    ValidateName (nodeOfLine "├── file_directory.txt".toList).Name = .ok () ∧
    Parse "demo\n├── file_directory.txt\n└── a.txt\n".toList =
      .ok { Root := "demo".toList, Nodes := [⟨"a.txt".toList, false, 0⟩] } ∧
    (parseLines 1 "demo".toList [] ["├── file_directory.txt".toList] =
      .ok ("demo".toList, []) ↔ mentionsSummary "├── file_directory.txt".toList = true) :=
  ⟨by decide, by decide, by decide, by decide,
    (Parse_skips_summary_words 1 "demo".toList [] "├── file_directory.txt".toList
      (by decide) (by decide)).1⟩

/-! ## The extension of a path -/

theorem extLoop_plain (r rest acc : Str) (h : ∀ c ∈ r, c ≠ '/' ∧ c ≠ '.') :
    extLoop (r ++ rest) acc = extLoop rest (r.reverse ++ acc) := by
  induction r generalizing acc with
  | nil => rfl
  | cons c cs ih =>
    obtain ⟨h1, h2⟩ := h c (List.mem_cons_self _ _)
    have ih2 := ih (c :: acc) (fun x hx => h x (List.mem_cons_of_mem _ hx))
    simp only [List.cons_append, extLoop, h1, h2, if_false]
    have ih3 : extLoop (cs.append rest) (c :: acc) = extLoop rest (cs.reverse ++ c :: acc) := ih2
    rw [ih3]
    simp

/-- The extension of a path that ends in a dot followed by runes that are
neither dots nor separators. -/
theorem Ext_dot (x y : Str) (h : ∀ c ∈ y, c ≠ '/' ∧ c ≠ '.') :
    Ext (x ++ '.' :: y) = '.' :: y := by
  unfold Ext
  rw [List.reverse_append, List.reverse_cons, List.append_assoc,
    extLoop_plain _ _ _ (fun c hc => h c (List.mem_reverse.1 hc))]
  simp [extLoop]

theorem extLoop_suffix (r acc : Str) : ∃ k, extLoop r acc = [] ∨
    extLoop r acc = (r.take k).reverse ++ acc := by
  induction r generalizing acc with
  | nil => exact ⟨0, Or.inl rfl⟩
  | cons c cs ih =>
    unfold extLoop
    split
    · exact ⟨0, Or.inl rfl⟩
    · split
      · exact ⟨1, Or.inr (by simp)⟩
      · obtain ⟨k, hk⟩ := ih (c :: acc)
        rcases hk with hk | hk
        · exact ⟨0, Or.inl hk⟩
        · exact ⟨k + 1, Or.inr (by rw [hk]; simp)⟩

theorem Ext_suffix (s : Str) : Ext s <:+ s := by
  unfold Ext
  obtain ⟨k, hk⟩ := extLoop_suffix s.reverse []
  rcases hk with hk | hk
  · rw [hk]
    exact List.nil_suffix
  · rw [hk, List.append_nil]
    have := List.take_prefix k s.reverse
    rw [← List.reverse_suffix, List.reverse_reverse] at this
    exact this

theorem toLowerRune_eq_dot (c : Char) (h : toLowerRune c = '.') : c = '.' := by
  unfold toLowerRune at h
  split at h
  · rename_i hc
    exfalso
    have e1 : 'A'.toNat = 65 := rfl
    have e2 : 'Z'.toNat = 90 := rfl
    rw [e1, e2] at hc
    have h2 := congrArg Char.toNat h
    have hv : (c.toNat + 32).isValidChar := by
      left
      omega
    rw [Char.ofNat, dif_pos hv] at h2
    have h3 : (Char.ofNatAux (c.toNat + 32) hv).toNat = c.toNat + 32 := rfl
    rw [h3] at h2
    have e3 : '.'.toNat = 46 := rfl
    omega
  · split at h
    · cases h
    · split at h
      · cases h
      · exact h

theorem HasSuffix_iff (s w : Str) : HasSuffix s w = true ↔ w <:+ s := by
  unfold HasSuffix
  exact List.isSuffixOf_iff_suffix

/-- The suffix test of `chooseFileMode` is a test of the extension: for a word
that is a dot followed by runes other than dots and separators, the lower-cased
path ends in the word exactly when its lower-cased extension is the word. -/
theorem HasSuffix_ToLower_Ext (s v : Str) (h1 : '/' ∉ v) (h2 : '.' ∉ v) :
    HasSuffix (ToLower s) ('.' :: v) = decide (ToLower (Ext s) = '.' :: v) := by
  rw [Bool.eq_iff_iff, HasSuffix_iff, decide_eq_true_eq]
  constructor
  · rintro ⟨t, ht⟩
    unfold ToLower at ht
    obtain ⟨x, y, hs, _, hy⟩ := List.map_eq_append_iff.1 ht.symm
    cases y with
    | nil => cases hy
    | cons c y2 =>
      simp only [List.map_cons, List.cons.injEq] at hy
      obtain ⟨hc, hy2⟩ := hy
      have hdot := toLowerRune_eq_dot c hc
      subst hdot
      have hplain : ∀ c ∈ y2, c ≠ '/' ∧ c ≠ '.' := by
        intro c hc2
        have hm : toLowerRune c ∈ v := by
          rw [← hy2]
          exact List.mem_map_of_mem _ hc2
        constructor
        · rintro rfl
          exact h1 hm
        · rintro rfl
          exact h2 hm
      rw [hs, Ext_dot x y2 hplain]
      simp only [ToLower, List.map_cons, hy2, List.cons.injEq, and_true]
      exact hc
  · intro h
    rw [← h]
    obtain ⟨t, ht⟩ := Ext_suffix s
    refine ⟨ToLower t, ?_⟩
    unfold ToLower
    rw [← List.map_append, ht]

/-- The test of `chooseFileMode` for a database file. -/
theorem dbSuffix_eq (s : Str) :
    (decide (HasSuffix (ToLower s) ".db".toList = true ∨
      HasSuffix (ToLower s) ".sqlite".toList = true ∨
      HasSuffix (ToLower s) ".sqlite3".toList = true)) = isDBExt (Ext s) := by
  have e1 := HasSuffix_ToLower_Ext s "db".toList (by decide) (by decide)
  have e2 := HasSuffix_ToLower_Ext s "sqlite".toList (by decide) (by decide)
  have e3 := HasSuffix_ToLower_Ext s "sqlite3".toList (by decide) (by decide)
  have f1 : ".db".toList = '.' :: "db".toList := rfl
  have f2 : ".sqlite".toList = '.' :: "sqlite".toList := rfl
  have f3 : ".sqlite3".toList = '.' :: "sqlite3".toList := rfl
  rw [f1, f2, f3, e1, e2, e3]
  unfold isDBExt
  rw [f1, f2, f3]
  simp [Bool.or_assoc]

theorem chooseFileMode_eq {σ : Type} (os : FileSys σ) (a : ApplyArgs) (path : Str) :
    chooseFileMode os a path =
      if a.DBMode0600 = true ∧ isDBExt (Ext (relOf a path)) = true then 0o600
      else if matchesExec os a (relOf a path) = true then 0o755
      else a.FilePerm := by
  rw [← dbSuffix_eq]
  unfold chooseFileMode relOf
  cases Rel a.DestRoot path <;>
    simp only [Option.getD, decide_eq_true_eq, matchesExec]

theorem extLoop_slash (r rest acc : Str) : extLoop (r ++ '/' :: rest) acc = extLoop r acc := by
  induction r generalizing acc with
  | nil => simp [extLoop]
  | cons c cs ih =>
    have ih2 : extLoop (cs.append ('/' :: rest)) (c :: acc) = extLoop cs (c :: acc) := ih _
    simp only [List.cons_append, extLoop]
    split
    · rfl
    · split
      · rfl
      · exact ih2

/-- The extension of a path is that of what follows a separator. -/
theorem Ext_slash (x y : Str) : Ext (x ++ '/' :: y) = Ext y := by
  unfold Ext
  rw [List.reverse_append, List.reverse_cons, List.append_assoc]
  exact extLoop_slash _ _ _

theorem Ext_joinSlash (es : List Str) (l : Str) (h : es.getLast? = some l) :
    Ext (joinSlash es) = Ext l := by
  induction es with
  | nil => cases h
  | cons e rest ih =>
    cases rest with
    | nil =>
      simp only [List.getLast?_singleton, Option.some.injEq] at h
      rw [joinSlash_singleton, h]
    | cons e2 rest2 =>
      have h2 : (e2 :: rest2).getLast? = some l := by
        rw [← h, List.getLast?_cons_cons]
      rw [joinSlash_cons_cons, Ext_slash]
      exact ih h2

theorem Ext_renderPath (rooted : Bool) (es : List Str) (l : Str) (h : es.getLast? = some l) :
    Ext (renderPath rooted es) = Ext l := by
  have hne : es ≠ [] := by
    rintro rfl
    cases h
  unfold renderPath
  cases rooted with
  | true =>
    simp only [if_true]
    have := Ext_slash [] (joinSlash es)
    simp only [List.nil_append] at this
    rw [this]
    exact Ext_joinSlash es l h
  | false =>
    simp only [Bool.false_eq_true, if_false, if_neg hne]
    exact Ext_joinSlash es l h

theorem Rel_Clean_left (b t : Str) : Rel (Clean b) t = Rel b t := by
  unfold Rel
  rw [Clean_idem]

theorem Rel_Clean_right (b t : Str) : Rel b (Clean t) = Rel b t := by
  unfold Rel
  rw [Clean_idem]

/-- The path `Rel` returns from a cleaned path to a cleaned path below it: the
elements the lower path has more, joined. -/
theorem Rel_below {r : Bool} {B ts : List Str} (hB : Normal r B) (hT : Normal r (B ++ ts))
    (hts : ts ≠ []) :
    Rel (renderPath r B) (renderPath r (B ++ ts)) = some (joinSlash ts) := by
  unfold Rel
  simp only [Clean_renderPath hB, Clean_renderPath hT]
  have heq : renderPath r (B ++ ts) ≠ renderPath r B := by
    intro h
    have := (renderPath_inj hT hB h).2
    have hlen := congrArg List.length this
    simp only [List.length_append] at hlen
    exact hts (List.length_eq_zero.1 (by omega))
  rw [if_neg heq]
  have hbase : HasPrefix (if renderPath r B = ['.'] then [] else renderPath r B) ['/'] = r ∧
      relElems (if renderPath r B = ['.'] then [] else renderPath r B) =
        (if r then [[]] else []) ++ B := by
    by_cases hd : renderPath r B = ['.']
    · obtain ⟨hr, hes⟩ := renderPath_eq_dot hB hd
      subst hr hes
      rw [if_pos hd]
      exact ⟨rfl, by simp [relElems_nil]⟩
    · rw [if_neg hd]
      refine ⟨isRooted_renderPath hB, relElems_renderPath hB ?_⟩
      by_contra hcon
      push_neg at hcon
      obtain ⟨hr, hes⟩ := hcon
      have hr2 : r = false := by simpa using hr
      subst hr2 hes
      exact hd rfl
  have htarg : HasPrefix (renderPath r (B ++ ts)) ['/'] = r := isRooted_renderPath hT
  have hne : B ++ ts ≠ [] := by
    intro h
    exact hts (List.append_eq_nil.1 h).2
  rw [hbase.1, htarg, hbase.2, relElems_renderPath hT (Or.inr hne), relLoop_common]
  have hloop : relLoop B (B ++ ts) = ([], ts, false) := by
    have := relLoop_common B [] ts
    rw [List.append_nil] at this
    rw [this]
    cases ts <;> rfl
  rw [hloop]
  simp

/-- For a path that `SafeJoin` returns and that is not the root itself, the path
`chooseFileMode` tests has the extension of the path. -/
theorem Ext_relOf (a : ApplyArgs) (segs : List Str) (path : Str)
    (h : SafeJoin a.DestRoot segs = .ok path) (hne : path ≠ Clean a.DestRoot) :
    ∃ ts, ts ≠ [] ∧ relOf a path = joinSlash ts ∧
      cleanElems path = cleanElems a.DestRoot ++ ts ∧ Ext (relOf a path) = Ext path := by
  obtain ⟨hq, hst⟩ := ((SafeJoin_ok_iff a.DestRoot segs).1 path).1 h
  rw [staysWithin_iff] at hst
  obtain ⟨hr, ⟨ts, hts⟩, _⟩ := hst
  have hB := cleanElems_normal a.DestRoot
  have hT := cleanElems_normal (Join (a.DestRoot :: segs))
  rw [← hr, ← hts] at hT
  have hpath : path = renderPath (isRooted a.DestRoot) (cleanElems a.DestRoot ++ ts) := by
    rw [hq, Clean_eq, ← hr, ← hts]
  have htne : ts ≠ [] := by
    rintro rfl
    apply hne
    rw [hpath, List.append_nil, Clean_eq]
  have hrel : Rel a.DestRoot path = some (joinSlash ts) := by
    rw [← Rel_Clean_left, Clean_eq, hpath]
    exact Rel_below hB hT htne
  have hrelOf : relOf a path = joinSlash ts := by
    unfold relOf
    rw [hrel]
    rfl
  obtain ⟨l, hl⟩ : ∃ l, ts.getLast? = some l := by
    cases hg : ts.getLast? with
    | none => exact absurd (List.getLast?_eq_none_iff.1 hg) htne
    | some l => exact ⟨l, rfl⟩
  refine ⟨ts, htne, hrelOf, ?_, ?_⟩
  · rw [hq, ← components_Clean, Clean_idem, components_Clean, hts]
  · rw [hrelOf, Ext_joinSlash ts l hl, hpath]
    symm
    apply Ext_renderPath
    rw [List.getLast?_append, hl]
    rfl

/-- C15: `chooseFileMode` returns 0600 when the database option is on and the
extension of the path relative to `DestRoot` is, without regard to case, `.db`,
`.sqlite` or `.sqlite3`, whether or not an executable glob matches; otherwise
0755 when some configured executable glob matches the relative path; otherwise
the configured default. With the database option off it returns 0600 only when
that is the configured default. For every path that `SafeJoin` returns below
`DestRoot`, the extension of the relative path is the extension of the path. -/
theorem chooseFileMode_precedence {σ : Type} (os : FileSys σ) (a : ApplyArgs) (path : Str) :
    (a.DBMode0600 = true → isDBExt (Ext (relOf a path)) = true →
      chooseFileMode os a path = 0o600) ∧
    (¬ (a.DBMode0600 = true ∧ isDBExt (Ext (relOf a path)) = true) →
      (matchesExec os a (relOf a path) = true → chooseFileMode os a path = 0o755) ∧
      (matchesExec os a (relOf a path) = false → chooseFileMode os a path = a.FilePerm)) ∧
    (a.DBMode0600 = false → chooseFileMode os a path = 0o600 → a.FilePerm = 0o600) ∧
    (∀ segs, SafeJoin a.DestRoot segs = .ok path → path ≠ Clean a.DestRoot →
      Ext (relOf a path) = Ext path) := by
  rw [chooseFileMode_eq]
  refine ⟨?_, ?_, ?_, ?_⟩
  · intro h1 h2
    rw [if_pos ⟨h1, h2⟩]
  · intro h
    rw [if_neg h]
    constructor
    · intro hm
      rw [if_pos hm]
    · intro hm
      rw [if_neg (by simp [hm])]
  · intro h1 h2
    rw [if_neg (by simp [h1])] at h2
    split at h2
    · cases h2
    · exact h2
  · intro segs h hne
    obtain ⟨_, _, _, _, hext⟩ := Ext_relOf a segs path h hne
    exact hext

/-! ## The stack of open directories -/

theorem ensureDir_withNodes {σ : Type} (os : FileSys σ) (a : ApplyArgs) (nodes : List Node)
    (path : Str) (r : Run σ) : ensureDir os (withNodes a nodes) path r = ensureDir os a path r :=
  rfl

theorem ensureFile_withNodes {σ : Type} (os : FileSys σ) (a : ApplyArgs) (nodes : List Node)
    (path : Str) (r : Run σ) :
    ensureFile os (withNodes a nodes) path r = ensureFile os a path r :=
  rfl

theorem applyNodes_withNodes {σ : Type} (os : FileSys σ) (a : ApplyArgs) (nodes : List Node)
    (ns : List Node) (stack : List Str) (r : Run σ) :
    applyNodes os (withNodes a nodes) ns stack r = applyNodes os a ns stack r := by
  induction ns generalizing stack r with
  | nil => rfl
  | cons n rest ih =>
    unfold applyNodes
    simp only [ensureDir_withNodes, ensureFile_withNodes, ih]
    rfl

theorem Apply_withNodes {σ : Type} (os : FileSys σ) (a : ApplyArgs) (nodes : List Node)
    (fs : σ) :
    Apply os (withNodes a nodes) fs =
      match applyRoot os a { fs := fs, out := [] } with
      | (some err, r) => (some err, r)
      | (none, r) =>
        applyNodes os a nodes []
          (if a.Verbose then out a ("Корень: ".toList ++ a.DestRoot) r else r) := by
  unfold Apply
  have h : applyRoot os (withNodes a nodes) { fs := fs, out := [] } =
      applyRoot os a { fs := fs, out := [] } := rfl
  rw [h]
  cases applyRoot os a { fs := fs, out := [] } with
  | mk e r =>
    cases e with
    | some err => rfl
    | none =>
      simp only
      rw [applyNodes_withNodes]
      rfl

/-- A run of the loop without error met no node deeper than the stack. -/
theorem applyNodes_none_exceeds {σ : Type} (os : FileSys σ) (a : ApplyArgs) (nodes : List Node)
    (stack : List Str) (r : Run σ) (h : (applyNodes os a nodes stack r).1 = none) :
    exceedsStack stack.length nodes = false := by
  induction nodes generalizing stack r with
  | nil => rfl
  | cons n rest ih =>
    unfold applyNodes at h
    by_cases hdeep : n.Depth > stack.length
    · rw [if_pos hdeep] at h
      cases h
    · rw [if_neg hdeep] at h
      simp only at h
      have hlen : (if n.Depth < stack.length then stack.take n.Depth else stack).length =
          n.Depth := by
        split
        · rw [List.length_take]
          omega
        · omega
      simp only [exceedsStack, hdeep, decide_False, Bool.false_or]
      split at h
      · cases h
      · split at h
        · rename_i hd
          split at h
          · cases h
          · have := ih _ _ h
            simpa [hlen, hd] using this
        · rename_i hd
          split at h
          · cases h
          · have := ih _ _ h
            simpa [hlen, hd] using this

theorem applyNodes_cons {σ : Type} (os : FileSys σ) (a : ApplyArgs) (n : Node)
    (rest : List Node) (stack : List Str) (r : Run σ) :
    applyNodes os a (n :: rest) stack r =
      if n.Depth > stack.length then (some (.nesting n.Name n.Depth stack.length), r)
      else
        match SafeJoin a.DestRoot
            ((if n.Depth < stack.length then stack.take n.Depth else stack) ++ [n.Name]) with
        | .error err => (some (.join err), r)
        | .ok target =>
          if n.Dir then
            match ensureDir os a target r with
            | (some err, r) => (some err, r)
            | (none, r) =>
              applyNodes os a rest
                ((if n.Depth < stack.length then stack.take n.Depth else stack) ++ [n.Name]) r
          else
            match ensureFile os a target r with
            | (some err, r) => (some err, r)
            | (none, r) =>
              applyNodes os a rest
                (if n.Depth < stack.length then stack.take n.Depth else stack) r := by
  conv_lhs => rw [applyNodes]

/-- After a part of the nodes went through without error, the loop goes on with
the stack `stackAfter` gives. -/
theorem applyNodes_append {σ : Type} (os : FileSys σ) (a : ApplyArgs) (pre rest : List Node)
    (stack : List Str) (r : Run σ) (h : (applyNodes os a pre stack r).1 = none) :
    applyNodes os a (pre ++ rest) stack r =
      applyNodes os a rest (stackAfter stack pre) (applyNodes os a pre stack r).2 := by
  induction pre generalizing stack r with
  | nil => rfl
  | cons n more ih =>
    rw [List.cons_append, applyNodes_cons os a n (more ++ rest), applyNodes_cons os a n more]
    rw [applyNodes_cons] at h
    unfold stackAfter
    by_cases hdeep : n.Depth > stack.length
    · rw [if_pos hdeep] at h
      cases h
    · obtain ⟨stack2, hstack2⟩ :
          ∃ s2, (if n.Depth < stack.length then stack.take n.Depth else stack) = s2 := ⟨_, rfl⟩
      simp only [if_neg hdeep, hstack2] at h ⊢
      cases hj : SafeJoin a.DestRoot (stack2 ++ [n.Name]) with
      | error e =>
        rw [hj] at h
        cases h
      | ok target =>
        rw [hj] at h
        simp only at h ⊢
        cases hd : n.Dir with
        | true =>
          simp only [hd, if_true] at h ⊢
          cases hens : ensureDir os a target r with
          | mk e r2 =>
            rw [hens] at h
            cases e with
            | some err => cases h
            | none =>
              simp only at h ⊢
              exact ih _ _ h
        | false =>
          simp only [hd, Bool.false_eq_true, if_false] at h ⊢
          cases hens : ensureFile os a target r with
          | mk e r2 =>
            rw [hens] at h
            cases e with
            | some err => cases h
            | none =>
              simp only at h ⊢
              exact ih _ _ h

theorem heightAfter_cons (n m : Node) (rest : List Node) :
    heightAfter (n :: m :: rest) = heightAfter (m :: rest) := by
  unfold heightAfter
  rw [List.getLast?_cons_cons]

theorem nearestDir_cons (n : Node) (more : List Node) (d : Nat) :
    nearestDir (n :: more) d =
      (nearestDir more d).or (if n.Dir && n.Depth == d then some n.Name else none) := by
  unfold nearestDir
  rw [List.reverse_cons, List.find?_append]
  cases more.reverse.find? (fun n => n.Dir && n.Depth == d) with
  | some x => rfl
  | none =>
    simp only [Option.none_or, Option.map_none', List.find?_cons, List.find?_nil]
    cases (n.Dir && n.Depth == d) <;> rfl

/-- The stack one node leaves: cut to the depth of the node, with the name of a
directory on top. -/
theorem stackAfter_cons (s : List Str) (n : Node) (more : List Node) :
    stackAfter s (n :: more) =
      stackAfter ((if n.Depth < s.length then s.take n.Depth else s) ++
        (if n.Dir then [n.Name] else [])) more := by
  rw [stackAfter]
  cases n.Dir <;> simp

theorem cut_length (s : List Str) (k : Nat) (h : k ≤ s.length) :
    (if k < s.length then s.take k else s).length = k := by
  split
  · rw [List.length_take]
    omega
  · omega

theorem cut_get (s : List Str) (k d : Nat) (h : d < k) :
    (if k < s.length then s.take k else s)[d]? = s[d]? := by
  split
  · rw [List.getElem?_take]
    simp [h]
  · rfl

theorem exceedsStack_cons (h : Nat) (n : Node) (more : List Node)
    (hex : exceedsStack h (n :: more) = false) :
    n.Depth ≤ h ∧ exceedsStack (n.Depth + (if n.Dir then 1 else 0)) more = false := by
  simp only [exceedsStack, Bool.or_eq_false_iff, decide_eq_false_iff_not, not_lt] at hex
  refine ⟨hex.1, ?_⟩
  cases hd : n.Dir <;> simpa [hd] using hex.2

theorem stackAfter_length (s : List Str) (pre : List Node)
    (hex : exceedsStack s.length pre = false) :
    (stackAfter s pre).length = if pre = [] then s.length else heightAfter pre := by
  induction pre generalizing s with
  | nil => rfl
  | cons n more ih =>
    obtain ⟨hle, hmore⟩ := exceedsStack_cons _ n more hex
    have hlen : ((if n.Depth < s.length then s.take n.Depth else s) ++
        (if n.Dir then [n.Name] else [])).length = n.Depth + (if n.Dir then 1 else 0) := by
      rw [List.length_append, cut_length s n.Depth hle]
      cases n.Dir <;> rfl
    rw [stackAfter_cons, ih _ (by rw [hlen]; exact hmore)]
    have hne : ¬ (n :: more = []) := by simp
    rw [if_neg hne]
    cases more with
    | nil =>
      rw [if_pos rfl, hlen]
      rfl
    | cons m rest =>
      have hne2 : ¬ (m :: rest = []) := by simp
      rw [if_neg hne2, heightAfter_cons]

/-- The stack grows past a depth only by a directory of that depth. -/
theorem stackAfter_old (s : List Str) (pre : List Node) (d : Nat)
    (hex : exceedsStack s.length pre = false) (hnone : nearestDir pre d = none)
    (hd : d < (stackAfter s pre).length) : d < s.length := by
  induction pre generalizing s with
  | nil => exact hd
  | cons n more ih =>
    obtain ⟨hle, hmore⟩ := exceedsStack_cons _ n more hex
    have hlen : ((if n.Depth < s.length then s.take n.Depth else s) ++
        (if n.Dir then [n.Name] else [])).length = n.Depth + (if n.Dir then 1 else 0) := by
      rw [List.length_append, cut_length s n.Depth hle]
      cases n.Dir <;> rfl
    rw [nearestDir_cons] at hnone
    have h1 : nearestDir more d = none := by
      cases hm : nearestDir more d with
      | none => rfl
      | some x => rw [hm] at hnone; cases hnone
    rw [h1, Option.none_or] at hnone
    rw [stackAfter_cons] at hd
    have h2 := ih _ (by rw [hlen]; exact hmore) h1 hd
    rw [hlen] at h2
    cases hdir : n.Dir with
    | false =>
      simp only [hdir, Bool.false_eq_true, if_false] at h2
      omega
    | true =>
      simp only [hdir, if_true] at h2
      have hne : n.Depth ≠ d := by
        intro he
        simp [hdir, he] at hnone
      omega

/-- The entries of the stack: at every depth below its height, the name of the
nearest preceding directory of that depth, or what the stack held before. -/
theorem stackAfter_get (s : List Str) (pre : List Node) (d : Nat)
    (hex : exceedsStack s.length pre = false) (hd : d < (stackAfter s pre).length) :
    (stackAfter s pre)[d]? = (nearestDir pre d).or s[d]? := by
  induction pre generalizing s with
  | nil => rfl
  | cons n more ih =>
    obtain ⟨hle, hmore⟩ := exceedsStack_cons _ n more hex
    have hcut := cut_length s n.Depth hle
    have hlen : ((if n.Depth < s.length then s.take n.Depth else s) ++
        (if n.Dir then [n.Name] else [])).length = n.Depth + (if n.Dir then 1 else 0) := by
      rw [List.length_append, hcut]
      cases n.Dir <;> rfl
    rw [stackAfter_cons] at hd ⊢
    rw [ih _ (by rw [hlen]; exact hmore) hd, nearestDir_cons]
    cases hm : nearestDir more d with
    | some x => rfl
    | none =>
      simp only [Option.none_or]
      have hold := stackAfter_old _ more d (by rw [hlen]; exact hmore) hm hd
      rw [hlen] at hold
      cases hdir : n.Dir with
      | false =>
        simp only [hdir, Bool.false_eq_true, if_false, Bool.false_and, List.append_nil,
          Option.none_or] at hold ⊢
        exact cut_get s n.Depth d (by omega)
      | true =>
        simp only [hdir, if_true, Bool.true_and] at hold ⊢
        by_cases he : n.Depth = d
        · subst he
          rw [List.getElem?_append_right (by omega), hcut]
          simp
        · have hb : (n.Depth == d) = false := by simpa using he
          rw [hb]
          simp only [Bool.false_eq_true, if_false, Option.none_or]
          rw [List.getElem?_append_left (by omega)]
          exact cut_get s n.Depth d (by omega)

theorem stackAfter_append (s : List Str) (p1 p2 : List Node) :
    stackAfter s (p1 ++ p2) = stackAfter (stackAfter s p1) p2 := by
  induction p1 generalizing s with
  | nil => rfl
  | cons n more ih => rw [List.cons_append, stackAfter_cons, stackAfter_cons, ih]

theorem exceedsStack_append (h : Nat) (p1 p2 : List Node)
    (hex : exceedsStack h (p1 ++ p2) = false) :
    exceedsStack h p1 = false ∧
      exceedsStack (if p1 = [] then h else heightAfter p1) p2 = false := by
  induction p1 generalizing h with
  | nil => exact ⟨rfl, hex⟩
  | cons n more ih =>
    rw [List.cons_append] at hex
    obtain ⟨hle, hmore⟩ := exceedsStack_cons h n _ hex
    obtain ⟨h1, h2⟩ := ih _ hmore
    have hne : ¬ (n :: more = []) := by simp
    rw [if_neg hne]
    constructor
    · simp only [exceedsStack, Bool.or_eq_false_iff, decide_eq_false_iff_not, not_lt]
      refine ⟨hle, ?_⟩
      cases hd : n.Dir <;> simpa [hd] using h1
    · cases more with
      | nil => exact h2
      | cons m rest =>
        have hne2 : ¬ (m :: rest = []) := by simp
        rw [if_neg hne2] at h2
        rw [heightAfter_cons]
        exact h2

theorem heightAfter_nil : heightAfter [] = 0 := rfl

/-- The loop on one node after a stack: a nesting error exactly when the node is
deeper than the stack is high. -/
theorem applyNodes_single_nesting {σ : Type} (os : FileSys σ) (a : ApplyArgs) (n : Node)
    (s : List Str) (r : Run σ) :
    (∃ e, (applyNodes os a [n] s r).1 = some e ∧ e.isNesting = true) ↔ n.Depth > s.length := by
  rw [applyNodes_cons]
  by_cases hdeep : n.Depth > s.length
  · rw [if_pos hdeep]
    simp only [hdeep, iff_true]
    exact ⟨_, rfl, rfl⟩
  · rw [if_neg hdeep]
    simp only [hdeep, iff_false]
    rintro ⟨e, he, hn⟩
    obtain ⟨s2, hs2⟩ : ∃ s2, (if n.Depth < s.length then s.take n.Depth else s) = s2 := ⟨_, rfl⟩
    rw [hs2] at he
    cases hj : SafeJoin a.DestRoot (s2 ++ [n.Name]) with
    | error err =>
      rw [hj] at he
      simp only [Option.some.injEq] at he
      subst he
      cases hn
    | ok target =>
      rw [hj] at he
      simp only at he
      cases hd : n.Dir with
      | true =>
        simp only [hd, if_true] at he
        cases hens : ensureDir os a target r with
        | mk e2 r2 =>
          rw [hens] at he
          cases e2 with
          | some err =>
            simp only [Option.some.injEq] at he
            subst he
            have := ensureDir_error_of_eq _ _ _ _ _ _ hens
            cases err <;> first | (cases hn; done) | cases this
          | none =>
            simp only [applyNodes] at he
            cases he
      | false =>
        simp only [hd, Bool.false_eq_true, if_false] at he
        cases hens : ensureFile os a target r with
        | mk e2 r2 =>
          rw [hens] at he
          cases e2 with
          | some err =>
            simp only [Option.some.injEq] at he
            subst he
            have := ensureFile_error_of_eq _ _ _ _ _ _ hens
            cases err <;> first | (cases hn; done) | cases this
          | none =>
            simp only [applyNodes] at he
            cases he

/-- What a run of `Apply` without error on the first nodes of a plan says about
the loop: it went over them without error. -/
theorem Apply_withNodes_none {σ : Type} (os : FileSys σ) (a : ApplyArgs) (fs : σ)
    (pre : List Node) (hpre : (Apply os (withNodes a pre) fs).1 = none) :
    ∃ r, (applyNodes os a pre [] r).1 = none ∧
      (Apply os (withNodes a pre) fs).2 = (applyNodes os a pre [] r).2 ∧
      ∀ nodes, Apply os (withNodes a nodes) fs = applyNodes os a nodes [] r := by
  rw [Apply_withNodes] at hpre
  cases hroot : applyRoot os a { fs := fs, out := [] } with
  | mk e r0 =>
    rw [hroot] at hpre
    cases e with
    | some err => cases hpre
    | none =>
      simp only at hpre
      refine ⟨_, hpre, ?_, ?_⟩
      · rw [Apply_withNodes, hroot]
      · intro nodes
        rw [Apply_withNodes, hroot]

/-- C19: while `Apply` has met no error on the first nodes of a plan, its loop
goes on with a stack as high as the depth of the last node, plus one when that
node is a directory (0 before the first node), which holds at every depth below
its height the name of the nearest preceding directory node of that depth; every
node so far was at most as deep as the bound the nodes before it give; the next
node raises a nesting error exactly when it is deeper than the bound, and a node
that is not deeper cuts the stack to its depth and, if a directory, is put on
top. -/
theorem Apply_stack_invariant {σ : Type} (os : FileSys σ) (a : ApplyArgs) (fs : σ)
    (pre : List Node) (hpre : (Apply os (withNodes a pre) fs).1 = none) :
    (∀ rest, Apply os (withNodes a (pre ++ rest)) fs =
      applyNodes os a rest (stackAfter [] pre) (Apply os (withNodes a pre) fs).2) ∧
    (stackAfter [] pre).length = heightAfter pre ∧
    (∀ d, d < heightAfter pre →
      (nearestDir pre d).isSome = true ∧ (stackAfter [] pre)[d]? = nearestDir pre d) ∧
    (∀ k m, pre[k]? = some m → m.Depth ≤ heightAfter (pre.take k)) ∧
    (∀ n post, n.Depth > heightAfter pre →
      (Apply os (withNodes a (pre ++ n :: post)) fs).1 =
        some (.nesting n.Name n.Depth (heightAfter pre))) ∧
    (∀ n, (∃ e, (Apply os (withNodes a (pre ++ [n])) fs).1 = some e ∧ e.isNesting = true) ↔
      n.Depth > heightAfter pre) ∧
    (∀ n, n.Depth ≤ heightAfter pre →
      stackAfter [] (pre ++ [n]) =
        (stackAfter [] pre).take n.Depth ++ (if n.Dir then [n.Name] else [])) := by
  obtain ⟨r, hnone, hstate, hall⟩ := Apply_withNodes_none os a fs pre hpre
  have hex : exceedsStack 0 pre = false := applyNodes_none_exceeds os a pre [] r hnone
  have hlen : (stackAfter [] pre).length = heightAfter pre := by
    rw [stackAfter_length [] pre hex]
    split
    · rename_i h
      rw [h]
      rfl
    · rfl
  have hcont : ∀ rest, Apply os (withNodes a (pre ++ rest)) fs =
      applyNodes os a rest (stackAfter [] pre) (Apply os (withNodes a pre) fs).2 := by
    intro rest
    rw [hall, hstate]
    exact applyNodes_append os a pre rest [] r hnone
  refine ⟨hcont, hlen, ?_, ?_, ?_, ?_, ?_⟩
  · intro d hd
    have hget := stackAfter_get [] pre d hex (by rw [hlen]; exact hd)
    rw [List.getElem?_nil, Option.or_none] at hget
    refine ⟨?_, hget⟩
    rw [← hget]
    exact Option.isSome_iff_exists.2 ⟨_, List.getElem?_eq_getElem (by rw [hlen]; exact hd)⟩
  · intro k m hk
    have hklt : k < pre.length := (List.getElem?_eq_some_iff.1 hk).1
    have hsplit : pre = pre.take k ++ m :: pre.drop (k + 1) := by
      have h1 : pre.drop k = m :: pre.drop (k + 1) := by
        rw [List.drop_eq_getElem_cons hklt]
        congr 1
        exact (List.getElem?_eq_some_iff.1 hk).2
      rw [← h1, List.take_append_drop]
    have hex2 := hex
    rw [hsplit] at hex2
    obtain ⟨_, h2⟩ := exceedsStack_append 0 _ _ hex2
    have h3 := (exceedsStack_cons _ m _ h2).1
    split at h3
    · rename_i h0
      rw [h0]
      exact h3
    · exact h3
  · intro n post hn
    rw [hcont, applyNodes_cons, hlen, if_pos hn]
  · intro n
    rw [hcont, applyNodes_single_nesting, hlen]
  · intro n hn
    rw [stackAfter_append, stackAfter_cons]
    simp only [stackAfter]
    congr 1
    split
    · rfl
    · rw [List.take_of_length_le (by omega)]

set_option maxRecDepth 100000 in
/-- C19 at the first two nodes of the example, the directory `src` and the file
`main.go` in it, in a dry run into an empty destination: the stack holds `src`,
and a next node of depth 2 raises a nesting error. -/
theorem Apply_stack_invariant_witness :
    (Apply emptyFileSys (withNodes (dryRunArgs demoPlan) (demoPlan.Nodes.take 2)) ()).1 = none ∧
    stackAfter [] (demoPlan.Nodes.take 2) = ["src".toList] ∧
    heightAfter (demoPlan.Nodes.take 2) = 1 ∧
    nearestDir (demoPlan.Nodes.take 2) 0 = some "src".toList ∧
    (Apply emptyFileSys (withNodes (dryRunArgs demoPlan)
      (demoPlan.Nodes.take 2 ++ ⟨"deep".toList, false, 2⟩ :: [])) ()).1 =
        some (.nesting "deep".toList 2 (heightAfter (demoPlan.Nodes.take 2))) :=
  ⟨by decide, by decide, by decide, by decide,
    (Apply_stack_invariant emptyFileSys (dryRunArgs demoPlan) () (demoPlan.Nodes.take 2)
      (by decide)).2.2.2.2.1 ⟨"deep".toList, false, 2⟩ [] (by decide)⟩

/-! ## The lines of a dry run -/

theorem ensureDir_dry_absent {σ : Type} (os : FileSys σ) (a : ApplyArgs)
    (hdry : a.DryRun = true) (hq : a.Quiet = false) (path : Str) (r : Run σ)
    (h : os.Lstat r.fs path = .notExist) :
    ensureDir os a path r = (none, { fs := r.fs, out := r.out ++ ["mkdir -p ".toList ++ path] }) := by
  unfold ensureDir
  rw [h]
  simp [hdry, out, hq]

theorem ensureFile_dry_absent {σ : Type} (os : FileSys σ) (a : ApplyArgs)
    (hdry : a.DryRun = true) (hq : a.Quiet = false) (path : Str) (r : Run σ)
    (hparent : os.Lstat r.fs (Dir path) = .notExist) (h : os.Lstat r.fs path = .notExist) :
    ensureFile os a path r =
      (none, { fs := r.fs,
               out := r.out ++ ["mkdir -p ".toList ++ Dir path, "touch ".toList ++ path] }) := by
  unfold ensureFile
  simp only
  rw [ensureDir_dry_absent os a hdry hq (Dir path) r hparent]
  simp only [h]
  simp [hdry, out, hq]

/-- The loop of a dry run on a destination where no target and no directory of
a file target exists: no error, no change, and the lines of the nodes in order. -/
theorem applyNodes_dry_trace {σ : Type} (os : FileSys σ) (a : ApplyArgs)
    (hdry : a.DryRun = true) (hq : a.Quiet = false) (nodes : List Node) (stack : List Str)
    (ts : List (Str × Bool)) (hts : targetsFrom a.DestRoot stack nodes = some ts) (r : Run σ)
    (hempty : ∀ t ∈ ts, os.Lstat r.fs t.1 = .notExist ∧
      (t.2 = false → os.Lstat r.fs (Dir t.1) = .notExist)) :
    applyNodes os a nodes stack r = (none, { fs := r.fs, out := r.out ++ ts.flatMap dryLines }) := by
  induction nodes generalizing stack ts r with
  | nil =>
    simp only [targetsFrom, Option.some.injEq] at hts
    subst hts
    simp [applyNodes]
  | cons n rest ih =>
    rw [applyNodes_cons]
    unfold targetsFrom at hts
    by_cases hdeep : n.Depth > stack.length
    · rw [if_pos hdeep] at hts
      cases hts
    · obtain ⟨stack2, hstack2⟩ :
          ∃ s2, (if n.Depth < stack.length then stack.take n.Depth else stack) = s2 := ⟨_, rfl⟩
      simp only [if_neg hdeep, hstack2] at hts ⊢
      cases hj : SafeJoin a.DestRoot (stack2 ++ [n.Name]) with
      | error e =>
        rw [hj] at hts
        cases hts
      | ok target =>
        rw [hj] at hts
        simp only [Option.map_eq_some'] at hts ⊢
        obtain ⟨ts2, hts2, rfl⟩ := hts
        have hhead := hempty (target, n.Dir) (List.mem_cons_self _ _)
        have htail : ∀ t ∈ ts2, os.Lstat r.fs t.1 = .notExist ∧
            (t.2 = false → os.Lstat r.fs (Dir t.1) = .notExist) :=
          fun t ht => hempty t (List.mem_cons_of_mem _ ht)
        cases hd : n.Dir with
        | true =>
          rw [hd] at hts2
          simp only [if_true] at hts2 ⊢
          rw [ensureDir_dry_absent os a hdry hq target r hhead.1]
          simp only
          rw [ih _ _ hts2 { fs := r.fs, out := r.out ++ ["mkdir -p ".toList ++ target] } htail]
          simp [dryLines]
        | false =>
          rw [hd] at hts2 hhead
          simp only [Bool.false_eq_true, if_false] at hts2 ⊢
          rw [ensureFile_dry_absent os a hdry hq target r (hhead.2 rfl) hhead.1]
          simp only
          rw [ih _ _ hts2 { fs := r.fs, out := r.out ++
            ["mkdir -p ".toList ++ Dir target, "touch ".toList ++ target] } htail]
          simp [dryLines]

theorem dryLines_length (ts : List (Str × Bool)) :
    (ts.flatMap dryLines).length = ts.length + (ts.filter (fun t => !t.2)).length := by
  induction ts with
  | nil => rfl
  | cons t rest ih =>
    rw [List.flatMap_cons, List.length_append, ih, List.filter_cons, List.length_cons]
    cases ht : t.2 with
    | true =>
      simp only [dryLines, ht, if_true, List.length_singleton, Bool.not_true,
        Bool.false_eq_true, if_false]
      omega
    | false =>
      simp only [dryLines, ht, Bool.false_eq_true, if_false, List.length_cons,
        List.length_nil, Bool.not_false, if_true]
      omega

theorem dryTrace_length (root : Str) (ts : List (Str × Bool)) :
    (dryTrace root ts).length = 1 + ts.length + (ts.filter (fun t => !t.2)).length := by
  unfold dryTrace
  rw [List.length_cons, dryLines_length]
  omega

/-! ## What every run of `Apply` keeps -/

theorem chmodIfNeeded_fs {σ : Type} (os : FileSys σ) (path : Str) (mode : FileMode)
    (r : Run σ) : (chmodIfNeeded os path mode r).2.fs = (os.Chmod r.fs path mode).2 := by
  unfold chmodIfNeeded
  split <;> (rename_i h; rw [h])

theorem chmodIfNeeded_kept {σ : Type} {os : FileSys σ} {R : σ → σ → Prop} (hR : Kept os R)
    (path : Str) (mode : FileMode) (r : Run σ) : R r.fs (chmodIfNeeded os path mode r).2.fs := by
  rw [chmodIfNeeded_fs]
  exact hR.chmod _ _ _

theorem ensureDir_kept {σ : Type} {os : FileSys σ} {R : σ → σ → Prop} (hR : Kept os R)
    (a : ApplyArgs) (path : Str) (r : Run σ) : R r.fs (ensureDir os a path r).2.fs := by
  unfold ensureDir
  split
  · simp only
    split
    · have := chmodIfNeeded_kept hR path a.DirPerm
        (if a.Verbose then out a ("dir exists: ".toList ++ path) r else r)
      have hfs : (if a.Verbose then out a ("dir exists: ".toList ++ path) r else r).fs = r.fs := by
        split
        · exact out_fs _ _ _
        · rfl
      rw [hfs] at this
      exact this
    · simp only
      split
      · rw [out_fs]
        exact hR.refl _
      · exact hR.refl _
  · exact hR.refl _
  · split
    · simp only [out_fs]
      exact hR.refl _
    · have hmk := hR.mkdirAll r.fs path a.DirPerm
      split
      · rename_i h
        rw [h] at hmk
        exact hmk
      · rename_i fs h
        rw [h] at hmk
        have hch := chmodIfNeeded_kept hR path a.DirPerm { r with fs := fs }
        split
        · rename_i h2
          rw [h2] at hch
          exact hR.trans _ _ _ hmk hch
        · rename_i h2
          rw [h2] at hch
          simp only
          split
          · rw [out_fs]
            exact hR.trans _ _ _ hmk hch
          · exact hR.trans _ _ _ hmk hch
  · exact hR.refl _

theorem ensureFile_kept {σ : Type} {os : FileSys σ} {R : σ → σ → Prop} (hR : Kept os R)
    (a : ApplyArgs) (path : Str) (r : Run σ) : R r.fs (ensureFile os a path r).2.fs := by
  unfold ensureFile
  simp only
  have hd := ensureDir_kept hR a (Dir path) r
  cases hens : ensureDir os a (Dir path) r with
  | mk err r2 =>
    rw [hens] at hd
    simp only at hd
    cases err with
    | some e => exact hd
    | none =>
      simp only
      split
      · exact hd
      · split
        · rw [out_fs]
          exact hd
        · split
          · rw [out_fs]
            exact hd
          · split
            · exact hd
            · have htr := hR.truncate r2.fs path (chooseFileMode os a path)
              split
              · rename_i h
                rw [h] at htr
                exact hR.trans _ _ _ hd htr
              · rename_i fs h
                rw [h] at htr
                have hch := chmodIfNeeded_kept hR path (chooseFileMode os a path)
                  { r2 with fs := fs }
                split
                · rename_i h2
                  rw [h2] at hch
                  exact hR.trans _ _ _ hd (hR.trans _ _ _ htr hch)
                · rename_i h2
                  rw [h2] at hch
                  simp only
                  split
                  · rw [out_fs]
                    exact hR.trans _ _ _ hd (hR.trans _ _ _ htr hch)
                  · exact hR.trans _ _ _ hd (hR.trans _ _ _ htr hch)
      · split
        · rw [out_fs]
          exact hd
        · have htr := hR.createExcl r2.fs path (chooseFileMode os a path)
          split
          · rename_i h
            rw [h] at htr
            exact hR.trans _ _ _ hd htr
          · rename_i fs h
            rw [h] at htr
            have hch := chmodIfNeeded_kept hR path (chooseFileMode os a path)
              { r2 with fs := fs }
            split
            · rename_i h2
              rw [h2] at hch
              exact hR.trans _ _ _ hd (hR.trans _ _ _ htr hch)
            · rename_i h2
              rw [h2] at hch
              simp only
              split
              · rw [out_fs]
                exact hR.trans _ _ _ hd (hR.trans _ _ _ htr hch)
              · exact hR.trans _ _ _ hd (hR.trans _ _ _ htr hch)
      · exact hd

theorem applyNodes_kept {σ : Type} {os : FileSys σ} {R : σ → σ → Prop} (hR : Kept os R)
    (a : ApplyArgs) (nodes : List Node) (stack : List Str) (r : Run σ) :
    R r.fs (applyNodes os a nodes stack r).2.fs := by
  induction nodes generalizing stack r with
  | nil => exact hR.refl _
  | cons n rest ih =>
    rw [applyNodes_cons]
    split
    · exact hR.refl _
    · split
      · exact hR.refl _
      · rename_i target _
        split
        · have hd := ensureDir_kept hR a target r
          cases hens : ensureDir os a target r with
          | mk err r2 =>
            rw [hens] at hd
            cases err with
            | some e => exact hd
            | none => exact hR.trans _ _ _ hd (ih _ _)
        · have hd := ensureFile_kept hR a target r
          cases hens : ensureFile os a target r with
          | mk err r2 =>
            rw [hens] at hd
            cases err with
            | some e => exact hd
            | none => exact hR.trans _ _ _ hd (ih _ _)

theorem applyRoot_kept {σ : Type} {os : FileSys σ} {R : σ → σ → Prop} (hR : Kept os R)
    (a : ApplyArgs) (r : Run σ) : R r.fs (applyRoot os a r).2.fs := by
  unfold applyRoot
  split
  · rw [out_fs]
    exact hR.refl _
  · have hmk := hR.mkdirAll r.fs a.DestRoot a.DirPerm
    split
    · rename_i h
      rw [h] at hmk
      exact hmk
    · rename_i fs h
      rw [h] at hmk
      exact hR.trans _ _ _ hmk (chmodIfNeeded_kept hR a.DestRoot a.DirPerm { r with fs := fs })

/-- A relation that holds across every call that changes the file system holds
between the state before `Apply` and the state after it. -/
theorem Apply_kept {σ : Type} {os : FileSys σ} {R : σ → σ → Prop} (hR : Kept os R)
    (a : ApplyArgs) (fs : σ) : R fs (Apply os a fs).2.fs := by
  unfold Apply
  have hroot := applyRoot_kept hR a { fs := fs, out := [] }
  cases hr : applyRoot os a { fs := fs, out := [] } with
  | mk err r =>
    rw [hr] at hroot
    cases err with
    | some e => exact hroot
    | none =>
      simp only
      refine hR.trans _ _ _ hroot ?_
      have := applyNodes_kept hR a a.Plan.Nodes []
        (if a.Verbose then out a ("Корень: ".toList ++ a.DestRoot) r else r)
      have hfs : (if a.Verbose then out a ("Корень: ".toList ++ a.DestRoot) r else r).fs =
          r.fs := by
        split
        · exact out_fs _ _ _
        · rfl
      rw [hfs] at this
      exact this

/-! ## The calls of the file system -/

theorem Inode.chmod_isDir (m : FileMode) (e : Inode) : (e.chmod m).isDir = e.isDir := by
  cases e <;> rfl

theorem setEntry_same (d : Disk) (p : Str) (e : Inode) : setEntry d p e p = some e := by
  simp [setEntry]

theorem setEntry_other (d : Disk) (p q : Str) (e : Inode) (h : q ≠ p) :
    setEntry d p e q = d q := by
  simp [setEntry, h]

theorem setEntry_id (d : Disk) (p : Str) (e : Inode) (h : d p = some e) : setEntry d p e = d := by
  funext q
  unfold setEntry
  split
  · rename_i hq
    rw [hq, h]
  · rfl

theorem setEntry_twice (d : Disk) (p : Str) (e e2 : Inode) :
    setEntry (setEntry d p e) p e2 = setEntry d p e2 := by
  funext q
  unfold setEntry
  split <;> rfl

theorem keepsKinds_refl (d : Disk) : keepsKinds d d := fun _ e h => ⟨e, h, rfl⟩

theorem keepsKinds_trans (d1 d2 d3 : Disk) (h1 : keepsKinds d1 d2) (h2 : keepsKinds d2 d3) :
    keepsKinds d1 d3 := by
  intro q e he
  obtain ⟨e2, he2, hk2⟩ := h1 q e he
  obtain ⟨e3, he3, hk3⟩ := h2 q e2 he2
  exact ⟨e3, he3, hk3.trans hk2⟩

theorem keepsKinds_setEntry (d : Disk) (p : Str) (e : Inode)
    (h : ∀ e0, d p = some e0 → e.isDir = e0.isDir) : keepsKinds d (setEntry d p e) := by
  intro q e1 he1
  by_cases hq : q = p
  · subst hq
    exact ⟨e, setEntry_same _ _ _, h e1 he1⟩
  · exact ⟨e1, by rw [setEntry_other _ _ _ _ hq, he1], rfl⟩

theorem diskMkdirAll_keeps (u : FileMode) (d : Disk) (p : Str) (m : FileMode) :
    keepsKinds d (diskMkdirAll u d p m).2 := by
  unfold diskMkdirAll
  split
  · exact keepsKinds_refl d
  · intro q e he
    refine ⟨e, ?_, rfl⟩
    simp only
    rw [if_neg (by rw [he]; simp), he]

theorem diskChmod_keeps (d : Disk) (p : Str) (m : FileMode) :
    keepsKinds d (diskChmod d p m).2 := by
  unfold diskChmod
  split
  · exact keepsKinds_refl d
  · split
    · exact keepsKinds_refl d
    · rename_i e he
      apply keepsKinds_setEntry
      intro e0 he0
      rw [he] at he0
      cases he0
      exact Inode.chmod_isDir _ _

theorem diskTruncate_keeps (d : Disk) (p : Str) (m : FileMode) :
    keepsKinds d (diskTruncate d p m).2 := by
  unfold diskTruncate
  split
  · exact keepsKinds_refl d
  · split
    · rename_i m0 c he
      apply keepsKinds_setEntry
      intro e0 he0
      rw [he] at he0
      cases he0
      rfl
    · exact keepsKinds_refl d

theorem diskCreateExcl_keeps (u : FileMode) (d : Disk) (p : Str) (m : FileMode) :
    keepsKinds d (diskCreateExcl u d p m).2 := by
  unfold diskCreateExcl
  split
  · exact keepsKinds_refl d
  · split
    · rename_i hnone _
      split
      · apply keepsKinds_setEntry
        intro e0 he0
        rw [hnone] at he0
        cases he0
      · exact keepsKinds_refl d
    · exact keepsKinds_refl d

/-- No call of the file system removes an entry or changes its kind. -/
theorem diskSys_keepsKinds (u : FileMode) (g : Str → Str → Bool) :
    Kept (diskSys u g) keepsKinds :=
  { refl := keepsKinds_refl
    trans := keepsKinds_trans
    mkdirAll := diskMkdirAll_keeps u
    chmod := diskChmod_keeps
    truncate := diskTruncate_keeps
    createExcl := diskCreateExcl_keeps u }

/-- C12: a dry run of `Apply` leaves the state of the file system exactly as it
was, for every plan, destination root, initial state and setting of the other
flags, in every file system, whether it returns an error or not. -/
theorem Apply_dry_run_unchanged {σ : Type} (os : FileSys σ) (a : ApplyArgs) (fs : σ)
    (hdry : a.DryRun = true) : (Apply os a fs).2.fs = fs :=
  Apply_dry os a hdry fs

set_option maxRecDepth 1000000 in
/-- C12 at the example, forced, on a destination that holds an older
version of it: the dry run announces that it would truncate `README.md` and
leaves everything as it is; on a plan whose first node is too deep it returns
an error and leaves everything as it is. -/
theorem Apply_dry_run_unchanged_witness :
    (Apply plainSys { dryRunArgs demoPlan with Force := true } demoDisk).1 = none ∧
    (Apply plainSys { dryRunArgs demoPlan with Force := true } demoDisk).2.out =
      ["mkdir -p out/demo".toList, "mkdir -p out/demo/src".toList,
        "mkdir -p out/demo/src".toList, "touch out/demo/src/main.go".toList,
        "truncate out/demo/README.md".toList] ∧
    (Apply plainSys { dryRunArgs demoPlan with Force := true } demoDisk).2.fs = demoDisk ∧
    (Apply plainSys (dryRunArgs { Root := "demo".toList, Nodes := [⟨"a".toList, false, 1⟩] })
      demoDisk).1 = some (.nesting "a".toList 1 0) ∧
    (Apply plainSys (dryRunArgs { Root := "demo".toList, Nodes := [⟨"a".toList, false, 1⟩] })
      demoDisk).2.fs = demoDisk :=
  ⟨by decide, by decide,
    Apply_dry_run_unchanged plainSys { dryRunArgs demoPlan with Force := true } demoDisk rfl,
    by decide,
    Apply_dry_run_unchanged plainSys
      (dryRunArgs { Root := "demo".toList, Nodes := [⟨"a".toList, false, 1⟩] }) demoDisk rfl⟩

theorem targetsFrom_flags (root : Str) (nodes : List Node) (stack : List Str)
    (ts : List (Str × Bool)) (h : targetsFrom root stack nodes = some ts) :
    ts.map Prod.snd = nodes.map Node.Dir := by
  induction nodes generalizing stack ts with
  | nil =>
    simp only [targetsFrom, Option.some.injEq] at h
    subst h
    rfl
  | cons n rest ih =>
    unfold targetsFrom at h
    split at h
    · cases h
    · simp only at h
      split at h
      · cases h
      · simp only [Option.map_eq_some'] at h
        obtain ⟨ts2, hts2, rfl⟩ := h
        simp only [List.map_cons, List.cons.injEq, true_and]
        exact ih _ _ hts2

/-- C17, amended: for a plan whose nodes pass the nesting check and `SafeJoin`,
a dry run with quiet and verbose off, on a destination where no target and no
directory of a file target exists, returns no error, changes nothing and prints
`mkdir -p` with the root, then in plan order `mkdir -p` with the target for
every directory node and, for every file node, `mkdir -p` with the directory of
the target followed by `touch` with the target: one line for the root, one for
every directory node and two for every file node. -/
theorem Apply_dry_trace {σ : Type} (os : FileSys σ) (a : ApplyArgs) (fs : σ)
    (ts : List (Str × Bool)) (hdry : a.DryRun = true) (hq : a.Quiet = false)
    (hv : a.Verbose = false)
    (hts : targetsFrom a.DestRoot [] a.Plan.Nodes = some ts)
    (hempty : ∀ t ∈ ts, os.Lstat fs t.1 = .notExist ∧
      (t.2 = false → os.Lstat fs (Dir t.1) = .notExist)) :
    Apply os a fs = (none, { fs := fs, out := dryTrace a.DestRoot ts }) ∧
    ts.map Prod.snd = a.Plan.Nodes.map Node.Dir ∧
    (dryTrace a.DestRoot ts).length =
      1 + a.Plan.Nodes.length + (a.Plan.Nodes.filter (fun n => !n.Dir)).length := by
  have hflags := targetsFrom_flags _ _ _ _ hts
  refine ⟨?_, hflags, ?_⟩
  · unfold Apply applyRoot
    simp only [hdry, if_true, hv, Bool.false_eq_true, if_false]
    have hout : out a ("mkdir -p ".toList ++ a.DestRoot) ({ fs := fs, out := [] } : Run σ) =
        { fs := fs, out := ["mkdir -p ".toList ++ a.DestRoot] } := by
      simp [out, hq]
    rw [hout, applyNodes_dry_trace os a hdry hq _ _ ts hts _ hempty]
    rfl
  · rw [dryTrace_length]
    have h1 : ts.length = a.Plan.Nodes.length := by
      have := congrArg List.length hflags
      simpa using this
    have h2 : (ts.filter (fun t => !t.2)).length =
        (a.Plan.Nodes.filter (fun n => !n.Dir)).length := by
      have e1 : (ts.filter (fun t => !t.2)).length =
          ((ts.map Prod.snd).filter (fun b => !b)).length := by
        rw [List.filter_map, List.length_map]
        rfl
      have e2 : (a.Plan.Nodes.filter (fun n => !n.Dir)).length =
          ((a.Plan.Nodes.map Node.Dir).filter (fun b => !b)).length := by
        rw [List.filter_map, List.length_map]
        rfl
      rw [e1, e2, hflags]
    rw [h1, h2]

set_option maxRecDepth 1000000 in
/-- C17, amended, at the example on the empty file system: six lines. -/
theorem Apply_dry_trace_witness :
    targetsFrom (dryRunArgs demoPlan).DestRoot [] demoPlan.Nodes =
      some [("out/demo/src".toList, true), ("out/demo/src/main.go".toList, false),
        ("out/demo/README.md".toList, false)] ∧
    Apply plainSys (dryRunArgs demoPlan) emptyDisk =
      (none, { fs := emptyDisk,
               out := dryTrace (dryRunArgs demoPlan).DestRoot
                 [("out/demo/src".toList, true), ("out/demo/src/main.go".toList, false),
                   ("out/demo/README.md".toList, false)] }) :=
  ⟨by decide,
    (Apply_dry_trace plainSys (dryRunArgs demoPlan) emptyDisk
      [("out/demo/src".toList, true), ("out/demo/src/main.go".toList, false),
        ("out/demo/README.md".toList, false)] rfl rfl rfl (by decide) (by decide)).1⟩

set_option maxRecDepth 1000000 in
/-- C17, as it is written, fails at the example, which a normal run materialises
into the empty file system: the dry run there prints six lines, not four, and
reports `out/demo/src` twice, because the directory of every file is announced
again before the file. -/
theorem Apply_dry_trace_demo_six_lines :
    (Apply plainSys (normalArgs demoPlan) emptyDisk).1 = none ∧
    (Apply plainSys (dryRunArgs demoPlan) emptyDisk).1 = none ∧
    (Apply plainSys (dryRunArgs demoPlan) emptyDisk).2.out =
      ["mkdir -p out/demo".toList, "mkdir -p out/demo/src".toList,
        "mkdir -p out/demo/src".toList, "touch out/demo/src/main.go".toList,
        "mkdir -p out/demo".toList, "touch out/demo/README.md".toList] ∧
    (Apply plainSys (dryRunArgs demoPlan) emptyDisk).2.out.length ≠ 4 ∧
    (Apply plainSys (dryRunArgs demoPlan) emptyDisk).2.out.count
      "mkdir -p out/demo/src".toList = 2 := by
  decide

/-! ## Paths in the file system -/

theorem renderPath_ne_nil {rooted : Bool} {es : List Str} (h : Normal rooted es) :
    renderPath rooted es ≠ [] := by
  unfold renderPath
  cases rooted with
  | true => simp
  | false =>
    simp only [Bool.false_eq_true, if_false]
    split
    · simp
    · rename_i hne
      obtain ⟨c, rest, hj, _⟩ := joinSlash_head h hne
      rw [hj]
      simp

theorem Clean_ne_nil (p : Str) : Clean p ≠ [] := by
  rw [Clean_eq]
  exact renderPath_ne_nil (cleanElems_normal p)

theorem cleanElems_renderPath {rooted : Bool} {es : List Str} (h : Normal rooted es) :
    cleanElems (renderPath rooted es) = es := by
  rw [← components_Clean, Clean_renderPath h, components_renderPath h]

theorem cleanElems_Clean (p : Str) : cleanElems (Clean p) = cleanElems p := by
  rw [← components_Clean, Clean_idem, components_Clean]

theorem lineage_renderPath {rooted : Bool} {es : List Str} (h : Normal rooted es) :
    lineage (renderPath rooted es) =
      (List.range (es.length + 1)).map (fun k => renderPath rooted (es.take k)) := by
  unfold lineage
  rw [cleanElems_renderPath h, isRooted_renderPath h]

theorem lineage_Clean (p : Str) : lineage (Clean p) = lineage p := by
  unfold lineage
  rw [cleanElems_Clean, isRooted_Clean]

theorem mem_lineage (p q : Str) :
    q ∈ lineage p ↔ ∃ k, k ≤ (cleanElems p).length ∧
      q = renderPath (isRooted p) ((cleanElems p).take k) := by
  unfold lineage
  simp only [List.mem_map, List.mem_range]
  constructor
  · rintro ⟨k, hk, rfl⟩
    exact ⟨k, by omega, rfl⟩
  · rintro ⟨k, hk, rfl⟩
    exact ⟨k, by omega, rfl⟩

theorem self_mem_lineage (p : Str) : Clean p ∈ lineage p := by
  rw [mem_lineage]
  exact ⟨_, le_refl _, by rw [List.take_length, Clean_eq]⟩

theorem Normal_take {rooted : Bool} {es : List Str} (h : Normal rooted es) (k : Nat) :
    Normal rooted (es.take k) := by
  obtain ⟨j, reals, rfl, hr, hk⟩ := h
  rw [List.take_append_eq_append_take, List.take_replicate, List.length_replicate]
  exact ⟨min k j, reals.take (k - j), rfl,
    fun e he => hr e (List.mem_of_mem_take he), fun hrt => by rw [hk hrt]; simp⟩

theorem parentOf_renderPath {rooted : Bool} {es : List Str} {e : Str}
    (h : Normal rooted (es ++ [e])) :
    parentOf (renderPath rooted (es ++ [e])) = some (renderPath rooted es) := by
  unfold parentOf
  rw [cleanElems_renderPath h, isRooted_renderPath h, if_neg (by simp), List.dropLast_concat]

theorem dropWhile_append_all (p : Char → Bool) (e X : Str) (h : ∀ c ∈ e, p c = true) :
    (e ++ X).dropWhile p = X.dropWhile p := by
  induction e with
  | nil => rfl
  | cons c cs ih =>
    rw [List.cons_append, List.dropWhile_cons_of_pos (h c (List.mem_cons_self _ _))]
    exact ih (fun x hx => h x (List.mem_cons_of_mem _ hx))

theorem rdropWhile_append_all (p : Char → Bool) (X e : Str) (h : ∀ c ∈ e, p c = true) :
    (X ++ e).rdropWhile p = X.rdropWhile p := by
  unfold List.rdropWhile
  rw [List.reverse_append, dropWhile_append_all p _ _ (fun c hc => h c (List.mem_reverse.1 hc))]

theorem rdropWhile_to_slash (X e : Str) (h : '/' ∉ e) :
    (X ++ '/' :: e).rdropWhile (fun c => c ≠ '/') = X ++ ['/'] := by
  have : X ++ '/' :: e = (X ++ ['/']) ++ e := by simp
  rw [this, rdropWhile_append_all _ _ _ (fun c hc => by
    simp only [ne_eq, decide_not, Bool.not_eq_true', decide_eq_false_iff_not]
    rintro rfl
    exact h hc)]
  exact List.rdropWhile_concat_neg _ _ _ (by simp)

theorem rdropWhile_no_slash (e : Str) (h : '/' ∉ e) :
    e.rdropWhile (fun c => c ≠ '/') = [] := by
  have := rdropWhile_append_all (fun c => c ≠ '/') [] e (fun c hc => by
    simp only [ne_eq, decide_not, Bool.not_eq_true', decide_eq_false_iff_not]
    rintro rfl
    exact h hc)
  simpa using this

theorem Clean_trailing_slash (Q : Str) (h : Q ≠ []) : Clean (Q ++ ['/']) = Clean Q := by
  unfold Clean
  have hr : HasPrefix (Q ++ ['/']) ['/'] = HasPrefix Q ['/'] := isRooted_append Q _ h
  simp only [hr]
  rw [splitSlash_append Q [], List.foldl_append]
  simp [splitSlash, cleanStep]

theorem joinSlash_concat (es : List Str) (e : Str) (h : es ≠ []) :
    joinSlash (es ++ [e]) = joinSlash es ++ '/' :: e := by
  induction es with
  | nil => exact absurd rfl h
  | cons x rest ih =>
    cases rest with
    | nil => simp [joinSlash_cons_cons, joinSlash_singleton]
    | cons y more =>
      have h1 : joinSlash (x :: (y :: more ++ [e])) = x ++ '/' :: joinSlash (y :: more ++ [e]) :=
        joinSlash_cons _ _ (by simp)
      have h2 : joinSlash (x :: y :: more) = x ++ '/' :: joinSlash (y :: more) :=
        joinSlash_cons _ _ (by simp)
      rw [List.cons_append, h1, ih (by simp), h2]
      simp

/-- The directory of a cleaned path that ends in a real element: the path
without that element. -/
theorem Dir_renderPath {rooted : Bool} {es : List Str} {e : Str}
    (hes : Normal rooted es) (he : isReal e) :
    Dir (renderPath rooted (es ++ [e])) = renderPath rooted es := by
  have hslash : '/' ∉ e := he.2.2.2
  unfold Dir
  by_cases hne : es = []
  · subst hne
    cases rooted with
    | true =>
      have hp : renderPath true ([] ++ [e]) = [] ++ '/' :: e := by
        simp [renderPath, joinSlash_singleton]
      rw [hp, rdropWhile_to_slash [] e hslash]
      decide
    | false =>
      have hp : renderPath false ([] ++ [e]) = e := by
        simp [renderPath, joinSlash_singleton]
      rw [hp, rdropWhile_no_slash e hslash]
      decide
  · have hp : renderPath rooted (es ++ [e]) = renderPath rooted es ++ '/' :: e := by
      unfold renderPath
      rw [joinSlash_concat es e hne]
      cases rooted with
      | true => simp
      | false => simp [hne]
    rw [hp, rdropWhile_to_slash _ e hslash,
      Clean_trailing_slash _ (renderPath_ne_nil hes), Clean_renderPath hes]

/-! ## The steps of `Apply` in the file system -/

theorem Dir_clean (p : Str) : Clean (Dir p) = Dir p := Clean_idem _

theorem Dir_ne_nil (p : Str) : Dir p ≠ [] := Clean_ne_nil _

theorem diskLstat_dir (d : Disk) (t : Str) (m : FileMode) (ht : t ≠ [])
    (h : d (Clean t) = some (.dir m)) : diskLstat d t = .isDir := by
  simp [diskLstat, ht, h]

theorem diskLstat_file (d : Disk) (t : Str) (m : FileMode) (c : Str) (ht : t ≠ [])
    (h : d (Clean t) = some (.file m c)) : diskLstat d t = .notDir := by
  simp [diskLstat, ht, h]

theorem diskLstat_absent (d : Disk) (t : Str) (h : d (Clean t) = none)
    (hu : underFile d t = false) : diskLstat d t = .notExist := by
  unfold diskLstat
  split
  · rfl
  · simp [h, hu]

theorem chmodIfNeeded_disk (u : FileMode) (g : Str → Str → Bool) (t : Str) (m : FileMode)
    (r : Run Disk) (e : Inode) (ht : t ≠ []) (h : r.fs (Clean t) = some e) :
    chmodIfNeeded (diskSys u g) t m r =
      (none, { r with fs := setEntry r.fs (Clean t) (e.chmod (permBits m)) }) := by
  simp [chmodIfNeeded, diskSys, diskChmod, ht, h]

/-- `ensureDir` on a directory that exists, not in a dry run: its mode is set. -/
theorem ensureDir_disk_exists (u : FileMode) (g : Str → Str → Bool) (a : ApplyArgs) (t : Str)
    (r : Run Disk) (m : FileMode) (hdry : a.DryRun = false) (ht : t ≠ [])
    (h : r.fs (Clean t) = some (.dir m)) :
    ∃ r2, ensureDir (diskSys u g) a t r = (none, r2) ∧
      r2.fs = setEntry r.fs (Clean t) (.dir (permBits a.DirPerm)) := by
  have hl : (diskSys u g).Lstat r.fs t = .isDir := diskLstat_dir r.fs t m ht h
  unfold ensureDir
  rw [hl]
  simp only [hdry, Bool.not_false, if_true]
  have hfs : (if a.Verbose = true then out a ("dir exists: ".toList ++ t) r else r).fs = r.fs := by
    split
    · exact out_fs _ _ _
    · rfl
  rw [chmodIfNeeded_disk u g t a.DirPerm _ (.dir m) ht (by rw [hfs]; exact h)]
  exact ⟨_, rfl, by rw [hfs]; rfl⟩

/-- `ensureDir` on a directory that exists, in a dry run: nothing changes. -/
theorem ensureDir_disk_exists_dry (u : FileMode) (g : Str → Str → Bool) (a : ApplyArgs)
    (t : Str) (r : Run Disk) (m : FileMode) (hdry : a.DryRun = true) (ht : t ≠ [])
    (h : r.fs (Clean t) = some (.dir m)) :
    ∃ r2, ensureDir (diskSys u g) a t r = (none, r2) ∧ r2.fs = r.fs := by
  have hl : (diskSys u g).Lstat r.fs t = .isDir := diskLstat_dir r.fs t m ht h
  unfold ensureDir
  rw [hl]
  simp only [hdry, Bool.not_true, Bool.false_eq_true, if_false]
  refine ⟨_, rfl, ?_⟩
  split
  · exact out_fs _ _ _
  · rfl

/-- `ensureDir` where a regular file stands: a conflict, and nothing changes. -/
theorem ensureDir_disk_file (u : FileMode) (g : Str → Str → Bool) (a : ApplyArgs) (t : Str)
    (r : Run Disk) (m : FileMode) (c : Str) (ht : t ≠ [])
    (h : r.fs (Clean t) = some (.file m c)) :
    ensureDir (diskSys u g) a t r = (some (.conflictFile t), r) := by
  have hl : (diskSys u g).Lstat r.fs t = .notDir := diskLstat_file r.fs t m c ht h
  unfold ensureDir
  rw [hl]

theorem mkdirState_self (u : FileMode) (d : Disk) (t : Str) (perm : FileMode)
    (h : d (Clean t) = none) :
    mkdirState u d t perm (Clean t) = some (.dir (createBits u perm)) := by
  unfold mkdirState
  rw [if_pos ⟨self_mem_lineage t, h⟩]

theorem mkdirState_old (u : FileMode) (d : Disk) (t : Str) (perm : FileMode) (q : Str)
    (e : Inode) (h : d q = some e) : mkdirState u d t perm q = some e := by
  unfold mkdirState
  rw [if_neg (by rw [h]; simp), h]

/-- `ensureDir` where nothing stands and the path leads through no regular file,
not in a dry run: the missing directories of the lineage are created and the
mode of the last one is set. -/
theorem ensureDir_disk_absent (u : FileMode) (g : Str → Str → Bool) (a : ApplyArgs) (t : Str)
    (r : Run Disk) (hdry : a.DryRun = false) (ht : t ≠ [])
    (h : r.fs (Clean t) = none) (hu : underFile r.fs t = false) :
    ∃ r2, ensureDir (diskSys u g) a t r = (none, r2) ∧
      r2.fs = setEntry (mkdirState u r.fs t a.DirPerm) (Clean t)
        (.dir (permBits a.DirPerm)) := by
  have hl : (diskSys u g).Lstat r.fs t = .notExist := diskLstat_absent r.fs t h hu
  have hmk : (diskSys u g).MkdirAll r.fs t a.DirPerm =
      (true, mkdirState u r.fs t a.DirPerm) := by
    simp only [diskSys, diskMkdirAll, ht, hu, false_or, Bool.false_eq_true, if_false]
    rfl
  unfold ensureDir
  rw [hl]
  simp only [hdry, Bool.false_eq_true, if_false, hmk]
  rw [chmodIfNeeded_disk u g t a.DirPerm _ (.dir (createBits u a.DirPerm)) ht
    (mkdirState_self u r.fs t a.DirPerm h)]
  simp only
  refine ⟨_, rfl, ?_⟩
  split
  · rw [out_fs]
    rfl
  · rfl

/-- `ensureFile` where a directory stands at the path, after the directory of
the path was found in place: a conflict. -/
theorem ensureFile_disk_dir (u : FileMode) (g : Str → Str → Bool) (a : ApplyArgs) (path : Str)
    (r r2 : Run Disk) (m : FileMode) (h : ensureDir (diskSys u g) a (Dir path) r = (none, r2))
    (hp : path ≠ []) (ht : r2.fs (Clean path) = some (.dir m)) :
    ensureFile (diskSys u g) a path r = (some (.conflictDir path), r2) := by
  have hl : (diskSys u g).Lstat r2.fs path = .isDir := diskLstat_dir r2.fs path m hp ht
  unfold ensureFile
  simp only [h, hl]

/-- `ensureFile` where a regular file stands at the path, without overwrite and
not in a dry run: the file exists already; with overwrite: the file is emptied
and its mode set. -/
theorem ensureFile_disk_file (u : FileMode) (g : Str → Str → Bool) (a : ApplyArgs) (path : Str)
    (r r2 : Run Disk) (m : FileMode) (c : Str)
    (h : ensureDir (diskSys u g) a (Dir path) r = (none, r2))
    (hp : path ≠ []) (ht : r2.fs (Clean path) = some (.file m c)) (hdry : a.DryRun = false) :
    (a.Force = false →
      ensureFile (diskSys u g) a path r = (some (.fileExists path), r2)) ∧
    (a.Force = true →
      ∃ r3, ensureFile (diskSys u g) a path r = (none, r3) ∧
        r3.fs = setEntry r2.fs (Clean path)
          (.file (permBits (chooseFileMode (diskSys u g) a path)) [])) := by
  have hl : (diskSys u g).Lstat r2.fs path = .notDir := diskLstat_file r2.fs path m c hp ht
  constructor
  · intro hf
    unfold ensureFile
    simp only [h, hl, hdry, hf]
    simp
  · intro hf
    have htr : (diskSys u g).Truncate r2.fs path (chooseFileMode (diskSys u g) a path) =
        (true, setEntry r2.fs (Clean path) (.file m [])) := by
      simp [diskSys, diskTruncate, hp, ht]
    unfold ensureFile
    simp only [h, hl, hdry, hf, htr]
    simp only [Bool.false_eq_true, Bool.not_true, and_self, if_false, and_true]
    rw [chmodIfNeeded_disk u g path _ _ (.file m []) hp (setEntry_same _ _ _)]
    simp only [setEntry_twice, Inode.chmod]
    refine ⟨_, rfl, ?_⟩
    split
    · rw [out_fs]
    · rfl

/-- `ensureFile` where nothing stands at the path, after the directory of the
path was found in place, not in a dry run: an empty file is created and its mode
set. -/
theorem ensureFile_disk_absent (u : FileMode) (g : Str → Str → Bool) (a : ApplyArgs)
    (path : Str) (r r2 : Run Disk) (pm : FileMode)
    (h : ensureDir (diskSys u g) a (Dir path) r = (none, r2))
    (hp : path ≠ []) (ht : r2.fs (Clean path) = none) (hu : underFile r2.fs path = false)
    (hleaf : parentOf path = some (Dir path)) (hparent : r2.fs (Dir path) = some (.dir pm))
    (hdry : a.DryRun = false) :
    ∃ r3, ensureFile (diskSys u g) a path r = (none, r3) ∧
      r3.fs = setEntry r2.fs (Clean path)
        (.file (permBits (chooseFileMode (diskSys u g) a path)) []) := by
  have hl : (diskSys u g).Lstat r2.fs path = .notExist := diskLstat_absent r2.fs path ht hu
  have hcr : (diskSys u g).CreateExcl r2.fs path (chooseFileMode (diskSys u g) a path) =
      (true, setEntry r2.fs (Clean path)
        (.file (createBits u (chooseFileMode (diskSys u g) a path)) [])) := by
    simp [diskSys, diskCreateExcl, hp, ht, hleaf, hparent]
  unfold ensureFile
  simp only [h, hl, hdry, hcr]
  simp only [Bool.false_eq_true, if_false]
  rw [chmodIfNeeded_disk u g path _ _ (.file _ []) hp (setEntry_same _ _ _)]
  simp only [setEntry_twice, Inode.chmod]
  refine ⟨_, rfl, ?_⟩
  split
  · rw [out_fs]
  · rfl

theorem parentOf_ne_nil (path par : Str) (h : parentOf path = some par) : path ≠ [] := by
  rintro rfl
  simp [parentOf, cleanElems_nil] at h

theorem parentOf_eq (path par : Str) (h : parentOf path = some par) :
    cleanElems path ≠ [] ∧
      par = renderPath (isRooted path) (cleanElems path).dropLast := by
  unfold parentOf at h
  split at h
  · cases h
  · rename_i hne
    simp only [Option.some.injEq] at h
    exact ⟨hne, h.symm⟩

theorem Normal_dropLast {rooted : Bool} {es : List Str} (h : Normal rooted es) :
    Normal rooted es.dropLast := by
  rw [List.dropLast_eq_take]
  exact Normal_take h _

/-- A path is not its own parent. -/
theorem parentOf_ne (path par : Str) (h : parentOf path = some par) : Clean path ≠ par := by
  obtain ⟨hne, hpar⟩ := parentOf_eq path par h
  intro heq
  rw [hpar, Clean_eq] at heq
  have := (renderPath_inj (cleanElems_normal path) (Normal_dropLast (cleanElems_normal path))
    heq).2
  have hlen := congrArg List.length this
  rw [List.length_dropLast] at hlen
  have : (cleanElems path).length ≠ 0 := fun h0 => hne (List.length_eq_zero.1 h0)
  omega

/-- The lineage of a path: the path itself, and the lineage of its parent. -/
theorem lineage_parent (path par : Str) (h : parentOf path = some par) (q : Str) :
    q ∈ lineage path ↔ q = Clean path ∨ q ∈ lineage par := by
  obtain ⟨hne, hpar⟩ := parentOf_eq path par h
  have hn := cleanElems_normal path
  have hlen : (cleanElems path).length ≠ 0 := fun h0 => hne (List.length_eq_zero.1 h0)
  rw [mem_lineage, hpar, lineage_renderPath (Normal_dropLast hn)]
  simp only [List.mem_map, List.mem_range, List.length_dropLast]
  constructor
  · rintro ⟨k, hk, rfl⟩
    by_cases hfull : k = (cleanElems path).length
    · left
      rw [hfull, List.take_length, Clean_eq]
    · right
      refine ⟨k, by omega, ?_⟩
      rw [List.dropLast_eq_take, List.take_take, min_eq_left (by omega)]
  · rintro (rfl | ⟨k, hk, rfl⟩)
    · exact ⟨_, le_refl _, by rw [List.take_length, Clean_eq]⟩
    · refine ⟨k, by omega, ?_⟩
      rw [List.dropLast_eq_take, List.take_take, min_eq_left (by omega)]

theorem underFile_false_iff (d : Disk) (p : Str) :
    underFile d p = false ↔ ∀ q ∈ lineage p, ∀ m c, d q ≠ some (.file m c) := by
  unfold underFile
  rw [List.any_eq_false]
  constructor
  · intro h q hq m c hd
    have := h q hq
    rw [hd] at this
    simp [Inode.isFile] at this
  · intro h q hq
    cases hd : d q with
    | none => simp
    | some e =>
      cases e with
      | dir m => simp [Inode.isFile]
      | file m c => exact absurd hd (h q hq m c)

theorem any_isDir_iff (o : Option Inode) : o.any Inode.isDir = true ↔ ∃ m, o = some (.dir m) := by
  cases o with
  | none => simp
  | some e =>
    cases e with
    | dir m => simp [Inode.isDir]
    | file m c => simp [Inode.isDir]

/-- In a tree, a path whose parent is a directory and that holds nothing leads
through no regular file, also after the mode of the parent was set. -/
theorem underFile_child (d : Disk) (path par : Str) (pm : FileMode) (e : Inode)
    (hwf : wellFormed d) (hleaf : parentOf path = some par) (hclean : Clean par = par)
    (hparent : d par = some (.dir pm)) (habsent : d (Clean path) = none)
    (he : e.isDir = true) :
    underFile d path = false ∧ underFile (setEntry d par e) path = false := by
  have hne := parentOf_ne path par hleaf
  have hanc : ∀ q ∈ lineage path, q = Clean path ∨ q = par ∨ ∃ m, d q = some (.dir m) := by
    intro q hq
    rcases (lineage_parent path par hleaf q).1 hq with h | h
    · exact Or.inl h
    · by_cases hqp : q = par
      · exact Or.inr (Or.inl hqp)
      · right; right
        have := hwf par _ hparent q h (by rw [hclean]; exact hqp)
        exact (any_isDir_iff _).1 this
  constructor
  · rw [underFile_false_iff]
    intro q hq m c hd
    rcases hanc q hq with h | h | ⟨m2, h⟩
    · rw [h, habsent] at hd
      cases hd
    · rw [h, hparent] at hd
      cases hd
    · rw [h] at hd
      cases hd
  · rw [underFile_false_iff]
    intro q hq m c hd
    rcases hanc q hq with h | h | ⟨m2, h⟩
    · rw [h, setEntry_other _ _ _ _ hne, habsent] at hd
      cases hd
    · rw [h, setEntry_same] at hd
      simp only [Option.some.injEq] at hd
      rw [hd] at he
      cases he
    · by_cases hqp : q = par
      · rw [hqp, setEntry_same] at hd
        simp only [Option.some.injEq] at hd
        rw [hd] at he
        cases he
      · rw [setEntry_other _ _ _ _ hqp, h] at hd
        cases hd

/-! ## Trees -/

theorem wellFormed_emptyDisk : wellFormed emptyDisk := by
  intro q e h
  cases h

/-- A tree with a new entry in one of its directories is a tree. -/
theorem wellFormed_setEntry_new (d : Disk) (q : Str) (e : Inode) (hwf : wellFormed d)
    (hnone : d q = none) (hclean : Clean q = q)
    (hanc : ∀ p ∈ lineage q, p ≠ q → (d p).any Inode.isDir = true) :
    wellFormed (setEntry d q e) := by
  intro q2 e2 h2 p hp hne
  by_cases hq : q2 = q
  · subst hq
    rw [hclean] at hne
    rw [setEntry_other _ _ _ _ hne]
    exact hanc p hp hne
  · rw [setEntry_other _ _ _ _ hq] at h2
    have h3 := hwf q2 e2 h2 p hp hne
    have hpq : p ≠ q := by
      rintro rfl
      rw [hnone] at h3
      cases h3
    rw [setEntry_other _ _ _ _ hpq]
    exact h3

set_option maxRecDepth 1000000 in
theorem wellFormed_demoDisk : wellFormed demoDisk := by
  unfold demoDisk cwdDisk
  apply wellFormed_setEntry_new _ _ _ _ (by decide) (by decide) (by decide)
  apply wellFormed_setEntry_new _ _ _ _ (by decide) (by decide) (by decide)
  apply wellFormed_setEntry_new _ _ _ _ (by decide) (by decide) (by decide)
  apply wellFormed_setEntry_new _ _ _ _ (by decide) (by decide) (by decide)
  exact wellFormed_emptyDisk

/-! ## `ensureFile` by what stands at the path -/

/-- What `ensureDir` does to the directory of the path before `ensureFile` looks
at the path itself. -/
theorem ensureDir_parent (u : FileMode) (g : Str → Str → Bool) (a : ApplyArgs) (path : Str)
    (r : Run Disk) (pm : FileMode) (hparent : r.fs (Dir path) = some (.dir pm)) :
    ∃ r2, ensureDir (diskSys u g) a (Dir path) r = (none, r2) ∧
      r2.fs = (if a.DryRun then r.fs
        else setEntry r.fs (Dir path) (.dir (permBits a.DirPerm))) := by
  have hp : r.fs (Clean (Dir path)) = some (.dir pm) := by rw [Dir_clean]; exact hparent
  cases hdry : a.DryRun with
  | true =>
    obtain ⟨r2, h, hfs⟩ := ensureDir_disk_exists_dry u g a (Dir path) r pm hdry (Dir_ne_nil _) hp
    exact ⟨r2, h, by simpa using hfs⟩
  | false =>
    obtain ⟨r2, h, hfs⟩ := ensureDir_disk_exists u g a (Dir path) r pm hdry (Dir_ne_nil _) hp
    rw [Dir_clean] at hfs
    exact ⟨r2, h, by simpa using hfs⟩

/-- C14, amended: `ensureFile` on a path that names an entry of a directory
that exists, in a file system that is a tree. If a directory stands at the path
it fails with a conflict, dry run or not. If a regular file stands there and
overwrite is off, a normal run fails with the error that the file exists and
leaves the file as it is, and a dry run returns no error and changes nothing.
If a regular file stands there and overwrite is on, a normal run returns no
error and leaves the file empty with the permission bits of the mode of
`chooseFileMode`. If nothing stands there, a normal run creates an empty file
with these permission bits. In every normal run the mode of the directory of
the path is set to `DirPerm`; nothing else changes. -/
theorem ensureFile_existing (u : FileMode) (g : Str → Str → Bool) (a : ApplyArgs) (path : Str)
    (r : Run Disk) (pm : FileMode) (hwf : wellFormed r.fs)
    (hleaf : parentOf path = some (Dir path)) (hparent : r.fs (Dir path) = some (.dir pm)) :
    (∀ m, r.fs (Clean path) = some (.dir m) →
      (ensureFile (diskSys u g) a path r).1 = some (.conflictDir path)) ∧
    (∀ m c, r.fs (Clean path) = some (.file m c) → a.Force = false →
      (a.DryRun = false →
        (ensureFile (diskSys u g) a path r).1 = some (.fileExists path) ∧
        (ensureFile (diskSys u g) a path r).2.fs =
          setEntry r.fs (Dir path) (.dir (permBits a.DirPerm)) ∧
        (ensureFile (diskSys u g) a path r).2.fs (Clean path) = some (.file m c)) ∧
      (a.DryRun = true →
        (ensureFile (diskSys u g) a path r).1 = none ∧
        (ensureFile (diskSys u g) a path r).2.fs = r.fs)) ∧
    (∀ m c, r.fs (Clean path) = some (.file m c) → a.Force = true → a.DryRun = false →
      (ensureFile (diskSys u g) a path r).1 = none ∧
      (ensureFile (diskSys u g) a path r).2.fs =
        setEntry (setEntry r.fs (Dir path) (.dir (permBits a.DirPerm))) (Clean path)
          (.file (permBits (chooseFileMode (diskSys u g) a path)) [])) ∧
    (r.fs (Clean path) = none → a.DryRun = false →
      (ensureFile (diskSys u g) a path r).1 = none ∧
      (ensureFile (diskSys u g) a path r).2.fs =
        setEntry (setEntry r.fs (Dir path) (.dir (permBits a.DirPerm))) (Clean path)
          (.file (permBits (chooseFileMode (diskSys u g) a path)) [])) := by
  have hp : path ≠ [] := parentOf_ne_nil path _ hleaf
  have hne : Clean path ≠ Dir path := parentOf_ne path _ hleaf
  obtain ⟨r2, hens, hfs⟩ := ensureDir_parent u g a path r pm hparent
  have hsame : r2.fs (Clean path) = r.fs (Clean path) := by
    rw [hfs]
    split
    · rfl
    · exact setEntry_other _ _ _ _ hne
  refine ⟨?_, ?_, ?_, ?_⟩
  · intro m hm
    rw [ensureFile_disk_dir u g a path r r2 m hens hp (by rw [hsame]; exact hm)]
  · intro m c hm hforce
    constructor
    · intro hdry
      rw [hdry] at hfs
      simp only [Bool.false_eq_true, if_false] at hfs
      rw [(ensureFile_disk_file u g a path r r2 m c hens hp (by rw [hsame]; exact hm) hdry).1
        hforce]
      refine ⟨rfl, hfs, ?_⟩
      simp only
      rw [hsame]
      exact hm
    · intro hdry
      rw [hdry] at hfs
      simp only [if_true] at hfs
      have hl : (diskSys u g).Lstat r2.fs path = .notDir :=
        diskLstat_file r2.fs path m c hp (by rw [hsame]; exact hm)
      unfold ensureFile
      simp only [hens, hl, hdry, hforce]
      simp only [Bool.not_false, and_self, if_true, out_fs]
      exact ⟨trivial, hfs⟩
  · intro m c hm hforce hdry
    rw [hdry] at hfs
    simp only [Bool.false_eq_true, if_false] at hfs
    obtain ⟨r3, h3, hfs3⟩ :=
      (ensureFile_disk_file u g a path r r2 m c hens hp (by rw [hsame]; exact hm) hdry).2 hforce
    rw [h3]
    refine ⟨rfl, ?_⟩
    simp only
    rw [hfs3, hfs]
  · intro hm hdry
    rw [hdry] at hfs
    simp only [Bool.false_eq_true, if_false] at hfs
    have hu := (underFile_child r.fs path (Dir path) pm (.dir (permBits a.DirPerm)) hwf hleaf
      (Dir_clean path) hparent hm rfl).2
    obtain ⟨r3, h3, hfs3⟩ := ensureFile_disk_absent u g a path r r2 (permBits a.DirPerm) hens hp
      (by rw [hsame]; exact hm) (by rw [hfs]; exact hu) hleaf
      (by rw [hfs]; exact setEntry_same _ _ _) hdry
    rw [h3]
    refine ⟨rfl, ?_⟩
    simp only
    rw [hfs3, hfs]

set_option maxRecDepth 1000000 in
/-- C14, amended, at the file `out/demo/README.md` of the older version of the
example, with overwrite on: the run returns no error and the state is the old
one with the mode of `out/demo` set and the file emptied. -/
theorem ensureFile_existing_witness :
    parentOf "out/demo/README.md".toList = some (Dir "out/demo/README.md".toList) ∧
    demoDisk (Dir "out/demo/README.md".toList) = some (.dir 0o700) ∧
    demoDisk (Clean "out/demo/README.md".toList) = some (.file 0o600 "old".toList) ∧
    (ensureFile plainSys { normalArgs demoPlan with Force := true } "out/demo/README.md".toList
      { fs := demoDisk, out := [] }).1 = none ∧
    (ensureFile plainSys { normalArgs demoPlan with Force := true } "out/demo/README.md".toList
      { fs := demoDisk, out := [] }).2.fs =
        setEntry (setEntry demoDisk (Dir "out/demo/README.md".toList) (.dir (permBits 0o755)))
          (Clean "out/demo/README.md".toList)
          (.file (permBits (chooseFileMode plainSys { normalArgs demoPlan with Force := true }
            "out/demo/README.md".toList)) []) :=
  ⟨by decide, by decide, by decide,
    (ensureFile_existing 0o022 (fun _ _ => false) { normalArgs demoPlan with Force := true }
      "out/demo/README.md".toList { fs := demoDisk, out := [] } 0o700 wellFormed_demoDisk
      (by decide) (by decide)).2.2.1 0o600 "old".toList (by decide) rfl rfl⟩

set_option maxRecDepth 1000000 in
/-- C14, as it is written, fails: with overwrite on, `ensureFile` on the file
`out/demo/README.md`, whose parent `out/demo` is a directory with mode 0700,
returns no error and empties the file, and it changes another entry: the mode
of `out/demo` becomes 0755, the configured `DirPerm`. -/
theorem ensureFile_changes_parent_mode :
    demoDisk "out/demo".toList = some (.dir 0o700) ∧
    demoDisk "out/demo/README.md".toList = some (.file 0o600 "old".toList) ∧
    (ensureFile plainSys { normalArgs demoPlan with Force := true } "out/demo/README.md".toList
      { fs := demoDisk, out := [] }).1 = none ∧
    (ensureFile plainSys { normalArgs demoPlan with Force := true } "out/demo/README.md".toList
      { fs := demoDisk, out := [] }).2.fs "out/demo/README.md".toList =
        some (.file 0o644 []) ∧
    (ensureFile plainSys { normalArgs demoPlan with Force := true } "out/demo/README.md".toList
      { fs := demoDisk, out := [] }).2.fs "out/demo".toList = some (.dir 0o755) := by
  decide

/-! ## Running `Apply` again -/

theorem targetsFrom_deep (root : Str) (stack : List Str) (n : Node) (rest : List Node)
    (h : n.Depth > stack.length) : targetsFrom root stack (n :: rest) = none := by
  rw [targetsFrom, if_pos h]

theorem targetsFrom_error (root : Str) (stack : List Str) (n : Node) (rest : List Node)
    (e : JoinError)
    (hj : SafeJoin root
      ((if n.Depth < stack.length then stack.take n.Depth else stack) ++ [n.Name]) = .error e) :
    targetsFrom root stack (n :: rest) = none := by
  rw [targetsFrom]
  split
  · rfl
  · simp only [hj]

theorem targetsFrom_ok (root : Str) (stack : List Str) (n : Node) (rest : List Node)
    (target : Str) (h : ¬ n.Depth > stack.length)
    (hj : SafeJoin root
      ((if n.Depth < stack.length then stack.take n.Depth else stack) ++ [n.Name]) =
        .ok target) :
    targetsFrom root stack (n :: rest) =
      (targetsFrom root
        ((if n.Depth < stack.length then stack.take n.Depth else stack) ++
          (if n.Dir then [n.Name] else [])) rest).map (fun ts => (target, n.Dir) :: ts) := by
  rw [targetsFrom, if_neg h]
  simp only [hj]
  cases n.Dir <;> simp

/-- A run of the loop without error computed a target for every node. -/
theorem applyNodes_none_targets {σ : Type} (os : FileSys σ) (a : ApplyArgs) (nodes : List Node)
    (stack : List Str) (r : Run σ) (h : (applyNodes os a nodes stack r).1 = none) :
    ∃ ts, targetsFrom a.DestRoot stack nodes = some ts := by
  induction nodes generalizing stack r with
  | nil => exact ⟨[], rfl⟩
  | cons n rest ih =>
    rw [applyNodes_cons] at h
    by_cases hdeep : n.Depth > stack.length
    · rw [if_pos hdeep] at h
      cases h
    · rw [if_neg hdeep] at h
      cases hj : SafeJoin a.DestRoot
          ((if n.Depth < stack.length then stack.take n.Depth else stack) ++ [n.Name]) with
      | error e =>
        rw [hj] at h
        cases h
      | ok target =>
        rw [hj] at h
        rw [targetsFrom_ok _ _ _ _ target hdeep hj]
        simp only at h
        cases hd : n.Dir with
        | true =>
          simp only [hd, if_true] at h ⊢
          cases hens : ensureDir os a target r with
          | mk e r2 =>
            rw [hens] at h
            cases e with
            | some err => cases h
            | none =>
              obtain ⟨ts, hts⟩ := ih _ _ h
              exact ⟨_, by rw [hts]; rfl⟩
        | false =>
          simp only [hd, Bool.false_eq_true, if_false, List.append_nil] at h ⊢
          cases hens : ensureFile os a target r with
          | mk e r2 =>
            rw [hens] at h
            cases e with
            | some err => cases h
            | none =>
              obtain ⟨ts, hts⟩ := ih _ _ h
              exact ⟨_, by rw [hts]; rfl⟩

/-- A path `SafeJoin` returns is cleaned and not empty. -/
theorem SafeJoin_clean (root : Str) (parts : List Str) (t : Str)
    (h : SafeJoin root parts = .ok t) : Clean t = t ∧ t ≠ [] := by
  have ht := ((SafeJoin_ok root parts t).1 h).1
  rw [ht]
  exact ⟨Clean_idem _, Clean_ne_nil _⟩

theorem targetsFrom_clean (root : Str) (nodes : List Node) (stack : List Str)
    (ts : List (Str × Bool)) (h : targetsFrom root stack nodes = some ts) :
    ∀ t ∈ ts, Clean t.1 = t.1 ∧ t.1 ≠ [] := by
  induction nodes generalizing stack ts with
  | nil =>
    simp only [targetsFrom, Option.some.injEq] at h
    subst h
    simp
  | cons n rest ih =>
    by_cases hdeep : n.Depth > stack.length
    · rw [targetsFrom_deep _ _ _ _ hdeep] at h
      cases h
    · cases hj : SafeJoin root
          ((if n.Depth < stack.length then stack.take n.Depth else stack) ++ [n.Name]) with
      | error e =>
        rw [targetsFrom_error _ _ _ _ e hj] at h
        cases h
      | ok target =>
        rw [targetsFrom_ok _ _ _ _ target hdeep hj] at h
        simp only [Option.map_eq_some'] at h
        obtain ⟨ts2, hts2, rfl⟩ := h
        intro t ht
        rcases List.mem_cons.1 ht with rfl | ht
        · exact SafeJoin_clean _ _ _ hj
        · exact ih _ _ hts2 t ht

/-- `ensureDir` in a run that is not dry, when it returns no error: a directory
with the mode `DirPerm` stands at the path, and every directory that had this
mode before still has it. -/
theorem ensureDir_disk_facts (u : FileMode) (g : Str → Str → Bool) (a : ApplyArgs) (t : Str)
    (r r2 : Run Disk) (hdry : a.DryRun = false) (hclean : Clean t = t) (ht : t ≠ [])
    (h : ensureDir (diskSys u g) a t r = (none, r2)) :
    r2.fs t = some (.dir (permBits a.DirPerm)) ∧
      ∀ q, r.fs q = some (.dir (permBits a.DirPerm)) →
        r2.fs q = some (.dir (permBits a.DirPerm)) := by
  cases hent : r.fs (Clean t) with
  | some e =>
    cases e with
    | dir m =>
      obtain ⟨r3, h3, hfs⟩ := ensureDir_disk_exists u g a t r m hdry ht hent
      rw [h] at h3
      simp only [Prod.mk.injEq, true_and] at h3
      subst h3
      rw [hfs, hclean]
      refine ⟨setEntry_same _ _ _, ?_⟩
      intro q hq
      by_cases hqt : q = t
      · rw [hqt]
        exact setEntry_same _ _ _
      · rw [setEntry_other _ _ _ _ hqt]
        exact hq
    | file m c =>
      rw [ensureDir_disk_file u g a t r m c ht hent] at h
      cases h
  | none =>
    cases hu : underFile r.fs t with
    | true =>
      have hl : (diskSys u g).Lstat r.fs t = .failed := by
        simp [diskSys, diskLstat, ht, hent, hu]
      unfold ensureDir at h
      rw [hl] at h
      cases h
    | false =>
      obtain ⟨r3, h3, hfs⟩ := ensureDir_disk_absent u g a t r hdry ht hent hu
      rw [h] at h3
      simp only [Prod.mk.injEq, true_and] at h3
      subst h3
      rw [hfs, hclean]
      refine ⟨setEntry_same _ _ _, ?_⟩
      intro q hq
      by_cases hqt : q = t
      · rw [hqt]
        exact setEntry_same _ _ _
      · rw [setEntry_other _ _ _ _ hqt]
        exact mkdirState_old _ _ _ _ _ _ hq

/-- `ensureDir` in a run that is not dry, on a directory that has the mode
`DirPerm`: no error and no change. -/
theorem ensureDir_disk_settled (u : FileMode) (g : Str → Str → Bool) (a : ApplyArgs) (t : Str)
    (r : Run Disk) (hdry : a.DryRun = false) (hclean : Clean t = t) (ht : t ≠ [])
    (h : r.fs t = some (.dir (permBits a.DirPerm))) :
    ∃ r2, ensureDir (diskSys u g) a t r = (none, r2) ∧ r2.fs = r.fs := by
  obtain ⟨r2, h2, hfs⟩ := ensureDir_disk_exists u g a t r _ hdry ht (by rw [hclean]; exact h)
  refine ⟨r2, h2, ?_⟩
  rw [hfs, hclean]
  exact setEntry_id _ _ _ h

/-- The loop over directory nodes only, in a run that is not dry and returns no
error: a directory with the mode `DirPerm` stands at every target, and every
directory that had this mode before still has it. -/
theorem applyNodes_dirs_facts (u : FileMode) (g : Str → Str → Bool) (a : ApplyArgs)
    (hdry : a.DryRun = false) (nodes : List Node) (hdirs : ∀ n ∈ nodes, n.Dir = true)
    (stack : List Str) (ts : List (Str × Bool))
    (hts : targetsFrom a.DestRoot stack nodes = some ts) (r r2 : Run Disk)
    (h : applyNodes (diskSys u g) a nodes stack r = (none, r2)) :
    (∀ t ∈ ts, r2.fs t.1 = some (.dir (permBits a.DirPerm))) ∧
      ∀ q, r.fs q = some (.dir (permBits a.DirPerm)) →
        r2.fs q = some (.dir (permBits a.DirPerm)) := by
  induction nodes generalizing stack ts r with
  | nil =>
    simp only [targetsFrom, Option.some.injEq] at hts
    subst hts
    simp only [applyNodes, Prod.mk.injEq, true_and] at h
    subst h
    simp
  | cons n rest ih =>
    have hd : n.Dir = true := hdirs n (List.mem_cons_self _ _)
    have hrest : ∀ m ∈ rest, m.Dir = true := fun m hm => hdirs m (List.mem_cons_of_mem _ hm)
    rw [applyNodes_cons] at h
    by_cases hdeep : n.Depth > stack.length
    · rw [if_pos hdeep] at h
      cases h
    · rw [if_neg hdeep] at h
      cases hj : SafeJoin a.DestRoot
          ((if n.Depth < stack.length then stack.take n.Depth else stack) ++ [n.Name]) with
      | error e =>
        rw [hj] at h
        cases h
      | ok target =>
        rw [hj] at h
        rw [targetsFrom_ok _ _ _ _ target hdeep hj] at hts
        simp only [hd, if_true, Option.map_eq_some'] at h hts
        obtain ⟨ts2, hts2, rfl⟩ := hts
        obtain ⟨hclean, hne⟩ := SafeJoin_clean _ _ _ hj
        cases hens : ensureDir (diskSys u g) a target r with
        | mk e r3 =>
          rw [hens] at h
          cases e with
          | some err => cases h
          | none =>
            simp only at h
            obtain ⟨h1, h2⟩ := ensureDir_disk_facts u g a target r r3 hdry hclean hne hens
            obtain ⟨h3, h4⟩ := ih hrest _ _ hts2 r3 h
            constructor
            · intro t ht
              rcases List.mem_cons.1 ht with rfl | ht
              · exact h4 _ h1
              · exact h3 t ht
            · intro q hq
              exact h4 q (h2 q hq)

/-- The loop over directory nodes only, in a run that is not dry, when a
directory with the mode `DirPerm` stands at every target: no error and no
change. -/
theorem applyNodes_dirs_settled (u : FileMode) (g : Str → Str → Bool) (a : ApplyArgs)
    (hdry : a.DryRun = false) (nodes : List Node) (hdirs : ∀ n ∈ nodes, n.Dir = true)
    (stack : List Str) (ts : List (Str × Bool))
    (hts : targetsFrom a.DestRoot stack nodes = some ts) (r : Run Disk)
    (hall : ∀ t ∈ ts, r.fs t.1 = some (.dir (permBits a.DirPerm))) :
    ∃ r2, applyNodes (diskSys u g) a nodes stack r = (none, r2) ∧ r2.fs = r.fs := by
  induction nodes generalizing stack ts r with
  | nil => exact ⟨r, rfl, rfl⟩
  | cons n rest ih =>
    have hd : n.Dir = true := hdirs n (List.mem_cons_self _ _)
    have hrest : ∀ m ∈ rest, m.Dir = true := fun m hm => hdirs m (List.mem_cons_of_mem _ hm)
    rw [applyNodes_cons]
    by_cases hdeep : n.Depth > stack.length
    · rw [targetsFrom_deep _ _ _ _ hdeep] at hts
      cases hts
    · rw [if_neg hdeep]
      cases hj : SafeJoin a.DestRoot
          ((if n.Depth < stack.length then stack.take n.Depth else stack) ++ [n.Name]) with
      | error e =>
        rw [targetsFrom_error _ _ _ _ e hj] at hts
        cases hts
      | ok target =>
        rw [targetsFrom_ok _ _ _ _ target hdeep hj] at hts
        simp only [hd, if_true, Option.map_eq_some'] at hts ⊢
        obtain ⟨ts2, hts2, rfl⟩ := hts
        obtain ⟨hclean, hne⟩ := SafeJoin_clean _ _ _ hj
        obtain ⟨r3, h3, hfs3⟩ := ensureDir_disk_settled u g a target r hdry hclean hne
          (hall _ (List.mem_cons_self _ _))
        rw [h3]
        simp only
        obtain ⟨r4, h4, hfs4⟩ := ih hrest _ _ hts2 r3 (fun t ht => by
          rw [hfs3]
          exact hall t (List.mem_cons_of_mem _ ht))
        exact ⟨r4, h4, by rw [hfs4, hfs3]⟩

/-- The first step of a run that is not dry, when it returns no error: every
path of the lineage of the root holds a directory, the root one with the mode
`DirPerm`. -/
theorem applyRoot_disk_facts (u : FileMode) (g : Str → Str → Bool) (a : ApplyArgs)
    (hdry : a.DryRun = false) (r r2 : Run Disk)
    (h : applyRoot (diskSys u g) a r = (none, r2)) :
    r2.fs (Clean a.DestRoot) = some (.dir (permBits a.DirPerm)) ∧
      ∀ q ∈ lineage a.DestRoot, (r2.fs q).any Inode.isDir = true := by
  unfold applyRoot at h
  simp only [hdry, Bool.false_eq_true, if_false] at h
  by_cases hfail : a.DestRoot = [] ∨ underFile r.fs a.DestRoot = true
  · have hmk : (diskSys u g).MkdirAll r.fs a.DestRoot a.DirPerm = (false, r.fs) := by
      simp only [diskSys, diskMkdirAll, if_pos hfail]
    rw [hmk] at h
    cases h
  · have hmk : (diskSys u g).MkdirAll r.fs a.DestRoot a.DirPerm =
        (true, mkdirState u r.fs a.DestRoot a.DirPerm) := by
      simp only [diskSys, diskMkdirAll, if_neg hfail]
      rfl
    rw [hmk] at h
    simp only at h
    push_neg at hfail
    obtain ⟨hne, hu⟩ := hfail
    have hu2 : underFile r.fs a.DestRoot = false := by simpa using hu
    rw [underFile_false_iff] at hu2
    -- every path of the lineage holds a directory after `MkdirAll`
    have hlin : ∀ q ∈ lineage a.DestRoot,
        ∃ m, mkdirState u r.fs a.DestRoot a.DirPerm q = some (.dir m) := by
      intro q hq
      cases hent : r.fs q with
      | none =>
        refine ⟨createBits u a.DirPerm, ?_⟩
        unfold mkdirState
        rw [if_pos ⟨hq, hent⟩]
      | some e =>
        cases e with
        | dir m => exact ⟨m, mkdirState_old _ _ _ _ _ _ hent⟩
        | file m c => exact absurd hent (hu2 q hq m c)
    obtain ⟨m0, hm0⟩ := hlin _ (self_mem_lineage a.DestRoot)
    rw [chmodIfNeeded_disk u g a.DestRoot a.DirPerm _ (.dir m0) hne hm0] at h
    simp only [Prod.mk.injEq, true_and] at h
    subst h
    refine ⟨setEntry_same _ _ _, ?_⟩
    intro q hq
    simp only
    by_cases hqr : q = Clean a.DestRoot
    · rw [hqr, setEntry_same]
      rfl
    · rw [setEntry_other _ _ _ _ hqr]
      obtain ⟨m, hm⟩ := hlin q hq
      rw [hm]
      rfl

/-- The first step of a run that is not dry, when every path of the lineage of
the root holds a directory, the root one with the mode `DirPerm`: no error and
no change. -/
theorem applyRoot_disk_settled (u : FileMode) (g : Str → Str → Bool) (a : ApplyArgs)
    (hdry : a.DryRun = false) (r : Run Disk) (hne : a.DestRoot ≠ [])
    (hroot : r.fs (Clean a.DestRoot) = some (.dir (permBits a.DirPerm)))
    (hlin : ∀ q ∈ lineage a.DestRoot, (r.fs q).any Inode.isDir = true) :
    applyRoot (diskSys u g) a r = (none, r) := by
  have hu : underFile r.fs a.DestRoot = false := by
    rw [underFile_false_iff]
    intro q hq m c hent
    have := hlin q hq
    rw [hent] at this
    cases this
  have hstate : mkdirState u r.fs a.DestRoot a.DirPerm = r.fs := by
    funext q
    unfold mkdirState
    split
    · rename_i hq
      have := hlin q hq.1
      rw [hq.2] at this
      cases this
    · rfl
  have hmk : (diskSys u g).MkdirAll r.fs a.DestRoot a.DirPerm = (true, r.fs) := by
    simp only [diskSys, diskMkdirAll, hne, hu, false_or, Bool.false_eq_true, if_false]
    exact congrArg (Prod.mk true) hstate
  unfold applyRoot
  simp only [hdry, Bool.false_eq_true, if_false, hmk]
  rw [chmodIfNeeded_disk u g a.DestRoot a.DirPerm _ _ hne hroot]
  simp only [Inode.chmod]
  rw [setEntry_id _ _ _ hroot]

theorem Apply_of_root_error {σ : Type} (os : FileSys σ) (a : ApplyArgs) (fs : σ)
    (e : ApplyError) (r : Run σ) (h : applyRoot os a { fs := fs, out := [] } = (some e, r)) :
    Apply os a fs = (some e, r) := by
  unfold Apply
  rw [h]

theorem Apply_of_root_ok {σ : Type} (os : FileSys σ) (a : ApplyArgs) (fs : σ)
    (r : Run σ) (h : applyRoot os a { fs := fs, out := [] } = (none, r)) :
    Apply os a fs =
      applyNodes os a a.Plan.Nodes []
        (if a.Verbose then out a ("Корень: ".toList ++ a.DestRoot) r else r) := by
  unfold Apply
  rw [h]

theorem rootLine_fs {σ : Type} (a : ApplyArgs) (line : Str) (r : Run σ) :
    (if a.Verbose then out a line r else r).fs = r.fs := by
  split
  · exact out_fs _ _ _
  · rfl

theorem applyRoot_disk_ne_nil (u : FileMode) (g : Str → Str → Bool) (a : ApplyArgs)
    (hdry : a.DryRun = false) (r r2 : Run Disk)
    (h : applyRoot (diskSys u g) a r = (none, r2)) : a.DestRoot ≠ [] := by
  intro hnil
  unfold applyRoot at h
  have hmk : (diskSys u g).MkdirAll r.fs a.DestRoot a.DirPerm = (false, r.fs) := by
    simp [diskSys, diskMkdirAll, hnil]
  simp only [hdry, Bool.false_eq_true, if_false, hmk] at h
  cases h

/-- A run of `Apply` that is not dry, over directory nodes only: when it returns
no error, a second run from the state it left returns no error and leaves that
state. -/
theorem Apply_dirs_again (u : FileMode) (g : Str → Str → Bool) (a : ApplyArgs) (d : Disk)
    (hdry : a.DryRun = false) (hdirs : ∀ n ∈ a.Plan.Nodes, n.Dir = true)
    (h : (Apply (diskSys u g) a d).1 = none) :
    (Apply (diskSys u g) a (Apply (diskSys u g) a d).2.fs).1 = none ∧
    (Apply (diskSys u g) a (Apply (diskSys u g) a d).2.fs).2.fs =
      (Apply (diskSys u g) a d).2.fs := by
  cases hroot : applyRoot (diskSys u g) a { fs := d, out := [] } with
  | mk e r0 =>
    cases e with
    | some err =>
      rw [Apply_of_root_error _ _ _ _ _ hroot] at h
      cases h
    | none =>
      have hA := Apply_of_root_ok _ _ _ _ hroot
      rw [hA] at h ⊢
      obtain ⟨hr0, hlin0⟩ := applyRoot_disk_facts u g a hdry _ _ hroot
      have hne := applyRoot_disk_ne_nil u g a hdry _ _ hroot
      obtain ⟨r1, hr1⟩ : ∃ r1, (if a.Verbose then out a ("Корень: ".toList ++ a.DestRoot) r0
          else r0) = r1 := ⟨_, rfl⟩
      have hfs1 : r1.fs = r0.fs := by
        rw [← hr1]
        exact rootLine_fs a _ r0
      rw [hr1] at h ⊢
      obtain ⟨ts, hts⟩ := applyNodes_none_targets _ a _ _ _ h
      cases hloop : applyNodes (diskSys u g) a a.Plan.Nodes [] r1 with
      | mk e2 rfin =>
        rw [hloop] at h
        simp only at h
        subst h
        simp only
        obtain ⟨htargets, hstable⟩ :=
          applyNodes_dirs_facts u g a hdry _ hdirs [] ts hts r1 rfin hloop
        have hkeep : keepsKinds r1.fs rfin.fs := by
          have := applyNodes_kept (diskSys_keepsKinds u g) a a.Plan.Nodes [] r1
          rw [hloop] at this
          exact this
        have hroot2 : rfin.fs (Clean a.DestRoot) = some (.dir (permBits a.DirPerm)) :=
          hstable _ (by rw [hfs1]; exact hr0)
        have hlin2 : ∀ q ∈ lineage a.DestRoot, (rfin.fs q).any Inode.isDir = true := by
          intro q hq
          obtain ⟨m, hm⟩ := (any_isDir_iff _).1 (hlin0 q hq)
          obtain ⟨e2, he2, hk⟩ := hkeep q _ (by rw [hfs1]; exact hm)
          rw [he2]
          exact hk
        have hroot3 := applyRoot_disk_settled u g a hdry { fs := rfin.fs, out := [] } hne
          hroot2 hlin2
        rw [Apply_of_root_ok _ _ _ _ hroot3]
        obtain ⟨r2, hr2⟩ : ∃ r2, (if a.Verbose then
            out a ("Корень: ".toList ++ a.DestRoot) ({ fs := rfin.fs, out := [] } : Run Disk)
          else { fs := rfin.fs, out := [] }) = r2 := ⟨_, rfl⟩
        have hfs2 : r2.fs = rfin.fs := by
          rw [← hr2]
          exact rootLine_fs a _ _
        rw [hr2]
        obtain ⟨r3, h3, hfs3⟩ := applyNodes_dirs_settled u g a hdry _ hdirs [] ts hts r2
          (fun t ht => by rw [hfs2]; exact htargets t ht)
        rw [h3]
        exact ⟨rfl, by rw [hfs3, hfs2]⟩

/-- C16, amended: in the file system, every entry that exists before `Apply`
exists after it with the same kind, a directory a directory and a file a file,
whether `Apply` returns an error or not; and for a plan of directory nodes
only, when a run returns no error, a second run with the same arguments from
the state it left returns no error and leaves that state. -/
theorem Apply_keeps_kinds (u : FileMode) (g : Str → Str → Bool) (a : ApplyArgs) (d : Disk) :
    keepsKinds d (Apply (diskSys u g) a d).2.fs ∧
    ((∀ n ∈ a.Plan.Nodes, n.Dir = true) → (Apply (diskSys u g) a d).1 = none →
      (Apply (diskSys u g) a (Apply (diskSys u g) a d).2.fs).1 = none ∧
      (Apply (diskSys u g) a (Apply (diskSys u g) a d).2.fs).2.fs =
        (Apply (diskSys u g) a d).2.fs) := by
  refine ⟨Apply_kept (diskSys_keepsKinds u g) a d, ?_⟩
  intro hdirs h
  cases hdry : a.DryRun with
  | false => exact Apply_dirs_again u g a d hdry hdirs h
  | true =>
    have hfs := Apply_dry (diskSys u g) a hdry d
    rw [hfs]
    exact ⟨h, hfs⟩

set_option maxRecDepth 1000000 in
/-- C16, amended, at a plan of the two directories `src` and `src/pkg`, run
into the older version of the example: the run returns no error, the directory
`out/demo` and the file `README.md` are still there, and a second run returns
no error and leaves the state of the first. -/
theorem Apply_keeps_kinds_witness :
    (Apply plainSys (normalArgs dirsPlan) demoDisk).1 = none ∧
    (Apply plainSys (normalArgs dirsPlan) demoDisk).2.fs "out/demo/src/pkg".toList =
      some (.dir 0o755) ∧
    (Apply plainSys (normalArgs dirsPlan) demoDisk).2.fs "out/demo/README.md".toList =
      some (.file 0o600 "old".toList) ∧
    (Apply plainSys (normalArgs dirsPlan)
      (Apply plainSys (normalArgs dirsPlan) demoDisk).2.fs).2.fs =
      (Apply plainSys (normalArgs dirsPlan) demoDisk).2.fs :=
  ⟨by decide, by decide, by decide,
    ((Apply_keeps_kinds 0o022 (fun _ _ => false) (normalArgs dirsPlan) demoDisk).2
      (by decide) (by decide)).2⟩

set_option maxRecDepth 1000000 in
/-- C16, as it is written, fails: for the plan of the one directory node `a` of
depth 1, the first run returns a nesting error, and so does the second run with
the same arguments; it does not succeed. -/
theorem Apply_dirs_second_run_fails :
    (∀ n ∈ deepPlan.Nodes, n.Dir = true) ∧
    (Apply plainSys (normalArgs deepPlan) cwdDisk).1 = some (.nesting "a".toList 1 0) ∧
    (Apply plainSys (normalArgs deepPlan)
      (Apply plainSys (normalArgs deepPlan) cwdDisk).2.fs).1 =
        some (.nesting "a".toList 1 0) := by
  decide

/-! ## The targets of a plan with valid names -/

/-- The target `SafeJoin` returns for valid names: the text of the elements of
the root followed by the names. -/
theorem SafeJoin_render (root : Str) (segs : List Str)
    (h : ∀ s ∈ segs, ValidateName s = .ok ()) :
    SafeJoin root segs = .ok (renderPath (isRooted root) (cleanElems root ++ segs)) ∧
      Normal (isRooted root) (cleanElems root ++ segs) := by
  have hs : ∀ s ∈ segs, isReal s := fun s hs => valid_isReal (h s hs)
  obtain ⟨_, _, h3⟩ := Clean_Join_segments root segs hs
  rw [isRooted_Clean, components_Clean] at h3
  refine ⟨?_, Normal_append_reals (cleanElems_normal root) segs hs⟩
  rw [SafeJoin_valid root segs h, h3]

theorem renderPath_ne_of_length {r : Bool} {es1 es2 : List Str} (h1 : Normal r es1)
    (h2 : Normal r es2) (hlen : es1.length ≠ es2.length) :
    renderPath r es1 ≠ renderPath r es2 := by
  intro h
  exact hlen (congrArg List.length (renderPath_inj h1 h2 h).2)

/-! ## The targets in place -/

theorem placeTargets_cons (dm : FileMode) (fm : Str → FileMode) (t : Str × Bool)
    (rest : List (Str × Bool)) (d : Disk) :
    placeTargets dm fm (t :: rest) d =
      placeTargets dm fm rest
        (setEntry d t.1 (if t.2 then .dir dm else .file (fm t.1) [])) := rfl

/-- A path that is no target holds what it held. -/
theorem placeTargets_other (dm : FileMode) (fm : Str → FileMode) (ts : List (Str × Bool))
    (d : Disk) (q : Str) (h : ∀ t ∈ ts, t.1 ≠ q) : placeTargets dm fm ts d q = d q := by
  induction ts generalizing d with
  | nil => rfl
  | cons t rest ih =>
    rw [placeTargets_cons, ih _ (fun x hx => h x (List.mem_cons_of_mem _ hx)),
      setEntry_other _ _ _ _ (fun hq => h t (List.mem_cons_self _ _) hq.symm)]

/-- A directory with the directory mode that is no target of a file node stays
as it is. -/
theorem placeTargets_stable (dm : FileMode) (fm : Str → FileMode) (ts : List (Str × Bool))
    (d : Disk) (q : Str) (hq : d q = some (.dir dm))
    (h : ∀ t ∈ ts, t.2 = false → t.1 ≠ q) : placeTargets dm fm ts d q = some (.dir dm) := by
  induction ts generalizing d with
  | nil => exact hq
  | cons t rest ih =>
    rw [placeTargets_cons]
    apply ih _ _ (fun x hx => h x (List.mem_cons_of_mem _ hx))
    by_cases hqt : q = t.1
    · cases ht : t.2 with
      | true =>
        rw [hqt, setEntry_same]
        simp
      | false => exact absurd hqt.symm (h t (List.mem_cons_self _ _) ht)
    · rw [setEntry_other _ _ _ _ hqt]
      exact hq

theorem noClash_cons (t : Str × Bool) (rest : List (Str × Bool)) (h : noClash (t :: rest)) :
    (∀ y ∈ rest, (t.2 = false ∨ y.2 = false) → t.1 ≠ y.1) ∧ noClash rest := by
  unfold noClash at h ⊢
  exact List.pairwise_cons.1 h

/-- What stands at the targets once all are in place, when no file node shares
its target with another node: a directory with the directory mode at the target
of a directory node, an empty file at the target of a file node. -/
theorem placeTargets_at (dm : FileMode) (fm : Str → FileMode) (ts : List (Str × Bool))
    (d : Disk) (hclash : noClash ts) (t : Str × Bool) (ht : t ∈ ts) :
    placeTargets dm fm ts d t.1 =
      some (if t.2 then .dir dm else .file (fm t.1) []) := by
  induction ts generalizing d with
  | nil => cases ht
  | cons x rest ih =>
    obtain ⟨hx, hrest⟩ := noClash_cons x rest hclash
    rw [placeTargets_cons]
    by_cases hin : t ∈ rest
    · exact ih _ hrest hin
    · have htx : t = x := by
        rcases List.mem_cons.1 ht with h | h
        · exact h
        · exact absurd h hin
      subst htx
      cases hb : t.2 with
      | true =>
        simp only [if_true]
        apply placeTargets_stable
        · rw [setEntry_same]
        · intro y hy hyf
          exact fun heq => hx y hy (Or.inr hyf) heq.symm
      | false =>
        simp only [Bool.false_eq_true, if_false]
        rw [placeTargets_other _ _ _ _ _ (fun y hy => fun heq => hx y hy (Or.inl hb) heq.symm),
          setEntry_same]

/-! ## One node in a fresh destination -/

theorem take_concat_le (es : List Str) (e : Str) (k : Nat) (hk : k ≤ es.length) :
    (es ++ [e]).take k = es.take k := by
  rw [List.take_append_of_le_length hk]

/-- The lineage of a cleaned path that ends in one more element. -/
theorem mem_lineage_concat {rt : Bool} {es : List Str} {e : Str}
    (hn : Normal rt (es ++ [e])) (q : Str) :
    q ∈ lineage (renderPath rt (es ++ [e])) ↔
      q = renderPath rt (es ++ [e]) ∨ ∃ k, k ≤ es.length ∧ q = renderPath rt (es.take k) := by
  rw [lineage_renderPath hn]
  simp only [List.mem_map, List.mem_range, List.length_append, List.length_singleton]
  constructor
  · rintro ⟨k, hk, rfl⟩
    by_cases hfull : k = es.length + 1
    · left
      rw [hfull, List.take_of_length_le (by simp)]
    · right
      exact ⟨k, by omega, by rw [take_concat_le es e k (by omega)]⟩
  · rintro (rfl | ⟨k, hk, rfl⟩)
    · exact ⟨es.length + 1, by omega, by rw [List.take_of_length_le (by simp)]⟩
    · exact ⟨k, by omega, by rw [take_concat_le es e k hk]⟩

/-- Where every directory above a path exists and no regular file stands at the
path, `ensureDir`, not in a dry run, returns no error and leaves a directory
with the mode `DirPerm` at the path; nothing else changes. -/
theorem ensureDir_fresh (u : FileMode) (g : Str → Str → Bool) (a : ApplyArgs)
    (hdry : a.DryRun = false) {rt : Bool} {es : List Str} {e : Str}
    (hn : Normal rt (es ++ [e])) (r : Run Disk)
    (hanc : ∀ k, k ≤ es.length → ∃ m, r.fs (renderPath rt (es.take k)) = some (.dir m))
    (hnofile : ∀ m c, r.fs (renderPath rt (es ++ [e])) ≠ some (.file m c)) :
    ∃ r2, ensureDir (diskSys u g) a (renderPath rt (es ++ [e])) r = (none, r2) ∧
      r2.fs = setEntry r.fs (renderPath rt (es ++ [e])) (.dir (permBits a.DirPerm)) := by
  have hclean := Clean_renderPath hn
  have hne := renderPath_ne_nil hn
  cases hent : r.fs (renderPath rt (es ++ [e])) with
  | some x =>
    cases x with
    | dir m =>
      obtain ⟨r2, h2, hfs⟩ := ensureDir_disk_exists u g a _ r m hdry hne
        (by rw [hclean]; exact hent)
      rw [hclean] at hfs
      exact ⟨r2, h2, hfs⟩
    | file m c => exact absurd hent (hnofile m c)
  | none =>
    have hu : underFile r.fs (renderPath rt (es ++ [e])) = false := by
      rw [underFile_false_iff]
      intro q hq m c hfile
      rcases (mem_lineage_concat hn q).1 hq with rfl | ⟨k, hk, rfl⟩
      · rw [hent] at hfile
        cases hfile
      · obtain ⟨m2, hm2⟩ := hanc k hk
        rw [hm2] at hfile
        cases hfile
    obtain ⟨r2, h2, hfs⟩ := ensureDir_disk_absent u g a _ r hdry hne
      (by rw [hclean]; exact hent) hu
    rw [hclean] at hfs
    refine ⟨r2, h2, ?_⟩
    rw [hfs]
    funext q
    by_cases hq : q = renderPath rt (es ++ [e])
    · rw [hq, setEntry_same, setEntry_same]
    · rw [setEntry_other _ _ _ _ hq, setEntry_other _ _ _ _ hq]
      unfold mkdirState
      rw [if_neg]
      rintro ⟨hlin, hnone⟩
      rcases (mem_lineage_concat hn q).1 hlin with h | ⟨k, hk, rfl⟩
      · exact hq h
      · obtain ⟨m2, hm2⟩ := hanc k hk
        rw [hm2] at hnone
        cases hnone

/-- Where every directory above a path exists, the one the path names an entry
of with the mode `DirPerm`, and nothing stands at the path, `ensureFile`, not in
a dry run, returns no error and leaves an empty file with the permission bits of
the chosen mode at the path; nothing else changes. -/
theorem ensureFile_fresh (u : FileMode) (g : Str → Str → Bool) (a : ApplyArgs)
    (hdry : a.DryRun = false) {rt : Bool} {es : List Str} {e : Str}
    (hn : Normal rt (es ++ [e])) (hes : Normal rt es) (he : isReal e) (r : Run Disk)
    (hanc : ∀ k, k ≤ es.length → ∃ m, r.fs (renderPath rt (es.take k)) = some (.dir m))
    (hparent : r.fs (renderPath rt es) = some (.dir (permBits a.DirPerm)))
    (hnone : r.fs (renderPath rt (es ++ [e])) = none) :
    Dir (renderPath rt (es ++ [e])) = renderPath rt es ∧
    ∃ r2, ensureFile (diskSys u g) a (renderPath rt (es ++ [e])) r = (none, r2) ∧
      r2.fs = setEntry r.fs (renderPath rt (es ++ [e]))
        (.file (permBits (chooseFileMode (diskSys u g) a (renderPath rt (es ++ [e])))) []) := by
  have hclean := Clean_renderPath hn
  have hne := renderPath_ne_nil hn
  have hdir := Dir_renderPath hes he
  refine ⟨hdir, ?_⟩
  obtain ⟨r1, h1, hfs1⟩ := ensureDir_disk_settled u g a (renderPath rt es) r hdry
    (Clean_renderPath hes) (renderPath_ne_nil hes) hparent
  have hu : underFile r.fs (renderPath rt (es ++ [e])) = false := by
    rw [underFile_false_iff]
    intro q hq m c hfile
    rcases (mem_lineage_concat hn q).1 hq with rfl | ⟨k, hk, rfl⟩
    · rw [hnone] at hfile
      cases hfile
    · obtain ⟨m2, hm2⟩ := hanc k hk
      rw [hm2] at hfile
      cases hfile
  obtain ⟨r2, h2, hfs2⟩ := ensureFile_disk_absent u g a (renderPath rt (es ++ [e])) r r1
    (permBits a.DirPerm) (by rw [hdir]; exact h1) hne
    (by rw [hfs1, hclean]; exact hnone) (by rw [hfs1]; exact hu)
    (by rw [hdir]; exact parentOf_renderPath hn) (by rw [hfs1, hdir]; exact hparent) hdry
  refine ⟨r2, h2, ?_⟩
  rw [hfs2, hfs1, hclean]

theorem cut_eq_take (stack : List Str) (k : Nat) (h : ¬ k > stack.length) :
    (if k < stack.length then stack.take k else stack) = stack.take k := by
  split
  · rfl
  · rw [List.take_of_length_le (by omega)]

theorem take_append_take (B stack : List Str) (j k : Nat) (hk : k ≤ (B ++ stack.take j).length) :
    (B ++ stack.take j).take k = (B ++ stack).take k := by
  have h1 : B ++ stack.take j = (B ++ stack).take (B.length + j) := by
    rw [List.take_append]
  rw [h1, List.take_take, min_eq_left]
  rw [h1, List.length_take] at hk
  omega

/-- The loop of `Apply`, not in a dry run, over nodes with valid names whose
targets are fresh: when the directories of the stack exist with the mode
`DirPerm`, nothing stands at the target of a file node, no regular file stands
at the target of a directory node, and no file node shares its target with
another node, the loop returns no error and leaves the targets in place. The
directory of every file target then holds a directory with the mode `DirPerm`. -/
theorem applyNodes_fresh (u : FileMode) (g : Str → Str → Bool) (a : ApplyArgs)
    (hdry : a.DryRun = false) (nodes : List Node)
    (hvalid : ∀ n ∈ nodes, ValidateName n.Name = .ok ()) (stack : List Str)
    (hstack : ∀ s ∈ stack, ValidateName s = .ok ()) (ts : List (Str × Bool))
    (hts : targetsFrom a.DestRoot stack nodes = some ts) (r : Run Disk)
    (hinv : ∀ k, k ≤ (cleanElems a.DestRoot ++ stack).length →
      ∃ m, r.fs (renderPath (isRooted a.DestRoot) ((cleanElems a.DestRoot ++ stack).take k)) =
          some (.dir m) ∧
        ((cleanElems a.DestRoot).length ≤ k → m = permBits a.DirPerm))
    (hfresh : ∀ x ∈ ts, (x.2 = false → r.fs x.1 = none) ∧
      (x.2 = true → ∀ m c, r.fs x.1 ≠ some (.file m c)))
    (hclash : noClash ts) :
    ∃ r2, applyNodes (diskSys u g) a nodes stack r = (none, r2) ∧
      r2.fs = placeTargets (permBits a.DirPerm)
        (fun t => permBits (chooseFileMode (diskSys u g) a t)) ts r.fs ∧
      ∀ x ∈ ts, x.2 = false → r2.fs (Dir x.1) = some (.dir (permBits a.DirPerm)) := by
  induction nodes generalizing stack ts r with
  | nil =>
    simp only [targetsFrom, Option.some.injEq] at hts
    subst hts
    exact ⟨r, rfl, rfl, by simp⟩
  | cons n rest ih =>
    have hrest : ∀ m ∈ rest, ValidateName m.Name = .ok () :=
      fun m hm => hvalid m (List.mem_cons_of_mem _ hm)
    have hn : ValidateName n.Name = .ok () := hvalid n (List.mem_cons_self _ _)
    have hdeep : ¬ n.Depth > stack.length := by
      intro hd
      rw [targetsFrom_deep _ _ _ _ hd] at hts
      cases hts
    have hcut := cut_eq_take stack n.Depth hdeep
    have hvalid2 : ∀ s ∈ stack.take n.Depth, ValidateName s = .ok () :=
      fun s hs => hstack s (List.mem_of_mem_take hs)
    have hsegs : ∀ s ∈ stack.take n.Depth ++ [n.Name], ValidateName s = .ok () := by
      intro s hs
      rcases List.mem_append.1 hs with hs | hs
      · exact hvalid2 s hs
      · rw [List.mem_singleton.1 hs]
        exact hn
    obtain ⟨hj, hnorm⟩ := SafeJoin_render a.DestRoot (stack.take n.Depth ++ [n.Name]) hsegs
    rw [← List.append_assoc] at hj hnorm
    have hnes : Normal (isRooted a.DestRoot) (cleanElems a.DestRoot ++ stack.take n.Depth) :=
      Normal_append_reals (cleanElems_normal _) _ (fun s hs => valid_isReal (hvalid2 s hs))
    have hlen2 : (cleanElems a.DestRoot ++ stack.take n.Depth).length ≤
        (cleanElems a.DestRoot ++ stack).length := by
      simp only [List.length_append, List.length_take]
      omega
    -- the directories above the target
    have hanc : ∀ k, k ≤ (cleanElems a.DestRoot ++ stack.take n.Depth).length →
        ∃ m, r.fs (renderPath (isRooted a.DestRoot)
          ((cleanElems a.DestRoot ++ stack.take n.Depth).take k)) = some (.dir m) ∧
          ((cleanElems a.DestRoot).length ≤ k → m = permBits a.DirPerm) := by
      intro k hk
      rw [take_append_take _ _ _ _ hk]
      exact hinv k (by omega)
    have hanc2 : ∀ k, k ≤ (cleanElems a.DestRoot ++ stack.take n.Depth).length →
        ∃ m, r.fs (renderPath (isRooted a.DestRoot)
          ((cleanElems a.DestRoot ++ stack.take n.Depth).take k)) = some (.dir m) := by
      intro k hk
      obtain ⟨m, hm, _⟩ := hanc k hk
      exact ⟨m, hm⟩
    have hparent : r.fs (renderPath (isRooted a.DestRoot)
        (cleanElems a.DestRoot ++ stack.take n.Depth)) = some (.dir (permBits a.DirPerm)) := by
      obtain ⟨m, hm, hmode⟩ := hanc _ (le_refl _)
      rw [List.take_length] at hm
      rw [hm, hmode (by simp)]
    -- a shorter path is not the target
    have hother : ∀ k, k ≤ (cleanElems a.DestRoot ++ stack.take n.Depth).length →
        renderPath (isRooted a.DestRoot)
          ((cleanElems a.DestRoot ++ stack.take n.Depth).take k) ≠
        renderPath (isRooted a.DestRoot)
          (cleanElems a.DestRoot ++ stack.take n.Depth ++ [n.Name]) := by
      intro k hk
      apply renderPath_ne_of_length (Normal_take hnes k) hnorm
      simp only [List.length_take, List.length_append, List.length_singleton] at hk ⊢
      omega
    have hj2 : SafeJoin a.DestRoot
        ((if n.Depth < stack.length then stack.take n.Depth else stack) ++ [n.Name]) =
        .ok (renderPath (isRooted a.DestRoot)
          (cleanElems a.DestRoot ++ stack.take n.Depth ++ [n.Name])) := by
      rw [hcut]
      exact hj
    rw [targetsFrom_ok _ _ _ _ _ hdeep hj2, hcut] at hts
    simp only [Option.map_eq_some'] at hts
    obtain ⟨ts2, hts2, rfl⟩ := hts
    obtain ⟨hhead, hclash2⟩ := noClash_cons _ _ hclash
    have hfhead := hfresh _ (List.mem_cons_self _ _)
    simp only at hhead hfhead
    rw [applyNodes_cons, if_neg hdeep, hj2, hcut]
    simp only
    cases hd : n.Dir with
    | true =>
      rw [hd] at hts2 hhead hfhead
      simp only [if_true] at hts2 ⊢
      obtain ⟨r3, h3, hfs3⟩ := ensureDir_fresh u g a hdry hnorm r hanc2 (hfhead.2 rfl)
      rw [h3]
      simp only
      have hpush : ∀ s ∈ stack.take n.Depth ++ [n.Name], ValidateName s = .ok () := hsegs
      obtain ⟨r4, h4, hfs4, hpar4⟩ := ih hrest (stack.take n.Depth ++ [n.Name]) hpush ts2 hts2 r3
        (by
          intro k hk
          rw [← List.append_assoc] at hk ⊢
          by_cases hk2 : k ≤ (cleanElems a.DestRoot ++ stack.take n.Depth).length
          · rw [take_concat_le _ _ _ hk2, hfs3, setEntry_other _ _ _ _ (hother k hk2)]
            exact hanc k hk2
          · have hkfull : k = (cleanElems a.DestRoot ++ stack.take n.Depth ++ [n.Name]).length := by
              simp only [List.length_append, List.length_singleton] at hk hk2 ⊢
              omega
            rw [hkfull, List.take_length, hfs3, setEntry_same]
            exact ⟨_, rfl, fun _ => rfl⟩)
        (by
          intro x hx
          constructor
          · intro hxf
            rw [hfs3, setEntry_other _ _ _ _ (fun h => hhead x hx (Or.inr hxf) h.symm)]
            exact (hfresh x (List.mem_cons_of_mem _ hx)).1 hxf
          · intro hxt m c
            rw [hfs3]
            by_cases hxe : x.1 = renderPath (isRooted a.DestRoot)
                (cleanElems a.DestRoot ++ stack.take n.Depth ++ [n.Name])
            · rw [hxe, setEntry_same]
              simp
            · rw [setEntry_other _ _ _ _ hxe]
              exact (hfresh x (List.mem_cons_of_mem _ hx)).2 hxt m c)
        hclash2
      refine ⟨r4, h4, ?_, ?_⟩
      · rw [hfs4, hfs3, placeTargets_cons]
        simp
      · intro x hx hxf
        rcases List.mem_cons.1 hx with rfl | hx
        · cases hxf
        · exact hpar4 x hx hxf
    | false =>
      rw [hd] at hts2 hhead hfhead
      simp only [Bool.false_eq_true, if_false, List.append_nil] at hts2 ⊢
      obtain ⟨hdir, r3, h3, hfs3⟩ := ensureFile_fresh u g a hdry hnorm hnes (valid_isReal hn) r
        hanc2 hparent (hfhead.1 rfl)
      rw [h3]
      simp only
      have hfresh2 : ∀ x ∈ ts2, (x.2 = false → r3.fs x.1 = none) ∧
          (x.2 = true → ∀ m c, r3.fs x.1 ≠ some (.file m c)) := by
        intro x hx
        have hne : x.1 ≠ renderPath (isRooted a.DestRoot)
            (cleanElems a.DestRoot ++ stack.take n.Depth ++ [n.Name]) :=
          fun h => hhead x hx (Or.inl rfl) h.symm
        rw [hfs3, setEntry_other _ _ _ _ hne]
        exact hfresh x (List.mem_cons_of_mem _ hx)
      have hparent3 : r3.fs (renderPath (isRooted a.DestRoot)
          (cleanElems a.DestRoot ++ stack.take n.Depth)) = some (.dir (permBits a.DirPerm)) := by
        have := hother _ (le_refl _)
        rw [List.take_length] at this
        rw [hfs3, setEntry_other _ _ _ _ this]
        exact hparent
      obtain ⟨r4, h4, hfs4, hpar4⟩ := ih hrest (stack.take n.Depth) hvalid2 ts2 hts2 r3
        (by
          intro k hk
          rw [hfs3, setEntry_other _ _ _ _ (hother k hk)]
          exact hanc k hk)
        hfresh2 hclash2
      refine ⟨r4, h4, ?_, ?_⟩
      · rw [hfs4, hfs3, placeTargets_cons]
        simp
      · intro x hx hxf
        rcases List.mem_cons.1 hx with rfl | hx
        · simp only
          rw [hdir, hfs4]
          apply placeTargets_stable _ _ _ _ _ hparent3
          intro y hy hyf heq
          have := (hfresh2 y hy).1 hyf
          rw [heq, hparent3] at this
          cases this
        · exact hpar4 x hx hxf

/-! ## A plan in a fresh destination -/

/-- The targets of nodes with valid names: the elements of the root, followed by
one valid name or more. -/
theorem targetsFrom_form (root : Str) (nodes : List Node)
    (hvalid : ∀ n ∈ nodes, ValidateName n.Name = .ok ()) (stack : List Str)
    (hstack : ∀ s ∈ stack, ValidateName s = .ok ()) (ts : List (Str × Bool))
    (hts : targetsFrom root stack nodes = some ts) :
    ∀ x ∈ ts, ∃ segs, segs ≠ [] ∧ Normal (isRooted root) (cleanElems root ++ segs) ∧
      x.1 = renderPath (isRooted root) (cleanElems root ++ segs) := by
  induction nodes generalizing stack ts with
  | nil =>
    simp only [targetsFrom, Option.some.injEq] at hts
    subst hts
    simp
  | cons n rest ih =>
    have hrest : ∀ m ∈ rest, ValidateName m.Name = .ok () :=
      fun m hm => hvalid m (List.mem_cons_of_mem _ hm)
    have hn : ValidateName n.Name = .ok () := hvalid n (List.mem_cons_self _ _)
    have hdeep : ¬ n.Depth > stack.length := by
      intro hd
      rw [targetsFrom_deep _ _ _ _ hd] at hts
      cases hts
    have hcut := cut_eq_take stack n.Depth hdeep
    have hvalid2 : ∀ s ∈ stack.take n.Depth, ValidateName s = .ok () :=
      fun s hs => hstack s (List.mem_of_mem_take hs)
    have hsegs : ∀ s ∈ stack.take n.Depth ++ [n.Name], ValidateName s = .ok () := by
      intro s hs
      rcases List.mem_append.1 hs with hs | hs
      · exact hvalid2 s hs
      · rw [List.mem_singleton.1 hs]
        exact hn
    obtain ⟨hj, hnorm⟩ := SafeJoin_render root (stack.take n.Depth ++ [n.Name]) hsegs
    have hj2 : SafeJoin root
        ((if n.Depth < stack.length then stack.take n.Depth else stack) ++ [n.Name]) =
        .ok (renderPath (isRooted root) (cleanElems root ++ (stack.take n.Depth ++ [n.Name]))) := by
      rw [hcut]
      exact hj
    rw [targetsFrom_ok _ _ _ _ _ hdeep hj2, hcut] at hts
    simp only [Option.map_eq_some'] at hts
    obtain ⟨ts2, hts2, rfl⟩ := hts
    intro x hx
    rcases List.mem_cons.1 hx with rfl | hx
    · exact ⟨_, by simp, hnorm, rfl⟩
    · refine ih hrest _ ?_ ts2 hts2 x hx
      intro s hs
      cases hd : n.Dir with
      | true =>
        rw [hd] at hs
        exact hsegs s hs
      | false =>
        rw [hd] at hs
        simp only [Bool.false_eq_true, if_false, List.append_nil] at hs
        exact hvalid2 s hs

/-- The first step of a run that is not dry, when the root is not empty and
leads through no regular file: no error, and the state `MkdirAll` leaves with
the mode of the root set. -/
theorem applyRoot_disk_ok (u : FileMode) (g : Str → Str → Bool) (a : ApplyArgs)
    (hdry : a.DryRun = false) (r : Run Disk) (hne : a.DestRoot ≠ [])
    (hunder : underFile r.fs a.DestRoot = false) :
    applyRoot (diskSys u g) a r =
      (none, Run.mk (setEntry (mkdirState u r.fs a.DestRoot a.DirPerm)
        (Clean a.DestRoot) (.dir (permBits a.DirPerm))) r.out) := by
  have hmk : (diskSys u g).MkdirAll r.fs a.DestRoot a.DirPerm =
      (true, mkdirState u r.fs a.DestRoot a.DirPerm) := by
    simp only [diskSys, diskMkdirAll, hne, hunder, false_or, Bool.false_eq_true, if_false]
    rfl
  have hroot : ∃ m, mkdirState u r.fs a.DestRoot a.DirPerm (Clean a.DestRoot) =
      some (.dir m) := by
    cases hent : r.fs (Clean a.DestRoot) with
    | none => exact ⟨_, mkdirState_self u r.fs a.DestRoot a.DirPerm hent⟩
    | some e =>
      cases e with
      | dir m => exact ⟨m, mkdirState_old _ _ _ _ _ _ hent⟩
      | file m c =>
        exact absurd hent ((underFile_false_iff _ _).1 hunder _ (self_mem_lineage _) m c)
  obtain ⟨m, hm⟩ := hroot
  unfold applyRoot
  simp only [hdry, Bool.false_eq_true, if_false, hmk]
  rw [chmodIfNeeded_disk u g a.DestRoot a.DirPerm _ (.dir m) hne hm]
  rfl

/-- In a tree in which nothing stands at the root, nothing stands at a path
below the root. -/
theorem absent_below (d : Disk) (hwf : wellFormed d) {rt : Bool} {B segs : List Str}
    (hnorm : Normal rt (B ++ segs)) (hB : Normal rt B) (hsegs : segs ≠ [])
    (habsent : d (renderPath rt B) = none) : d (renderPath rt (B ++ segs)) = none := by
  cases hent : d (renderPath rt (B ++ segs)) with
  | none => rfl
  | some e =>
    exfalso
    have hlen : B.length ≠ (B ++ segs).length := by
      simp only [List.length_append]
      have : segs.length ≠ 0 := fun h => hsegs (List.length_eq_zero.1 h)
      omega
    have hmem : renderPath rt B ∈ lineage (renderPath rt (B ++ segs)) := by
      rw [lineage_renderPath hnorm]
      simp only [List.mem_map, List.mem_range, List.length_append]
      exact ⟨B.length, by omega, by rw [List.take_left]⟩
    have := hwf _ e hent _ hmem (by
      rw [Clean_renderPath hnorm]
      exact renderPath_ne_of_length hB hnorm hlen)
    rw [habsent] at this
    cases this

/-- A path below the root is not in the lineage of the root. -/
theorem below_not_in_lineage (root : Str) {segs : List Str} (hsegs : segs ≠ [])
    (hnorm : Normal (isRooted root) (cleanElems root ++ segs)) :
    renderPath (isRooted root) (cleanElems root ++ segs) ∉ lineage root := by
  intro hmem
  obtain ⟨k, hk, heq⟩ := (mem_lineage root _).1 hmem
  have hslen : segs.length ≠ 0 := fun h => hsegs (List.length_eq_zero.1 h)
  refine renderPath_ne_of_length hnorm (Normal_take (cleanElems_normal root) k) ?_ heq
  simp only [List.length_append, List.length_take]
  omega

/-- `Apply`, not in a dry run, on a plan with valid names whose nodes have
targets, none of a file node shared with another node, into a tree in which
nothing stands at the root and the root leads through no regular file: no error,
and the state is the one `MkdirAll` leaves for the root, with the mode of the
root set and the targets in place. -/
theorem Apply_fresh_state (u : FileMode) (g : Str → Str → Bool) (a : ApplyArgs) (d : Disk)
    (ts : List (Str × Bool)) (hdry : a.DryRun = false)
    (hvalid : ∀ n ∈ a.Plan.Nodes, ValidateName n.Name = .ok ())
    (hts : targetsFrom a.DestRoot [] a.Plan.Nodes = some ts) (hclash : noClash ts)
    (hwf : wellFormed d) (hne : a.DestRoot ≠ []) (habsent : d (Clean a.DestRoot) = none)
    (hunder : underFile d a.DestRoot = false) :
    ∃ rfin, Apply (diskSys u g) a d = (none, rfin) ∧
      rfin.fs = placeTargets (permBits a.DirPerm)
        (fun t => permBits (chooseFileMode (diskSys u g) a t)) ts
        (setEntry (mkdirState u d a.DestRoot a.DirPerm) (Clean a.DestRoot)
          (.dir (permBits a.DirPerm))) ∧
      (∀ x ∈ ts, setEntry (mkdirState u d a.DestRoot a.DirPerm) (Clean a.DestRoot)
        (.dir (permBits a.DirPerm)) x.1 = none) ∧
      (∀ x ∈ ts, d x.1 = none ∧ x.1 ∉ lineage a.DestRoot) ∧
      (∀ x ∈ ts, x.2 = false → rfin.fs (Dir x.1) = some (.dir (permBits a.DirPerm))) := by
  have hroot := applyRoot_disk_ok u g a hdry { fs := d, out := [] } hne hunder
  obtain ⟨hs0root, hs0lin⟩ := applyRoot_disk_facts u g a hdry _ _ hroot
  simp only at hs0root hs0lin
  have hform := targetsFrom_form a.DestRoot a.Plan.Nodes hvalid [] (by simp) ts hts
  have hBabs : d (renderPath (isRooted a.DestRoot) (cleanElems a.DestRoot)) = none := by
    rw [← Clean_eq]
    exact habsent
  have hold : ∀ x ∈ ts, d x.1 = none ∧ x.1 ∉ lineage a.DestRoot := by
    intro x hx
    obtain ⟨segs, hsegs, hnorm, hx1⟩ := hform x hx
    rw [hx1]
    exact ⟨absent_below d hwf hnorm (cleanElems_normal _) hsegs hBabs,
      below_not_in_lineage a.DestRoot hsegs hnorm⟩
  have hfresh0 : ∀ x ∈ ts, setEntry (mkdirState u d a.DestRoot a.DirPerm) (Clean a.DestRoot)
      (.dir (permBits a.DirPerm)) x.1 = none := by
    intro x hx
    obtain ⟨hnone, hnot⟩ := hold x hx
    have hner : x.1 ≠ Clean a.DestRoot := fun h => hnot (by rw [h]; exact self_mem_lineage _)
    rw [setEntry_other _ _ _ _ hner]
    unfold mkdirState
    rw [if_neg (fun h => hnot h.1)]
    exact hnone
  rw [Apply_of_root_ok _ _ _ _ hroot]
  obtain ⟨r1, hr1⟩ : ∃ r1, (if a.Verbose then out a ("Корень: ".toList ++ a.DestRoot)
      (Run.mk (setEntry (mkdirState u d a.DestRoot a.DirPerm) (Clean a.DestRoot)
        (.dir (permBits a.DirPerm))) ([] : List Str))
    else Run.mk (setEntry (mkdirState u d a.DestRoot a.DirPerm) (Clean a.DestRoot)
        (.dir (permBits a.DirPerm))) []) = r1 := ⟨_, rfl⟩
  have hfs1 : r1.fs = setEntry (mkdirState u d a.DestRoot a.DirPerm) (Clean a.DestRoot)
      (.dir (permBits a.DirPerm)) := by
    rw [← hr1]
    exact rootLine_fs a _ _
  have hr1' : (if a.Verbose then out a ("Корень: ".toList ++ a.DestRoot)
      ({ fs := setEntry (mkdirState u ({ fs := d, out := [] } : Run Disk).fs a.DestRoot a.DirPerm)
          (Clean a.DestRoot) (.dir (permBits a.DirPerm)),
         out := ({ fs := d, out := [] } : Run Disk).out } : Run Disk)
    else { fs := setEntry (mkdirState u ({ fs := d, out := [] } : Run Disk).fs a.DestRoot
          a.DirPerm) (Clean a.DestRoot) (.dir (permBits a.DirPerm)),
           out := ({ fs := d, out := [] } : Run Disk).out }) = r1 := hr1
  rw [hr1']
  obtain ⟨r2, h2, hfs2, hpar2⟩ := applyNodes_fresh u g a hdry a.Plan.Nodes hvalid [] (by simp)
    ts hts r1
    (by
      intro k hk
      rw [List.append_nil] at hk ⊢
      have hmem : renderPath (isRooted a.DestRoot) ((cleanElems a.DestRoot).take k) ∈
          lineage a.DestRoot := (mem_lineage _ _).2 ⟨k, hk, rfl⟩
      obtain ⟨m, hm⟩ := (any_isDir_iff _).1 (hs0lin _ hmem)
      rw [hfs1]
      refine ⟨m, hm, ?_⟩
      intro hfull
      have hk2 : k = (cleanElems a.DestRoot).length := by omega
      rw [hk2, List.take_length, ← Clean_eq, hs0root] at hm
      simp only [Option.some.injEq, Inode.dir.injEq] at hm
      exact hm.symm)
    (by
      intro x hx
      rw [hfs1, hfresh0 x hx]
      simp)
    hclash
  exact ⟨r2, h2, by rw [hfs2, hfs1], hfresh0, hold, hpar2⟩

/-! ## The target of a node, from the nodes before it -/

theorem filterMap_range {α : Type} (l : List α) (f : Nat → Option α)
    (h : ∀ d, d < l.length → f d = l[d]?) : (List.range l.length).filterMap f = l := by
  induction l using List.reverseRecOn with
  | nil => rfl
  | append_singleton l x ih =>
    rw [List.length_append, List.length_singleton, List.range_succ, List.filterMap_append]
    have h1 : (List.range l.length).filterMap f = l := by
      apply ih
      intro d hd
      rw [h d (by simp; omega), List.getElem?_append_left hd]
    have h2 : f l.length = some x := by
      rw [h l.length (by simp)]
      simp
    rw [h1]
    simp [h2]

theorem targetsFrom_exceeds (root : Str) (nodes : List Node) (stack : List Str)
    (ts : List (Str × Bool)) (hts : targetsFrom root stack nodes = some ts) :
    exceedsStack stack.length nodes = false := by
  induction nodes generalizing stack ts with
  | nil => rfl
  | cons n rest ih =>
    by_cases hdeep : n.Depth > stack.length
    · rw [targetsFrom_deep _ _ _ _ hdeep] at hts
      cases hts
    · cases hj : SafeJoin root
          ((if n.Depth < stack.length then stack.take n.Depth else stack) ++ [n.Name]) with
      | error e =>
        rw [targetsFrom_error _ _ _ _ e hj] at hts
        cases hts
      | ok target =>
        rw [targetsFrom_ok _ _ _ _ target hdeep hj] at hts
        simp only [Option.map_eq_some'] at hts
        obtain ⟨ts2, hts2, _⟩ := hts
        have := ih _ _ hts2
        have hlen := cut_length stack n.Depth (by omega)
        simp only [exceedsStack, hdeep, decide_False, Bool.false_or]
        rw [List.length_append, hlen] at this
        cases hd : n.Dir <;> simpa [hd] using this

/-- The target of a node: `SafeJoin` of the root with the stack the nodes before
it leave, cut to the depth of the node, and the name of the node. -/
theorem targetsFrom_get (root : Str) (pre : List Node) (n : Node) (post : List Node)
    (stack : List Str) (ts : List (Str × Bool))
    (hts : targetsFrom root stack (pre ++ n :: post) = some ts) :
    ∃ t, SafeJoin root ((stackAfter stack pre).take n.Depth ++ [n.Name]) = .ok t ∧
      ts[pre.length]? = some (t, n.Dir) := by
  induction pre generalizing stack ts with
  | nil =>
    rw [List.nil_append] at hts
    by_cases hdeep : n.Depth > stack.length
    · rw [targetsFrom_deep _ _ _ _ hdeep] at hts
      cases hts
    · cases hj : SafeJoin root
          ((if n.Depth < stack.length then stack.take n.Depth else stack) ++ [n.Name]) with
      | error e =>
        rw [targetsFrom_error _ _ _ _ e hj] at hts
        cases hts
      | ok target =>
        rw [targetsFrom_ok _ _ _ _ target hdeep hj] at hts
        simp only [Option.map_eq_some'] at hts
        obtain ⟨ts2, _, rfl⟩ := hts
        rw [cut_eq_take _ _ hdeep] at hj
        exact ⟨target, hj, by simp⟩
  | cons m more ih =>
    rw [List.cons_append] at hts
    by_cases hdeep : m.Depth > stack.length
    · rw [targetsFrom_deep _ _ _ _ hdeep] at hts
      cases hts
    · cases hj : SafeJoin root
          ((if m.Depth < stack.length then stack.take m.Depth else stack) ++ [m.Name]) with
      | error e =>
        rw [targetsFrom_error _ _ _ _ e hj] at hts
        cases hts
      | ok target =>
        rw [targetsFrom_ok _ _ _ _ target hdeep hj] at hts
        simp only [Option.map_eq_some'] at hts
        obtain ⟨ts2, hts2, rfl⟩ := hts
        obtain ⟨t, ht, hget⟩ := ih _ _ hts2
        rw [stackAfter_cons]
        exact ⟨t, ht, by simpa using hget⟩

theorem Join_clean (elems : List Str) (h : ∃ e ∈ elems, e ≠ []) :
    Clean (Join elems) = Join elems := by
  unfold Join
  split
  · rename_i hall
    exfalso
    obtain ⟨e, he, hne⟩ := h
    have := List.dropWhile_eq_nil_iff.1 hall e he
    simp only [List.isEmpty_iff] at this
    exact hne this
  · exact Clean_idem _

/-- The target of a node with a valid name in a plan that passes the nesting
check is the one the specification describes. -/
theorem targetsFrom_spec (root : Str) (pre : List Node) (n : Node) (post : List Node)
    (ts : List (Str × Bool))
    (hvalid : ∀ m ∈ pre ++ n :: post, ValidateName m.Name = .ok ())
    (hts : targetsFrom root [] (pre ++ n :: post) = some ts) :
    ts[pre.length]? = some (specTarget root pre n, n.Dir) := by
  obtain ⟨t, ht, hget⟩ := targetsFrom_get root pre n post [] ts hts
  have hex := targetsFrom_exceeds _ _ _ _ hts
  simp only [List.length_nil] at hex
  obtain ⟨hexpre, hexn⟩ := exceedsStack_append 0 pre (n :: post) hex
  have hlen : (stackAfter [] pre).length = heightAfter pre := by
    rw [stackAfter_length [] pre hexpre]
    split
    · rename_i h
      rw [h]
      rfl
    · rfl
  have hdepth : n.Depth ≤ (stackAfter [] pre).length := by
    have := (exceedsStack_cons _ n post hexn).1
    rw [hlen]
    split at this
    · rename_i h
      rw [h]
      exact this
    · exact this
  -- the stack, cut to the depth of the node, holds the nearest directories
  have hnames : (List.range n.Depth).filterMap (nearestDir pre) =
      (stackAfter [] pre).take n.Depth := by
    have hl : ((stackAfter [] pre).take n.Depth).length = n.Depth := by
      rw [List.length_take]
      omega
    have := filterMap_range ((stackAfter [] pre).take n.Depth) (nearestDir pre) (by
      intro d hd
      rw [hl] at hd
      rw [List.getElem?_take, if_pos hd, stackAfter_get [] pre d hexpre (by omega)]
      simp)
    rw [hl] at this
    exact this
  -- the names on the stack are valid
  have hn : ValidateName n.Name = .ok () := hvalid n (by simp)
  rw [hget]
  unfold specTarget
  rw [hnames]
  have ht2 := ((SafeJoin_ok root _ t).1 ht).1
  rw [ht2, Join_clean _ ⟨n.Name, by simp, (valid_isReal hn).1⟩]

set_option maxRecDepth 1000000 in
theorem wellFormed_outDisk : wellFormed outDisk := by
  unfold outDisk cwdDisk
  apply wellFormed_setEntry_new _ _ _ _ (by decide) (by decide) (by decide)
  apply wellFormed_setEntry_new _ _ _ _ (by decide) (by decide) (by decide)
  exact wellFormed_emptyDisk

/-- C11, amended: in the file system, for a plan with valid names whose nodes all
have targets (the plan passes the nesting check) and in which no file node
shares its target with another node, `Apply`, not in a dry run, into a tree in
which nothing stands at `DestRoot`, `DestRoot` is not empty and leads through no
regular file, returns no error. Afterwards every prior entry is as it was,
`DestRoot` is a directory with the mode `DirPerm`, every missing directory above
`DestRoot` is a directory, the target of every directory node is a directory
with the mode `DirPerm`, the target of every file node is an empty regular file
with the permission bits of the chosen mode, and nothing else was created. The
target of a node is `DestRoot` joined with the names of the nearest preceding
directory node at each depth below the depth of the node, and with its name. -/
theorem Apply_fresh (u : FileMode) (g : Str → Str → Bool) (a : ApplyArgs) (d : Disk)
    (ts : List (Str × Bool)) (hdry : a.DryRun = false)
    (hvalid : ∀ n ∈ a.Plan.Nodes, ValidateName n.Name = .ok ())
    (hts : targetsFrom a.DestRoot [] a.Plan.Nodes = some ts) (hclash : noClash ts)
    (hwf : wellFormed d) (hne : a.DestRoot ≠ []) (habsent : d (Clean a.DestRoot) = none)
    (hunder : underFile d a.DestRoot = false) :
    (Apply (diskSys u g) a d).1 = none ∧
    (∀ q e, d q = some e → (Apply (diskSys u g) a d).2.fs q = some e) ∧
    (Apply (diskSys u g) a d).2.fs (Clean a.DestRoot) = some (.dir (permBits a.DirPerm)) ∧
    (∀ q ∈ lineage a.DestRoot, q ≠ Clean a.DestRoot → d q = none →
      (Apply (diskSys u g) a d).2.fs q = some (.dir (createBits u a.DirPerm))) ∧
    (∀ x ∈ ts, (Apply (diskSys u g) a d).2.fs x.1 =
      some (if x.2 then .dir (permBits a.DirPerm)
        else .file (permBits (chooseFileMode (diskSys u g) a x.1)) [])) ∧
    (∀ q, d q = none → q ∉ lineage a.DestRoot → (∀ x ∈ ts, x.1 ≠ q) →
      (Apply (diskSys u g) a d).2.fs q = none) ∧
    (∀ pre n post, a.Plan.Nodes = pre ++ n :: post →
      ts[pre.length]? = some (specTarget a.DestRoot pre n, n.Dir)) := by
  obtain ⟨rfin, hrun, hfs, hfresh0, hold, _⟩ :=
    Apply_fresh_state u g a d ts hdry hvalid hts hclash hwf hne habsent hunder
  rw [hrun]
  simp only
  have hnot : ∀ q e, setEntry (mkdirState u d a.DestRoot a.DirPerm) (Clean a.DestRoot)
      (.dir (permBits a.DirPerm)) q = some e → ∀ x ∈ ts, x.1 ≠ q := by
    intro q e hq x hx heq
    rw [← heq, hfresh0 x hx] at hq
    cases hq
  refine ⟨trivial, ?_, ?_, ?_, ?_, ?_, ?_⟩
  · intro q e hq
    have hqr : q ≠ Clean a.DestRoot := by
      intro h
      rw [h, habsent] at hq
      cases hq
    have hs0 : setEntry (mkdirState u d a.DestRoot a.DirPerm) (Clean a.DestRoot)
        (.dir (permBits a.DirPerm)) q = some e := by
      rw [setEntry_other _ _ _ _ hqr]
      exact mkdirState_old _ _ _ _ _ _ hq
    rw [hfs, placeTargets_other _ _ _ _ _ (hnot q e hs0)]
    exact hs0
  · have hs0 := setEntry_same (mkdirState u d a.DestRoot a.DirPerm) (Clean a.DestRoot)
      (.dir (permBits a.DirPerm))
    rw [hfs, placeTargets_other _ _ _ _ _ (hnot _ _ hs0)]
    exact hs0
  · intro q hq hqr hnone
    have hs0 : setEntry (mkdirState u d a.DestRoot a.DirPerm) (Clean a.DestRoot)
        (.dir (permBits a.DirPerm)) q = some (.dir (createBits u a.DirPerm)) := by
      rw [setEntry_other _ _ _ _ hqr]
      unfold mkdirState
      rw [if_pos ⟨hq, hnone⟩]
    rw [hfs, placeTargets_other _ _ _ _ _ (hnot _ _ hs0)]
    exact hs0
  · intro x hx
    rw [hfs]
    exact placeTargets_at _ _ ts _ hclash x hx
  · intro q hnone hlin hx
    have hqr : q ≠ Clean a.DestRoot := fun h => hlin (by rw [h]; exact self_mem_lineage _)
    rw [hfs, placeTargets_other _ _ _ _ _ hx, setEntry_other _ _ _ _ hqr]
    unfold mkdirState
    rw [if_neg (fun h => hlin h.1)]
    exact hnone
  · intro pre n post hnodes
    rw [hnodes] at hts hvalid
    exact targetsFrom_spec a.DestRoot pre n post ts hvalid hts

set_option maxRecDepth 1000000 in
/-- C11, amended, at the example, run into a working directory that holds the
directory `out`: the run returns no error and leaves the empty file
`out/demo/src/main.go`, whose path is the target the specification describes. -/
theorem Apply_fresh_witness :
    targetsFrom (normalArgs demoPlan).DestRoot [] demoPlan.Nodes =
      some [("out/demo/src".toList, true), ("out/demo/src/main.go".toList, false),
        ("out/demo/README.md".toList, false)] ∧
    specTarget "out/demo".toList (demoPlan.Nodes.take 1) ⟨"main.go".toList, false, 1⟩ =
      "out/demo/src/main.go".toList ∧
    (Apply plainSys (normalArgs demoPlan) outDisk).2.fs "out/demo/src".toList =
      some (.dir 0o755) ∧
    (Apply plainSys (normalArgs demoPlan) outDisk).2.fs "out/demo/README.md".toList =
      some (.file 0o644 []) ∧
    (Apply plainSys (normalArgs demoPlan) outDisk).1 = none ∧
    (Apply plainSys (normalArgs demoPlan) outDisk).2.fs (Clean (normalArgs demoPlan).DestRoot) =
      some (.dir (permBits (normalArgs demoPlan).DirPerm)) :=
  ⟨by decide, by decide, by decide, by decide,
    (Apply_fresh 0o022 (fun _ _ => false) (normalArgs demoPlan) outDisk
      [("out/demo/src".toList, true), ("out/demo/src/main.go".toList, false),
        ("out/demo/README.md".toList, false)] rfl (by decide) (by decide)
      (by unfold noClash; decide) wellFormed_outDisk (by decide) (by decide) (by decide)).1,
    (Apply_fresh 0o022 (fun _ _ => false) (normalArgs demoPlan) outDisk
      [("out/demo/src".toList, true), ("out/demo/src/main.go".toList, false),
        ("out/demo/README.md".toList, false)] rfl (by decide) (by decide)
      (by unfold noClash; decide) wellFormed_outDisk (by decide) (by decide)
      (by decide)).2.2.1⟩

set_option maxRecDepth 1000000 in
/-- C11, as it is written, fails twice. Run into a working directory without
`out`, where `DestRoot` `out/demo` does not exist, the example is materialised,
and the directory `out`, which is neither a prior entry nor `DestRoot` nor a
target, exists afterwards. Run into a working directory in which `out` is a
regular file, where `out/demo` does not exist either, `Apply` fails. -/
theorem Apply_fresh_creates_ancestors :
    cwdDisk "out/demo".toList = none ∧
    (Apply plainSys (normalArgs demoPlan) cwdDisk).1 = none ∧
    cwdDisk "out".toList = none ∧
    (Apply plainSys (normalArgs demoPlan) cwdDisk).2.fs "out".toList = some (.dir 0o755) ∧
    outFileDisk "out/demo".toList = none ∧
    (Apply plainSys (normalArgs demoPlan) outFileDisk).1 = some (.mkdir "out/demo".toList) := by
  decide

/-! ## A second run after a fresh one -/

/-- The targets of a plan, cut at one of its nodes: those of the nodes before
it, then the target of the node, which `SafeJoin` returns for the stack the
nodes before it leave, then those of the nodes after it. -/
theorem targetsFrom_at (root : Str) (pre : List Node) (n : Node) (post : List Node)
    (stack : List Str) (ts : List (Str × Bool))
    (hts : targetsFrom root stack (pre ++ n :: post) = some ts) :
    ∃ ts1 t ts2, targetsFrom root stack pre = some ts1 ∧ ts = ts1 ++ (t, n.Dir) :: ts2 ∧
      ¬ n.Depth > (stackAfter stack pre).length ∧
      SafeJoin root
        ((if n.Depth < (stackAfter stack pre).length then (stackAfter stack pre).take n.Depth
          else stackAfter stack pre) ++ [n.Name]) = .ok t := by
  induction pre generalizing stack ts with
  | nil =>
    rw [List.nil_append] at hts
    by_cases hdeep : n.Depth > stack.length
    · rw [targetsFrom_deep _ _ _ _ hdeep] at hts
      cases hts
    · cases hj : SafeJoin root
          ((if n.Depth < stack.length then stack.take n.Depth else stack) ++ [n.Name]) with
      | error e =>
        rw [targetsFrom_error _ _ _ _ e hj] at hts
        cases hts
      | ok target =>
        rw [targetsFrom_ok _ _ _ _ target hdeep hj] at hts
        simp only [Option.map_eq_some'] at hts
        obtain ⟨ts2, _, rfl⟩ := hts
        exact ⟨[], target, ts2, rfl, rfl, hdeep, hj⟩
  | cons m more ih =>
    rw [List.cons_append] at hts
    by_cases hdeep : m.Depth > stack.length
    · rw [targetsFrom_deep _ _ _ _ hdeep] at hts
      cases hts
    · cases hj : SafeJoin root
          ((if m.Depth < stack.length then stack.take m.Depth else stack) ++ [m.Name]) with
      | error e =>
        rw [targetsFrom_error _ _ _ _ e hj] at hts
        cases hts
      | ok target =>
        rw [targetsFrom_ok _ _ _ _ target hdeep hj] at hts
        simp only [Option.map_eq_some'] at hts
        obtain ⟨tsr, htsr, rfl⟩ := hts
        obtain ⟨ts1, t, ts2, h1, h2, h3, h4⟩ := ih _ _ htsr
        refine ⟨(target, m.Dir) :: ts1, t, ts2, ?_, ?_, ?_, ?_⟩
        · rw [targetsFrom_ok _ _ _ _ target hdeep hj, h1]
          rfl
        · rw [h2]
          rfl
        · rw [stackAfter_cons]
          exact h3
        · rw [stackAfter_cons]
          exact h4

/-- C13, amended: in the file system, for a plan with valid names whose nodes all
have targets (the plan passes the nesting check), in which no file node shares
its target with another node and whose first file node stands after directory
nodes only, `Apply`, not in a dry run and without overwrite, into a tree in
which nothing stands at `DestRoot`, `DestRoot` is not empty and leads through no
regular file, returns no error and leaves a directory at the target of every
directory node and an empty regular file at the target of every file node; and
a second run with the same arguments from the state it left fails with the
error that the file exists at the target of the first file node, and leaves
that state. -/
theorem Apply_twice (u : FileMode) (g : Str → Str → Bool) (a : ApplyArgs) (d : Disk)
    (ts : List (Str × Bool)) (pre : List Node) (f : Node) (post : List Node)
    (hdry : a.DryRun = false) (hforce : a.Force = false)
    (hvalid : ∀ n ∈ a.Plan.Nodes, ValidateName n.Name = .ok ())
    (hts : targetsFrom a.DestRoot [] a.Plan.Nodes = some ts) (hclash : noClash ts)
    (hwf : wellFormed d) (hne : a.DestRoot ≠ []) (habsent : d (Clean a.DestRoot) = none)
    (hunder : underFile d a.DestRoot = false)
    (hnodes : a.Plan.Nodes = pre ++ f :: post) (hpre : ∀ n ∈ pre, n.Dir = true)
    (hf : f.Dir = false) :
    (Apply (diskSys u g) a d).1 = none ∧
    (∀ x ∈ ts, (Apply (diskSys u g) a d).2.fs x.1 =
      some (if x.2 then .dir (permBits a.DirPerm)
        else .file (permBits (chooseFileMode (diskSys u g) a x.1)) [])) ∧
    (Apply (diskSys u g) a (Apply (diskSys u g) a d).2.fs).1 =
      some (.fileExists (specTarget a.DestRoot pre f)) ∧
    (Apply (diskSys u g) a (Apply (diskSys u g) a d).2.fs).2.fs =
      (Apply (diskSys u g) a d).2.fs := by
  obtain ⟨rfin, hrun, _, _, _, hpar⟩ :=
    Apply_fresh_state u g a d ts hdry hvalid hts hclash hwf hne habsent hunder
  obtain ⟨h1, h2, h3, h4, h5, _, h7⟩ :=
    Apply_fresh u g a d ts hdry hvalid hts hclash hwf hne habsent hunder
  rw [hrun] at h1 h2 h3 h4 h5 ⊢
  simp only at h1 h2 h3 h4 h5 ⊢
  refine ⟨trivial, h5, ?_⟩
  -- the root is in place
  have hlin : ∀ q ∈ lineage a.DestRoot, (rfin.fs q).any Inode.isDir = true := by
    intro q hq
    cases hent : d q with
    | some e =>
      cases e with
      | dir m =>
        rw [h2 q _ hent]
        rfl
      | file m c => exact absurd hent ((underFile_false_iff _ _).1 hunder q hq m c)
    | none =>
      by_cases hqr : q = Clean a.DestRoot
      · rw [hqr, h3]
        rfl
      · rw [h4 q hq hqr hent]
        rfl
  have hroot := applyRoot_disk_settled u g a hdry { fs := rfin.fs, out := [] } hne h3 hlin
  rw [Apply_of_root_ok _ _ _ _ hroot]
  obtain ⟨r1, hr1⟩ : ∃ r1, (if a.Verbose then
      out a ("Корень: ".toList ++ a.DestRoot) ({ fs := rfin.fs, out := [] } : Run Disk)
    else { fs := rfin.fs, out := [] }) = r1 := ⟨_, rfl⟩
  have hfs1 : r1.fs = rfin.fs := by
    rw [← hr1]
    exact rootLine_fs a _ _
  rw [hr1]
  -- the directories before the first file are in place
  have hts' := hts
  rw [hnodes] at hts'
  obtain ⟨ts1, t, ts2, hts1, hsplit, hnd, hj⟩ := targetsFrom_at _ _ _ _ _ _ hts'
  have hflags := targetsFrom_flags _ _ _ _ hts1
  have hlen1 : ts1.length = pre.length := by
    have := congrArg List.length hflags
    simpa using this
  have hdirs1 : ∀ x ∈ ts1, x.2 = true := by
    intro x hx
    have hm : x.2 ∈ ts1.map Prod.snd := List.mem_map_of_mem _ hx
    rw [hflags] at hm
    obtain ⟨n, hn, hnd2⟩ := List.mem_map.1 hm
    rw [← hnd2]
    exact hpre n hn
  have hall : ∀ x ∈ ts1, r1.fs x.1 = some (.dir (permBits a.DirPerm)) := by
    intro x hx
    have := h5 x (by rw [hsplit]; exact List.mem_append_left _ hx)
    rw [hdirs1 x hx] at this
    rw [hfs1]
    simpa using this
  obtain ⟨r2, hrun2, hfs2⟩ := applyNodes_dirs_settled u g a hdry pre hpre [] ts1 hts1 r1 hall
  have happ := applyNodes_append (diskSys u g) a pre (f :: post) [] r1 (by rw [hrun2])
  rw [hrun2] at happ
  simp only at happ
  rw [hnodes, happ, applyNodes_cons, if_neg hnd, hj]
  simp only [hf, Bool.false_eq_true, if_false]
  -- the first file stands where the second run wants to create it
  have hmem : (t, false) ∈ ts := by
    rw [hsplit, hf]
    exact List.mem_append_right _ (List.mem_cons_self _ _)
  have hfile := h5 _ hmem
  simp only [Bool.false_eq_true, if_false] at hfile
  have hparent := hpar _ hmem rfl
  simp only at hparent
  obtain ⟨hclean, htne⟩ := SafeJoin_clean _ _ _ hj
  obtain ⟨r3, hrun3, hfs3⟩ := ensureDir_disk_settled u g a (Dir t) r2 hdry (Dir_clean t)
    (Dir_ne_nil t) (by rw [hfs2, hfs1]; exact hparent)
  rw [(ensureFile_disk_file u g a t r2 r3 _ _ hrun3 htne
    (by rw [hfs3, hfs2, hfs1, hclean]; exact hfile) hdry).1 hforce]
  simp only
  -- the target is the one the specification describes
  have hspec := h7 pre f post hnodes
  rw [hsplit, List.getElem?_append_right (by omega), hlen1] at hspec
  simp only [Nat.sub_self, List.getElem?_cons_zero, Option.some.injEq, Prod.mk.injEq,
    and_true] at hspec
  rw [hspec]
  exact ⟨rfl, by rw [hfs3, hfs2, hfs1]⟩

set_option maxRecDepth 1000000 in
/-- C13, amended, at the example, run twice into a working directory that holds
the directory `out`: the second run fails at `main.go`, the first file, and
leaves the state of the first run. -/
theorem Apply_twice_witness :
    specTarget (normalArgs demoPlan).DestRoot [⟨"src".toList, true, 0⟩]
      ⟨"main.go".toList, false, 1⟩ = "out/demo/src/main.go".toList ∧
    (Apply plainSys (normalArgs demoPlan) outDisk).1 = none ∧
    (Apply plainSys (normalArgs demoPlan) (Apply plainSys (normalArgs demoPlan) outDisk).2.fs).1 =
      some (.fileExists (specTarget (normalArgs demoPlan).DestRoot [⟨"src".toList, true, 0⟩]
        ⟨"main.go".toList, false, 1⟩)) ∧
    (Apply plainSys (normalArgs demoPlan)
      (Apply plainSys (normalArgs demoPlan) outDisk).2.fs).2.fs =
      (Apply plainSys (normalArgs demoPlan) outDisk).2.fs :=
  ⟨by decide, by decide,
    (Apply_twice 0o022 (fun _ _ => false) (normalArgs demoPlan) outDisk
      [("out/demo/src".toList, true), ("out/demo/src/main.go".toList, false),
        ("out/demo/README.md".toList, false)]
      [⟨"src".toList, true, 0⟩] ⟨"main.go".toList, false, 1⟩ [⟨"README.md".toList, false, 0⟩]
      rfl rfl (by decide) (by decide) (by unfold noClash; decide) wellFormed_outDisk
      (by decide) (by decide) (by decide) rfl (by decide) rfl).2.2⟩

set_option maxRecDepth 1000000 in
/-- C13, as it is written, fails: a plan with the file `a` twice has two file
nodes, and the first run into a working directory that holds only the directory
`out` does not succeed; it fails at the second node with the error that the
file exists. -/
theorem Apply_twice_same_file_fails :
    outDisk "out/demo".toList = none ∧
    (twicePlan.Nodes.filter (fun n => !n.Dir)).length = 2 ∧
    (Apply plainSys (normalArgs twicePlan) outDisk).1 =
      some (.fileExists "out/demo/a".toList) := by
  decide

end Structgen
